import Mathlib

/-!
# A verification development for the spreadsheet engine

The sheet engine of the repository (addresses, the type registry, the formula
parser and evaluator, cells, the sheet with its dependency index and change
dispatch, serialisation) is embedded as Lean functions, one per C++ function,
under the C++ names.

Conventions of the embedding:

* `std::string` is a list of characters (`Str`).
* A C++ call either returns, throws, or does not return; `Res` has the three
  outcomes. Loops and recursions of the source whose termination is not
  structural carry a fuel argument and answer `Res.diverge` when it runs out.
* An `istream` is the value `IStream`: the characters not yet extracted, the
  characters already extracted, the `skipws` flag and the state bits.
* A `shared_ptr` to a cell is a `CellPtr`: the identity of the object (`ptr`)
  and the object; pointer comparison is comparison of `ptr`.
* `unordered_map` is an association list read through `find`; `unordered_set`
  of pointers is a list without repeated `ptr`. The iteration order of the
  model is the insertion order.
* `double` arithmetic, `stod`, `to_string(double)` and the libm functions are
  parameters of the development (`Host`).
* `int` is `Int`, wrapped to 32 bits after each arithmetic operation.
-/

namespace Spreadsheet

/-- The type `std::string`. -/
abbrev Str := List Char

/-- What a C++ call can end with other than a value. The first five are the
exception classes of the repository, `StdOutOfRange` is `std::out_of_range`
(thrown by `stoul`), and `ArithmeticFault` is the host's integer division
fault, which ends the process. -/
inductive Exception where
  | InvalidArgumentException
  | InvalidInputException
  | IncorrectFormulaSyntaxException
  | InvalidTypeException
  | DependencyLoopException
  | StdOutOfRange
  | ArithmeticFault
  deriving DecidableEq, Repr

/-- Outcome of a call: a value, a thrown exception, or no return (the fuel of
the model ran out). -/
inductive Res (α : Type) where
  | ok (a : α)
  | error (e : Exception)
  | diverge
  deriving DecidableEq, Repr

namespace Res

/-- Sequencing of calls: the first exception or divergence ends the sequence. -/
def bind {α β : Type} (r : Res α) (f : α → Res β) : Res β :=
  match r with
  | ok a => f a
  | error e => error e
  | diverge => diverge

instance : Monad Res where
  pure := Res.ok
  bind := Res.bind

/-- A `catch` of one exception class that rethrows another. -/
def rethrow {α : Type} (r : Res α) (caught thrown : Exception) : Res α :=
  match r with
  | error e => if e = caught then error thrown else error e
  | r => r

/-- `catch (...)` that throws `thrown` instead. -/
def catchAll {α : Type} (r : Res α) (thrown : Exception) : Res α :=
  match r with
  | error _ => error thrown
  | r => r

/-- The call returned. -/
def isOk {α : Type} : Res α → Bool
  | ok _ => true
  | _ => false

end Res

/-! ## Characters -/

/-- The `isspace` of the C locale, which is also `\s` of the regexes used. -/
def isspace (c : Char) : Bool :=
  c = ' ' || c = '\t' || c = '\n' || c = Char.ofNat 11 || c = Char.ofNat 12 || c = '\r'

/-- The class `[0-9]`. -/
def isDigit (c : Char) : Bool := '0' ≤ c && c ≤ '9'

/-- The class `[a-zA-Z]`. -/
def isLetter (c : Char) : Bool := ('a' ≤ c && c ≤ 'z') || ('A' ≤ c && c ≤ 'Z')

/-- The `tolower` of the C locale. -/
def tolower (c : Char) : Char :=
  if 'A' ≤ c && c ≤ 'Z' then Char.ofNat (c.toNat + 32) else c

/-- Value of a run of decimal digits, most significant first. -/
def digitsValue (ds : List Char) : Nat :=
  ds.foldl (fun n d => 10 * n + (d.toNat - '0'.toNat)) 0

/-- The decimal digits of `n`, with `fuel` bounding their number. -/
def natDigits : Nat → Nat → List Char
  | 0, _ => []
  | fuel + 1, n =>
    (if n < 10 then [] else natDigits fuel (n / 10)) ++ [Char.ofNat ('0'.toNat + n % 10)]

/-- `std::to_string(unsigned)`. -/
def natToString (n : Nat) : Str := natDigits (n + 1) n

/-- `std::to_string(int)`. -/
def intToString (i : Int) : Str :=
  if i < 0 then '-' :: natToString i.natAbs else natToString i.natAbs

/-- `INT_MAX`. -/
def INT_MAX : Int := 2147483647

/-- `INT_MIN`. -/
def INT_MIN : Int := -2147483648

/-- `ULONG_MAX` of the LP64 host. -/
def ULONG_MAX : Nat := 18446744073709551615

/-- Two's complement wrapping of an arithmetic result to `int`. -/
def wrapInt (i : Int) : Int := (i + 2147483648) % 4294967296 - 2147483648

/-- `std::stoi`: optional white space, an optional sign, then decimal digits;
what follows the digits is ignored. `none` when it throws (no digit, or a value
outside `int`). -/
def stoi (s : Str) : Option Int :=
  let s1 := s.dropWhile isspace
  let (neg, s2) :=
    match s1 with
    | '-' :: r => (true, r)
    | '+' :: r => (false, r)
    | r => (false, r)
  let ds := s2.takeWhile isDigit
  if ds.isEmpty then none
  else
    let v : Int := if neg then -(digitsValue ds : Int) else (digitsValue ds : Int)
    if INT_MIN ≤ v ∧ v ≤ INT_MAX then some v else none

/-- `std::stoul` on a string that starts with a digit, as `Address` calls it:
`std::out_of_range` above `ULONG_MAX`. Without a leading digit the call is
`std::invalid_argument`, which the callers exclude. -/
def stoul (s : Str) : Res Nat :=
  let v := digitsValue ((s.dropWhile isspace).takeWhile isDigit)
  if v ≤ ULONG_MAX then .ok v else .error .StdOutOfRange

/-! ## Address -/

/-- The struct `Address`: column and row, both starting at 1. -/
structure Address where
  m_Col : Int
  m_Row : Int
  deriving DecidableEq, Repr

namespace Address

/-- `Address::MAX_COL`. -/
def MAX_COL : Int := INT_MAX

/-- `Address::MAX_ROW`. -/
def MAX_ROW : Int := INT_MAX

/-- `Address::Address(int col, int row)`. -/
def make (col row : Int) : Res Address :=
  if col ≤ 0 ∨ row ≤ 0 then .error .InvalidArgumentException else .ok ⟨col, row⟩

/-- The loop of `Address::Address(const string &)` over the letters, from the
last letter to the first: `letters` are the characters still to visit (in
visiting order), `k` the exponent of 26 and `col` the value of `m_Col`. -/
def colLoop : List Char → Nat → Int → Res Int
  | [], _, col => .ok col
  | ch :: rest, k, col =>
    let c := tolower ch
    if c < 'a' ∨ c > 'z' then .error .InvalidArgumentException
    else
      let addition : Int := ((c.toNat - 'a'.toNat + 1 : Nat) : Int) * (26 : Int) ^ k
      if col + addition > MAX_COL then .error .InvalidArgumentException
      else colLoop rest (k + 1) (col + addition)

/-- `Address::Address(const string &)`. -/
def ofString (addr : Str) : Res Address :=
  let letters := addr.takeWhile (fun c => !isDigit c)
  let rest := addr.dropWhile (fun c => !isDigit c)
  -- rowDigits_pos < 1 || rowDigits_pos == npos
  if letters.isEmpty ∨ rest.isEmpty then .error .InvalidArgumentException
  else do
    let col ← colLoop letters.reverse 0 0
    let desiredRow ← stoul rest
    if (desiredRow : Int) < 1 ∨ (desiredRow : Int) > MAX_ROW then
      .error .InvalidArgumentException
    else .ok ⟨col, (desiredRow : Int)⟩

/-- `Address::col`. -/
def col (a : Address) : Int := a.m_Col

/-- `Address::row`. -/
def row (a : Address) : Int := a.m_Row

/-- The static `Address::colName(int col)`, for a column index starting at 0;
the recursion of the source is on `col / 26 - 1`, here bounded by `fuel`. -/
def colNameAux : Nat → Nat → Str
  | 0, _ => []
  | fuel + 1, col =>
    if col < 26 then [Char.ofNat ('A'.toNat + col)]
    else colNameAux fuel (col / 26 - 1) ++ [Char.ofNat ('A'.toNat + col % 26)]

/-- `Address::colName()`. -/
def colName (a : Address) : Str :=
  colNameAux (a.col - 1).toNat.succ (a.col - 1).toNat

/-- `Address::operator string`. -/
def toString (a : Address) : Str := a.colName ++ intToString a.row

/-- `Address::operator<`. -/
def lt (a rhs : Address) : Bool :=
  if a.m_Col < rhs.m_Col then true
  else if rhs.m_Col < a.m_Col then false
  else a.m_Row < rhs.m_Row

/-- `Address::operator-`. -/
def sub (a rhs : Address) : Res Address :=
  make (a.m_Col - rhs.m_Col + 1) (a.m_Row - rhs.m_Row + 1)

/-- `Address::serialize`: what it writes to the stream. -/
def serialize (a : Address) : Str := ['"'] ++ a.toString ++ ['"']

end Address

/-! ## Input streams -/

/-- An `istream` over a string: `buf` holds the characters not yet extracted,
`consumed` the extracted ones (last first), then the `skipws` flag and the
`eofbit` and `failbit` of the stream state. -/
structure IStream where
  buf : List Char
  consumed : List Char := []
  skipws : Bool := true
  eofbit : Bool := false
  failbit : Bool := false
  deriving DecidableEq, Repr

namespace IStream

/-- `istringstream(s)`. -/
def ofStr (s : Str) : IStream := { buf := s }

/-- `is.eof()`. -/
def eof (is : IStream) : Bool := is.eofbit

/-- `is >> skipws`. -/
def setSkipws (is : IStream) : IStream := { is with skipws := true }

/-- `is >> noskipws`. -/
def setNoskipws (is : IStream) : IStream := { is with skipws := false }

/-- Extraction of the leading white space (the sentry of a formatted input
with `skipws` set). -/
def dropWs : List Char → List Char → List Char × List Char
  | [], consumed => ([], consumed)
  | c :: rest, consumed => if isspace c then dropWs rest (c :: consumed) else (c :: rest, consumed)

/-- `is >> c` for a `char c`: the new stream and the new value of `c`, which
keeps its old value when the extraction fails. -/
def get (is : IStream) (c : Char) : IStream × Char :=
  if is.eofbit || is.failbit then ({ is with failbit := true }, c)
  else
    let (buf, consumed) := if is.skipws then dropWs is.buf is.consumed else (is.buf, is.consumed)
    match buf with
    | [] => ({ is with buf := [], consumed := consumed, eofbit := true, failbit := true }, c)
    | x :: rest => ({ is with buf := rest, consumed := x :: consumed }, x)

/-- `getline(is, s, delim)`: the new stream and the new value of `s`. -/
def getline (is : IStream) (s : Str) (delim : Char) : IStream × Str :=
  if is.eofbit || is.failbit then ({ is with failbit := true }, s)
  else
    let line := is.buf.takeWhile (fun c => c != delim)
    match is.buf.dropWhile (fun c => c != delim) with
    | [] =>
      ({ is with buf := [], consumed := line.reverse ++ is.consumed, eofbit := true,
                 failbit := line.isEmpty }, line)
    | d :: rest => ({ is with buf := rest, consumed := d :: (line.reverse ++ is.consumed) }, line)

/-- `is.seekg(-1, is.cur)`: clears `eofbit`; with `failbit` set nothing else
happens; otherwise the last extracted character is put back. -/
def seekgBack (is : IStream) : IStream :=
  let is1 := { is with eofbit := false }
  if is1.failbit then is1
  else
    match is1.consumed with
    | [] => { is1 with failbit := true }
    | c :: rest => { is1 with buf := c :: is1.buf, consumed := rest }

end IStream

/-- The value of a `char` variable that was declared without an initialiser
and never assigned. -/
def uninitialisedChar : Char := Char.ofNat 0

/-! ## Utils -/

namespace Utils

/-- `Utils::toLower`. -/
def toLower (str : Str) : Str := str.map tolower

/-- `Utils::escapeString`. -/
def escapeString : Str → Str
  | [] => []
  | c :: rest =>
    if c = '"' then '\\' :: '"' :: escapeString rest
    else if c = '\\' then '\\' :: '\\' :: escapeString rest
    else c :: escapeString rest

/-- `Utils::unescapeString`: the loop over the characters of `str`, read
without skipping white space. -/
def unescapeString : Str → Res Str
  | [] => .ok []
  | c :: rest =>
    if c = '\\' then
      match rest with
      | [] => .error .InvalidInputException
      | c' :: rest' => (unescapeString rest').bind (fun r => .ok (c' :: r))
    else (unescapeString rest).bind (fun r => .ok (c :: r))

/-- The `while` loop of `Utils::readString`: `c` is the local character, `oss`
what was written to the output so far. -/
def readStringLoop : Nat → IStream → Char → Str → Res (Str × IStream)
  | 0, _, _, _ => .diverge
  | fuel + 1, is, c, oss =>
    if is.eof then .error .InvalidInputException
    else
      let (is1, c1) := is.get c
      if c1 = '\\' then
        let (is2, c2) := is1.get c1
        readStringLoop fuel is2 c2 (oss ++ [c1] ++ [c2])
      else if c1 = '"' then .ok (oss, is1)
      else readStringLoop fuel is1 c1 (oss ++ [c1])

/-- `Utils::readString`: the string read and the stream after the call. Each
turn of the loop extracts a character or sets `eofbit`, unless the stream
already failed without `eofbit`, where the loop of the source does not end. -/
def readString (is : IStream) : Res (Str × IStream) :=
  readStringLoop (is.buf.length + 2) is.setNoskipws uninitialisedChar []

/-- `Utils::assertInput`. -/
def assertInput (is : IStream) (input : Char) : Res IStream :=
  let (is1, c) := is.get uninitialisedChar
  if is1.eof || c != input then .error .InvalidInputException else .ok is1

end Utils

/-! ## Formulas, cells and the type registry -/

/-- The classes derived from `Formula::Function<T>`, as one tree type. The
`evaluating` flag of a `Link` is not a field: the evaluator carries the set of
links whose flag is set. -/
inductive Function (T : Type) where
  | Literal (m_Value : T)
  | Link (m_Addr : Address)
  | Add (m_Arg1 m_Arg2 : Function T)
  | Sub (m_Arg1 m_Arg2 : Function T)
  | Mul (m_Arg1 m_Arg2 : Function T)
  | Div (m_Arg1 m_Arg2 : Function T)
  | Abs (m_Arg : Function T)
  | Sin (m_Arg : Function T)
  | Cos (m_Arg : Function T)
  | Tan (m_Arg : Function T)
  deriving DecidableEq, Repr

/-- The class `Cell<T>` (with the fields of `CellBase` other than the sheet
reference). -/
structure Cell (T : Type) where
  m_Addr : Address
  m_Dependencies : List Address
  m_IsFormula : Bool
  m_Formula : Function T
  deriving DecidableEq, Repr

/-- The three template arguments the program instantiates. -/
inductive Ty where
  | int
  | double
  | string
  deriving DecidableEq, Repr

/-- A `CellBase` object with its dynamic type; `D` is the type `double`. -/
inductive CellBase (D : Type) where
  | int (c : Cell Int)
  | double (c : Cell D)
  | string (c : Cell Str)
  deriving DecidableEq, Repr

/-- A `shared_ptr<CellBase>`: the identity of the object and the object. -/
structure CellPtr (D : Type) where
  ptr : Nat
  obj : CellBase D
  deriving DecidableEq, Repr

/-- What the program takes from the host for `double` and from libm: `stod`
(`none` when it throws), `to_string(double)`, the arithmetic of `double`, and
for an `int` argument the value of `round(sin(x))`, `round(cos(x))` and
`round(tan(x))` converted to `int`. -/
structure Host (D : Type) where
  stod : Str → Option D
  dtoString : D → Str
  zero : D
  add : D → D → D
  sub : D → D → D
  mul : D → D → D
  div : D → D → D
  abs : D → D
  sin : D → D
  cos : D → D
  tan : D → D
  roundSin : Int → Int
  roundCos : Int → Int
  roundTan : Int → Int

/-- The specialisations of a type `T`: the members of `Type<T>`,
`Parser::isLiteral<T>`, the `evaluate` of each function class (`none` where
only the generic body exists, which throws `InvalidTypeException` without
evaluating the arguments), and the `dynamic_cast` to `Cell<T>` with the
conversion back to the base class. -/
structure TypeOps (D T : Type) where
  ty : Ty
  name : Str
  defaultValue : T
  toString : T → Bool → Str
  fromString : Str → Bool → Res T
  isLiteral : Str → Bool
  add : Option (T → T → Res T)
  sub : Option (T → T → Res T)
  mul : Option (T → T → Res T)
  div : Option (T → T → Res T)
  abs : Option (T → Res T)
  sin : Option (T → Res T)
  cos : Option (T → Res T)
  tan : Option (T → Res T)
  cast : CellBase D → Option (Cell T)
  upcast : Cell T → CellBase D

/-- The regex `^\s*$`. -/
def isBlank (s : Str) : Bool := s.all isspace

namespace Parser

/-- `Parser::isLink`: the regex `^[a-zA-Z]+[1-9][0-9]*$`. -/
def isLink (source : Str) : Bool :=
  let letters := source.takeWhile isLetter
  let rest := source.dropWhile isLetter
  !letters.isEmpty &&
    (match rest with
     | [] => false
     | d :: ds => isDigit d && d != '0' && ds.all isDigit)

/-- `Parser::isLiteral<int>`: the regex `^[0-9]+$`. -/
def isLiteralInt (source : Str) : Bool := !source.isEmpty && source.all isDigit

/-- `Parser::isLiteral<double>`: the regex `^[0-9]*\.[0-9]+$`, or an `int`
literal. -/
def isLiteralDouble (source : Str) : Bool :=
  (match source.dropWhile isDigit with
   | '.' :: frac => !frac.isEmpty && frac.all isDigit
   | _ => false) || isLiteralInt source

/-- The part `([^"\\]|\\.)*"$` of the regex for string literals; the dot of
the regex matches every character but the line terminators. -/
def isLiteralStringBody : Str → Bool
  | [] => false
  | ['"'] => true
  | c :: rest =>
    if c = '\\' then
      match rest with
      | [] => false
      | c' :: rest' => c' != '\n' && c' != '\r' && isLiteralStringBody rest'
    else if c = '"' then false
    else isLiteralStringBody rest

/-- `Parser::isLiteral<string>`: the regex `^"([^"\\]|\\.)*"$`. -/
def isLiteralString : Str → Bool
  | '"' :: rest => isLiteralStringBody rest
  | _ => false

end Parser

/-- `Type<int>::fromString`. -/
def intFromString (val : Str) : Res Int :=
  if isBlank val then .ok 0
  else
    match stoi val with
    | some v => .ok v
    | none => .error .InvalidTypeException

/-- `Type<double>::fromString`. -/
def doubleFromString {D : Type} (h : Host D) (val : Str) : Res D :=
  if isBlank val then .ok h.zero
  else
    match h.stod val with
    | some v => .ok v
    | none => .error .InvalidTypeException

/-- `Type<string>::toString`. -/
def stringToString (val : Str) (isLiteral : Bool) : Str :=
  if isLiteral then ['"'] ++ Utils.escapeString val ++ ['"'] else val

/-- `Type<string>::fromString`; an `InvalidInputException` of
`unescapeString` passes through. -/
def stringFromString (val : Str) (isLiteral : Bool) : Res Str :=
  if isLiteral then
    if val.length < 2 ∨ val.head? ≠ some '"' ∨ val.getLast? ≠ some '"' then
      .error .InvalidTypeException
    else Utils.unescapeString ((val.drop 1).take (val.length - 2))
  else .ok val

/-- `Div<int>::evaluate` on the values of its arguments: the host faults on a
zero divisor and on `INT_MIN / -1`; the quotient truncates toward zero. -/
def intDiv (a b : Int) : Res Int :=
  if b = 0 ∨ (a = INT_MIN ∧ b = -1) then .error .ArithmeticFault else .ok (Int.tdiv a b)

/-- The specialisations for `int`. -/
def intOps {D : Type} (h : Host D) : TypeOps D Int where
  ty := .int
  name := "int".toList
  defaultValue := 0
  toString := fun v _ => intToString v
  fromString := fun s _ => intFromString s
  isLiteral := Parser.isLiteralInt
  add := some (fun a b => .ok (wrapInt (a + b)))
  sub := some (fun a b => .ok (wrapInt (a - b)))
  mul := some (fun a b => .ok (wrapInt (a * b)))
  div := some intDiv
  abs := some (fun a => .ok (wrapInt (if a < 0 then -a else a)))
  sin := some (fun a => .ok (h.roundSin a))
  cos := some (fun a => .ok (h.roundCos a))
  tan := some (fun a => .ok (h.roundTan a))
  cast := fun c => match c with
    | .int c => some c
    | _ => none
  upcast := .int

/-- The specialisations for `double`. -/
def doubleOps {D : Type} (h : Host D) : TypeOps D D where
  ty := .double
  name := "double".toList
  defaultValue := h.zero
  toString := fun v _ => h.dtoString v
  fromString := fun s _ => doubleFromString h s
  isLiteral := Parser.isLiteralDouble
  add := some (fun a b => .ok (h.add a b))
  sub := some (fun a b => .ok (h.sub a b))
  mul := some (fun a b => .ok (h.mul a b))
  div := some (fun a b => .ok (h.div a b))
  abs := some (fun a => .ok (h.abs a))
  sin := some (fun a => .ok (h.sin a))
  cos := some (fun a => .ok (h.cos a))
  tan := some (fun a => .ok (h.tan a))
  cast := fun c => match c with
    | .double c => some c
    | _ => none
  upcast := .double

/-- The specialisations for `string`: of the function classes only `Add` has
one. -/
def stringOps (D : Type) : TypeOps D Str where
  ty := .string
  name := "string".toList
  defaultValue := []
  toString := stringToString
  fromString := stringFromString
  isLiteral := Parser.isLiteralString
  add := some (fun a b => .ok (a ++ b))
  sub := none
  mul := none
  div := none
  abs := none
  sin := none
  cos := none
  tan := none
  cast := fun c => match c with
    | .string c => some c
    | _ => none
  upcast := .string

/-! ## Parser -/

namespace Parser

/-- The lambda `pushCur` of `Parser::splitLogical`: the new values of `cur`
and `res`. -/
def pushCur (cur : Str) (res : List Str) : Str × List Str :=
  let cur1 :=
    if cur.length ≥ 2 ∧ cur.head? = some '(' ∧ cur.getLast? = some ')' then
      (cur.drop 1).take (cur.length - 2)
    else cur
  if cur1.length > 0 then ([], res ++ [cur1]) else (cur1, res)

/-- The `while` loop of `Parser::splitLogical`, on the local variables
`source_iss`, `c`, `cur`, `res` and `logicalLevel`. -/
def splitLoop (separators : Str) :
    Nat → IStream → Char → Str → List Str → Int → Res (List Str)
  | 0, _, _, _, _, _ => .diverge
  | fuel + 1, is, c, cur, res, logicalLevel =>
    if is.eof then .ok (pushCur cur res).2
    else if separators.contains c ∧ logicalLevel = 0 then
      let pushed := pushCur cur res
      let got := is.get c
      splitLoop separators fuel got.1 got.2 pushed.1 (pushed.2 ++ [[c]]) logicalLevel
    else if c = '"' then
      if !cur.isEmpty then .error .IncorrectFormulaSyntaxException
      else
        match (Utils.readString is).rethrow .InvalidInputException
            .IncorrectFormulaSyntaxException with
        | .ok (str, is1) =>
          let pushed := pushCur (['"'] ++ str ++ ['"']) res
          let got := is1.setNoskipws.get c
          splitLoop separators fuel got.1 got.2 pushed.1 pushed.2 logicalLevel
        | .error e => .error e
        | .diverge => .diverge
    else
      let level1 :=
        if c = '(' then logicalLevel + 1
        else if c = ')' then logicalLevel - 1
        else logicalLevel
      let got := is.get c
      splitLoop separators fuel got.1 got.2 (cur ++ [c]) res level1

/-- The default separators of `Parser::splitLogical`. -/
def defaultSeparators : Str := ",+-*/".toList

/-- `Parser::splitLogical`. Every turn of the loop extracts a character of
the source or ends the loop, which bounds the turns by the length. -/
def splitLogical (source : Str) (separators : Str := defaultSeparators) : Res (List Str) :=
  let got := (IStream.ofStr source).get uninitialisedChar
  splitLoop separators (source.length + 2) got.1 got.2 [] [] 0

/-- The end of `Parser::parse`: the `switch` over the operator. -/
def mkOperation {T : Type} (op : Char) (arg1 arg2 : Function T) : Res (Function T) :=
  if op = '+' then .ok (.Add arg1 arg2)
  else if op = '-' then .ok (.Sub arg1 arg2)
  else if op = '*' then .ok (.Mul arg1 arg2)
  else if op = '/' then .ok (.Div arg1 arg2)
  else .error .IncorrectFormulaSyntaxException

/-- The function class for an identifier in lower case, when the parser knows
the identifier. -/
def mkFunction {T : Type} (identifier : Str) : Option (Function T → Function T) :=
  if identifier = "abs".toList then some .Abs
  else if identifier = "sin".toList then some .Sin
  else if identifier = "cos".toList then some .Cos
  else if identifier = "tan".toList then some .Tan
  else none

/-- `Parser::parse<T>`: the function parsed and the dependency vector after
the call (the addresses of the links are appended to `dependencies`). -/
def parse {D T : Type} (ops : TypeOps D T) :
    Nat → List Str → List Address → Res (Function T × List Address)
  | 0, _, _ => .diverge
  | fuel + 1, sections, dependencies =>
    let operations : Res (Function T × List Address) :=
      if sections.length ≥ 3 ∧ (sections.getD (sections.length - 2) []).length = 1 then
        let op := (sections.getD (sections.length - 2) []).headD uninitialisedChar
        let leftSections := sections.take (sections.length - 2)
        (if leftSections.length > 1 then .ok leftSections
         else splitLogical (leftSections.headD [])).bind fun left =>
        (parse ops fuel left dependencies).bind fun arg1 =>
        (splitLogical (sections.getD (sections.length - 1) [])).bind fun right =>
        (parse ops fuel right arg1.2).bind fun arg2 =>
        (mkOperation op arg1.1 arg2.1).bind fun f => .ok (f, arg2.2)
      else .error .IncorrectFormulaSyntaxException
    match sections with
    | [section0] =>
      if ops.isLiteral section0 then
        (ops.fromString section0 true).bind fun v => .ok (.Literal v, dependencies)
      else if isLink section0 then
        (Address.ofString section0).bind fun addr => .ok (.Link addr, dependencies ++ [addr])
      else
        (splitLogical section0).bind fun newSections =>
        if sections ≠ newSections then parse ops fuel newSections dependencies
        else
          let parenthesesPos := (section0.takeWhile (fun c => c != '(')).length
          if parenthesesPos > 0 ∧ parenthesesPos ≠ section0.length ∧
              section0.getLast? = some ')' then
            let identifier := Utils.toLower (section0.take parenthesesPos)
            (splitLogical
              ((section0.drop (parenthesesPos + 1)).take
                (section0.length - (parenthesesPos + 1) - 1)) ",".toList).bind fun arguments =>
            match mkFunction identifier, arguments with
            | some f, [argument0] =>
              (splitLogical argument0).bind fun inner =>
              (parse ops fuel inner dependencies).bind fun arg => .ok (f arg.1, arg.2)
            | _, _ => operations
          else operations
    | _ => operations

/-- `Parser::parseSource<T>`. The recursion of `parse` goes to sections with
fewer characters, or from one section to several with as many, and the
sections of a source have at most one character more than the source (the
quote that `readString` supplies at the end of the input), so twice the
length of the source, and four, bounds its depth. -/
def parseSource {D T : Type} (ops : TypeOps D T) (source : Str) (dependencies : List Address) :
    Res (Function T × List Address) :=
  (splitLogical source).bind fun sections =>
    parse ops (2 * source.length + 4) sections dependencies

end Parser

namespace Function

/-- `Function<T>::toSource`. -/
def toSource {D T : Type} (ops : TypeOps D T) : Function T → Str
  | Literal v => ops.toString v true
  | Link addr => addr.toString
  | Add a b => toSource ops a ++ "+".toList ++ toSource ops b
  | Sub a b => toSource ops a ++ "-".toList ++ toSource ops b
  | Mul a b => toSource ops a ++ "*".toList ++ toSource ops b
  | Div a b => toSource ops a ++ "/".toList ++ toSource ops b
  | Abs a => "ABS(".toList ++ toSource ops a ++ ")".toList
  | Sin a => "SIN(".toList ++ toSource ops a ++ ")".toList
  | Cos a => "COS(".toList ++ toSource ops a ++ ")".toList
  | Tan a => "TAN(".toList ++ toSource ops a ++ ")".toList

/-- Evaluation of a binary function class: the generic body throws at once,
a specialisation evaluates the first argument, then the second (C++ leaves
the order of the two operands to the compiler; it matters only for which
exception leaves when both arguments throw). -/
def binary {T : Type} (op : Option (T → T → Res T)) (arg1 arg2 : Unit → Res T) : Res T :=
  match op with
  | none => .error .InvalidTypeException
  | some f => (arg1 ()).bind fun x => (arg2 ()).bind fun y => f x y

/-- Evaluation of a unary function class. -/
def unary {T : Type} (op : Option (T → Res T)) (arg : Unit → Res T) : Res T :=
  match op with
  | none => .error .InvalidTypeException
  | some f => (arg ()).bind f

/-- `Function<T>::evaluate` inside one cell: `link path addr` is
`Link<T>::evaluate` for the link node at position `path` of the tree. -/
def evaluate {D T : Type} (ops : TypeOps D T) (link : List Nat → Address → Res T) :
    List Nat → Function T → Res T
  | _, Literal v => .ok v
  | path, Link addr => link path addr
  | path, Add a b =>
    binary ops.add (fun _ => evaluate ops link (0 :: path) a) (fun _ => evaluate ops link (1 :: path) b)
  | path, Sub a b =>
    binary ops.sub (fun _ => evaluate ops link (0 :: path) a) (fun _ => evaluate ops link (1 :: path) b)
  | path, Mul a b =>
    binary ops.mul (fun _ => evaluate ops link (0 :: path) a) (fun _ => evaluate ops link (1 :: path) b)
  | path, Div a b =>
    binary ops.div (fun _ => evaluate ops link (0 :: path) a) (fun _ => evaluate ops link (1 :: path) b)
  | path, Abs a => unary ops.abs (fun _ => evaluate ops link (0 :: path) a)
  | path, Sin a => unary ops.sin (fun _ => evaluate ops link (0 :: path) a)
  | path, Cos a => unary ops.cos (fun _ => evaluate ops link (0 :: path) a)
  | path, Tan a => unary ops.tan (fun _ => evaluate ops link (0 :: path) a)

/-- Number of `Link` nodes of a tree. -/
def linkCount {T : Type} : Function T → Nat
  | Literal _ => 0
  | Link _ => 1
  | Add a b | Sub a b | Mul a b | Div a b => linkCount a + linkCount b
  | Abs a | Sin a | Cos a | Tan a => linkCount a

end Function

namespace Cell

/-- The constructor `Cell<T>::Cell(sheet, addr, content)`. -/
def create {D T : Type} (ops : TypeOps D T) (addr : Address) (content : Str) : Res (Cell T) :=
  if content.length > 0 ∧ content.head? = some '=' then
    (Parser.parseSource ops (content.drop 1) []).bind fun parsed =>
      .ok { m_Addr := addr, m_Dependencies := parsed.2, m_IsFormula := true,
            m_Formula := parsed.1 }
  else
    (ops.fromString content false).bind fun v =>
      .ok { m_Addr := addr, m_Dependencies := [], m_IsFormula := false,
            m_Formula := .Literal v }

/-- The constructor `Cell<T>::Cell(sheet, addr)`. -/
def createDefault {D T : Type} (ops : TypeOps D T) (addr : Address) : Cell T :=
  { m_Addr := addr, m_Dependencies := [], m_IsFormula := false,
    m_Formula := .Literal ops.defaultValue }

/-- `Cell<T>::getContentSource`. A cell that is not a formula holds a
`Literal`, which is what the `static_cast` of the source relies on. -/
def getContentSource {D T : Type} (ops : TypeOps D T) (c : Cell T) : Str :=
  if c.m_IsFormula then "=".toList ++ c.m_Formula.toSource ops
  else
    match c.m_Formula with
    | .Literal v => ops.toString v false
    | f => f.toSource ops

/-- `Cell<T>::serialize`: what it writes to the stream. -/
def serialize {D T : Type} (ops : TypeOps D T) (c : Cell T) : Str :=
  "\x7b".toList ++ "\"type\":\"".toList ++ Utils.escapeString ops.name ++ "\",".toList ++
    "\"addr\":".toList ++ c.m_Addr.serialize ++ ",".toList ++
    "\"content\":\"".toList ++ Utils.escapeString (getContentSource ops c) ++ "\"".toList ++
    "\x7d".toList

end Cell

/-! ## Hash maps and sets -/

namespace Map

/-- `unordered_map::find`: the value stored under a key. -/
def find {V : Type} : List (Address × V) → Address → Option V
  | [], _ => none
  | (k, v) :: rest, a => if k = a then some v else find rest a

/-- The assignment `m[a] = v`. -/
def set {V : Type} : List (Address × V) → Address → V → List (Address × V)
  | [], a, v => [(a, v)]
  | (k, w) :: rest, a, v => if k = a then (k, v) :: rest else (k, w) :: set rest a v

/-- `unordered_map::erase` of the entry with key `a`. -/
def erase {V : Type} : List (Address × V) → Address → List (Address × V)
  | [], _ => []
  | (k, v) :: rest, a => if k = a then erase rest a else (k, v) :: erase rest a

end Map

namespace PtrSet

/-- `unordered_set::find(cell) != end()`, by pointer comparison. -/
def contains {D : Type} (set : List (CellPtr D)) (cell : CellPtr D) : Bool :=
  set.any (fun c => c.ptr = cell.ptr)

/-- `unordered_set::insert(cell)`. -/
def insert {D : Type} (set : List (CellPtr D)) (cell : CellPtr D) : List (CellPtr D) :=
  if contains set cell then set else set ++ [cell]

/-- The `find` and `erase` of `Sheet::deleteDependencies`. -/
def erase {D : Type} (set : List (CellPtr D)) (cell : CellPtr D) : List (CellPtr D) :=
  set.filter (fun c => c.ptr ≠ cell.ptr)

end PtrSet

/-! ## Cells behind the base class -/

namespace CellBase

/-- `CellBase::getAddr`. -/
def getAddr {D : Type} : CellBase D → Address
  | .int c => c.m_Addr
  | .double c => c.m_Addr
  | .string c => c.m_Addr

/-- `CellBase::getDependencies`. -/
def getDependencies {D : Type} : CellBase D → List Address
  | .int c => c.m_Dependencies
  | .double c => c.m_Dependencies
  | .string c => c.m_Dependencies

/-- The template argument of the dynamic type `Cell<T>`. -/
def ty {D : Type} : CellBase D → Ty
  | .int _ => .int
  | .double _ => .double
  | .string _ => .string

/-- `Cell<T>::getType`. -/
def getType {D : Type} (h : Host D) : CellBase D → Str
  | .int _ => (intOps h).name
  | .double _ => (doubleOps h).name
  | .string _ => (stringOps D).name

/-- `Cell<T>::getContentSource` through the base class. -/
def getContentSource {D : Type} (h : Host D) : CellBase D → Str
  | .int c => c.getContentSource (intOps h)
  | .double c => c.getContentSource (doubleOps h)
  | .string c => c.getContentSource (stringOps D)

/-- The constructor `Cell<T>::Cell(sheet, addr, content)` for the template
argument `ty`. -/
def make {D : Type} (h : Host D) (ty : Ty) (addr : Address) (content : Str) : Res (CellBase D) :=
  match ty with
  | .int => (Cell.create (intOps h) addr content).bind fun c => .ok (.int c)
  | .double => (Cell.create (doubleOps h) addr content).bind fun c => .ok (.double c)
  | .string => (Cell.create (stringOps D) addr content).bind fun c => .ok (.string c)

/-- The constructor `Cell<T>::Cell(sheet, addr)` for the template argument
`ty`. -/
def makeDefault {D : Type} (h : Host D) (ty : Ty) (addr : Address) : CellBase D :=
  match ty with
  | .int => .int (Cell.createDefault (intOps h) addr)
  | .double => .double (Cell.createDefault (doubleOps h) addr)
  | .string => .string (Cell.createDefault (stringOps D) addr)

/-- `Cell<T>::create`: a new cell of the same type and address. -/
def create {D : Type} (h : Host D) (c : CellBase D) (content : Str) : Res (CellBase D) :=
  make h c.ty c.getAddr content

/-- `Cell<T>::serialize` through the base class. -/
def serialize {D : Type} (h : Host D) : CellBase D → Str
  | .int c => c.serialize (intOps h)
  | .double c => c.serialize (doubleOps h)
  | .string c => c.serialize (stringOps D)

/-- Number of `Link` nodes of the formula of the cell. -/
def linkCount {D : Type} : CellBase D → Nat
  | .int c => c.m_Formula.linkCount
  | .double c => c.m_Formula.linkCount
  | .string c => c.m_Formula.linkCount

end CellBase

/-! ## Sheet -/

/-- The class `Sheet`. `m_CellContentChanged` tells whether a callback is
installed; the callback itself is outside the engine, the model records the
cells it is called with. `nextPtr` is the identity the next allocated cell
gets. -/
structure Sheet (D : Type) where
  m_Cells : List (Address × CellPtr D) := []
  m_Dependencies : List (Address × List (CellPtr D)) := []
  m_CellContentChanged : Bool := false
  nextPtr : Nat := 0
  deriving DecidableEq

/-- What a mutating call leaves behind: the sheet when the call returns or
throws, the cells the callback was called with, in order, and how the call
ended. -/
structure Effect (D : Type) where
  sheet : Sheet D
  events : List (CellPtr D)
  result : Res Unit

namespace Sheet

/-- The set `m_Dependencies[addr]` as a reader sees it: empty without entry. -/
def dependents {D : Type} (s : Sheet D) (addr : Address) : List (CellPtr D) :=
  (Map.find s.m_Dependencies addr).getD []

/-- The body of the loop of `Sheet::createDependencies`:
`m_Dependencies[depAddr].insert(cell)`. -/
def insertDependency {D : Type} (cell : CellPtr D) (s : Sheet D) (depAddr : Address) : Sheet D :=
  { s with m_Dependencies :=
      Map.set s.m_Dependencies depAddr (PtrSet.insert (s.dependents depAddr) cell) }

/-- `Sheet::createDependencies`. -/
def createDependencies {D : Type} (s : Sheet D) (cell : CellPtr D) : Sheet D :=
  cell.obj.getDependencies.foldl (insertDependency cell) s

/-- The body of the loop of `Sheet::deleteDependencies`: the set
`m_Dependencies[depAddr]` without `cell`. -/
def eraseDependency {D : Type} (cell : CellPtr D) (s : Sheet D) (depAddr : Address) : Sheet D :=
  { s with m_Dependencies :=
      Map.set s.m_Dependencies depAddr (PtrSet.erase (s.dependents depAddr) cell) }

/-- `Sheet::deleteDependencies`. -/
def deleteDependencies {D : Type} (s : Sheet D) (cell : CellPtr D) : Sheet D :=
  cell.obj.getDependencies.foldl (eraseDependency cell) s

/-- The `for` loop of `Sheet::distributeContentChangedEvent`: the calls for
the dependents, one after the other. -/
def forDependents {D : Type} (call : CellPtr D → Res (List (CellPtr D))) :
    List (CellPtr D) → Res (List (CellPtr D))
  | [] => .ok []
  | dependent :: rest =>
    (call dependent).bind fun evs => (forDependents call rest).bind fun evs' => .ok (evs ++ evs')

/-- `Sheet::distributeContentChangedEvent` with its recursion depth bounded by
the fuel: the cells the callback is called with, in order. `processedCells`
holds the identities of the cells in the set. -/
def distribute {D : Type} (s : Sheet D) :
    Nat → CellPtr D → List Nat → Res (List (CellPtr D))
  | 0, _, _ => .diverge
  | fuel + 1, cell, processedCells =>
    if !s.m_CellContentChanged || processedCells.contains cell.ptr then .ok []
    else
      match Map.find s.m_Dependencies cell.obj.getAddr with
      | none => .ok [cell]
      | some dependentsOfCell =>
        (forDependents (fun dependent => distribute s fuel dependent (cell.ptr :: processedCells))
          dependentsOfCell).bind fun evs => .ok (cell :: evs)

/-- Number of pointers held by `m_Dependencies`. -/
def dependencyCount {D : Type} (s : Sheet D) : Nat :=
  (s.m_Dependencies.map (fun kv => kv.2.length)).sum

/-- `Sheet::distributeContentChangedEvent(cell)`. A call below the first has a
cell of `m_Dependencies` that no call above it has, so the number of pointers
in `m_Dependencies` bounds the depth. -/
def distributeContentChangedEvent {D : Type} (s : Sheet D) (cell : CellPtr D) :
    Res (List (CellPtr D)) :=
  distribute s (s.dependencyCount + 2) cell []

/-- `Sheet::attachCellContentChangedEvent`; `installed` tells whether the
function object given holds a target. -/
def attachCellContentChangedEvent {D : Type} (s : Sheet D) (installed : Bool) : Sheet D :=
  { s with m_CellContentChanged := installed }

/-- `Sheet::getCell`. The cell made for an absent address gets the identity
of a fresh object. -/
def getCell {D : Type} (s : Sheet D) (addr : Address) : CellPtr D :=
  match Map.find s.m_Cells addr with
  | none =>
    match Cell.create (stringOps D) addr [] with
    | .ok c => ⟨s.nextPtr, .string c⟩
    | _ => ⟨s.nextPtr, .string (Cell.createDefault (stringOps D) addr)⟩
  | some cell => cell

/-- The end of the two setters: the dispatch for `cell` on the sheet `s`. -/
def dispatch {D : Type} (s : Sheet D) (cell : CellPtr D) : Effect D :=
  match s.distributeContentChangedEvent cell with
  | .ok evs => ⟨s, evs, .ok ()⟩
  | .error e => ⟨s, [], .error e⟩
  | .diverge => ⟨s, [], .diverge⟩

/-- `Sheet::setCellContent`. -/
def setCellContent {D : Type} (h : Host D) (s : Sheet D) (addr : Address) (text : Str) :
    Effect D :=
  match Map.find s.m_Cells addr with
  | none =>
    if text.isEmpty then ⟨s, [], .ok ()⟩
    else
      match CellBase.make h .string addr text with
      | .ok obj =>
        let cell : CellPtr D := ⟨s.nextPtr, obj⟩
        let s1 := { s with m_Cells := Map.set s.m_Cells addr cell, nextPtr := s.nextPtr + 1 }
        dispatch (s1.createDependencies cell) cell
      | .error e => ⟨s, [], .error e⟩
      | .diverge => ⟨s, [], .diverge⟩
  | some old =>
    let s1 := s.deleteDependencies old
    match old.obj.create h text with
    | .ok obj =>
      let cell : CellPtr D := ⟨s1.nextPtr, obj⟩
      let s2 := { s1 with nextPtr := s1.nextPtr + 1 }
      if (cell.obj.getContentSource h).isEmpty ∧ cell.obj.ty = .string then
        dispatch { s2 with m_Cells := Map.erase s2.m_Cells addr } cell
      else
        dispatch ({ s2 with m_Cells := Map.set s2.m_Cells addr cell }.createDependencies cell) cell
    | .error e => ⟨s1, [], .error e⟩
    | .diverge => ⟨s1, [], .diverge⟩

/-- `Sheet::setCellType<T>`, with `ty` for the template argument. The new
cell is constructed before anything is changed; its identity is fixed when it
is stored. -/
def setCellType {D : Type} (h : Host D) (s : Sheet D) (ty : Ty) (addr : Address) : Effect D :=
  match Map.find s.m_Cells addr with
  | none =>
    if ty = .string then ⟨s, [], .ok ()⟩
    else
      let cell : CellPtr D := ⟨s.nextPtr, CellBase.makeDefault h ty addr⟩
      dispatch { s with m_Cells := Map.set s.m_Cells addr cell, nextPtr := s.nextPtr + 1 } cell
  | some old =>
    if ty = .string ∧ (old.obj.getContentSource h).isEmpty then
      let s1 := s.deleteDependencies old
      dispatch { s1 with m_Cells := Map.erase s1.m_Cells addr } old
    else
      match CellBase.make h ty addr (old.obj.getContentSource h) with
      | .ok obj =>
        let s1 := s.deleteDependencies old
        let cell : CellPtr D := ⟨s1.nextPtr, obj⟩
        let s2 := { s1 with nextPtr := s1.nextPtr + 1 }
        dispatch ({ s2 with m_Cells := Map.set s2.m_Cells addr cell }.createDependencies cell) cell
      | .error e => ⟨s, [], .error e⟩
      | .diverge => ⟨s, [], .diverge⟩

/-- `Cell<T>::getContent` for the cell object `ptr`, with the recursion through
`Link<T>::evaluate` bounded by the fuel. `evaluating` lists the links whose
`evaluating` flag is set, each as the cell object that holds it and its
position in the formula of that cell. -/
def getContent {D T : Type} (ops : TypeOps D T) (s : Sheet D) :
    Nat → List (Nat × List Nat) → Nat → Cell T → Res T
  | 0, _, _, _ => .diverge
  | fuel + 1, evaluating, ptr, cell =>
    cell.m_Formula.evaluate ops
      (fun path m_Addr =>
        if (ptr, path) ∈ evaluating then .error .DependencyLoopException
        else
          let linkedCellBase := s.getCell m_Addr
          match ops.cast linkedCellBase.obj with
          | none => .error .InvalidTypeException
          | some linkedCell =>
            getContent ops s fuel ((ptr, path) :: evaluating) linkedCellBase.ptr linkedCell)
      []

/-- Number of `Link` nodes in the cells of the sheet. -/
def linkCount {D : Type} (s : Sheet D) : Nat :=
  (s.m_Cells.map (fun kv => kv.2.obj.linkCount)).sum

/-- `Cell<T>::getContentText` through the base class, for a cell of the sheet
`s` or one returned by `getCell`. Every nested call sets the flag of one more
link, so the number of links bounds the depth. -/
def getContentText {D : Type} (h : Host D) (s : Sheet D) (cell : CellPtr D) : Res Str :=
  let fuel := s.linkCount + cell.obj.linkCount + 1
  match cell.obj with
  | .int c =>
    (getContent (intOps h) s fuel [] cell.ptr c).bind fun v => .ok ((intOps h).toString v false)
  | .double c =>
    (getContent (doubleOps h) s fuel [] cell.ptr c).bind fun v =>
      .ok ((doubleOps h).toString v false)
  | .string c =>
    (getContent (stringOps D) s fuel [] cell.ptr c).bind fun v =>
      .ok ((stringOps D).toString v false)

/-- `f->evaluate(sheet)` for a formula that no cell of the sheet owns, as the
tests call it: the flags of its links belong to an object of its own. -/
def evaluate {D T : Type} (ops : TypeOps D T) (s : Sheet D) (f : Function T) : Res T :=
  getContent ops s (s.linkCount + f.linkCount + 1) [] (s.nextPtr + 1)
    { m_Addr := ⟨1, 1⟩, m_Dependencies := [], m_IsFormula := true, m_Formula := f }

/-- The loop of `Sheet::serialize` over the cells. -/
def serializeCells {D : Type} (h : Host D) : List (Address × CellPtr D) → Str
  | [] => []
  | [kv] => kv.2.obj.serialize h
  | kv :: rest => kv.2.obj.serialize h ++ ",".toList ++ serializeCells h rest

/-- `Sheet::serialize`: what it writes to the stream. -/
def serialize {D : Type} (h : Host D) (s : Sheet D) : Str :=
  "[".toList ++ serializeCells h s.m_Cells ++ "]".toList

end Sheet

namespace Address

/-- `Address::deserialize`: the address and the stream after the call. -/
def deserialize (is : IStream) : Res (Address × IStream) :=
  (Utils.assertInput is.setSkipws '"').bind fun is1 =>
    let got := is1.setNoskipws.getline [] '"'
    if got.1.eof then .error .InvalidInputException
    else (Address.ofString got.2).bind fun a => .ok (a, got.1)

end Address

/-- The local variables of `CellBase::deserialize` that live across the turns
of its loop, with the stream. -/
structure DeserializeState where
  is : IStream
  s : Str := []
  type : Str := []
  content : Str := []
  addr : Address := ⟨1, 1⟩
  addrInitialized : Bool := false

namespace CellBase

/-- One turn of the `for` loop of `CellBase::deserialize`, for the index `i`. -/
def deserializeKey (st : DeserializeState) (i : Nat) : Res DeserializeState :=
  (Utils.assertInput st.is.setSkipws '"').bind fun is1 =>
    let got := is1.setNoskipws.getline st.s '"'
    (Utils.assertInput got.1.setSkipws ':').bind fun is2 =>
      let st1 : DeserializeState := { st with is := is2, s := got.2 }
      (if st1.s = "addr".toList then
        (Address.deserialize is2).bind fun r =>
          .ok { st1 with is := r.2, addr := r.1, addrInitialized := true }
      else
        (Utils.assertInput is2 '"').bind fun is3 =>
          let is4 := is3.setNoskipws
          if st1.s = "type".toList then
            let gotType := is4.getline st1.type '"'
            .ok { st1 with is := gotType.1, type := gotType.2 }
          else if st1.s = "content".toList then
            (Utils.readString is4).bind fun r =>
              (Utils.unescapeString r.1).bind fun content =>
                .ok { st1 with is := r.2, content := content }
          else .ok { st1 with is := is4 }).bind fun st2 =>
      if i < 2 then
        (Utils.assertInput st2.is.setSkipws ',').bind fun is5 => .ok { st2 with is := is5 }
      else .ok st2

/-- `CellBase::deserialize`: the cell object and the stream after the call. -/
def deserialize {D : Type} (h : Host D) (is : IStream) : Res (CellBase D × IStream) :=
  (Utils.assertInput is.setSkipws '{').bind fun is1 =>
  (deserializeKey { is := is1 } 0).bind fun st1 =>
  (deserializeKey st1 1).bind fun st2 =>
  (deserializeKey st2 2).bind fun st3 =>
  (Utils.assertInput st3.is '}').bind fun is2 =>
    if !st3.addrInitialized then .error .InvalidInputException
    else if st3.type = "int".toList then
      (make h .int st3.addr st3.content).bind fun c => .ok (c, is2)
    else if st3.type = "double".toList then
      (make h .double st3.addr st3.content).bind fun c => .ok (c, is2)
    else if st3.type = "string".toList then
      (make h .string st3.addr st3.content).bind fun c => .ok (c, is2)
    else .error .InvalidInputException

end CellBase

namespace Sheet

/-- The `do` loop of `Sheet::deserialize`, on the local variables `sheet`,
`is` and `c`. -/
def deserializeLoop {D : Type} (h : Host D) :
    Nat → Sheet D → IStream → Char → Res (Sheet D × IStream × Char)
  | 0, _, _, _ => .diverge
  | fuel + 1, sheet, is, c =>
    (CellBase.deserialize h is).bind fun r =>
      let cell : CellPtr D := ⟨sheet.nextPtr, r.1⟩
      let sheet1 :=
        ({ sheet with m_Cells := Map.set sheet.m_Cells cell.obj.getAddr cell,
                      nextPtr := sheet.nextPtr + 1 }).createDependencies cell
      let got := r.2.setSkipws.get c
      if got.2 = ',' then deserializeLoop h fuel sheet1 got.1 got.2
      else .ok (sheet1, got.1, got.2)

/-- `Sheet::deserialize`. Every turn of its loop extracts a character of the
stream or throws, which bounds the turns by the length of the input. -/
def deserialize {D : Type} (h : Host D) (is : IStream) : Res (Sheet D) :=
  (Utils.assertInput is.setSkipws '[').bind fun is1 =>
    let got := is1.get uninitialisedChar
    if got.2 = ']' then .ok {}
    else
      (deserializeLoop h (is.buf.length + 1) {} got.1.seekgBack got.2).bind fun r =>
        (Utils.assertInput r.2.1.seekgBack ']').bind fun _ => .ok r.1

end Sheet

/-! ## Sequences of calls -/

/-- A call of the public interface that changes the sheet. -/
inductive Op where
  | setCellContent (addr : Address) (text : Str)
  | setCellType (ty : Ty) (addr : Address)
  | attachCellContentChangedEvent (installed : Bool)
  deriving DecidableEq, Repr

namespace Sheet

/-- One call on the sheet `s`. -/
def apply {D : Type} (h : Host D) (s : Sheet D) : Op → Effect D
  | .setCellContent addr text => s.setCellContent h addr text
  | .setCellType ty addr => s.setCellType h ty addr
  | .attachCellContentChangedEvent installed =>
    ⟨s.attachCellContentChangedEvent installed, [], .ok ()⟩

/-- The sheet after a sequence of calls; a call that throws leaves the sheet
as it was when the exception left the call, and the caller goes on. -/
def run {D : Type} (h : Host D) (s : Sheet D) : List Op → Sheet D
  | [] => s
  | op :: rest => run h (s.apply h op).sheet rest

/-- Every call of the sequence returns. -/
def allReturn {D : Type} (h : Host D) (s : Sheet D) : List Op → Bool
  | [] => true
  | op :: rest => (s.apply h op).result.isOk && allReturn h (s.apply h op).sheet rest

/-- No call of the sequence runs out of fuel. -/
def noneDiverges {D : Type} (h : Host D) (s : Sheet D) : List Op → Bool
  | [] => true
  | op :: rest =>
    decide ((s.apply h op).result ≠ .diverge) && noneDiverges h (s.apply h op).sheet rest

/-- The sheet `Sheet()`. -/
def empty (D : Type) : Sheet D := {}

/-- The cell stored at `addr`, if any: `m_Cells.find(addr)`. -/
def stored {D : Type} (s : Sheet D) (addr : Address) : Option (CellPtr D) :=
  Map.find s.m_Cells addr

end Sheet

/-! ## A host for examples -/

/-- Values of the example host: the numbers that are a whole multiple of one
millionth, given by that multiple (`micro 1500000` is 1.5), as the `double`
values they stand for, and one value for every result the example host does
not compute. -/
inductive ExampleDouble where
  | micro (m : Int)
  | other
  deriving DecidableEq, Repr

namespace ExampleDouble

/-- Sum and difference. -/
def lift2 (f : Int → Int → Int) : ExampleDouble → ExampleDouble → ExampleDouble
  | micro a, micro b => micro (f a b)
  | _, _ => other

/-- Product, where it is a whole multiple of one millionth. -/
def mul : ExampleDouble → ExampleDouble → ExampleDouble
  | micro a, micro b => if (a * b) % 1000000 = 0 then micro (a * b / 1000000) else other
  | _, _ => other

/-- Quotient, where it is a whole multiple of one millionth. -/
def div : ExampleDouble → ExampleDouble → ExampleDouble
  | micro a, micro b =>
    if b ≠ 0 ∧ (a * 1000000) % b = 0 then micro (a * 1000000 / b) else other
  | _, _ => other

/-- Absolute value. -/
def abs : ExampleDouble → ExampleDouble
  | micro a => micro (if a < 0 then -a else a)
  | other => other

/-- Value of the digits after the decimal point, in millionths, when no digit
after the sixth is other than `0`. -/
def fraction (ds : List Char) : Option Nat :=
  if (ds.drop 6).all (fun c => c = '0') then
    some (digitsValue ((ds.take 6) ++ List.replicate (6 - (ds.take 6).length) '0'))
  else none

/-- `stod` on decimal texts: white space, a sign, digits, a point and digits;
what follows is ignored. `none` when it throws (no digit); `other` for the
texts with an exponent, the hexadecimal ones, `inf` and `nan`, and for more
than six digits after the point. -/
def stod (s : Str) : Option ExampleDouble :=
  let s1 := s.dropWhile isspace
  let (neg, s2) :=
    match s1 with
    | '-' :: r => (true, r)
    | '+' :: r => (false, r)
    | r => (false, r)
  let whole := s2.takeWhile isDigit
  let s3 := s2.dropWhile isDigit
  let (frac, s4) :=
    match s3 with
    | '.' :: r => (r.takeWhile isDigit, r.dropWhile isDigit)
    | r => ([], r)
  if whole.isEmpty ∧ frac.isEmpty then
    (if (Utils.toLower (s2.take 3) = "inf".toList ∨ Utils.toLower (s2.take 3) = "nan".toList)
      then some other else none)
  else if (s4.head? = some 'e' ∨ s4.head? = some 'E' ∨ s4.head? = some 'x' ∨ s4.head? = some 'X')
    then some other
  else
    match fraction frac with
    | none => some other
    | some f =>
      let m : Int := (digitsValue whole * 1000000 + f : Nat)
      some (micro (if neg then -m else m))

/-- `to_string(double)`: six digits after the point. -/
def toString : ExampleDouble → Str
  | micro m =>
    (if m < 0 then ['-'] else []) ++ natToString (m.natAbs / 1000000) ++ ['.'] ++
      (natToString (1000000 + m.natAbs % 1000000)).drop 1
  | other => "nan".toList

end ExampleDouble

/-- A small host, used to run the model on concrete sheets: its `double`
values are the whole multiples of one millionth, with exact arithmetic;
everything else is the single value `other`. The rounded sine, cosine and
tangent of an `int` are right at 0 only, and the examples apply them to
nothing else. -/
def exampleHost : Host ExampleDouble where
  stod := ExampleDouble.stod
  dtoString := ExampleDouble.toString
  zero := .micro 0
  add := ExampleDouble.lift2 (fun a b => a + b)
  sub := ExampleDouble.lift2 (fun a b => a - b)
  mul := ExampleDouble.mul
  div := ExampleDouble.div
  abs := ExampleDouble.abs
  sin := fun _ => .other
  cos := fun _ => .other
  tan := fun _ => .other
  roundSin := fun _ => 0
  roundCos := fun a => if a = 0 then 1 else 0
  roundTan := fun _ => 0

/-- Text of a string literal of the development, as a `std::string`. -/
abbrev str (s : String) : Str := s.toList

/-- The address written `text`, for valid texts (`A1` otherwise). -/
def addr (text : String) : Address :=
  match Address.ofString text.toList with
  | .ok a => a
  | _ => ⟨1, 1⟩

/-! ## Notions used to state the properties -/

namespace Sheet

/-- The cell is held by some set of `m_Dependencies`. -/
def InIndex {D : Type} (s : Sheet D) (c : CellPtr D) : Prop := ∃ A, c ∈ s.dependents A

/-- The direct and transitive dependents of the address `A` according to
`m_Dependencies`: the cells of the set of `A`, and the cells of the set of the
address of a dependent. -/
inductive Dependent {D : Type} (s : Sheet D) (A : Address) : CellPtr D → Prop where
  | direct {d : CellPtr D} : d ∈ s.dependents A → Dependent s A d
  | trans {c d : CellPtr D} : Dependent s A c → d ∈ s.dependents c.obj.getAddr → Dependent s A d

/-- A chain of dependents from `c` to `e` none of whose cells has its
identity in `P`. -/
inductive Reach {D : Type} (s : Sheet D) (P : List Nat) : CellPtr D → CellPtr D → Prop where
  | refl {c : CellPtr D} : c.ptr ∉ P → Reach s P c c
  | step {c d e : CellPtr D} :
      c.ptr ∉ P → d ∈ s.dependents c.obj.getAddr → Reach s P d e → Reach s P c e

/-- The identities of the pointers held by `m_Dependencies`. -/
def indexPtrs {D : Type} (s : Sheet D) : List Nat :=
  (s.m_Dependencies.map (fun kv => kv.2.map (fun c => c.ptr))).flatten

/-- Number of identities in `m_Dependencies` that are not in `P`. -/
def remaining {D : Type} (s : Sheet D) (P : List Nat) : Nat :=
  (s.indexPtrs.toFinset \ P.toFinset).card

/-- The representation invariant of a sheet: a cell is stored under its own
address, the stored objects are distinct and older than `nextPtr`, and every
pointer of `m_Dependencies[A]` is a stored cell that has `A` among its
dependencies. -/
structure Inv {D : Type} (s : Sheet D) : Prop where
  addr_eq : ∀ a c, s.stored a = some c → c.obj.getAddr = a
  ptr_lt : ∀ a c, s.stored a = some c → c.ptr < s.nextPtr
  ptr_inj : ∀ a b c d, s.stored a = some c → s.stored b = some d → c.ptr = d.ptr → a = b
  index_stored : ∀ A c, c ∈ s.dependents A → s.stored c.obj.getAddr = some c
  index_deps : ∀ A c, c ∈ s.dependents A → A ∈ c.obj.getDependencies

/-- Every stored cell is in the set of each of its dependencies. -/
def Complete {D : Type} (s : Sheet D) : Prop :=
  ∀ a c, s.stored a = some c → ∀ A ∈ c.obj.getDependencies, c ∈ s.dependents A

/-- The shapes of the effect of a setter at `addr` on the sheet `s`: nothing
changed (and if the call returned, it was the case `N` where the setter does
nothing); only the dependencies of the old cell were deleted (the call did not
return); the entry of `addr` was erased and the dispatch started at `root`;
the cell `obj`, which satisfies `Q`, was stored and the dispatch started at
it. -/
inductive Step {D : Type} (s : Sheet D) (addr : Address) (N : Prop) (Q : CellBase D → Prop) :
    Effect D → Prop where
  | same (r : Res Unit) (hr : r = .ok () → N) : Step s addr N Q ⟨s, [], r⟩
  | deleted (old : CellPtr D) (r : Res Unit) (hold : s.stored addr = some old)
      (hr : r ≠ .ok ()) : Step s addr N Q ⟨s.deleteDependencies old, [], r⟩
  | erased (old root : CellPtr D) (evs : List (CellPtr D)) (n : Nat)
      (hold : s.stored addr = some old)
      (hroot : root = old ∨ root.ptr = (s.deleteDependencies old).nextPtr)
      (haddr : root.obj.getAddr = old.obj.getAddr)
      (hn : (s.deleteDependencies old).nextPtr ≤ n)
      (hevs : distributeContentChangedEvent
        { s.deleteDependencies old with
          m_Cells := Map.erase (s.deleteDependencies old).m_Cells addr, nextPtr := n } root
          = .ok evs) :
      Step s addr N Q
        ⟨{ s.deleteDependencies old with
            m_Cells := Map.erase (s.deleteDependencies old).m_Cells addr, nextPtr := n },
          evs, .ok ()⟩
  | put (base : Sheet D) (obj : CellBase D) (evs : List (CellPtr D))
      (hbase : (s.stored addr = none ∧ base = s) ∨
        ∃ old, s.stored addr = some old ∧ base = s.deleteDependencies old)
      (hQ : Q obj)
      (haddr : obj.getAddr = addr ∨ ∃ old, s.stored addr = some old ∧ obj.getAddr = old.obj.getAddr)
      (hevs : distributeContentChangedEvent
        (createDependencies
          { base with m_Cells := Map.set base.m_Cells addr ⟨base.nextPtr, obj⟩,
                      nextPtr := base.nextPtr + 1 } ⟨base.nextPtr, obj⟩)
        ⟨base.nextPtr, obj⟩ = .ok evs) :
      Step s addr N Q
        ⟨createDependencies
          { base with m_Cells := Map.set base.m_Cells addr ⟨base.nextPtr, obj⟩,
                      nextPtr := base.nextPtr + 1 } ⟨base.nextPtr, obj⟩,
          evs, .ok ()⟩

/-- The cell is not a string cell with empty source text. -/
def NotEmptyString {D : Type} (h : Host D) (obj : CellBase D) : Prop :=
  ¬ (obj.ty = .string ∧ (obj.getContentSource h).isEmpty = true)

/-- The callback was called first with a cell of the address `addr`, which is
the cell stored at `addr` after the call if one is stored there, and was
called with every direct or transitive dependent of `addr`. -/
def Notified {D : Type} (e : Effect D) (addr : Address) : Prop :=
  ∃ root rest, e.events = root :: rest ∧ root.obj.getAddr = addr ∧
    (∀ c, e.sheet.stored addr = some c → c = root) ∧
    ∀ d, Dependent e.sheet addr d → d ∈ e.events

/-- No stored cell is a string cell with empty source text (invariant I1). -/
def NoEmptyString {D : Type} (h : Host D) (s : Sheet D) : Prop :=
  ∀ a c, s.stored a = some c → NotEmptyString h c.obj

end Sheet

/-! ## Example sheets -/

/-- A sheet with the string cell `A1` of source `=B1`. -/
def linkSheet : Sheet ExampleDouble :=
  (Sheet.empty ExampleDouble).run exampleHost [.setCellContent (addr "A1") (str "=B1")]

/-- A sheet with the string cell `A1` of source `abc`. -/
def textSheet : Sheet ExampleDouble :=
  (Sheet.empty ExampleDouble).run exampleHost [.setCellContent (addr "A1") (str "abc")]

/-- The calls that build a diamond with a callback installed: `B1` and `C1`
link to `A1`, and `D1` links to `B1` and `C1`. -/
def diamondOps : List Op :=
  [.attachCellContentChangedEvent true,
   .setCellContent (addr "A1") (str "a"),
   .setCellContent (addr "B1") (str "=A1"),
   .setCellContent (addr "C1") (str "=A1"),
   .setCellContent (addr "D1") (str "=B1+C1")]

/-- The calls of the propagation test: a callback and the chain of `int`
cells `C1` = 1, `C2` = `=C1+1`, `C3` = `=C2+1`, `C4` = `=C3+1`. -/
def chainOps : List Op :=
  [.attachCellContentChangedEvent true,
   .setCellType .int (addr "C1"), .setCellContent (addr "C1") (str "1"),
   .setCellType .int (addr "C2"), .setCellContent (addr "C2") (str "=C1+1"),
   .setCellType .int (addr "C3"), .setCellContent (addr "C3") (str "=C2+1"),
   .setCellType .int (addr "C4"), .setCellContent (addr "C4") (str "=C3+1")]

/-- A sheet with the `int` cell `A1` of source `=1-(2-3)`. -/
def nestedSheet : Sheet ExampleDouble :=
  (Sheet.empty ExampleDouble).run exampleHost
    [.setCellType .int (addr "A1"), .setCellContent (addr "A1") (str "=1-(2-3)")]

/-- The evaluated text of the cell at `a`: `getCell(a)->getContentText()`. -/
def Sheet.textAt {D : Type} (h : Host D) (s : Sheet D) (a : Address) : Res Str :=
  s.getContentText h (s.getCell a)

/-! ## Notions used to state the properties of the parser -/

namespace Function

/-- The addresses of the `Link` nodes of a tree, from left to right. -/
def links {T : Type} : Function T → List Address
  | Literal _ => []
  | Link a => [a]
  | Add a b => links a ++ links b
  | Sub a b => links a ++ links b
  | Mul a b => links a ++ links b
  | Div a b => links a ++ links b
  | Abs a => links a
  | Sin a => links a
  | Cos a => links a
  | Tan a => links a

end Function

/-- The four binary operators of the grammar. -/
inductive BinOp where
  | add
  | sub
  | mul
  | div
  deriving DecidableEq, Repr

namespace BinOp

/-- The character of the operator. -/
def char : BinOp → Char
  | add => '+'
  | sub => '-'
  | mul => '*'
  | div => '/'

/-- The node `Binary(op, a, b)`. -/
def node {T : Type} : BinOp → Function T → Function T → Function T
  | add => .Add
  | sub => .Sub
  | mul => .Mul
  | div => .Div

/-- The operator on two values, as the function class of the operator
evaluates it once both arguments have a value. -/
def apply {D T : Type} (ops : TypeOps D T) (op : BinOp) (a b : T) : Res T :=
  match op with
  | add => Function.binary ops.add (fun _ => .ok a) (fun _ => .ok b)
  | sub => Function.binary ops.sub (fun _ => .ok a) (fun _ => .ok b)
  | mul => Function.binary ops.mul (fun _ => .ok a) (fun _ => .ok b)
  | div => Function.binary ops.div (fun _ => .ok a) (fun _ => .ok b)

end BinOp

namespace Parser

/-- The source `x0 o1 x1 ... on xn` written without spaces; an entry of
`rest` is an operator, the text of the literal after it and the value of that
literal. -/
def chainSource (x0 : Str) (rest : List (BinOp × Str × Int)) : Str :=
  x0 ++ (rest.map (fun p => p.1.char :: p.2.1)).flatten

/-- The left-nested tree `Binary(on, Binary(..., Binary(o1, x0, x1) ...), xn)`. -/
def leftNested (v0 : Int) (rest : List (BinOp × Str × Int)) : Function Int :=
  rest.foldl (fun acc p => p.1.node acc (.Literal p.2.2)) (.Literal v0)

/-- The left fold `((x0 o1 x1) o2 x2) ... on xn` of the `int` operators. -/
def leftFold {D : Type} (h : Host D) (v0 : Int) (rest : List (BinOp × Str × Int)) : Res Int :=
  rest.foldl (fun acc p => acc.bind fun a => p.1.apply (intOps h) a p.2.2) (.ok v0)

/-- The source without its white space. -/
def stripSpace (s : Str) : Str := s.filter (fun c => !isspace c)

/-- The loop of `splitLogical` on a source without white space and without
double quote, as a function of the characters still to read (the first of
them is the variable `c` of the loop). -/
def splitPure (separators : Str) : List Char → Str → List Str → Int → List Str
  | [], cur, res, _ => (pushCur cur res).2
  | c :: rest, cur, res, logicalLevel =>
    if separators.contains c ∧ logicalLevel = 0 then
      splitPure separators rest (pushCur cur res).1 ((pushCur cur res).2 ++ [[c]]) logicalLevel
    else
      splitPure separators rest (cur ++ [c]) res
        (if c = '(' then logicalLevel + 1 else if c = ')' then logicalLevel - 1
         else logicalLevel)

/-- The sections of a source without double quote. -/
def sectionsOf (source : Str) : List Str :=
  splitPure defaultSeparators (stripSpace source) [] [] 0

/-- The nesting level after the characters of `s`, read from the level `n`;
`none` when a `)` is read at level 0. -/
def scanLevel : Nat → List Char → Option Nat
  | n, [] => some n
  | n, c :: r =>
    if c = '(' then scanLevel (n + 1) r
    else if c = ')' then
      match n with
      | 0 => none
      | m + 1 => scanLevel m r
    else scanLevel n r

/-- Every `)` closes an earlier `(`, and every `(` is closed. -/
def WellNested (s : Str) : Prop := scanLevel 0 s = some 0

/-- The parentheses of `s` are balanced: as many `(` as `)`, and no prefix
with more `)` than `(`. -/
def Balanced (s : Str) : Prop :=
  s.count '(' = s.count ')' ∧ ∀ k, k ≤ s.length → (s.take k).count ')' ≤ (s.take k).count '('

instance (s : Str) : Decidable (Balanced s) := by
  unfold Balanced
  exact inferInstance

/-- The literals of the type that have no double quote consist of digits and
dots. -/
def LiteralShape {D T : Type} (ops : TypeOps D T) : Prop :=
  ∀ t : Str, ops.isLiteral t = true → '"' ∉ t → t ≠ [] ∧ ∀ c ∈ t, isDigit c = true ∨ c = '.'

/-- Every part of `source` that is a literal of the type converts to a value,
and every part that is a link is the text of an address. -/
def InRange {D T : Type} (ops : TypeOps D T) (source : Str) : Prop :=
  ∀ t : Str, t <:+: source →
    (ops.isLiteral t = true → ∃ v, ops.fromString t true = .ok v) ∧
    (isLink t = true → ∃ a, Address.ofString t = .ok a)

/-- Twice the number of characters of the sections, and one more for a single
section: the recursion of `parse` goes to sections of smaller weight. -/
def weight (sections : List Str) : Nat :=
  2 * (sections.map List.length).sum + (if sections.length = 1 then 1 else 0)

/-- The text `t` is a part of one of the sections, white space not counted. -/
def PartOf (sections : List Str) (t : Str) : Prop :=
  ∃ s ∈ sections, t <:+: stripSpace s

/-- A part of the sections is a literal whose conversion throws `e`, or a
link whose conversion to an address throws `e`. -/
def ConversionThrows {D T : Type} (ops : TypeOps D T) (sections : List Str) (e : Exception) :
    Prop :=
  ∃ t, PartOf sections t ∧
    ((ops.isLiteral t = true ∧ ops.fromString t true = .error e) ∨
     (isLink t = true ∧ Address.ofString t = .error e))

/-- Parenthesised sources are parsed as a unit by the parser of the type:
when `e1` and `e2` have no double quote and parse, `(e1)op(e2)` parses to the
node of `op` over their formulas, and `(e1)` parses to the formula of `e1`;
the dependency vector is the one the two calls leave. -/
def ParenthesesUnit {D T : Type} (ops : TypeOps D T) : Prop :=
  ∀ (e1 e2 : Str) (o : BinOp) (d d1 d2 : List Address) (g1 g2 : Function T),
    '"' ∉ e1 → '"' ∉ e2 →
    parseSource ops e1 d = .ok (g1, d1) → parseSource ops e2 d1 = .ok (g2, d2) →
    parseSource ops
        ("(".toList ++ e1 ++ ")".toList ++ [o.char] ++ "(".toList ++ e2 ++ ")".toList) d
      = .ok (o.node g1 g2, d2) ∧
    parseSource ops ("(".toList ++ e1 ++ ")".toList) d = .ok (g1, d1)

/-- The parser of the type rejects the sources without double quote whose
parentheses are not balanced: it returns no formula, and it throws
`IncorrectFormulaSyntaxException` when the literals and links of the source
are in range. -/
def RejectsUnbalanced {D T : Type} (ops : TypeOps D T) : Prop :=
  ∀ (s : Str) (d : List Address), '"' ∉ s → ¬ Balanced s →
    (∀ r, parseSource ops s d ≠ .ok r) ∧
    (InRange ops (stripSpace s) →
      parseSource ops s d = .error .IncorrectFormulaSyntaxException)

end Parser

/-! ## Notions used to state the properties of the wire format -/

namespace Ty

/-- The name of the type in the wire format. -/
def name : Ty → Str
  | int => "int".toList
  | double => "double".toList
  | string => "string".toList

end Ty

/-- The object of a cell in the wire format: the keys `type`, `addr` and
`content` in this order, without white space. -/
def CellBase.objectText {D : Type} (h : Host D) (c : CellBase D) : Str :=
  "\x7b\"type\":\"".toList ++ c.ty.name ++ "\",\"addr\":\"".toList ++ c.getAddr.toString ++
    "\",\"content\":\"".toList ++ Utils.escapeString (c.getContentSource h) ++ "\"\x7d".toList

/-- The text between the quotes of a string of the wire format: every `"` in
it follows a backslash that escapes it, and no backslash is left without the
character it escapes. -/
def Utils.wellEscaped : Str → Bool
  | [] => true
  | c :: rest =>
    if c = '\\' then
      match rest with
      | [] => false
      | _ :: rest' => wellEscaped rest'
    else if c = '"' then false
    else wellEscaped rest

/-- The keys of a cell object. -/
inductive JsonKey where
  | type
  | addr
  | content
  deriving DecidableEq, Repr

/-- The text of a key. -/
def JsonKey.name : JsonKey → Str
  | .type => "type".toList
  | .addr => "addr".toList
  | .content => "content".toList

/-- A cell object of an input text: the order of its keys, the declared type,
the text of the address and the text between the quotes of the content. -/
structure CellObject where
  keys : List JsonKey
  ty : Ty
  addr : Str
  content : Str
  deriving DecidableEq, Repr

namespace CellObject

/-- The text between the quotes of the value of a key. -/
def value (o : CellObject) : JsonKey → Str
  | .type => o.ty.name
  | .addr => o.addr
  | .content => o.content

/-- The text of a member: the key and its value, both in quotes. -/
def member (o : CellObject) (k : JsonKey) : Str :=
  "\"".toList ++ k.name ++ "\":\"".toList ++ o.value k ++ "\"".toList

/-- The text of the object. -/
def text (o : CellObject) : Str :=
  "\x7b".toList ++ (",".toList).intercalate (o.keys.map o.member) ++ "\x7d".toList

/-- The object lists the three keys, each once, in any order; the text of
its address has no quote and its content is a well escaped string. -/
def WellFormed (o : CellObject) : Prop :=
  o.keys.Perm [.type, .addr, .content] ∧ '"' ∉ o.addr ∧ Utils.wellEscaped o.content = true

/-- The cell `c` is the cell of the declared type, at the address given,
constructed from the unescaped content. -/
def Describes {D : Type} (h : Host D) (o : CellObject) (c : CellBase D) : Prop :=
  ∃ a content, Address.ofString o.addr = .ok a ∧ Utils.unescapeString o.content = .ok content ∧
    CellBase.make h o.ty a content = .ok c

end CellObject

/-- The text of an array of cell objects, without white space. -/
def arrayText (os : List CellObject) : Str :=
  "[".toList ++ (",".toList).intercalate (os.map CellObject.text) ++ "]".toList

/-- The stream is good and `buf` is what is left to read. -/
def IStream.Good (is : IStream) (buf : List Char) : Prop :=
  is.buf = buf ∧ is.eofbit = false ∧ is.failbit = false

/-- The variables of `CellBase::deserialize` hold the values of the keys
`ks` of the object `o`, whose address is `a` and whose unescaped content is
`content`. -/
def DeserializeState.Holds (st : DeserializeState) (o : CellObject) (a : Address)
    (content : Str) (ks : List JsonKey) : Prop :=
  (JsonKey.type ∈ ks → st.type = o.ty.name) ∧
  (JsonKey.addr ∈ ks → st.addr = a ∧ st.addrInitialized = true) ∧
  (JsonKey.content ∈ ks → st.content = content)

/-! ## The splitter as a function of the source -/

namespace Parser

/-- Where the reading of `splitLogical` stands: outside the string literals,
inside one after the characters `oss`, or inside one right after a
backslash. -/
inductive ScanMode where
  | code
  | literal (oss : Str)
  | escape (oss : Str)
  deriving DecidableEq, Repr

/-- The loop of `splitLogical`, with the `readString` it calls, as a function
of the characters not extracted yet: `skip` is the `skipws` flag of the
stream, which the first string literal clears. A literal that the end of the
input cuts throws, except right after an escaped quote, which then closes
it. -/
def splitScan (separators : Str) :
    Bool → ScanMode → List Char → Str → List Str → Int → Res (List Str)
  | _, .code, [], cur, res, _ => .ok (pushCur cur res).2
  | _, .literal _, [], _, _, _ => .error .IncorrectFormulaSyntaxException
  | _, .escape _, [], _, _, _ => .error .IncorrectFormulaSyntaxException
  | skip, .code, c :: rest, cur, res, logicalLevel =>
    if skip = true ∧ isspace c = true then splitScan separators skip .code rest cur res logicalLevel
    else if separators.contains c ∧ logicalLevel = 0 then
      splitScan separators skip .code rest (pushCur cur res).1 ((pushCur cur res).2 ++ [[c]])
        logicalLevel
    else if c = '"' then
      if !cur.isEmpty then .error .IncorrectFormulaSyntaxException
      else splitScan separators skip (.literal []) rest cur res logicalLevel
    else
      splitScan separators skip .code rest (cur ++ [c]) res
        (if c = '(' then logicalLevel + 1 else if c = ')' then logicalLevel - 1
         else logicalLevel)
  | skip, .literal oss, c :: rest, cur, res, logicalLevel =>
    if c = '\\' then splitScan separators skip (.escape oss) rest cur res logicalLevel
    else if c = '"' then
      splitScan separators false .code rest (pushCur (['"'] ++ oss ++ ['"']) res).1
        (pushCur (['"'] ++ oss ++ ['"']) res).2 logicalLevel
    else splitScan separators skip (.literal (oss ++ [c])) rest cur res logicalLevel
  | skip, .escape oss, c :: rest, cur, res, logicalLevel =>
    if c = '"' ∧ rest = [] then
      .ok (pushCur (pushCur (['"'] ++ (oss ++ ['\\'] ++ [c]) ++ ['"']) res).1
        (pushCur (['"'] ++ (oss ++ ['\\'] ++ [c]) ++ ['"']) res).2).2
    else splitScan separators skip (.literal (oss ++ ['\\'] ++ [c])) rest cur res logicalLevel

end Parser

/-! ## Notions used to state the properties of printing and parsing back -/

/-- The four functions of the grammar. -/
inductive FnName where
  | abs
  | sin
  | cos
  | tan
  deriving DecidableEq, Repr

namespace FnName

/-- The identifier in lower case, as the parser compares it. -/
def ident : FnName → Str
  | abs => "abs".toList
  | sin => "sin".toList
  | cos => "cos".toList
  | tan => "tan".toList

/-- The identifier as `toSource` writes it. -/
def upper : FnName → Str
  | abs => "ABS".toList
  | sin => "SIN".toList
  | cos => "COS".toList
  | tan => "TAN".toList

/-- The node of the function over its argument. -/
def node {T : Type} : FnName → Function T → Function T
  | abs => .Abs
  | sin => .Sin
  | cos => .Cos
  | tan => .Tan

end FnName

namespace Parser

/-- A function applied to a source that parses is parsed to the node of the
function over the formula of the source: the identifier `name` in any letter
case, the source `e` without double quote and comma and not wrapped in
parentheses (which `splitLogical` would strip from the argument). -/
def FunctionUnit {D T : Type} (ops : TypeOps D T) : Prop :=
  ∀ (name : Str) (fn : FnName) (e : Str) (d d1 : List Address) (g : Function T),
    Utils.toLower name = fn.ident → '"' ∉ e → ',' ∉ e →
    ¬ ((stripSpace e).head? = some '(' ∧ (stripSpace e).getLast? = some ')') →
    parseSource ops e d = .ok (g, d1) →
    parseSource ops (name ++ "(".toList ++ e ++ ")".toList) d = .ok (fn.node g, d1)

/-- Where a character of a source stands: outside the string literals, inside
one, or inside one right after a backslash. -/
inductive LitState where
  | outside
  | inside
  | escaped
  deriving DecidableEq, Repr

/-- The source with every letter outside its string literals in lower case;
`st` tells where the first character stands. -/
def foldCase : LitState → List Char → List Char
  | _, [] => []
  | .outside, c :: r =>
    if c = '"' then c :: foldCase .inside r else tolower c :: foldCase .outside r
  | .inside, c :: r =>
    if c = '\\' then c :: foldCase .escaped r
    else if c = '"' then c :: foldCase .outside r
    else c :: foldCase .inside r
  | .escaped, c :: r => c :: foldCase .inside r

/-- Two sources that differ only in the case of letters outside their string
literals. -/
def CaseVariant (s t : Str) : Prop := foldCase .outside s = foldCase .outside t

instance (s t : Str) : Decidable (CaseVariant s t) := by
  unfold CaseVariant
  exact inferInstance

/-- A section with its letters in lower case, unless it is a string literal. -/
def foldToken (t : Str) : Str := if '"' ∈ t then t else t.map tolower

end Parser

/-- The capital letters. -/
def uppers : List Char := "ABCDEFGHIJKLMNOPQRSTUVWXYZ".toList

namespace Parser

/-- Where the characters read by `splitScan` in the mode `m` stand. -/
def ScanMode.state : ScanMode → LitState
  | .code => .outside
  | .literal _ => .inside
  | .escape _ => .escaped

/-- The literals of the type without double quote have no letter that
`tolower` changes, and a text without double quote is such a literal whatever
the case of its letters. -/
def CaseBlind {D T : Type} (ops : TypeOps D T) : Prop :=
  ∀ t : Str, '"' ∉ t →
    ops.isLiteral (t.map tolower) = ops.isLiteral t ∧
    (ops.isLiteral t = true → t.map tolower = t)

/-- Separators that are no letters and no double quote. -/
def PlainSeparators (separators : Str) : Prop :=
  '"' ∉ separators ∧ ∀ c, separators.contains (tolower c) = separators.contains c

/-- A section that `splitLogical` returns: a text without double quote, or a
string literal as it stands in the source, a well escaped text between two
quotes. -/
def Token (t : Str) : Prop :=
  '"' ∉ t ∨ ∃ raw, Utils.wellEscaped raw = true ∧ t = ['"'] ++ raw ++ ['"']

/-- The source `x0 o1 x1 ... on xn` written without spaces. -/
def chainOf (x0 : Str) (rest : List (BinOp × Str)) : Str :=
  x0 ++ (rest.map (fun p => p.1.char :: p.2)).flatten

/-- The sections `x0, [o1], x1, ..., [on], xn`. -/
def chainSections (x0 : Str) (rest : List (BinOp × Str)) : List Str :=
  x0 :: (rest.map (fun p => [[p.1.char], p.2])).flatten

/-- The text `a` is read by `splitLogical` as one section, whatever follows
it: after it, pushing `cur` appends `a` to the sections read before. -/
def ScanUnit (a : Str) : Prop :=
  ∀ (skip : Bool) (res : List Str), ∃ (skip2 : Bool) (cur2 : Str) (res2 : List Str),
    pushCur cur2 res2 = ([], res ++ [a]) ∧
    ∀ rest, splitScan defaultSeparators skip .code (a ++ rest) [] res 0
      = splitScan defaultSeparators skip2 .code rest cur2 res2 0

/-- The text has no double quote, no comma and no white space, and its
parentheses are well nested: what the argument of a function must be. -/
def Inner (a : Str) : Prop :=
  '"' ∉ a ∧ ',' ∉ a ∧ WellNested a ∧ ∀ c ∈ a, isspace c = false

/-- An operand as `toSource` prints it: a text that is read as one section
and does not start with `(`, and that parses to a formula that prints as the
text; `inner` asks for a text that can stand in the argument of a function. -/
def Atom {D T : Type} (ops : TypeOps D T) (inner : Bool) (a : Str) : Prop :=
  ScanUnit a ∧ a.head? ≠ some '(' ∧
    (∃ g : Function T, g.toSource ops = a ∧
      ∀ d, parseSource ops a d = .ok (g, d ++ g.links)) ∧
    (inner = true → Inner a)

end Parser

/-- The column that the letters of an address stand for, the first letter
counting most: each letter is a digit from 1 to 26 in base 26. -/
def Address.colValue (letters : List Char) : Nat :=
  letters.foldl (fun n c => 26 * n + ((tolower c).toNat - 'a'.toNat + 1)) 0

/-- The addresses that `Address(const string &)` returns: column and row from
1 to the maximum. -/
def Address.Valid (a : Address) : Prop :=
  1 ≤ a.m_Col ∧ a.m_Col ≤ Address.MAX_COL ∧ 1 ≤ a.m_Row ∧ a.m_Row ≤ Address.MAX_ROW

/-- The formulas that `parse` returns: the literals satisfy `good`, the links
are addresses that `Address(const string &)` returns, and, below a function
or with `inner` set, no literal prints with a double quote. -/
def Function.Printable {D T : Type} (ops : TypeOps D T) (good : T → Prop) :
    Bool → Function T → Prop
  | inner, .Literal v => good v ∧ (inner = true → '"' ∉ ops.toString v true)
  | _, .Link a => a.Valid
  | inner, .Add a b => Printable ops good inner a ∧ Printable ops good inner b
  | inner, .Sub a b => Printable ops good inner a ∧ Printable ops good inner b
  | inner, .Mul a b => Printable ops good inner a ∧ Printable ops good inner b
  | inner, .Div a b => Printable ops good inner a ∧ Printable ops good inner b
  | _, .Abs a => Printable ops good true a
  | _, .Sin a => Printable ops good true a
  | _, .Cos a => Printable ops good true a
  | _, .Tan a => Printable ops good true a

/-- What printing and parsing back relies on in the operations of a type: the
values of the literals that the parser accepts satisfy `good`; a literal with
such a value prints as an operand, which has no double quote when the literal
read had none; the text of an address is no literal; and the literals without
double quote consist of digits and dots. -/
structure TypeOps.Reprints {D T : Type} (ops : TypeOps D T) (good : T → Prop) : Prop where
  shape : Parser.LiteralShape ops
  parsed : ∀ s v, ops.isLiteral s = true → ops.fromString s true = .ok v → good v
  printed : ∀ s v, ops.isLiteral s = true → ops.fromString s true = .ok v → '"' ∉ s →
    '"' ∉ ops.toString v true
  literal : ∀ v, good v → Parser.ScanUnit (ops.toString v true) ∧
    (ops.toString v true).head? ≠ some '(' ∧
    (∀ d, Parser.parseSource ops (ops.toString v true) d = .ok (.Literal v, d)) ∧
    ('"' ∉ ops.toString v true → Parser.Inner (ops.toString v true))
  address : ∀ a : Address, a.Valid → ops.isLiteral a.toString = false

/-- The source is a fixed point of parsing and printing: it parses, and the
formula prints as the source. -/
def Parser.FixedPoint {D T : Type} (ops : TypeOps D T) (t : Str) : Prop :=
  ∃ g : Function T, (∀ d, Parser.parseSource ops t d = .ok (g, d ++ g.links)) ∧
    g.toSource ops = t

/-! ## Notions used to state the properties of evaluation -/

namespace Function

/-- The `Link` nodes of a tree below the position `path`, each with the
position `evaluate` gives it. -/
def linkPositions {T : Type} : List Nat → Function T → List (List Nat × Address)
  | _, Literal _ => []
  | path, Link a => [(path, a)]
  | path, Add a b => linkPositions (0 :: path) a ++ linkPositions (1 :: path) b
  | path, Sub a b => linkPositions (0 :: path) a ++ linkPositions (1 :: path) b
  | path, Mul a b => linkPositions (0 :: path) a ++ linkPositions (1 :: path) b
  | path, Div a b => linkPositions (0 :: path) a ++ linkPositions (1 :: path) b
  | path, Abs a => linkPositions (0 :: path) a
  | path, Sin a => linkPositions (0 :: path) a
  | path, Cos a => linkPositions (0 :: path) a
  | path, Tan a => linkPositions (0 :: path) a

end Function

namespace CellBase

/-- The `Link` nodes of the formula of the cell with their positions. -/
def linkPositions {D : Type} : CellBase D → List (List Nat × Address)
  | .int c => c.m_Formula.linkPositions []
  | .double c => c.m_Formula.linkPositions []
  | .string c => c.m_Formula.linkPositions []

/-- The addresses the formula of the cell links to. -/
def links {D : Type} (c : CellBase D) : List Address := c.linkPositions.map Prod.snd

end CellBase

/-- What evaluation relies on in the operations of a type: the cast returns
the cell itself, exactly for the objects of the type, and a specialised
`evaluate` returns a value or throws an exception other than
`DependencyLoopException`. -/
structure TypeOps.Sound {D T : Type} (ops : TypeOps D T) : Prop where
  cast_some : ∀ obj c, ops.cast obj = some c → obj = ops.upcast c
  cast_none : ∀ obj, ops.cast obj = none → obj.ty ≠ ops.ty
  cast_upcast : ∀ c, ops.cast (ops.upcast c) = some c
  upcast_ty : ∀ c, (ops.upcast c).ty = ops.ty
  upcast_links : ∀ c, (ops.upcast c).linkPositions = c.m_Formula.linkPositions []
  binary : ∀ g, ops.add = some g ∨ ops.sub = some g ∨ ops.mul = some g ∨ ops.div = some g →
    ∀ x y, g x y ≠ .diverge ∧ g x y ≠ .error .DependencyLoopException
  unary : ∀ g, ops.abs = some g ∨ ops.sin = some g ∨ ops.cos = some g ∨ ops.tan = some g →
    ∀ x, g x ≠ .diverge ∧ g x ≠ .error .DependencyLoopException

namespace Sheet

/-- The cell at `a` has a link to `b`. -/
def LinksTo {D : Type} (s : Sheet D) (a b : Address) : Prop := b ∈ (s.getCell a).obj.links

/-- The link graph of the sheet has no cycle. -/
def Acyclic {D : Type} (s : Sheet D) : Prop := ∀ a, ¬ Relation.TransGen s.LinksTo a a

/-- A link cycle is reachable from the cell at `a`: following links from `a`
leads to an address that leads back to itself. -/
def CycleReachable {D : Type} (s : Sheet D) (a : Address) : Prop :=
  ∃ x, Relation.ReflTransGen s.LinksTo a x ∧ Relation.TransGen s.LinksTo x x

/-- The links of the stored cells, each as the identity of its cell and its
position in the formula. -/
def flagSpace {D : Type} (s : Sheet D) : List (Nat × List Nat) :=
  (s.m_Cells.map fun kv => kv.2.obj.linkPositions.map fun q => (kv.2.ptr, q.1)).flatten

/-- `getContentText` with at most `depth` calls of `getContent` nested in one
another. -/
def getContentTextWithin {D : Type} (h : Host D) (s : Sheet D) (depth : Nat) (cell : CellPtr D) :
    Res Str :=
  match cell.obj with
  | .int c =>
    (getContent (intOps h) s depth [] cell.ptr c).bind fun v => .ok ((intOps h).toString v false)
  | .double c =>
    (getContent (doubleOps h) s depth [] cell.ptr c).bind fun v =>
      .ok ((doubleOps h).toString v false)
  | .string c =>
    (getContent (stringOps D) s depth [] cell.ptr c).bind fun v =>
      .ok ((stringOps D).toString v false)

/-- The cells stored at the addresses `ring` are cells of the type of `ops`
whose formulas are the pure links to the next address of the list, the last
one to the first. -/
def PureLinkRing {D T : Type} (ops : TypeOps D T) (s : Sheet D) (ring : List Address) : Prop :=
  ∀ i, i < ring.length → ∃ c cell, s.stored (ring.getD i ⟨1, 1⟩) = some c ∧
    c.obj = ops.upcast cell ∧ cell.m_Formula = .Link (ring.getD ((i + 1) % ring.length) ⟨1, 1⟩)

/-- The type check of `Link<T>::evaluate`, for a link in the cell object
`ptr` and for a formula that is a link on its own: a target of another type
throws `InvalidTypeException`, a target of the type is evaluated with the flag
of the link set, which for the formula on its own gives the content of the
target. -/
def LinkTypeChecked {D T : Type} (ops : TypeOps D T) : Prop :=
  (∀ (s : Sheet D) (A : Address) (fuel : Nat) (evaluating : List (Nat × List Nat)) (ptr : Nat)
      (cell : Cell T), cell.m_Formula = .Link A → (ptr, []) ∉ evaluating →
    ((s.getCell A).obj.ty ≠ ops.ty →
      getContent ops s (fuel + 1) evaluating ptr cell = .error .InvalidTypeException) ∧
    ∀ target, (s.getCell A).obj = ops.upcast target →
      getContent ops s (fuel + 1) evaluating ptr cell
        = getContent ops s fuel ((ptr, []) :: evaluating) (s.getCell A).ptr target) ∧
  ∀ (s : Sheet D) (A : Address), s.Inv →
    ((s.getCell A).obj.ty ≠ ops.ty → s.evaluate ops (.Link A) = .error .InvalidTypeException) ∧
    ∀ target, (s.getCell A).obj = ops.upcast target →
      s.evaluate ops (.Link A)
        = getContent ops s (s.linkCount + (s.getCell A).obj.linkCount + 1) []
            (s.getCell A).ptr target

end Sheet

/-! ## Notions used to state the properties of addresses and of texts -/

/-- The small letters. -/
def lowers : List Char := "abcdefghijklmnopqrstuvwxyz".toList

/-- The `toupper` of the C locale. -/
def toupper (c : Char) : Char :=
  if 'a' ≤ c && c ≤ 'z' then Char.ofNat (c.toNat - 32) else c

/-- A text with its letters in upper case. -/
def Utils.toUpper (s : Str) : Str := s.map toupper

/-- What escaping writes for one character, in the words of its description:
a backslash before a double quote and before a backslash, every other
character as it is. -/
def Utils.escapeChar (c : Char) : Str := if c = '"' ∨ c = '\\' then ['\\', c] else [c]

/-- The characters before the first double quote that no backslash escapes,
and the characters after that quote; `none` when the text has no such
quote. -/
def Utils.splitAtQuote : Str → Option (Str × Str)
  | [] => none
  | c :: rest =>
    if c = '"' then some ([], rest)
    else if c = '\\' then
      match rest with
      | [] => none
      | c' :: rest' => (splitAtQuote rest').map fun p => (c :: c' :: p.1, p.2)
    else (splitAtQuote rest).map fun p => (c :: p.1, p.2)

/-! ## Basic facts about the outcome type and the maps -/

@[simp] theorem Res.bind_ok {α β : Type} (a : α) (f : α → Res β) : (Res.ok a).bind f = f a := rfl

@[simp] theorem Res.bind_error {α β : Type} (e : Exception) (f : α → Res β) :
    (Res.error e : Res α).bind f = Res.error e := rfl

@[simp] theorem Res.bind_diverge {α β : Type} (f : α → Res β) :
    (Res.diverge : Res α).bind f = Res.diverge := rfl

theorem Res.bind_eq_ok {α β : Type} {r : Res α} {f : α → Res β} {b : β}
    (hb : r.bind f = .ok b) : ∃ a, r = .ok a ∧ f a = .ok b := by
  cases r with
  | ok a => exact ⟨a, rfl, hb⟩
  | error e => simp at hb
  | diverge => simp at hb

theorem Map.find_set {V : Type} (m : List (Address × V)) (a b : Address) (v : V) :
    Map.find (Map.set m a v) b = if a = b then some v else Map.find m b := by
  induction m with
  | nil => simp [Map.set, Map.find]
  | cons kv rest ih =>
    obtain ⟨k, w⟩ := kv
    by_cases hk : k = a
    · subst hk
      by_cases hb : k = b <;> simp [Map.set, Map.find, hb]
    · by_cases hb : k = b
      · subst hb
        have : ¬ a = k := fun h => hk h.symm
        simp [Map.set, Map.find, hk, this]
      · simp [Map.set, Map.find, hk, hb, ih]

theorem Map.find_erase {V : Type} (m : List (Address × V)) (a b : Address) :
    Map.find (Map.erase m a) b = if a = b then none else Map.find m b := by
  induction m with
  | nil => simp [Map.erase, Map.find]
  | cons kv rest ih =>
    obtain ⟨k, w⟩ := kv
    by_cases hk : k = a
    · subst hk
      by_cases hb : k = b
      · subst hb
        simpa [Map.erase, Map.find] using ih
      · simp [Map.erase, Map.find, hb, ih]
    · by_cases hb : k = b
      · subst hb
        have : ¬ a = k := fun h => hk h.symm
        simp [Map.erase, Map.find, hk, this]
      · simp [Map.erase, Map.find, hk, hb, ih]

theorem PtrSet.mem_insert {D : Type} (set : List (CellPtr D)) (cell c : CellPtr D) :
    c ∈ PtrSet.insert set cell ↔ c ∈ set ∨ (c = cell ∧ PtrSet.contains set cell = false) := by
  unfold PtrSet.insert
  by_cases hc : PtrSet.contains set cell = true
  · simp [hc]
  · simp only [Bool.not_eq_true] at hc
    simp [hc]

theorem PtrSet.mem_erase {D : Type} (set : List (CellPtr D)) (cell c : CellPtr D) :
    c ∈ PtrSet.erase set cell ↔ c ∈ set ∧ c.ptr ≠ cell.ptr := by
  simp [PtrSet.erase]

theorem PtrSet.contains_iff {D : Type} (set : List (CellPtr D)) (cell : CellPtr D) :
    PtrSet.contains set cell = true ↔ ∃ c ∈ set, c.ptr = cell.ptr := by
  simp [PtrSet.contains]

namespace Sheet

variable {D : Type}

theorem dependents_insertDependency (cell : CellPtr D) (s : Sheet D) (a A : Address) :
    (insertDependency cell s a).dependents A =
      if a = A then PtrSet.insert (s.dependents a) cell else s.dependents A := by
  simp only [dependents, insertDependency, Map.find_set]
  split <;> rfl

theorem dependents_eraseDependency (cell : CellPtr D) (s : Sheet D) (a A : Address) :
    (eraseDependency cell s a).dependents A =
      if a = A then PtrSet.erase (s.dependents a) cell else s.dependents A := by
  simp only [dependents, eraseDependency, Map.find_set]
  split <;> rfl

theorem createDependencies_frame (s : Sheet D) (cell : CellPtr D) :
    (s.createDependencies cell).m_Cells = s.m_Cells ∧
    (s.createDependencies cell).nextPtr = s.nextPtr ∧
    (s.createDependencies cell).m_CellContentChanged = s.m_CellContentChanged := by
  unfold createDependencies
  generalize cell.obj.getDependencies = deps
  induction deps generalizing s with
  | nil => simp
  | cons d ds ih =>
    simp only [List.foldl_cons]
    simpa [insertDependency] using ih (insertDependency cell s d)

theorem deleteDependencies_frame (s : Sheet D) (cell : CellPtr D) :
    (s.deleteDependencies cell).m_Cells = s.m_Cells ∧
    (s.deleteDependencies cell).nextPtr = s.nextPtr ∧
    (s.deleteDependencies cell).m_CellContentChanged = s.m_CellContentChanged := by
  unfold deleteDependencies
  generalize cell.obj.getDependencies = deps
  induction deps generalizing s with
  | nil => simp
  | cons d ds ih =>
    simp only [List.foldl_cons]
    simpa [eraseDependency] using ih (eraseDependency cell s d)

/-- The sets of the index after `createDependencies`. -/
theorem mem_dependents_createDependencies (s : Sheet D) (cell c : CellPtr D) (A : Address) :
    c ∈ (s.createDependencies cell).dependents A ↔
      c ∈ s.dependents A ∨
        (c = cell ∧ A ∈ cell.obj.getDependencies ∧ PtrSet.contains (s.dependents A) cell = false) := by
  unfold createDependencies
  generalize cell.obj.getDependencies = deps
  induction deps generalizing s with
  | nil => simp
  | cons d ds ih =>
    simp only [List.foldl_cons]
    rw [ih, dependents_insertDependency]
    by_cases hd : d = A
    · subst hd
      simp only [if_true, PtrSet.mem_insert, List.mem_cons, true_or, true_and]
      constructor
      · rintro (h | ⟨h1, -, h3⟩)
        · exact h
        · subst h1
          rw [Bool.eq_false_iff] at h3
          by_cases hc : PtrSet.contains (s.dependents d) c = true
          · exfalso
            apply h3
            rw [PtrSet.contains_iff] at hc ⊢
            obtain ⟨x, hx, hxp⟩ := hc
            exact ⟨x, (PtrSet.mem_insert _ _ _).2 (Or.inl hx), hxp⟩
          · exact Or.inr ⟨rfl, by simpa using hc⟩
      · rintro (h | ⟨h1, h3⟩)
        · exact Or.inl (Or.inl h)
        · exact Or.inl (Or.inr ⟨h1, h3⟩)
    · have hd' : ¬ A = d := fun h => hd h.symm
      simp [hd, hd']

/-- The sets of the index after `deleteDependencies`. -/
theorem mem_dependents_deleteDependencies (s : Sheet D) (cell c : CellPtr D) (A : Address) :
    c ∈ (s.deleteDependencies cell).dependents A ↔
      c ∈ s.dependents A ∧ ¬ (c.ptr = cell.ptr ∧ A ∈ cell.obj.getDependencies) := by
  unfold deleteDependencies
  generalize cell.obj.getDependencies = deps
  induction deps generalizing s with
  | nil => simp
  | cons d ds ih =>
    simp only [List.foldl_cons]
    rw [ih, dependents_eraseDependency]
    by_cases hd : d = A
    · subst hd
      simp only [if_true, PtrSet.mem_erase, List.mem_cons, true_or, and_true]
      tauto
    · have hd' : ¬ A = d := fun h => hd h.symm
      simp [hd, hd']

end Sheet

/-! ## The change dispatch returns, and reaches every dependent -/

namespace Sheet

variable {D : Type}

theorem Map_find_mem {V : Type} {m : List (Address × V)} {a : Address} {v : V}
    (hf : Map.find m a = some v) : (a, v) ∈ m := by
  induction m with
  | nil => simp [Map.find] at hf
  | cons kv rest ih =>
    obtain ⟨k, w⟩ := kv
    by_cases hk : k = a
    · subst hk
      simp [Map.find] at hf
      simp [hf]
    · simp [Map.find, hk] at hf
      exact List.mem_cons_of_mem _ (ih hf)

theorem dependents_of_find {s : Sheet D} {a : Address} {l : List (CellPtr D)}
    (hf : Map.find s.m_Dependencies a = some l) : s.dependents a = l := by
  simp [dependents, hf]

theorem dependents_of_find_none {s : Sheet D} {a : Address}
    (hf : Map.find s.m_Dependencies a = none) : s.dependents a = [] := by
  simp [dependents, hf]

theorem ptr_mem_indexPtrs {s : Sheet D} {A : Address} {c : CellPtr D}
    (hc : c ∈ s.dependents A) : c.ptr ∈ s.indexPtrs := by
  unfold dependents at hc
  cases hf : Map.find s.m_Dependencies A with
  | none => simp [hf] at hc
  | some l =>
    simp only [hf, Option.getD_some] at hc
    have hm := Map_find_mem hf
    simp only [indexPtrs, List.mem_flatten, List.mem_map]
    exact ⟨l.map (fun c => c.ptr), ⟨(A, l), hm, rfl⟩, List.mem_map.2 ⟨c, hc, rfl⟩⟩

theorem indexPtrs_length (s : Sheet D) : s.indexPtrs.length = s.dependencyCount := by
  unfold indexPtrs dependencyCount
  induction s.m_Dependencies with
  | nil => simp
  | cons kv rest ih => simp [ih]

theorem remaining_le (s : Sheet D) (P : List Nat) : s.remaining P ≤ s.dependencyCount := by
  rw [← indexPtrs_length]
  exact le_trans (Finset.card_le_card Finset.sdiff_subset) (List.toFinset_card_le _)

theorem remaining_cons_lt {s : Sheet D} {P : List Nat} {x : Nat}
    (hx : x ∈ s.indexPtrs) (hP : x ∉ P) : s.remaining (x :: P) < s.remaining P := by
  unfold remaining
  apply Finset.card_lt_card
  rw [Finset.ssubset_iff_of_subset]
  · exact ⟨x, by simp [hx, hP], by simp⟩
  · intro y hy
    simp only [Finset.mem_sdiff, List.mem_toFinset, List.mem_cons, not_or] at hy ⊢
    exact ⟨hy.1, hy.2.2⟩

theorem forDependents_ok {call : CellPtr D → Res (List (CellPtr D))} {l : List (CellPtr D)}
    (hl : ∀ d ∈ l, ∃ evs, call d = .ok evs) : ∃ evs, forDependents call l = .ok evs := by
  induction l with
  | nil => exact ⟨[], rfl⟩
  | cons d rest ih =>
    obtain ⟨e1, h1⟩ := hl d (List.mem_cons_self _ _)
    obtain ⟨e2, h2⟩ := ih (fun x hx => hl x (List.mem_cons_of_mem _ hx))
    exact ⟨e1 ++ e2, by simp [forDependents, h1, h2]⟩

theorem forDependents_mem {call : CellPtr D → Res (List (CellPtr D))} {l evs : List (CellPtr D)}
    (hl : forDependents call l = .ok evs) {d : CellPtr D} (hd : d ∈ l) :
    ∃ evd, call d = .ok evd ∧ ∀ e ∈ evd, e ∈ evs := by
  induction l generalizing evs with
  | nil => simp at hd
  | cons x rest ih =>
    simp only [forDependents] at hl
    obtain ⟨e1, h1, hl⟩ := Res.bind_eq_ok hl
    obtain ⟨e2, h2, hl⟩ := Res.bind_eq_ok hl
    simp only [Res.ok.injEq] at hl
    subst hl
    rcases List.mem_cons.1 hd with rfl | hd
    · exact ⟨e1, h1, fun e he => List.mem_append_left _ he⟩
    · obtain ⟨evd, hcall, hsub⟩ := ih h2 hd
      exact ⟨evd, hcall, fun e he => List.mem_append_right _ (hsub e he)⟩

theorem distribute_skip (s : Sheet D) (fuel : Nat) (cell : CellPtr D) (P : List Nat)
    (hskip : (!s.m_CellContentChanged || P.contains cell.ptr) = true) :
    distribute s (fuel + 1) cell P = .ok [] := by
  simp only [distribute, hskip, if_true]

theorem distribute_none (s : Sheet D) (fuel : Nat) (cell : CellPtr D) (P : List Nat)
    (hskip : (!s.m_CellContentChanged || P.contains cell.ptr) = false)
    (hf : Map.find s.m_Dependencies cell.obj.getAddr = none) :
    distribute s (fuel + 1) cell P = .ok [cell] := by
  simp only [distribute, hskip, hf, Bool.false_eq_true, if_false]

theorem distribute_some (s : Sheet D) (fuel : Nat) (cell : CellPtr D) (P : List Nat)
    (hskip : (!s.m_CellContentChanged || P.contains cell.ptr) = false)
    {deps : List (CellPtr D)} (hf : Map.find s.m_Dependencies cell.obj.getAddr = some deps) :
    distribute s (fuel + 1) cell P =
      (forDependents (fun dependent => distribute s fuel dependent (cell.ptr :: P)) deps).bind
        fun evs => .ok (cell :: evs) := by
  simp only [distribute, hskip, hf, Bool.false_eq_true, if_false]

/-- The dispatch for a cell of the index returns when the fuel exceeds the
number of identities of the index that are not yet processed. -/
theorem distribute_index_returns (s : Sheet D) :
    ∀ (n fuel : Nat) (d : CellPtr D) (P : List Nat), s.InIndex d → s.remaining P ≤ n →
      n + 1 ≤ fuel → ∃ evs, distribute s fuel d P = .ok evs := by
  intro n
  induction n with
  | zero =>
    intro fuel d P hd hrem hfuel
    obtain ⟨f, rfl⟩ : ∃ f, fuel = f + 1 := ⟨fuel - 1, by omega⟩
    obtain ⟨A, hA⟩ := hd
    have hmem : d.ptr ∈ P := by
      by_contra hP
      have := remaining_cons_lt (ptr_mem_indexPtrs hA) hP
      omega
    exact ⟨[], distribute_skip s f d P (by simp [hmem])⟩
  | succ m ih =>
    intro fuel d P hd hrem hfuel
    obtain ⟨f, rfl⟩ : ∃ f, fuel = f + 1 := ⟨fuel - 1, by omega⟩
    obtain ⟨A, hA⟩ := hd
    cases hskip : (!s.m_CellContentChanged || P.contains d.ptr) with
    | true => exact ⟨[], distribute_skip s f d P hskip⟩
    | false =>
      have hP : d.ptr ∉ P := by
        intro h
        simp [h] at hskip
      have hlt := remaining_cons_lt (ptr_mem_indexPtrs hA) hP
      cases hf : Map.find s.m_Dependencies d.obj.getAddr with
      | none => exact ⟨[d], distribute_none s f d P hskip hf⟩
      | some deps =>
        have hall : ∀ x ∈ deps, ∃ evs, distribute s f x (d.ptr :: P) = .ok evs := by
          intro x hx
          apply ih f x (d.ptr :: P) ⟨d.obj.getAddr, by rw [dependents_of_find hf]; exact hx⟩
          · omega
          · omega
        obtain ⟨evs, hevs⟩ := forDependents_ok hall
        exact ⟨d :: evs, by rw [distribute_some s f d P hskip hf, hevs]; rfl⟩

/-- `Sheet::distributeContentChangedEvent` returns, whatever the sheet and the
cell. -/
theorem distributeContentChangedEvent_returns (s : Sheet D) (cell : CellPtr D) :
    ∃ evs, s.distributeContentChangedEvent cell = .ok evs := by
  unfold distributeContentChangedEvent
  cases hskip : (!s.m_CellContentChanged || ([] : List Nat).contains cell.ptr) with
  | true => exact ⟨[], distribute_skip s _ cell [] hskip⟩
  | false =>
    cases hf : Map.find s.m_Dependencies cell.obj.getAddr with
    | none => exact ⟨[cell], distribute_none s _ cell [] hskip hf⟩
    | some deps =>
      have hall : ∀ x ∈ deps, ∃ evs,
          distribute s (s.dependencyCount + 1) x [cell.ptr] = .ok evs := by
        intro x hx
        exact distribute_index_returns s s.dependencyCount _ x _
          ⟨cell.obj.getAddr, by rw [dependents_of_find hf]; exact hx⟩
          (remaining_le s _) (le_refl _)
      obtain ⟨evs, hevs⟩ := forDependents_ok hall
      exact ⟨cell :: evs, by rw [distribute_some s _ cell [] hskip hf, hevs]; rfl⟩

/-- The result of a dispatch is that of the call for the cell; it never
throws and never runs out of fuel. -/
theorem dispatch_eq (s : Sheet D) (cell : CellPtr D) :
    ∃ evs, s.distributeContentChangedEvent cell = .ok evs ∧ dispatch s cell = ⟨s, evs, .ok ()⟩ := by
  obtain ⟨evs, h⟩ := distributeContentChangedEvent_returns s cell
  exact ⟨evs, h, by simp [dispatch, h]⟩

theorem Reach.start {s : Sheet D} {P : List Nat} {c e : CellPtr D} (hr : Reach s P c e) :
    c.ptr ∉ P := by
  cases hr with
  | refl h => exact h
  | step h _ _ => exact h

theorem Reach.inIndex {s : Sheet D} {P : List Nat} {c e : CellPtr D} (hr : Reach s P c e) :
    e = c ∨ s.InIndex e := by
  induction hr with
  | refl _ => exact Or.inl rfl
  | @step c d e _ hd _ ih =>
    rcases ih with rfl | h
    · exact Or.inr ⟨_, hd⟩
    · exact Or.inr h

/-- A chain that avoids `P` either avoids the cell `c0` too, or ends in it, or
passes a last time through `c0` and goes on from one of its dependents. -/
theorem Reach.cut {s : Sheet D} {P : List Nat} {c0 x e : CellPtr D}
    (hcons : ∀ y, y = x ∨ s.InIndex y → y.ptr = c0.ptr → y.obj.getAddr = c0.obj.getAddr)
    (hr : Reach s P x e) :
    Reach s (c0.ptr :: P) x e ∨ e.ptr = c0.ptr ∨
      ∃ d ∈ s.dependents c0.obj.getAddr, Reach s (c0.ptr :: P) d e := by
  induction hr with
  | @refl c hc =>
    by_cases hp : c.ptr = c0.ptr
    · exact Or.inr (Or.inl hp)
    · exact Or.inl (Reach.refl (by simp [hp, hc]))
  | @step c d e hc hd hr ih =>
    have ih' := ih (fun y hy hp => hcons y (Or.inr (by
      rcases hy with rfl | h
      · exact ⟨_, hd⟩
      · exact h)) hp)
    rcases ih' with h | h | h
    · by_cases hp : c.ptr = c0.ptr
      · have haddr := hcons c (Or.inl rfl) hp
        exact Or.inr (Or.inr ⟨d, by rw [← haddr]; exact hd, h⟩)
      · exact Or.inl (Reach.step (by simp [hp, hc]) hd h)
    · exact Or.inr (Or.inl h)
    · exact Or.inr (Or.inr h)

/-- With a callback installed, the dispatch for `c` calls it with every cell
at the end of a chain of dependents from `c` that avoids the processed
cells, provided an identity stands for one object among the cells concerned
(the root `r` and the cells of the index). -/
theorem distribute_covers {s : Sheet D} (hcb : s.m_CellContentChanged = true) {r : CellPtr D}
    (hcons : ∀ x y, x = r ∨ s.InIndex x → y = r ∨ s.InIndex y → x.ptr = y.ptr → x = y) :
    ∀ (fuel : Nat) (c : CellPtr D) (P : List Nat) (evs : List (CellPtr D)),
      c = r ∨ s.InIndex c → distribute s fuel c P = .ok evs →
      ∀ e, Reach s P c e → e ∈ evs := by
  intro fuel
  induction fuel with
  | zero =>
    intro c P evs _ h
    simp [distribute] at h
  | succ f ih =>
    intro c P evs hc h e hr
    have hP : c.ptr ∉ P := hr.start
    have he : e = r ∨ s.InIndex e := by
      rcases hr.inIndex with rfl | h'
      · exact hc
      · exact Or.inr h'
    have hcut := @Reach.cut D s P c c e
      (fun y hy hp => by
        have hy' : y = r ∨ s.InIndex y := by
          rcases hy with rfl | h'
          · exact hc
          · exact Or.inr h'
        rw [hcons y c hy' hc hp]) hr
    have hnot : ¬ Reach s (c.ptr :: P) c e := fun h' => h'.start (List.mem_cons_self _ _)
    have hskip : (!s.m_CellContentChanged || P.contains c.ptr) = false := by
      simp [hcb, hP]
    cases hf : Map.find s.m_Dependencies c.obj.getAddr with
    | none =>
      rw [distribute_none s f c P hskip hf] at h
      simp only [Res.ok.injEq] at h
      subst h
      rcases hcut with h1 | h2 | ⟨d, hd, _⟩
      · exact absurd h1 hnot
      · rw [hcons e c he hc h2]
        exact List.mem_singleton_self _
      · rw [dependents_of_find_none hf] at hd
        simp at hd
    | some deps =>
      rw [distribute_some s f c P hskip hf] at h
      obtain ⟨evs', hfor, h⟩ := Res.bind_eq_ok h
      simp only [Res.ok.injEq] at h
      subst h
      rcases hcut with h1 | h2 | ⟨d, hd, hrd⟩
      · exact absurd h1 hnot
      · rw [hcons e c he hc h2]
        exact List.mem_cons_self _ _
      · rw [dependents_of_find hf] at hd
        obtain ⟨evd, hcall, hsub⟩ := forDependents_mem hfor hd
        have hdi : d = r ∨ s.InIndex d :=
          Or.inr ⟨c.obj.getAddr, by rw [dependents_of_find hf]; exact hd⟩
        exact List.mem_cons_of_mem _ (hsub e (ih d (c.ptr :: P) evd hdi hcall e hrd))

/-- With a callback installed the first call of the callback is for the cell
the dispatch starts at. -/
theorem distributeContentChangedEvent_head {s : Sheet D} (hcb : s.m_CellContentChanged = true)
    {cell : CellPtr D} {evs : List (CellPtr D)}
    (h : s.distributeContentChangedEvent cell = .ok evs) : ∃ rest, evs = cell :: rest := by
  unfold distributeContentChangedEvent at h
  have hskip : (!s.m_CellContentChanged || ([] : List Nat).contains cell.ptr) = false := by
    simp [hcb]
  cases hf : Map.find s.m_Dependencies cell.obj.getAddr with
  | none =>
    rw [distribute_none s _ cell [] hskip hf] at h
    simp only [Res.ok.injEq] at h
    exact ⟨[], h.symm⟩
  | some deps =>
    rw [distribute_some s _ cell [] hskip hf] at h
    obtain ⟨evs', _, h⟩ := Res.bind_eq_ok h
    simp only [Res.ok.injEq] at h
    exact ⟨evs', h.symm⟩

theorem Dependent.reach {s : Sheet D} {A : Address} {r d : CellPtr D}
    (hr : r.obj.getAddr = A) (hd : Dependent s A d) : Reach s [] r d := by
  have key : ∀ d, Dependent s A d → ∀ e, Reach s [] d e → Reach s [] r e := by
    intro d hd
    induction hd with
    | direct h =>
      intro e he
      exact Reach.step (by simp) (by rw [hr]; exact h) he
    | trans _ h ih =>
      intro e he
      exact ih e (Reach.step (by simp) h he)
  exact key d hd d (Reach.refl (by simp))

end Sheet

/-! ## Cells as constructed -/

theorem Cell.create_addr {D T : Type} {ops : TypeOps D T} {addr : Address} {content : Str}
    {c : Cell T} (hc : Cell.create ops addr content = .ok c) : c.m_Addr = addr := by
  unfold Cell.create at hc
  split at hc
  · obtain ⟨p, _, hc⟩ := Res.bind_eq_ok hc
    simp only [Res.ok.injEq] at hc
    subst hc
    rfl
  · obtain ⟨p, _, hc⟩ := Res.bind_eq_ok hc
    simp only [Res.ok.injEq] at hc
    subst hc
    rfl

theorem CellBase.make_props {D : Type} {h : Host D} {ty : Ty} {addr : Address} {content : Str}
    {obj : CellBase D} (hm : CellBase.make h ty addr content = .ok obj) :
    obj.getAddr = addr ∧ obj.ty = ty := by
  cases ty <;> simp only [CellBase.make] at hm <;> obtain ⟨c, hc, hm⟩ := Res.bind_eq_ok hm <;>
    simp only [Res.ok.injEq] at hm <;> subst hm <;>
    exact ⟨Cell.create_addr hc, rfl⟩

theorem CellBase.makeDefault_props {D : Type} (h : Host D) (ty : Ty) (addr : Address) :
    (CellBase.makeDefault h ty addr).getAddr = addr ∧ (CellBase.makeDefault h ty addr).ty = ty ∧
      (CellBase.makeDefault h ty addr).getDependencies = [] := by
  cases ty <;> exact ⟨rfl, rfl, rfl⟩

/-- A string cell constructed from a text has the text as its source when the
text is no formula, and a source that starts with `=` when it is. -/
theorem Cell.create_string_source {D : Type} {addr : Address} {content : Str} {c : Cell Str}
    (hc : Cell.create (stringOps D) addr content = .ok c) :
    (c.getContentSource (stringOps D) = content ∧ c.m_IsFormula = false ∧
        c.m_Formula = .Literal content ∧ c.m_Dependencies = []) ∨
      ∃ rest, c.getContentSource (stringOps D) = '=' :: rest := by
  unfold Cell.create at hc
  split at hc
  · obtain ⟨p, _, hc⟩ := Res.bind_eq_ok hc
    simp only [Res.ok.injEq] at hc
    subst hc
    exact Or.inr ⟨_, rfl⟩
  · obtain ⟨p, hp, hc⟩ := Res.bind_eq_ok hc
    simp only [Res.ok.injEq] at hc
    subst hc
    simp only [stringOps, stringFromString, Bool.false_eq_true, if_false, Res.ok.injEq] at hp
    subst hp
    exact Or.inl ⟨rfl, rfl, rfl, rfl⟩

theorem CellBase.make_string_source {D : Type} {h : Host D} {addr : Address} {content : Str}
    {obj : CellBase D} (hm : CellBase.make h .string addr content = .ok obj) :
    (obj.getContentSource h).isEmpty = true → content = [] := by
  simp only [CellBase.make] at hm
  obtain ⟨c, hc, hm⟩ := Res.bind_eq_ok hm
  simp only [Res.ok.injEq] at hm
  subst hm
  intro he
  simp only [CellBase.getContentSource] at he
  rcases Cell.create_string_source hc with ⟨h1, -⟩ | ⟨rest, h2⟩
  · rw [h1] at he
    simpa using he
  · rw [h2] at he
    simp at he

/-- The cell `Cell<string>(sheet, addr, "")`. -/
theorem Cell.create_string_empty (D : Type) (addr : Address) :
    Cell.create (stringOps D) addr [] = .ok (Cell.createDefault (stringOps D) addr) := by
  simp [Cell.create, stringOps, stringFromString, Cell.createDefault]

theorem CellBase.make_string_empty {D : Type} (h : Host D) (addr : Address) :
    CellBase.make h .string addr [] = .ok (.string (Cell.createDefault (stringOps D) addr)) := by
  simp [CellBase.make, Cell.create_string_empty]

namespace Sheet

variable {D : Type}

theorem getCell_of_stored {s : Sheet D} {addr : Address} {c : CellPtr D}
    (hc : s.stored addr = some c) : s.getCell addr = c := by
  simp only [stored] at hc
  simp [getCell, hc]

theorem getCell_of_absent {s : Sheet D} {addr : Address} (hc : s.stored addr = none) :
    s.getCell addr = ⟨s.nextPtr, .string (Cell.createDefault (stringOps D) addr)⟩ := by
  simp only [stored] at hc
  simp [getCell, hc, Cell.create_string_empty]

theorem createDependencies_nil {s : Sheet D} {cell : CellPtr D}
    (hd : cell.obj.getDependencies = []) : s.createDependencies cell = s := by
  simp [createDependencies, hd]

theorem stored_deleteDependencies (s : Sheet D) (cell : CellPtr D) (a : Address) :
    (s.deleteDependencies cell).stored a = s.stored a := by
  simp [stored, (deleteDependencies_frame s cell).1]

theorem stored_createDependencies (s : Sheet D) (cell : CellPtr D) (a : Address) :
    (s.createDependencies cell).stored a = s.stored a := by
  simp [stored, (createDependencies_frame s cell).1]

/-! ## The representation invariant -/

theorem Inv.empty (D : Type) : Inv (Sheet.empty D) := by
  constructor <;> intros <;> simp_all [Sheet.empty, stored, dependents, Map.find]

/-- After `deleteDependencies` of the cell stored at `addr` the invariant
holds and no pointer of the index is the cell of `addr`. -/
theorem Inv.delete {s : Sheet D} (hs : Inv s) {addr : Address} {old : CellPtr D}
    (hold : s.stored addr = some old) :
    Inv (s.deleteDependencies old) ∧
      ∀ A c, c ∈ (s.deleteDependencies old).dependents A → c.obj.getAddr ≠ addr := by
  have hmem := mem_dependents_deleteDependencies s old
  refine ⟨⟨?_, ?_, ?_, ?_, ?_⟩, ?_⟩
  · intro a c hc
    rw [stored_deleteDependencies] at hc
    exact hs.addr_eq a c hc
  · intro a c hc
    rw [stored_deleteDependencies] at hc
    rw [(deleteDependencies_frame s old).2.1]
    exact hs.ptr_lt a c hc
  · intro a b c d hc hd
    rw [stored_deleteDependencies] at hc hd
    exact hs.ptr_inj a b c d hc hd
  · intro A c hc
    rw [stored_deleteDependencies]
    exact hs.index_stored A c ((hmem c A).1 hc).1
  · intro A c hc
    exact hs.index_deps A c ((hmem c A).1 hc).1
  · intro A c hc haddr
    obtain ⟨h1, h2⟩ := (hmem c A).1 hc
    have hst := hs.index_stored A c h1
    rw [haddr, hold] at hst
    simp only [Option.some.injEq] at hst
    subst hst
    exact h2 ⟨rfl, hs.index_deps A _ h1⟩

/-- Erasing the entry of an address no pointer of the index lives at keeps
the invariant. -/
theorem Inv.erase {s : Sheet D} (hs : Inv s) {addr : Address}
    (hfree : ∀ A c, c ∈ s.dependents A → c.obj.getAddr ≠ addr) {n : Nat} (hn : s.nextPtr ≤ n) :
    Inv { s with m_Cells := Map.erase s.m_Cells addr, nextPtr := n } := by
  have hst : ∀ b c, ({ s with m_Cells := Map.erase s.m_Cells addr, nextPtr := n } : Sheet D).stored b
      = some c → s.stored b = some c ∧ addr ≠ b := by
    intro b c hc
    simp only [stored, Map.find_erase] at hc
    by_cases hab : addr = b
    · simp [hab] at hc
    · simp only [hab, if_false] at hc
      exact ⟨hc, hab⟩
  refine ⟨?_, ?_, ?_, ?_, ?_⟩
  · intro a c hc
    exact hs.addr_eq a c (hst a c hc).1
  · intro a c hc
    exact lt_of_lt_of_le (hs.ptr_lt a c (hst a c hc).1) hn
  · intro a b c d hc hd
    exact hs.ptr_inj a b c d (hst a c hc).1 (hst b d hd).1
  · intro A c hc
    have hc' : c ∈ s.dependents A := hc
    have := hs.index_stored A c hc'
    have hne := hfree A c hc'
    simp only [stored, Map.find_erase]
    rw [if_neg (fun h => hne h.symm)]
    exact this
  · intro A c hc
    exact hs.index_deps A c hc

/-- Storing a fresh cell under its address, where no pointer of the index
lives, and registering its dependencies keeps the invariant. -/
theorem Inv.put {s : Sheet D} (hs : Inv s) {addr : Address}
    (hfree : ∀ A c, c ∈ s.dependents A → c.obj.getAddr ≠ addr) {obj : CellBase D}
    (haddr : obj.getAddr = addr) :
    Inv (createDependencies
      { s with m_Cells := Map.set s.m_Cells addr ⟨s.nextPtr, obj⟩, nextPtr := s.nextPtr + 1 }
      ⟨s.nextPtr, obj⟩) := by
  have hst : ∀ b c, (createDependencies
      { s with m_Cells := Map.set s.m_Cells addr ⟨s.nextPtr, obj⟩, nextPtr := s.nextPtr + 1 }
      ⟨s.nextPtr, obj⟩).stored b = some c →
      (addr = b ∧ c = ⟨s.nextPtr, obj⟩) ∨ (addr ≠ b ∧ s.stored b = some c) := by
    intro b c hc
    rw [stored_createDependencies] at hc
    simp only [stored, Map.find_set] at hc
    by_cases hab : addr = b
    · simp only [hab, if_true, Option.some.injEq] at hc
      exact Or.inl ⟨hab, hc.symm⟩
    · simp only [hab, if_false] at hc
      exact Or.inr ⟨hab, hc⟩
  have hdep : ∀ A c, c ∈ (createDependencies
      { s with m_Cells := Map.set s.m_Cells addr ⟨s.nextPtr, obj⟩, nextPtr := s.nextPtr + 1 }
      ⟨s.nextPtr, obj⟩).dependents A →
      c ∈ s.dependents A ∨ (c = ⟨s.nextPtr, obj⟩ ∧ A ∈ obj.getDependencies) := by
    intro A c hc
    rcases (mem_dependents_createDependencies _ _ c A).1 hc with h | ⟨h1, h2, -⟩
    · exact Or.inl h
    · exact Or.inr ⟨h1, h2⟩
  have hnew : (createDependencies
      { s with m_Cells := Map.set s.m_Cells addr ⟨s.nextPtr, obj⟩, nextPtr := s.nextPtr + 1 }
      ⟨s.nextPtr, obj⟩).stored addr = some ⟨s.nextPtr, obj⟩ := by
    rw [stored_createDependencies]
    simp [stored, Map.find_set]
  have hkeep : ∀ b c, addr ≠ b → s.stored b = some c → (createDependencies
      { s with m_Cells := Map.set s.m_Cells addr ⟨s.nextPtr, obj⟩, nextPtr := s.nextPtr + 1 }
      ⟨s.nextPtr, obj⟩).stored b = some c := by
    intro b c hab hc
    rw [stored_createDependencies]
    simp only [stored, Map.find_set, hab, if_false]
    exact hc
  refine ⟨?_, ?_, ?_, ?_, ?_⟩
  · intro a c hc
    rcases hst a c hc with ⟨h1, h2⟩ | ⟨-, h2⟩
    · subst h2
      rw [← h1]
      exact haddr
    · exact hs.addr_eq a c h2
  · intro a c hc
    rw [(createDependencies_frame _ _).2.1]
    rcases hst a c hc with ⟨-, h2⟩ | ⟨-, h2⟩
    · subst h2
      exact Nat.lt_succ_self _
    · exact Nat.lt_succ_of_lt (hs.ptr_lt a c h2)
  · intro a b c d hc hd hp
    rcases hst a c hc with ⟨h1, h2⟩ | ⟨h1, h2⟩ <;> rcases hst b d hd with ⟨h3, h4⟩ | ⟨h3, h4⟩
    · rw [← h1, ← h3]
    · subst h2
      have := hs.ptr_lt b d h4
      simp only at hp
      omega
    · subst h4
      have := hs.ptr_lt a c h2
      simp only at hp
      omega
    · exact hs.ptr_inj a b c d h2 h4 hp
  · intro A c hc
    rcases hdep A c hc with h | ⟨h1, -⟩
    · exact hkeep _ c (fun hab => hfree A c h hab.symm) (hs.index_stored A c h)
    · subst h1
      simp only [haddr]
      exact hnew
  · intro A c hc
    rcases hdep A c hc with h | ⟨h1, h2⟩
    · exact hs.index_deps A c h
    · subst h1
      exact h2

end Sheet

/-! ## The effect of the setters -/

namespace Sheet

variable {D : Type}

theorem Step.of_put {s : Sheet D} {addr : Address} {N : Prop} {Q : CellBase D → Prop}
    (base : Sheet D) (obj : CellBase D)
    (hbase : (s.stored addr = none ∧ base = s) ∨
      ∃ old, s.stored addr = some old ∧ base = s.deleteDependencies old)
    (hQ : Q obj)
    (haddr : obj.getAddr = addr ∨ ∃ old, s.stored addr = some old ∧ obj.getAddr = old.obj.getAddr) :
    Step s addr N Q (dispatch
      (createDependencies
        { base with m_Cells := Map.set base.m_Cells addr ⟨base.nextPtr, obj⟩,
                    nextPtr := base.nextPtr + 1 } ⟨base.nextPtr, obj⟩)
      ⟨base.nextPtr, obj⟩) := by
  obtain ⟨evs, hevs, hd⟩ := dispatch_eq
    (createDependencies
        { base with m_Cells := Map.set base.m_Cells addr ⟨base.nextPtr, obj⟩,
                    nextPtr := base.nextPtr + 1 } ⟨base.nextPtr, obj⟩) ⟨base.nextPtr, obj⟩
  rw [hd]
  exact Step.put base obj evs hbase hQ haddr hevs

theorem Step.of_erase {s : Sheet D} {addr : Address} {N : Prop} {Q : CellBase D → Prop}
    (old root : CellPtr D) (n : Nat) (hold : s.stored addr = some old)
    (hroot : root = old ∨ root.ptr = (s.deleteDependencies old).nextPtr)
    (haddr : root.obj.getAddr = old.obj.getAddr)
    (hn : (s.deleteDependencies old).nextPtr ≤ n) :
    Step s addr N Q (dispatch
      { s.deleteDependencies old with
        m_Cells := Map.erase (s.deleteDependencies old).m_Cells addr, nextPtr := n } root) := by
  obtain ⟨evs, hevs, hd⟩ := dispatch_eq
    ({ s.deleteDependencies old with
        m_Cells := Map.erase (s.deleteDependencies old).m_Cells addr, nextPtr := n } : Sheet D) root
  rw [hd]
  exact Step.erased old root evs n hold hroot haddr hn hevs

/-- The effect of `setCellContent` has one of the four shapes. -/
theorem setCellContent_step (h : Host D) (s : Sheet D) (addr : Address) (text : Str) :
    Step s addr (s.stored addr = none ∧ text = []) (NotEmptyString h)
      (s.setCellContent h addr text) := by
  unfold setCellContent
  cases hst : Map.find s.m_Cells addr with
  | none =>
    simp only
    by_cases ht : text.isEmpty = true
    · rw [if_pos ht]
      exact Step.same _ (fun _ => ⟨hst, by simpa using ht⟩)
    · rw [if_neg ht]
      cases hm : CellBase.make h .string addr text with
      | ok obj =>
        simp only
        refine Step.of_put s obj (Or.inl ⟨hst, rfl⟩) ?_ (Or.inl (CellBase.make_props hm).1)
        intro hq
        exact ht (by rw [CellBase.make_string_source hm hq.2]; rfl)
      | error e => exact Step.same _ (fun hr => by simp at hr)
      | diverge => exact Step.same _ (fun hr => by simp at hr)
  | some old =>
    simp only
    cases hm : old.obj.create h text with
    | ok obj =>
      simp only
      split
      · exact Step.of_erase old ⟨(s.deleteDependencies old).nextPtr, obj⟩ _ hst (Or.inr rfl)
          (CellBase.make_props hm).1 (Nat.le_succ _)
      · rename_i hq
        exact Step.of_put (s.deleteDependencies old) obj (Or.inr ⟨old, hst, rfl⟩)
          (fun hq' => hq ⟨hq'.2, hq'.1⟩) (Or.inr ⟨old, hst, (CellBase.make_props hm).1⟩)
    | error e => exact Step.deleted old _ hst (by simp)
    | diverge => exact Step.deleted old _ hst (by simp)

/-- The effect of `setCellType` has one of the four shapes. -/
theorem setCellType_step (h : Host D) (s : Sheet D) (ty : Ty) (addr : Address) :
    Step s addr (s.stored addr = none ∧ ty = .string) (NotEmptyString h)
      (s.setCellType h ty addr) := by
  unfold setCellType
  cases hst : Map.find s.m_Cells addr with
  | none =>
    simp only
    by_cases ht : ty = .string
    · rw [if_pos ht]
      exact Step.same _ (fun _ => ⟨hst, ht⟩)
    · rw [if_neg ht]
      have hp := CellBase.makeDefault_props h ty addr
      have := Step.of_put (N := s.stored addr = none ∧ ty = .string) (Q := NotEmptyString h)
        s (CellBase.makeDefault h ty addr) (Or.inl ⟨hst, rfl⟩)
        (fun hq => ht (by rw [← hp.2.1]; exact hq.1)) (Or.inl hp.1)
      rw [createDependencies_nil (by exact hp.2.2)] at this
      exact this
  | some old =>
    simp only
    split
    · exact Step.of_erase old old _ hst (Or.inl rfl) rfl (le_refl _)
    · rename_i hcond
      cases hm : CellBase.make h ty addr (old.obj.getContentSource h) with
      | ok obj =>
        simp only
        refine Step.of_put (s.deleteDependencies old) obj (Or.inr ⟨old, hst, rfl⟩) ?_
          (Or.inl (CellBase.make_props hm).1)
        intro hq
        have hty : ty = .string := by rw [← (CellBase.make_props hm).2]; exact hq.1
        subst hty
        have hsrc := CellBase.make_string_source hm hq.2
        exact hcond ⟨rfl, by rw [hsrc]; rfl⟩
      | error e => exact Step.same _ (fun hr => by simp at hr)
      | diverge => exact Step.same _ (fun hr => by simp at hr)

theorem Step.callback {s : Sheet D} {addr : Address} {N : Prop} {Q : CellBase D → Prop}
    {e : Effect D} (he : Step s addr N Q e) :
    e.sheet.m_CellContentChanged = s.m_CellContentChanged := by
  cases he with
  | same r hr => rfl
  | deleted old r hold hr => exact (deleteDependencies_frame s old).2.2
  | erased old root evs n hold hroot haddr hn hevs => exact (deleteDependencies_frame s old).2.2
  | put base obj evs hbase hQ haddr hevs =>
    rw [(createDependencies_frame _ _).2.2]
    rcases hbase with ⟨_, rfl⟩ | ⟨old, _, rfl⟩
    · rfl
    · exact (deleteDependencies_frame s old).2.2

/-- The base sheet of a `put` satisfies the invariant, has no pointer of the
index at `addr` and stores what `s` stores; the new cell has address `addr`. -/
theorem Step.base_facts {s : Sheet D} (hs : Inv s) {addr : Address} {base : Sheet D}
    {obj : CellBase D}
    (hbase : (s.stored addr = none ∧ base = s) ∨
      ∃ old, s.stored addr = some old ∧ base = s.deleteDependencies old)
    (haddr : obj.getAddr = addr ∨ ∃ old, s.stored addr = some old ∧ obj.getAddr = old.obj.getAddr) :
    Inv base ∧ (∀ A c, c ∈ base.dependents A → c.obj.getAddr ≠ addr) ∧
      (∀ b, base.stored b = s.stored b) ∧ obj.getAddr = addr := by
  have ha : obj.getAddr = addr := by
    rcases haddr with h | ⟨old, hold, h⟩
    · exact h
    · rw [h]
      exact hs.addr_eq addr old hold
  rcases hbase with ⟨hnone, rfl⟩ | ⟨old, hold, rfl⟩
  · refine ⟨hs, ?_, fun _ => rfl, ha⟩
    intro A c hc hca
    have := hs.index_stored A c hc
    rw [hca, hnone] at this
    simp at this
  · exact ⟨(Inv.delete hs hold).1, (Inv.delete hs hold).2, stored_deleteDependencies s old, ha⟩

/-- Every setter keeps the representation invariant, also when it throws. -/
theorem Step.inv {s : Sheet D} (hs : Inv s) {addr : Address} {N : Prop} {Q : CellBase D → Prop}
    {e : Effect D} (he : Step s addr N Q e) : Inv e.sheet := by
  cases he with
  | same r hr => exact hs
  | deleted old r hold hr => exact (Inv.delete hs hold).1
  | erased old root evs n hold hroot haddr hn hevs =>
    exact Inv.erase (Inv.delete hs hold).1 (Inv.delete hs hold).2 hn
  | put base obj evs hbase hQ haddr hevs =>
    obtain ⟨hb, hfree, -, ha⟩ := Step.base_facts hs hbase haddr
    exact Inv.put hb hfree ha

/-- A setter that returns keeps the index complete. -/
theorem Step.complete {s : Sheet D} (hs : Inv s) (hc : Complete s) {addr : Address} {N : Prop}
    {Q : CellBase D → Prop} {e : Effect D} (he : Step s addr N Q e) (hok : e.result = .ok ()) :
    Complete e.sheet := by
  cases he with
  | same r hr => exact hc
  | deleted old r hold hr => exact absurd hok hr
  | erased old root evs n hold hroot haddr hn hevs =>
    intro b c hb A hA
    simp only [stored, Map.find_erase] at hb
    by_cases hab : addr = b
    · simp [hab] at hb
    · simp only [hab, if_false] at hb
      have hb' : s.stored b = some c := by
        rw [← stored_deleteDependencies s old b]
        exact hb
      show c ∈ (s.deleteDependencies old).dependents A
      rw [mem_dependents_deleteDependencies]
      refine ⟨hc b c hb' A hA, ?_⟩
      rintro ⟨hp, -⟩
      exact hab (hs.ptr_inj b addr c old hb' hold hp).symm
  | put base obj evs hbase hQ haddr hevs =>
    obtain ⟨hbinv, hfree, hstored, ha⟩ := Step.base_facts hs hbase haddr
    intro b c hb A hA
    rw [stored_createDependencies] at hb
    simp only [stored, Map.find_set] at hb
    rw [mem_dependents_createDependencies]
    by_cases hab : addr = b
    · simp only [hab, if_true, Option.some.injEq] at hb
      subst hb
      by_cases hin : (⟨base.nextPtr, obj⟩ : CellPtr D) ∈ base.dependents A
      · exact Or.inl hin
      · refine Or.inr ⟨rfl, hA, ?_⟩
        rw [Bool.eq_false_iff]
        intro hcon
        rw [PtrSet.contains_iff] at hcon
        obtain ⟨x, hx, hxp⟩ := hcon
        have hx' : x ∈ base.dependents A := hx
        have := hbinv.ptr_lt _ x (hbinv.index_stored A x hx')
        simp only at hxp
        omega
    · simp only [hab, if_false] at hb
      have hb' : s.stored b = some c := by
        rw [← hstored b]
        exact hb
      left
      show c ∈ base.dependents A
      rcases hbase with ⟨_, rfl⟩ | ⟨old, hold, rfl⟩
      · exact hc b c hb' A hA
      · rw [mem_dependents_deleteDependencies]
        refine ⟨hc b c hb' A hA, ?_⟩
        rintro ⟨hp, -⟩
        exact hab (hs.ptr_inj b addr c old hb' hold hp).symm

/-- Every setter keeps invariant I1, also when it throws. -/
theorem Step.noEmptyString {h : Host D} {s : Sheet D} (hs : NoEmptyString h s) {addr : Address}
    {N : Prop} {e : Effect D} (he : Step s addr N (NotEmptyString h) e) :
    NoEmptyString h e.sheet := by
  cases he with
  | same r hr => exact hs
  | deleted old r hold hr =>
    intro b c hb
    rw [stored_deleteDependencies] at hb
    exact hs b c hb
  | erased old root evs n hold hroot haddr hn hevs =>
    intro b c hb
    simp only [stored, Map.find_erase] at hb
    by_cases hab : addr = b
    · simp [hab] at hb
    · simp only [hab, if_false] at hb
      have hb' : s.stored b = some c := by
        rw [← stored_deleteDependencies s old b]
        exact hb
      exact hs b c hb'
  | put base obj evs hbase hQ haddr hevs =>
    intro b c hb
    rw [stored_createDependencies] at hb
    simp only [stored, Map.find_set] at hb
    by_cases hab : addr = b
    · simp only [hab, if_true, Option.some.injEq] at hb
      subst hb
      exact hQ
    · simp only [hab, if_false] at hb
      have hb' : s.stored b = some c := by
        rcases hbase with ⟨_, rfl⟩ | ⟨old, hold, rfl⟩
        · exact hb
        · rw [← stored_deleteDependencies s old b]
          exact hb
      exact hs b c hb'

/-- In a sheet that satisfies the invariant an identity stands for one object
among the cells of the index and a root that is stored under its address or
shares its identity with no cell of the index. -/
theorem Inv.consistent {s : Sheet D} (hs : Inv s) {r : CellPtr D}
    (hr : s.stored r.obj.getAddr = some r ∨ ∀ x, s.InIndex x → x.ptr ≠ r.ptr) :
    ∀ x y, x = r ∨ s.InIndex x → y = r ∨ s.InIndex y → x.ptr = y.ptr → x = y := by
  have hidx : ∀ x, s.InIndex x → s.stored x.obj.getAddr = some x := by
    rintro x ⟨A, hA⟩
    exact hs.index_stored A x hA
  have hst : ∀ x y, s.stored x.obj.getAddr = some x → s.stored y.obj.getAddr = some y →
      x.ptr = y.ptr → x = y := by
    intro x y hx hy hp
    have := hs.ptr_inj _ _ x y hx hy hp
    rw [this, hy] at hx
    simpa using hx.symm
  intro x y hx hy hp
  rcases hx with rfl | hx <;> rcases hy with rfl | hy
  · rfl
  · rcases hr with hr | hr
    · exact hst _ _ hr (hidx y hy) hp
    · exact absurd hp.symm (hr y hy)
  · rcases hr with hr | hr
    · exact hst _ _ (hidx x hx) hr hp
    · exact absurd hp (hr x hx)
  · exact hst _ _ (hidx x hx) (hidx y hy) hp

/-- A dispatch from a cell of address `addr` that is consistent with the
index notifies the cell first and then every dependent of `addr`. -/
theorem notified_of_dispatch {s : Sheet D} (hs : Inv s) (hcb : s.m_CellContentChanged = true)
    {root : CellPtr D} {addr : Address} (haddr : root.obj.getAddr = addr)
    (hr : s.stored root.obj.getAddr = some root ∨ ∀ x, s.InIndex x → x.ptr ≠ root.ptr)
    (hst : ∀ c, s.stored addr = some c → c = root)
    {evs : List (CellPtr D)} (hevs : s.distributeContentChangedEvent root = .ok evs) :
    Notified ⟨s, evs, .ok ()⟩ addr := by
  obtain ⟨rest, hrest⟩ := distributeContentChangedEvent_head hcb hevs
  refine ⟨root, rest, hrest, haddr, hst, ?_⟩
  intro d hd
  exact distribute_covers hcb (Inv.consistent hs hr) _ root [] evs (Or.inl rfl) hevs d
    (Dependent.reach haddr hd)

/-- A setter that returns and is not in its do-nothing case notifies the
changed cell first and every dependent of its address. -/
theorem Step.notified {s : Sheet D} (hs : Inv s) (hcb : s.m_CellContentChanged = true)
    {addr : Address} {N : Prop} {Q : CellBase D → Prop} {e : Effect D} (he : Step s addr N Q e)
    (hok : e.result = .ok ()) (hN : ¬ N) : Notified e addr := by
  have hinv := Step.inv hs he
  have hcb' := he.callback
  cases he with
  | same r hr => exact absurd (hr hok) hN
  | deleted old r hold hr => exact absurd hok hr
  | erased old root evs n hold hroot haddr hn hevs =>
    refine notified_of_dispatch hinv (by rw [hcb']; exact hcb)
      (by rw [haddr]; exact hs.addr_eq addr old hold) (Or.inr ?_)
      (by intro c hc; simp [stored, Map.find_erase] at hc) hevs
    rintro x ⟨A, hA⟩ hp
    have hx := hinv.index_stored A x hA
    simp only [stored, Map.find_erase] at hx
    by_cases hab : addr = x.obj.getAddr
    · simp [hab] at hx
    · simp only [hab, if_false] at hx
      have hx' : s.stored x.obj.getAddr = some x := by
        rw [← stored_deleteDependencies s old]
        exact hx
      rcases hroot with rfl | hroot
      · exact hab (hs.ptr_inj _ _ x root hx' hold hp).symm
      · have := hs.ptr_lt _ x hx'
        rw [(deleteDependencies_frame s old).2.1] at hroot
        omega
  | put base obj evs hbase hQ haddr hevs =>
    obtain ⟨-, -, -, ha⟩ := Step.base_facts hs hbase haddr
    have hnew : (createDependencies
        { base with m_Cells := Map.set base.m_Cells addr ⟨base.nextPtr, obj⟩,
                    nextPtr := base.nextPtr + 1 } ⟨base.nextPtr, obj⟩).stored addr
        = some ⟨base.nextPtr, obj⟩ := by
      rw [stored_createDependencies]
      simp [stored, Map.find_set]
    refine notified_of_dispatch hinv (by rw [hcb']; exact hcb) ha (Or.inl ?_) ?_ hevs
    · rw [ha]
      exact hnew
    · intro c hc
      rw [hnew] at hc
      simpa using hc.symm

/-! ## Sequences of calls -/

theorem apply_inv (h : Host D) {s : Sheet D} (hs : Inv s) (op : Op) : Inv (s.apply h op).sheet := by
  cases op with
  | setCellContent addr text => exact Step.inv hs (setCellContent_step h s addr text)
  | setCellType ty addr => exact Step.inv hs (setCellType_step h s ty addr)
  | attachCellContentChangedEvent installed => exact ⟨hs.1, hs.2, hs.3, hs.4, hs.5⟩

theorem run_inv (h : Host D) (ops : List Op) : ∀ {s : Sheet D}, Inv s → Inv (s.run h ops) := by
  induction ops with
  | nil => exact fun hs => hs
  | cons op rest ih => exact fun hs => ih (apply_inv h hs op)

theorem apply_complete (h : Host D) {s : Sheet D} (hs : Inv s) (hc : Complete s) (op : Op)
    (hok : (s.apply h op).result = .ok ()) : Complete (s.apply h op).sheet := by
  cases op with
  | setCellContent addr text => exact Step.complete hs hc (setCellContent_step h s addr text) hok
  | setCellType ty addr => exact Step.complete hs hc (setCellType_step h s ty addr) hok
  | attachCellContentChangedEvent installed => exact hc

theorem isOk_unit {r : Res Unit} (hr : r.isOk = true) : r = .ok () := by
  cases r with
  | ok a => rfl
  | error e => simp [Res.isOk] at hr
  | diverge => simp [Res.isOk] at hr

theorem run_complete (h : Host D) (ops : List Op) :
    ∀ {s : Sheet D}, Inv s → Complete s → s.allReturn h ops = true → Complete (s.run h ops) := by
  induction ops with
  | nil => exact fun _ hc _ => hc
  | cons op rest ih =>
    intro s hs hc hall
    simp only [allReturn, Bool.and_eq_true] at hall
    exact ih (apply_inv h hs op) (apply_complete h hs hc op (isOk_unit hall.1)) hall.2

theorem apply_noEmptyString (h : Host D) {s : Sheet D} (hs : NoEmptyString h s) (op : Op) :
    NoEmptyString h (s.apply h op).sheet := by
  cases op with
  | setCellContent addr text => exact Step.noEmptyString hs (setCellContent_step h s addr text)
  | setCellType ty addr => exact Step.noEmptyString hs (setCellType_step h s ty addr)
  | attachCellContentChangedEvent installed => exact hs

theorem run_noEmptyString (h : Host D) (ops : List Op) :
    ∀ {s : Sheet D}, NoEmptyString h s → NoEmptyString h (s.run h ops) := by
  induction ops with
  | nil => exact fun hs => hs
  | cons op rest ih => exact fun hs => ih (apply_noEmptyString h hs op)

end Sheet

/-! ## The claims about the sheet -/

namespace Sheet

variable {D : Type}

theorem dispatch_sheet (s : Sheet D) (cell : CellPtr D) : (dispatch s cell).sheet = s := by
  obtain ⟨evs, -, hd⟩ := dispatch_eq s cell
  rw [hd]

theorem dispatch_result (s : Sheet D) (cell : CellPtr D) : (dispatch s cell).result = .ok () := by
  obtain ⟨evs, -, hd⟩ := dispatch_eq s cell
  rw [hd]

/-- The text of a cell that holds a literal is the literal as a string. -/
theorem getContentText_literal_double (h : Host D) (s : Sheet D) (p : Nat) (a : Address)
    (deps : List Address) (f : Bool) (v : D) :
    s.getContentText h ⟨p, .double ⟨a, deps, f, .Literal v⟩⟩ = .ok (h.dtoString v) := by
  simp [getContentText, getContent, Function.evaluate, doubleOps, CellBase.linkCount,
    Function.linkCount]

theorem getContentText_default_string (h : Host D) (s : Sheet D) (p : Nat) (a : Address) :
    s.getContentText h ⟨p, .string (Cell.createDefault (stringOps D) a)⟩ = .ok [] := by
  simp [getContentText, getContent, Function.evaluate, stringOps, CellBase.linkCount,
    Function.linkCount, Cell.createDefault, stringToString]

end Sheet

variable {D : Type}

/-- C1 (the code breaks the claim): on the sheet whose string cell `A1` has the
source `=B1`, `setCellContent(A1, "=(")` throws `IncorrectFormulaSyntaxException`
and leaves `A1` stored with its dependency on `B1`, but the set of `B1` in the
dependency index, which held the cell before the call, is empty after it. -/
theorem setCellContent_failure_changes_index :
    (linkSheet.setCellContent exampleHost (addr "A1") (str "=(")).result
        = .error .IncorrectFormulaSyntaxException ∧
      (linkSheet.setCellContent exampleHost (addr "A1") (str "=(")).sheet.m_Cells
        = linkSheet.m_Cells ∧
      (linkSheet.stored (addr "A1")).map (fun c => c.obj.getDependencies) = some [addr "B1"] ∧
      (linkSheet.dependents (addr "B1")).map (fun c => c.obj.getAddr) = [addr "A1"] ∧
      (linkSheet.setCellContent exampleHost (addr "A1") (str "=(")).sheet.dependents (addr "B1")
        = [] := by
  decide

/-- C2: when `setCellType` throws, whatever the exception, the sheet (its cell
map and its dependency index) is the one before the call and the callback was
not called. -/
theorem setCellType_failure_unchanged (h : Host D) (s : Sheet D) (ty : Ty) (addr : Address)
    (e : Exception) (hfail : (s.setCellType h ty addr).result = .error e) :
    (s.setCellType h ty addr).sheet = s ∧ (s.setCellType h ty addr).events = [] := by
  unfold Sheet.setCellType at hfail ⊢
  cases hst : Map.find s.m_Cells addr with
  | none =>
    simp only [hst] at hfail ⊢
    split
    · exact ⟨rfl, rfl⟩
    · rename_i ht
      rw [if_neg ht, Sheet.dispatch_result] at hfail
      simp at hfail
  | some old =>
    simp only [hst] at hfail ⊢
    split
    · rename_i hc
      rw [if_pos hc, Sheet.dispatch_result] at hfail
      simp at hfail
    · rename_i hc
      rw [if_neg hc] at hfail
      cases hm : CellBase.make h ty addr (old.obj.getContentSource h) with
      | ok obj =>
        simp only [hm, Sheet.dispatch_result] at hfail
        simp at hfail
      | error e' => exact ⟨rfl, rfl⟩
      | diverge => exact ⟨rfl, rfl⟩

/-- Witness of C2: on the sheet with the string cell `A1` = `abc`,
`setCellType<int>(A1)` throws `InvalidTypeException` and changes nothing. -/
theorem setCellType_failure_unchanged_witness :
    (textSheet.setCellType exampleHost .int (addr "A1")).result = .error .InvalidTypeException ∧
      (textSheet.setCellType exampleHost .int (addr "A1")).sheet = textSheet ∧
      (textSheet.setCellType exampleHost .int (addr "A1")).events = [] :=
  ⟨by decide,
    setCellType_failure_unchanged exampleHost textSheet .int (addr "A1") .InvalidTypeException
      (by decide)⟩

/-- C3 (the code breaks the claim): in the diamond where `B1` and `C1` link to
`A1` and `D1` links to `B1` and `C1`, the one dispatch of
`setCellContent(A1, "b")` calls the callback for `A1`, `B1`, `D1`, `C1`, `D1`
(in the iteration order of the model): twice for `D1`. -/
theorem diamond_notifies_twice :
    ((((Sheet.empty ExampleDouble).run exampleHost diamondOps).setCellContent exampleHost
        (addr "A1") (str "b")).events.map (fun c => c.obj.getAddr))
      = [addr "A1", addr "B1", addr "D1", addr "C1", addr "D1"] ∧
    ((((Sheet.empty ExampleDouble).run exampleHost diamondOps).setCellContent exampleHost
        (addr "A1") (str "b")).events.map (fun c => c.obj.getAddr)).count (addr "D1") = 2 := by
  decide

/-- C4: on a sheet built from the empty sheet by calls of the interface, with
a callback installed, a `setCellContent` or `setCellType` at `A` that returns
and is not a call that does nothing (absent cell and empty text, or absent
cell and type string) calls the callback first with the changed cell of `A`
(the cell then stored at `A`, or the cell just erased from it) and calls it
with every direct or transitive dependent of `A` in the dependency index.
For the chain of the test, the change of `C1` notifies `C1`, `C2`, `C3`, `C4`. -/
theorem dispatch_notifies_dependents (h : Host D) (ops : List Op) (A : Address)
    (hcb : ((Sheet.empty D).run h ops).m_CellContentChanged = true) :
    (∀ text, (((Sheet.empty D).run h ops).setCellContent h A text).result = .ok () →
        ¬ (((Sheet.empty D).run h ops).stored A = none ∧ text = []) →
        Sheet.Notified (((Sheet.empty D).run h ops).setCellContent h A text) A) ∧
      (∀ ty, (((Sheet.empty D).run h ops).setCellType h ty A).result = .ok () →
        ¬ (((Sheet.empty D).run h ops).stored A = none ∧ ty = .string) →
        Sheet.Notified (((Sheet.empty D).run h ops).setCellType h ty A) A) ∧
      ((((Sheet.empty ExampleDouble).run exampleHost chainOps).setCellContent exampleHost
          (addr "C1") (str "2")).events.map (fun c => c.obj.getAddr)
        = [addr "C1", addr "C2", addr "C3", addr "C4"]) := by
  have hI := Sheet.run_inv h ops (Sheet.Inv.empty D)
  refine ⟨?_, ?_, by decide⟩
  · intro text hok hN
    exact Sheet.Step.notified hI hcb (Sheet.setCellContent_step h _ A text) hok hN
  · intro ty hok hN
    exact Sheet.Step.notified hI hcb (Sheet.setCellType_step h _ ty A) hok hN

/-- Witness of C4: the change of `C1` in the chain of the test. -/
theorem dispatch_notifies_dependents_witness :
    ((Sheet.empty ExampleDouble).run exampleHost chainOps).m_CellContentChanged = true ∧
      Sheet.Notified
        (((Sheet.empty ExampleDouble).run exampleHost chainOps).setCellContent exampleHost
          (addr "C1") (str "2")) (addr "C1") :=
  ⟨by decide,
    (dispatch_notifies_dependents exampleHost chainOps (addr "C1") (by decide)).1 (str "2")
      (by decide) (by decide)⟩

/-- C5: after a sequence of calls from the empty sheet each of which returns,
a cell is in the set of the address `A` in the dependency index exactly when
it is a stored cell whose dependency list contains `A`. -/
theorem dependency_index_is_inversion (h : Host D) (ops : List Op)
    (hall : (Sheet.empty D).allReturn h ops = true) (A : Address) (c : CellPtr D) :
    c ∈ ((Sheet.empty D).run h ops).dependents A ↔
      (∃ a, ((Sheet.empty D).run h ops).stored a = some c) ∧ A ∈ c.obj.getDependencies := by
  have hI := Sheet.run_inv h ops (Sheet.Inv.empty D)
  have hC : Sheet.Complete ((Sheet.empty D).run h ops) :=
    Sheet.run_complete h ops (Sheet.Inv.empty D)
      (by intro a c hc; simp [Sheet.empty, Sheet.stored, Map.find] at hc) hall
  constructor
  · intro hc
    exact ⟨⟨_, hI.index_stored A c hc⟩, hI.index_deps A c hc⟩
  · rintro ⟨⟨a, ha⟩, hA⟩
    exact hC a c ha A hA

/-- Witness of C5: in the chain of the test the set of `C1` holds the cell
`C2`, which is stored and depends on `C1`. -/
theorem dependency_index_is_inversion_witness :
    (Sheet.empty ExampleDouble).allReturn exampleHost chainOps = true ∧
      ((⟨3, .int ⟨addr "C2", [addr "C1"], true, .Add (.Link (addr "C1")) (.Literal 1)⟩⟩ :
          CellPtr ExampleDouble)
        ∈ ((Sheet.empty ExampleDouble).run exampleHost chainOps).dependents (addr "C1") ↔
        (∃ a, ((Sheet.empty ExampleDouble).run exampleHost chainOps).stored a
          = some ⟨3, .int ⟨addr "C2", [addr "C1"], true, .Add (.Link (addr "C1")) (.Literal 1)⟩⟩) ∧
        addr "C1" ∈ (CellBase.int (D := ExampleDouble)
          ⟨addr "C2", [addr "C1"], true, .Add (.Link (addr "C1")) (.Literal 1)⟩).getDependencies) :=
  ⟨by decide, dependency_index_is_inversion exampleHost chainOps (by decide) (addr "C1") _⟩

/-- C6: after any sequence of calls from the empty sheet, returning or
throwing, no stored cell is a string cell with empty source text. -/
theorem no_empty_string_cell (h : Host D) (ops : List Op) (a : Address) (c : CellPtr D)
    (hc : ((Sheet.empty D).run h ops).stored a = some c) :
    ¬ (c.obj.ty = .string ∧ (c.obj.getContentSource h).isEmpty = true) :=
  Sheet.run_noEmptyString h ops
    (by intro a c hc; simp [Sheet.empty, Sheet.stored, Map.find] at hc) a c hc

/-- Witness of C6: the string cell `A1` = `abc`. -/
theorem no_empty_string_cell_witness :
    ((Sheet.empty ExampleDouble).run exampleHost [.setCellContent (addr "A1") (str "abc")]).stored
        (addr "A1") = some ⟨0, .string ⟨addr "A1", [], false, .Literal (str "abc")⟩⟩ ∧
      ¬ ((CellBase.string (D := ExampleDouble) ⟨addr "A1", [], false, .Literal (str "abc")⟩).ty
            = .string ∧
          ((CellBase.string (D := ExampleDouble)
            ⟨addr "A1", [], false, .Literal (str "abc")⟩).getContentSource exampleHost).isEmpty
            = true) :=
  ⟨by decide,
    no_empty_string_cell exampleHost [.setCellContent (addr "A1") (str "abc")] (addr "A1")
      ⟨0, .string ⟨addr "A1", [], false, .Literal (str "abc")⟩⟩ (by decide)⟩


/-- C7: for a stored string cell at `addr`, `setCellContent(addr, "")` returns
and removes `addr` from the cell map; `getCell(addr)` then gives the default
cell: a string cell with empty source, empty evaluated text, the address
`addr` and no dependencies. (`getCell` is a function of the sheet that returns
a cell only, so it changes neither the cell map nor the dependency index.) -/
theorem setCellContent_empty_erases (h : Host D) (s : Sheet D) (addr : Address) (c : CellPtr D)
    (hc : s.stored addr = some c) (hty : c.obj.ty = .string) :
    (s.setCellContent h addr []).result = .ok () ∧
      (s.setCellContent h addr []).sheet.stored addr = none ∧
      ((s.setCellContent h addr []).sheet.getCell addr).obj
        = .string (Cell.createDefault (stringOps D) addr) ∧
      ((s.setCellContent h addr []).sheet.getCell addr).obj.getType h = str "string" ∧
      ((s.setCellContent h addr []).sheet.getCell addr).obj.getContentSource h = [] ∧
      (s.setCellContent h addr []).sheet.textAt h addr = .ok [] ∧
      ((s.setCellContent h addr []).sheet.getCell addr).obj.getAddr = addr ∧
      ((s.setCellContent h addr []).sheet.getCell addr).obj.getDependencies = [] := by
  have hfind : Map.find s.m_Cells addr = some c := hc
  have hcreate : c.obj.create h [] =
      .ok (.string (Cell.createDefault (stringOps D) c.obj.getAddr)) := by
    rw [CellBase.create, hty]
    exact CellBase.make_string_empty h _
  have hshape : s.setCellContent h addr [] =
      Sheet.dispatch
        { s.deleteDependencies c with
          m_Cells := Map.erase (s.deleteDependencies c).m_Cells addr,
          nextPtr := (s.deleteDependencies c).nextPtr + 1 }
        ⟨(s.deleteDependencies c).nextPtr,
          .string (Cell.createDefault (stringOps D) c.obj.getAddr)⟩ := by
    unfold Sheet.setCellContent
    simp only [hfind, hcreate]
    rw [if_pos ⟨rfl, rfl⟩]
  have hnone : (s.setCellContent h addr []).sheet.stored addr = none := by
    rw [hshape, Sheet.dispatch_sheet]
    simp [Sheet.stored, Map.find_erase]
  have hget := Sheet.getCell_of_absent hnone
  refine ⟨?_, hnone, ?_, ?_, ?_, ?_, ?_, ?_⟩
  · rw [hshape, Sheet.dispatch_result]
  · rw [hget]
  · rw [hget]
    rfl
  · rw [hget]
    rfl
  · rw [Sheet.textAt, hget]
    exact Sheet.getContentText_default_string h _ _ _
  · rw [hget]
    rfl
  · rw [hget]
    rfl

/-- Witness of C7: the string cell `A1` = `abc` of the example sheet. -/
theorem setCellContent_empty_erases_witness :
    textSheet.stored (addr "A1") = some ⟨0, .string ⟨addr "A1", [], false, .Literal (str "abc")⟩⟩ ∧
      (textSheet.setCellContent exampleHost (addr "A1") []).sheet.stored (addr "A1") = none ∧
      (textSheet.setCellContent exampleHost (addr "A1") []).sheet.textAt exampleHost (addr "A1")
        = .ok [] :=
  ⟨by decide,
    (setCellContent_empty_erases exampleHost textSheet (addr "A1")
      ⟨0, .string ⟨addr "A1", [], false, .Literal (str "abc")⟩⟩ (by decide) (by decide)).2.1,
    (setCellContent_empty_erases exampleHost textSheet (addr "A1")
      ⟨0, .string ⟨addr "A1", [], false, .Literal (str "abc")⟩⟩ (by decide) (by decide)).2.2.2.2.2.1⟩

/-- C8: on a sheet built from the empty sheet by calls of the interface, when
a cell of type `T` is stored at `addr` and `setCellContent(addr, text)`
returns, `getCell(addr)` is afterwards the cell `Cell<T>(sheet, addr, text)`,
of type `T`. After `setCellType<int>(A3)` and `setCellContent(A3, "5")` the
cell `A3` is an `int` cell with evaluated text and source `5`. -/
theorem setCellContent_keeps_type (h : Host D) :
    (∀ (ops : List Op) (addr : Address) (text : Str) (c : CellPtr D),
        ((Sheet.empty D).run h ops).stored addr = some c →
        (((Sheet.empty D).run h ops).setCellContent h addr text).result = .ok () →
        ∃ obj, CellBase.make h c.obj.ty addr text = .ok obj ∧
          ((((Sheet.empty D).run h ops).setCellContent h addr text).sheet.getCell addr).obj = obj ∧
          obj.ty = c.obj.ty) ∧
      ((((Sheet.empty D).run h
          [.setCellType .int (addr "A3"), .setCellContent (addr "A3") (str "5")]).getCell
            (addr "A3")).obj.ty = .int ∧
        ((Sheet.empty D).run h
          [.setCellType .int (addr "A3"), .setCellContent (addr "A3") (str "5")]).textAt h
            (addr "A3") = .ok (str "5") ∧
        (((Sheet.empty D).run h
          [.setCellType .int (addr "A3"), .setCellContent (addr "A3") (str "5")]).getCell
            (addr "A3")).obj.getContentSource h = str "5") := by
  refine ⟨?_, rfl, rfl, rfl⟩
  intro ops addr text c hc hok
  have hI := Sheet.run_inv h ops (Sheet.Inv.empty D)
  generalize (Sheet.empty D).run h ops = s at hc hok hI ⊢
  have hfind : Map.find s.m_Cells addr = some c := hc
  have haddr := hI.addr_eq addr c hc
  unfold Sheet.setCellContent at hok ⊢
  simp only [hfind] at hok ⊢
  cases hm : c.obj.create h text with
  | ok obj =>
    have hm' : CellBase.make h c.obj.ty addr text = .ok obj := by
      rw [← haddr]
      exact hm
    have hp := CellBase.make_props hm'
    refine ⟨obj, hm', ?_, hp.2⟩
    simp only
    split
    · rename_i hcond
      rw [Sheet.dispatch_sheet]
      have hnone : ({ s.deleteDependencies c with
          m_Cells := Map.erase (s.deleteDependencies c).m_Cells addr,
          nextPtr := (s.deleteDependencies c).nextPtr + 1 } : Sheet D).stored addr = none := by
        simp [Sheet.stored, Map.find_erase]
      have hget := Sheet.getCell_of_absent hnone
      have hstr : c.obj.ty = .string := by rw [← hp.2]; exact hcond.2
      rw [hstr] at hm'
      have htext := CellBase.make_string_source hm' hcond.1
      rw [htext, CellBase.make_string_empty] at hm'
      simp only [Res.ok.injEq] at hm'
      exact (congrArg CellPtr.obj hget).trans hm'
    · rw [Sheet.dispatch_sheet]
      have hst : (Sheet.createDependencies
          { s.deleteDependencies c with
            m_Cells := Map.set (s.deleteDependencies c).m_Cells addr
              ⟨(s.deleteDependencies c).nextPtr, obj⟩,
            nextPtr := (s.deleteDependencies c).nextPtr + 1 }
          ⟨(s.deleteDependencies c).nextPtr, obj⟩).stored addr
          = some ⟨(s.deleteDependencies c).nextPtr, obj⟩ := by
        rw [Sheet.stored_createDependencies]
        simp [Sheet.stored, Map.find_set]
      exact congrArg CellPtr.obj (Sheet.getCell_of_stored hst)
  | error e =>
    rw [hm] at hok
    simp at hok
  | diverge =>
    rw [hm] at hok
    simp at hok

/-- Witness of C8: `setCellContent(A3, "5")` on the sheet with the default
`int` cell `A3`. -/
theorem setCellContent_keeps_type_witness :
    ((Sheet.empty ExampleDouble).run exampleHost [.setCellType .int (addr "A3")]).stored (addr "A3")
        = some ⟨0, .int ⟨addr "A3", [], false, .Literal 0⟩⟩ ∧
      ∃ obj, CellBase.make exampleHost .int (addr "A3") (str "5") = .ok obj ∧
        ((((Sheet.empty ExampleDouble).run exampleHost
          [.setCellType .int (addr "A3")]).setCellContent exampleHost (addr "A3")
            (str "5")).sheet.getCell (addr "A3")).obj = obj ∧
        obj.ty = .int :=
  ⟨by decide,
    (setCellContent_keeps_type exampleHost).1 [.setCellType .int (addr "A3")] (addr "A3") (str "5")
      ⟨0, .int ⟨addr "A3", [], false, .Literal 0⟩⟩ (by decide) (by decide)⟩

/-- C9: for every sheet, when a cell is stored at `addr` and
`setCellType<T>(addr)` returns, `getCell(addr)` is afterwards the cell
`Cell<T>(sheet, addr, source)` for the source text of the old cell. After
`setCellContent(A5, "123")`, `setCellType<int>(A5)` gives the evaluated text
`123`, then `setCellType<string>(A5)` gives `123`, and then
`setCellType<double>(A5)` gives `123.000000` on a host whose `stod` reads
`123` as a value that its `to_string` prints as `123.000000`. -/
theorem setCellType_migrates (h : Host D) :
    (∀ (s : Sheet D) (ty : Ty) (addr : Address) (c : CellPtr D),
        s.stored addr = some c → (s.setCellType h ty addr).result = .ok () →
        ∃ obj, CellBase.make h ty addr (c.obj.getContentSource h) = .ok obj ∧
          ((s.setCellType h ty addr).sheet.getCell addr).obj = obj) ∧
      (((Sheet.empty D).run h
          [.setCellContent (addr "A5") (str "123"), .setCellType .int (addr "A5")]).textAt h
            (addr "A5") = .ok (str "123") ∧
        ((Sheet.empty D).run h
          [.setCellContent (addr "A5") (str "123"), .setCellType .int (addr "A5"),
            .setCellType .string (addr "A5")]).textAt h (addr "A5") = .ok (str "123") ∧
        ∀ v, h.stod (str "123") = some v → h.dtoString v = str "123.000000" →
          ((Sheet.empty D).run h
            [.setCellContent (addr "A5") (str "123"), .setCellType .int (addr "A5"),
              .setCellType .string (addr "A5"), .setCellType .double (addr "A5")]).textAt h
              (addr "A5") = .ok (str "123.000000")) := by
  have general : ∀ (s : Sheet D) (ty : Ty) (addr : Address) (c : CellPtr D),
      s.stored addr = some c → (s.setCellType h ty addr).result = .ok () →
      ∃ obj, CellBase.make h ty addr (c.obj.getContentSource h) = .ok obj ∧
        ((s.setCellType h ty addr).sheet.getCell addr).obj = obj := by
    intro s ty addr c hc hok
    have hfind : Map.find s.m_Cells addr = some c := hc
    unfold Sheet.setCellType at hok ⊢
    simp only [hfind] at hok ⊢
    split
    · rename_i hcond
      rw [Sheet.dispatch_sheet]
      have hnone : ({ s.deleteDependencies c with
          m_Cells := Map.erase (s.deleteDependencies c).m_Cells addr } : Sheet D).stored addr
          = none := by
        simp [Sheet.stored, Map.find_erase]
      have hget := Sheet.getCell_of_absent hnone
      have hsrc : c.obj.getContentSource h = [] := by simpa using hcond.2
      rw [hcond.1, hsrc]
      exact ⟨_, CellBase.make_string_empty h addr, congrArg CellPtr.obj hget⟩
    · rename_i hcond
      rw [if_neg hcond] at hok
      cases hm : CellBase.make h ty addr (c.obj.getContentSource h) with
      | ok obj =>
        refine ⟨obj, rfl, ?_⟩
        simp only
        rw [Sheet.dispatch_sheet]
        have hst : (Sheet.createDependencies
            { s.deleteDependencies c with
              m_Cells := Map.set (s.deleteDependencies c).m_Cells addr
                ⟨(s.deleteDependencies c).nextPtr, obj⟩,
              nextPtr := (s.deleteDependencies c).nextPtr + 1 }
            ⟨(s.deleteDependencies c).nextPtr, obj⟩).stored addr
            = some ⟨(s.deleteDependencies c).nextPtr, obj⟩ := by
          rw [Sheet.stored_createDependencies]
          simp [Sheet.stored, Map.find_set]
        exact congrArg CellPtr.obj (Sheet.getCell_of_stored hst)
      | error e =>
        rw [hm] at hok
        simp at hok
      | diverge =>
        rw [hm] at hok
        simp at hok
  refine ⟨general, rfl, rfl, ?_⟩
  intro v hstod hstr
  have hmake : CellBase.make h .double (addr "A5") (str "123")
      = .ok (.double ⟨addr "A5", [], false, .Literal v⟩) := by
    have hblank : isBlank (str "123") = false := by decide
    have hform : ¬ ((str "123").length > 0 ∧ (str "123").head? = some '=') := by decide
    simp only [CellBase.make, Cell.create, if_neg hform, doubleOps, doubleFromString, hblank,
      Bool.false_eq_true, if_false, hstod, Res.bind_ok]
  have hsrc : (CellBase.string (D := D) ⟨addr "A5", [], false,
      .Literal (str "123")⟩).getContentSource h = str "123" := rfl
  have key : ∀ s3 : Sheet D,
      s3.stored (addr "A5") = some ⟨2, .string ⟨addr "A5", [], false, .Literal (str "123")⟩⟩ →
      (s3.setCellType h .double (addr "A5")).sheet.textAt h (addr "A5")
        = .ok (str "123.000000") := by
    intro s3 hc
    have hok : (s3.setCellType h .double (addr "A5")).result = .ok () := by
      have hfind : Map.find s3.m_Cells (addr "A5")
          = some ⟨2, .string ⟨addr "A5", [], false, .Literal (str "123")⟩⟩ := hc
      unfold Sheet.setCellType
      simp only [hfind, hsrc, hmake]
      rw [if_neg (by decide)]
      exact Sheet.dispatch_result _ _
    obtain ⟨obj, hobj, hget⟩ := general s3 .double (addr "A5") _ hc hok
    rw [hsrc, hmake] at hobj
    simp only [Res.ok.injEq] at hobj
    subst hobj
    unfold Sheet.textAt
    generalize (s3.setCellType h .double (addr "A5")).sheet = s4 at hget ⊢
    generalize s4.getCell (addr "A5") = cell at hget ⊢
    obtain ⟨p, o⟩ := cell
    simp only at hget
    subst hget
    rw [Sheet.getContentText_literal_double, hstr]
  have h3 : ((Sheet.empty D).run h
      [.setCellContent (addr "A5") (str "123"), .setCellType .int (addr "A5"),
        .setCellType .string (addr "A5")]).stored (addr "A5")
      = some ⟨2, .string ⟨addr "A5", [], false, .Literal (str "123")⟩⟩ := rfl
  have := key _ h3
  simpa only [Sheet.run, Sheet.apply] using this

/-- Witness of C9: `setCellType<int>(A5)` on the sheet with the string cell
`A5` = `123`, and the chain of the test on the example host. -/
theorem setCellType_migrates_witness :
    ((Sheet.empty ExampleDouble).run exampleHost
        [.setCellContent (addr "A5") (str "123")]).stored (addr "A5")
        = some ⟨0, .string ⟨addr "A5", [], false, .Literal (str "123")⟩⟩ ∧
      (∃ obj, CellBase.make exampleHost .int (addr "A5") (str "123") = .ok obj ∧
        ((((Sheet.empty ExampleDouble).run exampleHost
          [.setCellContent (addr "A5") (str "123")]).setCellType exampleHost .int
            (addr "A5")).sheet.getCell (addr "A5")).obj = obj) ∧
      ((Sheet.empty ExampleDouble).run exampleHost
        [.setCellContent (addr "A5") (str "123"), .setCellType .int (addr "A5"),
          .setCellType .string (addr "A5"), .setCellType .double (addr "A5")]).textAt exampleHost
          (addr "A5") = .ok (str "123.000000") :=
  ⟨by decide,
    (setCellType_migrates exampleHost).1
      ((Sheet.empty ExampleDouble).run exampleHost [.setCellContent (addr "A5") (str "123")]) .int
      (addr "A5") ⟨0, .string ⟨addr "A5", [], false, .Literal (str "123")⟩⟩ (by decide)
      (by decide),
    (setCellType_migrates exampleHost).2.2.2 (.micro 123000000) (by decide) (by decide)⟩

/-- C10 (the code breaks the claim): the `int` cell `A1` set to `=1-(2-3)`
evaluates to `2`; the sheet serialises to
`[{"type":"int","addr":"A1","content":"=1-2-3"}]`, the parentheses being lost
by `toSource`, and the sheet deserialised from that text evaluates `A1` to
`-4`. -/
theorem serialize_round_trip_changes_value :
    nestedSheet.textAt exampleHost (addr "A1") = .ok (str "2") ∧
      nestedSheet.serialize exampleHost
        = str "[\x7b\"type\":\"int\",\"addr\":\"A1\",\"content\":\"=1-2-3\"\x7d]" ∧
      (Sheet.deserialize exampleHost (IStream.ofStr (nestedSheet.serialize exampleHost))).bind
        (fun s => s.textAt exampleHost (addr "A1")) = .ok (str "-4") := by
  decide

/-! ## The splitter on sources without double quote -/

namespace IStream

theorem dropWs_fst (buf consumed : List Char) :
    (dropWs buf consumed).1 = buf.dropWhile isspace := by
  induction buf generalizing consumed with
  | nil => rfl
  | cons c rest ih =>
    by_cases hc : isspace c = true
    · simp [dropWs, List.dropWhile, hc, ih]
    · simp [dropWs, List.dropWhile, hc]

/-- Extraction with `skipws` from a good stream whose buffer is white space
only: the extraction fails, `c` keeps its value. -/
theorem get_skip_nil (is : IStream) (c : Char) (hg : is.eofbit = false) (hf : is.failbit = false)
    (hs : is.skipws = true) (h : is.buf.dropWhile isspace = []) :
    (is.get c).1.eofbit = true ∧ (is.get c).2 = c := by
  have hd := dropWs_fst is.buf is.consumed
  rw [h] at hd
  unfold get
  simp only [hg, hf, hs, Bool.or_self, Bool.false_eq_true, if_false, if_true]
  cases hp : dropWs is.buf is.consumed with
  | mk b co =>
    rw [hp] at hd
    simp only at hd
    subst hd
    simp

/-- Extraction with `skipws` from a good stream: the first character that is
not white space. -/
theorem get_skip_cons (is : IStream) (c x : Char) (r : List Char) (hg : is.eofbit = false)
    (hf : is.failbit = false) (hs : is.skipws = true) (h : is.buf.dropWhile isspace = x :: r) :
    (is.get c).2 = x ∧ (is.get c).1.buf = r ∧ (is.get c).1.eofbit = false ∧
      (is.get c).1.failbit = false ∧ (is.get c).1.skipws = true := by
  have hd := dropWs_fst is.buf is.consumed
  rw [h] at hd
  unfold get
  simp only [hg, hf, hs, Bool.or_self, Bool.false_eq_true, if_false, if_true]
  cases hp : dropWs is.buf is.consumed with
  | mk b co =>
    rw [hp] at hd
    simp only at hd
    subst hd
    simp [hg, hf, hs]

end IStream

namespace Parser

theorem stripSpace_of_dropWhile_nil {s : Str} (h : s.dropWhile isspace = []) :
    stripSpace s = [] := by
  induction s with
  | nil => rfl
  | cons c rest ih =>
    by_cases hc : isspace c = true
    · simp only [List.dropWhile, hc] at h
      simp [stripSpace, hc]
      simpa [stripSpace] using ih h
    · simp [List.dropWhile, hc] at h

theorem stripSpace_of_dropWhile_cons {s : Str} {x : Char} {r : List Char}
    (h : s.dropWhile isspace = x :: r) : stripSpace s = x :: stripSpace r := by
  induction s with
  | nil => simp at h
  | cons c rest ih =>
    by_cases hc : isspace c = true
    · simp only [List.dropWhile, hc] at h
      simp only [stripSpace, List.filter, hc, Bool.not_true]
      simpa [stripSpace] using ih h
    · simp only [List.dropWhile, hc] at h
      simp only [List.cons.injEq] at h
      obtain ⟨rfl, rfl⟩ := h
      simp [stripSpace, hc]

theorem length_of_dropWhile_cons {s : Str} {x : Char} {r : List Char}
    (h : s.dropWhile isspace = x :: r) : r.length < s.length ∧ (∀ c ∈ r, c ∈ s) ∧ x ∈ s := by
  have hsuf : (x :: r) <:+ s := h ▸ List.dropWhile_suffix _
  have hlen := hsuf.length_le
  refine ⟨by simpa using hlen, fun c hc => hsuf.subset (List.mem_cons_of_mem _ hc),
    hsuf.subset (List.mem_cons_self _ _)⟩

theorem splitLoop_eof (separators : Str) (fuel : Nat) (is : IStream) (c : Char) (cur : Str)
    (res : List Str) (l : Int) (h : is.eofbit = true) :
    splitLoop separators (fuel + 1) is c cur res l = .ok (pushCur cur res).2 := by
  simp [splitLoop, IStream.eof, h]

/-- The loop of `splitLogical` read as a function: with `skipws` set and no
double quote left, it returns what `splitPure` computes from the characters
that are not white space. -/
theorem splitLoop_pure (separators : Str) :
    ∀ (n : Nat) (is : IStream) (c : Char) (cur : Str) (res : List Str) (l : Int) (fuel : Nat),
      is.buf.length ≤ n → is.eofbit = false → is.failbit = false → is.skipws = true →
      '"' ∉ is.buf → c ≠ '"' → is.buf.length + 2 ≤ fuel →
      splitLoop separators fuel is c cur res l
        = .ok (splitPure separators (c :: stripSpace is.buf) cur res l) := by
  intro n
  induction n with
  | zero =>
    intro is c cur res l fuel hn hg hf hs hq hc hfuel
    have hbuf : is.buf = [] := List.length_eq_zero.mp (Nat.le_zero.mp hn)
    obtain ⟨f, rfl⟩ : ∃ f, fuel = f + 2 := ⟨fuel - 2, by omega⟩
    have hnil : is.buf.dropWhile isspace = [] := by rw [hbuf]; rfl
    obtain ⟨he, hc2⟩ := IStream.get_skip_nil is c hg hf hs hnil
    have hstrip : stripSpace is.buf = [] := by rw [hbuf]; rfl
    rw [hstrip]
    by_cases hsep : separators.contains c = true ∧ l = 0
    · simp only [splitLoop, IStream.eof, hg, Bool.false_eq_true, if_false, hsep, and_self,
        if_true, he, splitPure]
    · simp only [splitLoop, IStream.eof, hg, Bool.false_eq_true, if_false, hsep, hc, he,
        if_true, splitPure]
  | succ n ih =>
    intro is c cur res l fuel hn hg hf hs hq hc hfuel
    obtain ⟨f, rfl⟩ : ∃ f, fuel = f + 2 := ⟨fuel - 2, by omega⟩
    cases hd : is.buf.dropWhile isspace with
    | nil =>
      obtain ⟨he, hc2⟩ := IStream.get_skip_nil is c hg hf hs hd
      rw [stripSpace_of_dropWhile_nil hd]
      by_cases hsep : separators.contains c = true ∧ l = 0
      · simp only [splitLoop, IStream.eof, hg, Bool.false_eq_true, if_false, hsep, and_self,
          if_true, he, splitPure]
      · simp only [splitLoop, IStream.eof, hg, Bool.false_eq_true, if_false, hsep, hc, he,
          if_true, splitPure]
    | cons x r =>
      obtain ⟨hx, hb, hg2, hf2, hs2⟩ := IStream.get_skip_cons is c x r hg hf hs hd
      obtain ⟨hlen, hmem, hxmem⟩ := length_of_dropWhile_cons hd
      have hq2 : '"' ∉ (is.get c).1.buf := by
        rw [hb]
        exact fun hin => hq (hmem _ hin)
      have hxq : (is.get c).2 ≠ '"' := by
        rw [hx]
        rintro rfl
        exact hq hxmem
      have hrec := fun cur2 res2 l2 =>
        ih (is.get c).1 (is.get c).2 cur2 res2 l2 (f + 1) (by rw [hb]; omega) hg2 hf2 hs2 hq2 hxq
          (by rw [hb]; omega)
      rw [stripSpace_of_dropWhile_cons hd]
      rw [hb, hx] at hrec
      by_cases hsep : separators.contains c = true ∧ l = 0
      · rw [splitLoop]
        simp only [IStream.eof, hg, Bool.false_eq_true, if_false, hsep, and_self, if_true]
        rw [hx, hrec]
        conv_rhs => rw [splitPure]
        simp only [hsep, and_self, if_true]
      · rw [splitLoop]
        simp only [IStream.eof, hg, Bool.false_eq_true, if_false, hsep, hc]
        rw [hx, hrec]
        conv_rhs => rw [splitPure]
        simp only [hsep, if_false]

/-- On a source without double quote `splitLogical` returns, with the
sections that `splitPure` computes from the source without its white space. -/
theorem splitLogical_pure (source separators : Str) (hq : '"' ∉ source) :
    splitLogical source separators
      = .ok (splitPure separators (stripSpace source) [] [] 0) := by
  unfold splitLogical
  cases hd : source.dropWhile isspace with
  | nil =>
    obtain ⟨he, -⟩ := IStream.get_skip_nil (IStream.ofStr source) uninitialisedChar rfl rfl rfl hd
    rw [splitLoop_eof _ _ _ _ _ _ _ he, stripSpace_of_dropWhile_nil hd]
    rfl
  | cons x r =>
    obtain ⟨hx, hb, hg2, hf2, hs2⟩ :=
      IStream.get_skip_cons (IStream.ofStr source) uninitialisedChar x r rfl rfl rfl hd
    obtain ⟨hlen, hmem, hxmem⟩ := length_of_dropWhile_cons hd
    have h := splitLoop_pure separators r.length
      ((IStream.ofStr source).get uninitialisedChar).1
      ((IStream.ofStr source).get uninitialisedChar).2 [] [] 0 (source.length + 2)
      (by rw [hb]) hg2 hf2 hs2 (by rw [hb]; exact fun hin => hq (hmem _ hin))
      (by rw [hx]; rintro rfl; exact hq hxmem) (by rw [hb]; omega)
    rw [h, hb, hx, stripSpace_of_dropWhile_cons hd]

theorem splitLogical_sectionsOf (source : Str) (hq : '"' ∉ source) :
    splitLogical source = .ok (sectionsOf source) :=
  splitLogical_pure source defaultSeparators hq

end Parser

/-! ## Nesting levels -/

namespace Parser

theorem scanLevel_append (a b : List Char) :
    ∀ n, scanLevel n (a ++ b) = (scanLevel n a).bind (fun m => scanLevel m b) := by
  induction a with
  | nil => intro n; rfl
  | cons c r ih =>
    intro n
    by_cases h1 : c = '('
    · simp [scanLevel, h1, ih]
    · by_cases h2 : c = ')'
      · cases n with
        | zero => simp [scanLevel, h2]
        | succ m => simp [scanLevel, h2, ih]
      · simp [scanLevel, h1, h2, ih]

theorem scanLevel_add (a : List Char) (k : Nat) :
    ∀ n m, scanLevel n a = some m → scanLevel (n + k) a = some (m + k) := by
  induction a with
  | nil =>
    intro n m h
    simp only [scanLevel, Option.some.injEq] at h ⊢
    omega
  | cons c r ih =>
    intro n m h
    by_cases h1 : c = '('
    · simp only [scanLevel, h1, if_true] at h ⊢
      have := ih (n + 1) m h
      rwa [show n + k + 1 = n + 1 + k by omega]
    · by_cases h2 : c = ')'
      · cases n with
        | zero => simp [scanLevel, h2] at h
        | succ j =>
          simp only [scanLevel, h2, if_true] at h ⊢
          have := ih j m (by simpa using h)
          rw [show j + 1 + k = (j + k) + 1 by omega]
          simpa using this
      · simp only [scanLevel, h1, h2, if_false] at h ⊢
        exact ih n m h

theorem scanLevel_plain (a : List Char) (h : ∀ c ∈ a, c ≠ '(' ∧ c ≠ ')') :
    ∀ n, scanLevel n a = some n := by
  induction a with
  | nil => intro n; rfl
  | cons c r ih =>
    intro n
    have hc := h c (List.mem_cons_self _ _)
    simp only [scanLevel, hc.1, hc.2, if_false]
    exact ih (fun d hd => h d (List.mem_cons_of_mem _ hd)) n

theorem WellNested.nil : WellNested [] := rfl

theorem WellNested.plain {a : List Char} (h : ∀ c ∈ a, c ≠ '(' ∧ c ≠ ')') : WellNested a :=
  scanLevel_plain a h 0

theorem WellNested.append {a b : List Char} (ha : WellNested a) (hb : WellNested b) :
    WellNested (a ++ b) := by
  unfold WellNested at *
  rw [scanLevel_append, ha]
  exact hb

theorem WellNested.paren {t : List Char} (ht : WellNested t) : WellNested ('(' :: t ++ [')']) := by
  unfold WellNested at *
  have h1 := scanLevel_add t 1 0 0 ht
  show scanLevel 0 ('(' :: (t ++ [')'])) = some 0
  simp only [scanLevel, if_true]
  rw [scanLevel_append]
  simp only [Nat.zero_add] at h1
  rw [h1]
  rfl

theorem isspace_not_paren {c : Char} (h : isspace c = true) : c ≠ '(' ∧ c ≠ ')' := by
  constructor <;> rintro rfl <;> exact absurd h (by decide)

theorem scanLevel_stripSpace (s : List Char) : ∀ n, scanLevel n (stripSpace s) = scanLevel n s := by
  induction s with
  | nil => intro n; rfl
  | cons c r ih =>
    intro n
    by_cases hc : isspace c = true
    · obtain ⟨h1, h2⟩ := isspace_not_paren hc
      have : stripSpace (c :: r) = stripSpace r := by simp [stripSpace, hc]
      rw [this, ih]
      simp [scanLevel, h1, h2]
    · have : stripSpace (c :: r) = c :: stripSpace r := by simp [stripSpace, hc]
      rw [this]
      by_cases h1 : c = '('
      · simp only [scanLevel, h1, if_true]
        exact ih _
      · by_cases h2 : c = ')'
        · cases n with
          | zero => simp [scanLevel, h2]
          | succ m =>
            simp only [scanLevel, h2, if_true]
            simpa using ih m
        · simp only [scanLevel, h1, h2, if_false]
          exact ih _

theorem wellNested_stripSpace {s : List Char} : WellNested (stripSpace s) ↔ WellNested s := by
  unfold WellNested
  rw [scanLevel_stripSpace]

theorem scanLevel_counts (a : List Char) :
    ∀ n m, scanLevel n a = some m →
      n + a.count '(' = m + a.count ')' ∧ ∀ k, (a.take k).count ')' ≤ n + (a.take k).count '(' := by
  induction a with
  | nil =>
    intro n m h
    simp only [scanLevel, Option.some.injEq] at h
    simp [h]
  | cons c r ih =>
    intro n m h
    by_cases h1 : c = '('
    · subst h1
      simp only [scanLevel, if_true] at h
      obtain ⟨e, p⟩ := ih (n + 1) m h
      refine ⟨by simp [List.count_cons] at e ⊢; omega, fun k => ?_⟩
      cases k with
      | zero => simp
      | succ j =>
        have := p j
        simp [List.count_cons] at this ⊢
        omega
    · by_cases h2 : c = ')'
      · subst h2
        cases n with
        | zero => simp [scanLevel] at h
        | succ i =>
          simp only [scanLevel, if_true] at h
          obtain ⟨e, p⟩ := ih i m (by simpa using h)
          refine ⟨by simp [List.count_cons] at e ⊢; omega, fun k => ?_⟩
          cases k with
          | zero => simp
          | succ j =>
            have := p j
            simp [List.count_cons] at this ⊢
            omega
      · simp only [scanLevel, h1, h2, if_false] at h
        obtain ⟨e, p⟩ := ih n m h
        refine ⟨by simp [List.count_cons, h1, h2] at e ⊢; omega, fun k => ?_⟩
        cases k with
        | zero => simp
        | succ j =>
          have := p j
          simp [List.count_cons, h1, h2] at this ⊢
          omega

/-- A well nested string has balanced parentheses. -/
theorem WellNested.balanced {s : List Char} (h : WellNested s) : Balanced s := by
  obtain ⟨e, p⟩ := scanLevel_counts s 0 0 h
  exact ⟨by omega, fun k _ => by simpa using p k⟩

/-! ## The lambda `pushCur` -/

theorem strip_eq {cur : Str} (h1 : cur.length ≥ 2) (h2 : cur.head? = some '(')
    (h3 : cur.getLast? = some ')') :
    cur = '(' :: ((cur.drop 1).take (cur.length - 2)) ++ [')'] := by
  cases cur with
  | nil => simp at h1
  | cons a r =>
    simp only [List.head?_cons, Option.some.injEq] at h2
    subst h2
    have hr : r ≠ [] := by
      rintro rfl
      simp at h1
    have hl : r.getLast? = some ')' := by
      cases r with
      | nil => exact absurd rfl hr
      | cons b r2 => simpa [List.getLast?_cons_cons] using h3
    have hrl : r = r.dropLast ++ [')'] := by
      have := List.dropLast_append_getLast? ')' (by simpa using hl)
      exact this.symm
    have hlen : r.dropLast.length = r.length - 1 := List.length_dropLast r
    simp only [List.drop_succ_cons, List.drop_zero, List.length_cons, List.cons_append,
      List.cons.injEq, true_and]
    have : List.take (r.length + 1 - 2) r = r.dropLast := by
      rw [List.dropLast_eq_take]
      congr 1
    rw [this]
    exact hrl

theorem pushCur_fst (cur : Str) (res : List Str) : (pushCur cur res).1 = [] := by
  unfold pushCur
  simp only
  split
  · split
    · rfl
    · rename_i h
      exact List.length_eq_zero.mp (by simp only at h ⊢; omega)
  · split
    · rfl
    · rename_i h
      exact List.length_eq_zero.mp (by simp only at h ⊢; omega)

theorem pushCur_nil (res : List Str) : pushCur [] res = ([], res) := by
  simp [pushCur]

/-- What `pushCur` appends to the result: nothing, for an empty `cur` or the
pair `()`; `cur` itself; or `cur` without its outer parentheses. -/
theorem pushCur_cases (cur : Str) (res : List Str) :
    ((pushCur cur res).2 = res ∧ (cur = [] ∨ cur = ['(', ')'])) ∨
    ((pushCur cur res).2 = res ++ [cur] ∧ cur ≠ [] ∧
      ¬ (cur.length ≥ 2 ∧ cur.head? = some '(' ∧ cur.getLast? = some ')')) ∨
    (∃ t, t ≠ [] ∧ cur = '(' :: t ++ [')'] ∧ (pushCur cur res).2 = res ++ [t]) := by
  by_cases hc : cur.length ≥ 2 ∧ cur.head? = some '(' ∧ cur.getLast? = some ')'
  · have hs := strip_eq hc.1 hc.2.1 hc.2.2
    by_cases ht : ((cur.drop 1).take (cur.length - 2)).length > 0
    · right; right
      refine ⟨_, List.length_pos.mp ht, hs, ?_⟩
      simp only [pushCur, hc, and_self, if_true, ht]
    · left
      have ht0 : (cur.drop 1).take (cur.length - 2) = [] :=
        List.length_eq_zero.mp (by omega)
      refine ⟨?_, Or.inr ?_⟩
      · simp only [pushCur, hc, and_self, if_true, ht, if_false]
      · rw [ht0] at hs
        exact hs
  · by_cases ht : cur.length > 0
    · right; left
      refine ⟨?_, List.length_pos.mp ht, hc⟩
      simp only [pushCur, hc, if_false, ht, if_true]
    · left
      refine ⟨?_, Or.inl (by simpa using ht)⟩
      simp only [pushCur, hc, if_false, ht]

theorem pushCur_plain {cur : Str} (res : List Str) (hne : cur ≠ [])
    (hh : cur.head? ≠ some '(') : pushCur cur res = ([], res ++ [cur]) := by
  have hlen : cur.length > 0 := List.length_pos.mpr hne
  simp [pushCur, hh, hlen]

theorem pushCur_paren {t : Str} (res : List Str) (hne : t ≠ []) :
    pushCur ('(' :: t ++ [')']) res = ([], res ++ [t]) := by
  have hlen : t.length > 0 := List.length_pos.mpr hne
  have h1 : ('(' :: t ++ [')']).length ≥ 2 := by simp
  have h3 : ('(' :: t ++ [')']).getLast? = some ')' := by
    rw [show '(' :: t ++ [')'] = ('(' :: t) ++ [')'] from rfl, List.getLast?_append]
    simp
  have h4 : (('(' :: t ++ [')']).drop 1).take (('(' :: t ++ [')']).length - 2) = t := by
    simp
  have h2 : ('(' :: t ++ [')']).head? = some '(' := by simp
  simp only [pushCur, h1, h2, h3, and_self, if_true, h4, hlen]

end Parser

/-! ## The sections that the splitter returns -/

namespace Parser

theorem wellNested_unit : WellNested ['(', ')'] := by
  unfold WellNested
  decide

theorem pushCur_wellNested {cur : Str} {res : List Str}
    (h : ∀ t ∈ (pushCur cur res).2, WellNested t) :
    WellNested cur ∧ ∀ t ∈ res, WellNested t := by
  rcases pushCur_cases cur res with ⟨e, hc⟩ | ⟨e, -, -⟩ | ⟨t, -, hc, e⟩
  · rw [e] at h
    refine ⟨?_, h⟩
    rcases hc with rfl | rfl
    · exact WellNested.nil
    · exact wellNested_unit
  · rw [e] at h
    exact ⟨h cur (by simp), fun t ht => h t (by simp [ht])⟩
  · rw [e] at h
    refine ⟨?_, fun u hu => h u (by simp [hu])⟩
    rw [hc]
    exact WellNested.paren (h t (by simp))

/-- When every section returned is well nested, the characters read are. -/
theorem splitPure_wellNested (seps : Str) (h1 : '(' ∉ seps) (h2 : ')' ∉ seps) :
    ∀ (rest : List Char) (cur : Str) (res : List Str) (l : Int),
      (∀ t ∈ splitPure seps rest cur res l, WellNested t) →
      WellNested (cur ++ rest) ∧ ∀ t ∈ res, WellNested t := by
  intro rest
  induction rest with
  | nil =>
    intro cur res l h
    simp only [splitPure] at h
    simpa using pushCur_wellNested h
  | cons c rest ih =>
    intro cur res l h
    by_cases hsep : seps.contains c = true ∧ l = 0
    · rw [splitPure] at h
      simp only [hsep, and_self, if_true] at h
      obtain ⟨hr, hres⟩ := ih _ _ _ h
      rw [pushCur_fst] at hr
      have hp := @pushCur_wellNested cur res
        (fun t ht => hres t (by simp [ht]))
      have hcs : c ∈ seps := by simpa using hsep.1
      have hc : WellNested [c] :=
        WellNested.plain (by
          intro d hd
          simp only [List.mem_singleton] at hd
          subst hd
          exact ⟨fun e => h1 (e ▸ hcs), fun e => h2 (e ▸ hcs)⟩)
      refine ⟨?_, hp.2⟩
      have := WellNested.append hp.1 (WellNested.append hc (by simpa using hr))
      simpa using this
    · rw [splitPure] at h
      simp only [hsep, if_false] at h
      obtain ⟨hr, hres⟩ := ih _ _ _ h
      exact ⟨by simpa using hr, hres⟩

theorem pushCur_flatten (cur : Str) (res : List Str) :
    (pushCur cur res).2.flatten.length ≤ res.flatten.length + cur.length ∧
      ((pushCur cur res).2.flatten.length = res.flatten.length + cur.length →
        (pushCur cur res).2.flatten = res.flatten ++ cur) := by
  rcases pushCur_cases cur res with ⟨e, hc⟩ | ⟨e, -, -⟩ | ⟨t, -, hc, e⟩
  · rw [e]
    rcases hc with rfl | rfl
    · simp
    · simp
  · rw [e]
    simp
  · rw [e, hc]
    simp
    omega

/-- The sections have no more characters than were read, and as many only
when no parenthesis was stripped, where they are the characters read. -/
theorem splitPure_flatten (seps : Str) :
    ∀ (rest : List Char) (cur : Str) (res : List Str) (l : Int),
      (splitPure seps rest cur res l).flatten.length
          ≤ res.flatten.length + cur.length + rest.length ∧
        ((splitPure seps rest cur res l).flatten.length
            = res.flatten.length + cur.length + rest.length →
          (splitPure seps rest cur res l).flatten = res.flatten ++ cur ++ rest) := by
  intro rest
  induction rest with
  | nil =>
    intro cur res l
    simp only [splitPure]
    simpa using pushCur_flatten cur res
  | cons c rest ih =>
    intro cur res l
    by_cases hsep : seps.contains c = true ∧ l = 0
    · rw [splitPure]
      simp only [hsep, and_self, if_true]
      rw [pushCur_fst]
      obtain ⟨hle, heq⟩ := ih [] ((pushCur cur res).2 ++ [[c]]) 0
      obtain ⟨ple, peq⟩ := pushCur_flatten cur res
      simp only [List.flatten_append, List.length_append, List.flatten_cons, List.flatten_nil,
        List.append_nil, List.length_singleton, List.length_nil, List.length_cons] at hle heq ⊢
      refine ⟨by omega, fun h => ?_⟩
      rw [heq (by omega), peq (by omega)]
      simp
    · rw [splitPure]
      simp only [hsep, if_false]
      obtain ⟨hle, heq⟩ := ih (cur ++ [c]) res
        (if c = '(' then l + 1 else if c = ')' then l - 1 else l)
      simp only [List.length_append, List.length_singleton, List.length_cons,
        List.length_nil] at hle heq ⊢
      refine ⟨by omega, fun h => ?_⟩
      rw [heq (by omega)]
      simp

theorem pushCur_part {cur : Str} {res : List Str} {t : Str} (h : t ∈ (pushCur cur res).2) :
    t ∈ res ∨ (t <:+: cur ∧ t ≠ []) := by
  rcases pushCur_cases cur res with ⟨e, hc⟩ | ⟨e, hne, -⟩ | ⟨u, hne, hc, e⟩
  · rw [e] at h
    exact Or.inl h
  · rw [e] at h
    simp only [List.mem_append, List.mem_singleton] at h
    rcases h with h | rfl
    · exact Or.inl h
    · exact Or.inr ⟨List.infix_refl _, hne⟩
  · rw [e] at h
    simp only [List.mem_append, List.mem_singleton] at h
    rcases h with h | rfl
    · exact Or.inl h
    · refine Or.inr ⟨?_, hne⟩
      rw [hc]
      exact ⟨['('], [')'], by simp⟩

/-- A section returned is a part of what was read, and not empty. -/
theorem splitPure_part (seps : Str) :
    ∀ (rest : List Char) (cur : Str) (res : List Str) (l : Int) (t : Str),
      t ∈ splitPure seps rest cur res l → t ∈ res ∨ (t <:+: cur ++ rest ∧ t ≠ []) := by
  intro rest
  induction rest with
  | nil =>
    intro cur res l t h
    simp only [splitPure] at h
    simpa using pushCur_part h
  | cons c rest ih =>
    intro cur res l t h
    by_cases hsep : seps.contains c = true ∧ l = 0
    · rw [splitPure] at h
      simp only [hsep, and_self, if_true] at h
      rcases ih _ _ _ _ h with h' | ⟨h', hne⟩
      · simp only [List.mem_append, List.mem_singleton] at h'
        rcases h' with h' | rfl
        · rcases pushCur_part h' with h'' | ⟨h'', hne⟩
          · exact Or.inl h''
          · exact Or.inr ⟨h''.trans (List.infix_append' [] cur (c :: rest)), hne⟩
        · exact Or.inr ⟨⟨cur, rest, by simp⟩, by simp⟩
      · rw [pushCur_fst] at h'
        refine Or.inr ⟨h'.trans ?_, hne⟩
        exact ⟨cur ++ [c], [], by simp⟩
    · rw [splitPure] at h
      simp only [hsep, if_false] at h
      rcases ih _ _ _ _ h with h' | ⟨h', hne⟩
      · exact Or.inl h'
      · exact Or.inr ⟨by simpa using h', hne⟩

/-- Characters that are no separator and no parenthesis are added to `cur`. -/
theorem splitPure_plain (seps : Str) (p : List Char)
    (hp : ∀ c ∈ p, c ∉ seps ∧ c ≠ '(' ∧ c ≠ ')') (rest : List Char) (res : List Str) (l : Int) :
    ∀ cur, splitPure seps (p ++ rest) cur res l = splitPure seps rest (cur ++ p) res l := by
  induction p with
  | nil => intro cur; simp
  | cons c r ih =>
    intro cur
    obtain ⟨hc1, hc2, hc3⟩ := hp c (List.mem_cons_self _ _)
    have hsep : ¬ (seps.contains c = true ∧ l = 0) := fun hh => hc1 (by simpa using hh.1)
    rw [List.cons_append, splitPure]
    simp only [hsep, if_false, hc2, hc3]
    rw [ih (fun d hd => hp d (List.mem_cons_of_mem _ hd))]
    simp

/-- Inside parentheses nothing is a separator: the characters of a string
that does not close more than it opens are added to `cur`. -/
theorem splitPure_nested (seps : Str) (rest : List Char) (res : List Str) (m : Int) (hm : 1 ≤ m) :
    ∀ (w : List Char) (k k' : Nat) (cur : Str), scanLevel k w = some k' →
      splitPure seps (w ++ rest) cur res (m + k) = splitPure seps rest (cur ++ w) res (m + k') := by
  intro w
  induction w with
  | nil =>
    intro k k' cur h
    simp only [scanLevel, Option.some.injEq] at h
    subst h
    simp
  | cons c r ih =>
    intro k k' cur h
    have hsep : ¬ (seps.contains c = true ∧ m + (k : Int) = 0) := fun hh => by omega
    rw [List.cons_append, splitPure]
    simp only [hsep, if_false]
    by_cases h1 : c = '('
    · simp only [scanLevel, h1, if_true] at h
      have := ih (k + 1) k' (cur ++ [c]) h
      simp only [h1, if_true]
      rw [show m + (k : Int) + 1 = m + ((k + 1 : Nat) : Int) by push_cast; ring]
      rw [h1] at this
      rw [this]
      simp
    · by_cases h2 : c = ')'
      · cases k with
        | zero => simp [scanLevel, h2] at h
        | succ j =>
          simp only [scanLevel, h2, if_true] at h
          have := ih j k' (cur ++ [c]) (by simpa using h)
          simp only [h1, h2, if_false, if_true]
          rw [show m + ((j + 1 : Nat) : Int) - 1 = m + (j : Int) by push_cast; ring]
          rw [h2] at this h1
          simp only [h1, if_false]
          rw [this]
          simp
      · simp only [scanLevel, h1, h2, if_false] at h
        have := ih k k' (cur ++ [c]) h
        simp only [h1, h2, if_false]
        rw [this]
        simp

/-- A well nested string in parentheses, read at level 0, is added to `cur`
with its parentheses. -/
theorem splitPure_paren (seps : Str) (h1 : '(' ∉ seps) (w rest : List Char) (cur : Str)
    (res : List Str) (hw : WellNested w) :
    splitPure seps ('(' :: w ++ ')' :: rest) cur res 0
      = splitPure seps rest (cur ++ ('(' :: w ++ [')'])) res 0 := by
  have hsep : seps.contains '(' = false := by simpa using h1
  rw [List.cons_append, splitPure]
  simp only [hsep, Bool.false_eq_true, false_and, if_false, if_true, zero_add]
  have h := splitPure_nested seps (')' :: rest) res 1 (le_refl _) w 0 0 (cur ++ ['(']) hw
  simp only [Nat.cast_zero, add_zero] at h
  rw [h, splitPure]
  have hsep2 : ¬ (seps.contains ')' = true ∧ (1 : Int) = 0) := fun hh => by omega
  simp only [hsep2, if_false]
  have e1 : (')' = '(') = False := by decide
  simp only [e1, if_false, if_true]
  simp

theorem stripSpace_append (a b : Str) : stripSpace (a ++ b) = stripSpace a ++ stripSpace b := by
  simp [stripSpace]

theorem stripSpace_idem (a : Str) : stripSpace (stripSpace a) = stripSpace a := by
  simp [stripSpace]

theorem stripSpace_of_nospace {a : Str} (h : ∀ c ∈ a, isspace c = false) : stripSpace a = a := by
  simp only [stripSpace, List.filter_eq_self]
  intro c hc
  simp [h c hc]

theorem not_mem_stripSpace {a : Str} {c : Char} (h : c ∉ a) : c ∉ stripSpace a := by
  intro hc
  exact h (List.mem_of_mem_filter hc)

theorem stripSpace_length (a : Str) : (stripSpace a).length ≤ a.length :=
  List.length_filter_le _ _

theorem stripSpace_eq_of_length {a : Str} (h : (stripSpace a).length = a.length) :
    stripSpace a = a := by
  unfold stripSpace at *
  exact (List.filter_sublist a).eq_of_length h

/-- The sections of a source have no more characters than the source, and a
single section with as many characters is the source. -/
theorem sectionsOf_length (s : Str) :
    ((sectionsOf s).map List.length).sum ≤ s.length ∧
      ∀ t, sectionsOf s = [t] → t.length = s.length → t = s := by
  obtain ⟨hle, heq⟩ := splitPure_flatten defaultSeparators (stripSpace s) [] [] 0
  have hs := stripSpace_length s
  simp only [List.flatten_nil, List.length_nil, zero_add, List.nil_append] at hle heq
  rw [List.length_flatten] at hle heq
  refine ⟨by unfold sectionsOf; omega, fun t ht hlen => ?_⟩
  unfold sectionsOf at ht
  rw [ht] at hle heq
  simp only [List.map_cons, List.map_nil, List.sum_cons, List.sum_nil, add_zero,
    List.flatten_cons, List.flatten_nil, List.append_nil] at hle heq
  have h1 : (stripSpace s).length = s.length := by omega
  rw [heq (by omega)]
  exact stripSpace_eq_of_length h1

theorem sectionsOf_part {s t : Str} (h : t ∈ sectionsOf s) : t <:+: stripSpace s ∧ t ≠ [] := by
  rcases splitPure_part defaultSeparators _ _ _ _ _ h with h' | h'
  · simp at h'
  · simpa using h'

theorem sectionsOf_noquote {s t : Str} (hq : '"' ∉ s) (h : t ∈ sectionsOf s) : '"' ∉ t := by
  intro ht
  exact not_mem_stripSpace hq ((sectionsOf_part h).1.subset ht)

theorem sectionsOf_wellNested {s : Str} (h : ∀ t ∈ sectionsOf s, WellNested t) :
    WellNested s := by
  have := (splitPure_wellNested defaultSeparators (by decide) (by decide) _ _ _ _ h).1
  simpa using wellNested_stripSpace.mp (by simpa using this)

/-- A string without separator, parenthesis, white space or double quote is
its own single section. -/
theorem sectionsOf_plain {p : Str} (hne : p ≠ [])
    (hp : ∀ c ∈ p, c ∉ defaultSeparators ∧ c ≠ '(' ∧ c ≠ ')' ∧ isspace c = false) :
    sectionsOf p = [p] := by
  unfold sectionsOf
  rw [stripSpace_of_nospace (fun c hc => (hp c hc).2.2.2)]
  have := splitPure_plain defaultSeparators p (fun c hc => ⟨(hp c hc).1, (hp c hc).2.1,
    (hp c hc).2.2.1⟩) [] [] 0 []
  simp only [List.append_nil, List.nil_append] at this
  rw [this]
  simp only [splitPure]
  rw [pushCur_plain [] hne]
  · rfl
  · cases p with
    | nil => exact absurd rfl hne
    | cons c r =>
      simp only [List.head?_cons, ne_eq, Option.some.injEq]
      exact (hp c (List.mem_cons_self _ _)).2.1

end Parser

/-! ## The recursion of `parse` -/

namespace Parser

variable {D T : Type}

theorem parse_nil (ops : TypeOps D T) (n : Nat) (d : List Address) :
    parse ops (n + 1) [] d = .error .IncorrectFormulaSyntaxException := by
  simp [parse]

/-- One call of `parse` on a single section. -/
theorem parse_single (ops : TypeOps D T) (n : Nat) (s : Str) (d : List Address) :
    parse ops (n + 1) [s] d =
      if ops.isLiteral s = true then
        (ops.fromString s true).bind fun v => .ok (.Literal v, d)
      else if isLink s = true then
        (Address.ofString s).bind fun a => .ok (.Link a, d ++ [a])
      else
        (splitLogical s).bind fun newSections =>
          if [s] ≠ newSections then parse ops n newSections d
          else if (s.takeWhile (fun c => c != '(')).length > 0 ∧
              (s.takeWhile (fun c => c != '(')).length ≠ s.length ∧ s.getLast? = some ')' then
            (splitLogical
              ((s.drop ((s.takeWhile (fun c => c != '(')).length + 1)).take
                (s.length - ((s.takeWhile (fun c => c != '(')).length + 1) - 1))
              ",".toList).bind fun arguments =>
            match mkFunction (T := T)
                (Utils.toLower (s.take (s.takeWhile (fun c => c != '(')).length)) with
            | some f =>
              match arguments with
              | [argument0] =>
                (splitLogical argument0).bind fun inner =>
                  (parse ops n inner d).bind fun arg => .ok (f arg.1, arg.2)
              | _ => .error .IncorrectFormulaSyntaxException
            | none => .error .IncorrectFormulaSyntaxException
          else .error .IncorrectFormulaSyntaxException := by
  rw [parse]
  simp only [List.length_singleton, ge_iff_le, Nat.reduceLeDiff, false_and, if_false]
  split_ifs <;> try rfl
  all_goals
    congr 1
    funext newSections
    split_ifs <;> try rfl
    congr 1
    funext arguments
    cases mkFunction (T := T)
        (Utils.toLower (s.take (s.takeWhile (fun c => c != '(')).length)) with
    | none => rfl
    | some f =>
      cases arguments with
      | nil => rfl
      | cons a0 rest =>
        cases rest with
        | nil => rfl
        | cons a1 rest2 => rfl

/-- One call of `parse` on no section or several. -/
theorem parse_many (ops : TypeOps D T) (n : Nat) (sections : List Str) (d : List Address)
    (h : sections.length ≠ 1) :
    parse ops (n + 1) sections d =
      if sections.length ≥ 3 ∧ (sections.getD (sections.length - 2) []).length = 1 then
        (if (sections.take (sections.length - 2)).length > 1 then
            .ok (sections.take (sections.length - 2))
          else splitLogical ((sections.take (sections.length - 2)).headD [])).bind fun left =>
        (parse ops n left d).bind fun arg1 =>
        (splitLogical (sections.getD (sections.length - 1) [])).bind fun right =>
        (parse ops n right arg1.2).bind fun arg2 =>
        (mkOperation ((sections.getD (sections.length - 2) []).headD uninitialisedChar)
          arg1.1 arg2.1).bind fun f => .ok (f, arg2.2)
      else .error .IncorrectFormulaSyntaxException := by
  cases sections with
  | nil => rfl
  | cons a rest =>
    cases rest with
    | nil => simp at h
    | cons b rest2 => rfl

end Parser

/-! ## More fuel does not change what `parse` returns or throws -/

namespace Parser

variable {D T : Type}

theorem parse_step_mono (ops : TypeOps D T) :
    ∀ (n : Nat) (sections : List Str) (d : List Address),
      parse ops n sections d = .diverge ∨
        parse ops (n + 1) sections d = parse ops n sections d := by
  intro n
  induction n with
  | zero => intro sections d; exact Or.inl rfl
  | succ n ih =>
    intro sections d
    by_cases hlen : sections.length = 1
    · obtain ⟨s, rfl⟩ := List.length_eq_one.mp hlen
      rw [parse_single ops (n + 1), parse_single ops n]
      by_cases hlit : ops.isLiteral s = true
      · exact Or.inr (by rw [if_pos hlit, if_pos hlit])
      · by_cases hlink : isLink s = true
        · exact Or.inr (by rw [if_neg hlit, if_neg hlit, if_pos hlink, if_pos hlink])
        · rw [if_neg hlit, if_neg hlit, if_neg hlink, if_neg hlink]
          cases hsl : splitLogical s with
          | error e => exact Or.inr rfl
          | diverge => exact Or.inl rfl
          | ok newSections =>
            simp only [Res.bind_ok]
            by_cases hne : [s] ≠ newSections
            · rw [if_pos hne, if_pos hne]
              exact ih newSections d
            · rw [if_neg hne, if_neg hne]
              split_ifs with hcond
              · cases hargs : splitLogical
                    ((s.drop ((s.takeWhile (fun c => c != '(')).length + 1)).take
                      (s.length - ((s.takeWhile (fun c => c != '(')).length + 1) - 1))
                    ",".toList with
                | error e => exact Or.inr rfl
                | diverge => exact Or.inl rfl
                | ok arguments =>
                  simp only [Res.bind_ok]
                  cases mkFunction (T := T)
                      (Utils.toLower (s.take (s.takeWhile (fun c => c != '(')).length)) with
                  | none => exact Or.inr rfl
                  | some f =>
                    simp only
                    cases arguments with
                    | nil => exact Or.inr rfl
                    | cons a0 rest =>
                      cases rest with
                      | cons a1 rest2 => exact Or.inr rfl
                      | nil =>
                        simp only
                        cases hin : splitLogical a0 with
                        | error e => exact Or.inr rfl
                        | diverge => exact Or.inl rfl
                        | ok inner =>
                          simp only [Res.bind_ok]
                          rcases ih inner d with hdiv | heq
                          · exact Or.inl (by rw [hdiv]; rfl)
                          · exact Or.inr (by rw [heq])
              · exact Or.inr rfl
    · rw [parse_many ops (n + 1) sections d hlen, parse_many ops n sections d hlen]
      by_cases hcond : sections.length ≥ 3 ∧ (sections.getD (sections.length - 2) []).length = 1
      · rw [if_pos hcond, if_pos hcond]
        generalize (if (sections.take (sections.length - 2)).length > 1 then
            Res.ok (sections.take (sections.length - 2))
          else splitLogical ((sections.take (sections.length - 2)).headD [])) = L
        cases L with
        | error e => exact Or.inr rfl
        | diverge => exact Or.inl rfl
        | ok left =>
          simp only [Res.bind_ok]
          rcases ih left d with hdiv | heq
          · exact Or.inl (by rw [hdiv]; rfl)
          · rw [heq]
            cases hp1 : parse ops n left d with
            | error e => exact Or.inr rfl
            | diverge => exact Or.inl rfl
            | ok arg1 =>
              simp only [Res.bind_ok]
              cases hright : splitLogical (sections.getD (sections.length - 1) []) with
              | error e => exact Or.inr rfl
              | diverge => exact Or.inl rfl
              | ok right =>
                simp only [Res.bind_ok]
                rcases ih right arg1.2 with hdiv | heq2
                · exact Or.inl (by rw [hdiv]; rfl)
                · exact Or.inr (by rw [heq2])
      · rw [if_neg hcond, if_neg hcond]
        exact Or.inr rfl

/-- With more fuel `parse` returns the same formula, or throws the same. -/
theorem parse_mono (ops : TypeOps D T) {n m : Nat} {sections : List Str} {d : List Address}
    (hnm : n ≤ m) (h : parse ops n sections d ≠ .diverge) :
    parse ops m sections d = parse ops n sections d := by
  induction hnm with
  | refl => rfl
  | step hk ih =>
    rename_i k
    rcases parse_step_mono ops k sections d with hdiv | heq
    · rw [ih] at hdiv
      exact absurd hdiv h
    · rw [heq, ih]

theorem parse_mono_ok (ops : TypeOps D T) {n m : Nat} {sections : List Str} {d : List Address}
    {r : Function T × List Address} (hnm : n ≤ m) (h : parse ops n sections d = .ok r) :
    parse ops m sections d = .ok r := by
  rw [parse_mono ops hnm (by rw [h]; exact fun hh => by cases hh), h]

end Parser

/-! ## The shapes of a successful `parse` -/

namespace Parser

variable {D T : Type}

theorem mkOperation_ok {op : Char} {a b f : Function T} (h : mkOperation op a b = .ok f) :
    ∃ o : BinOp, op = o.char ∧ f = o.node a b := by
  unfold mkOperation at h
  split_ifs at h with h1 h2 h3 h4
  · exact ⟨.add, h1, by injection h with h; exact h.symm⟩
  · exact ⟨.sub, h2, by injection h with h; exact h.symm⟩
  · exact ⟨.mul, h3, by injection h with h; exact h.symm⟩
  · exact ⟨.div, h4, by injection h with h; exact h.symm⟩

theorem mkOperation_char (o : BinOp) (a b : Function T) :
    mkOperation o.char a b = .ok (o.node a b) := by
  cases o <;> rfl

theorem mkFunction_some {ident : Str} {g : Function T → Function T}
    (h : mkFunction (T := T) ident = some g) :
    (ident = "abs".toList ∨ ident = "sin".toList ∨ ident = "cos".toList ∨ ident = "tan".toList) ∧
      (g = .Abs ∨ g = .Sin ∨ g = .Cos ∨ g = .Tan) := by
  unfold mkFunction at h
  split_ifs at h with h1 h2 h3 h4
  · exact ⟨Or.inl h1, Or.inl (by injection h with h; exact h.symm)⟩
  · exact ⟨Or.inr (Or.inl h2), Or.inr (Or.inl (by injection h with h; exact h.symm))⟩
  · exact ⟨Or.inr (Or.inr (Or.inl h3)), Or.inr (Or.inr (Or.inl (by injection h with h; exact h.symm)))⟩
  · exact ⟨Or.inr (Or.inr (Or.inr h4)), Or.inr (Or.inr (Or.inr (by injection h with h; exact h.symm)))⟩

theorem links_node (o : BinOp) (a b : Function T) :
    (o.node a b).links = a.links ++ b.links := by
  cases o <;> rfl

theorem links_function {g : Function T → Function T}
    (hg : g = .Abs ∨ g = .Sin ∨ g = .Cos ∨ g = .Tan) (a : Function T) : (g a).links = a.links := by
  rcases hg with rfl | rfl | rfl | rfl <;> rfl

/-- The last two of three or more sections. -/
theorem split_last_two (sections : List Str) (h : sections.length ≥ 3) :
    sections = sections.take (sections.length - 2) ++
      [sections.getD (sections.length - 2) [], sections.getD (sections.length - 1) []] := by
  have h1 : sections.length - 2 < sections.length := by omega
  have h2 : sections.length - 2 + 1 < sections.length := by omega
  conv_lhs => rw [← List.take_append_drop (sections.length - 2) sections]
  congr 1
  rw [List.drop_eq_getElem_cons h1, List.drop_eq_getElem_cons h2]
  have h3 : sections.drop (sections.length - 2 + 1 + 1) = [] := by
    apply List.drop_eq_nil_of_le
    omega
  rw [h3, List.getD_eq_getElem _ _ h1]
  have h4 : sections.length - 1 = sections.length - 2 + 1 := by omega
  rw [List.getD_eq_getElem _ _ (by omega : sections.length - 1 < sections.length)]
  simp only [h4]

theorem singleton_of_length {t : Str} (c : Char) (h : t.length = 1) : t = [t.headD c] := by
  obtain ⟨x, rfl⟩ := List.length_eq_one.mp h
  rfl

/-- A section with a `(` that is not its first character and with `)` as its
last: an identifier without `(`, then `(`, the argument text, and `)`. -/
theorem function_shape {s : Str}
    (h2 : (s.takeWhile (fun c => c != '(')).length ≠ s.length) (h3 : s.getLast? = some ')') :
    s = s.take (s.takeWhile (fun c => c != '(')).length ++ '(' ::
        ((s.drop ((s.takeWhile (fun c => c != '(')).length + 1)).take
          (s.length - ((s.takeWhile (fun c => c != '(')).length + 1) - 1)) ++ [')'] ∧
      '(' ∉ s.take (s.takeWhile (fun c => c != '(')).length := by
  have htake : s.take (s.takeWhile (fun c => c != '(')).length = s.takeWhile (fun c => c != '(') := by
    have := List.takeWhile_prefix (fun c => c != '(') (l := s)
    exact (List.prefix_iff_eq_take.mp this).symm
  have hdrop : s.drop (s.takeWhile (fun c => c != '(')).length = s.dropWhile (fun c => c != '(') := by
    have h := congrArg (List.drop (s.takeWhile (fun c => c != '(')).length)
      (List.takeWhile_append_dropWhile (fun c => c != '(') s)
    rw [List.drop_left] at h
    exact h.symm
  have hnot : '(' ∉ s.takeWhile (fun c => c != '(') := by
    intro hin
    have := List.mem_takeWhile_imp hin
    simp at this
  cases hdw : s.dropWhile (fun c => c != '(') with
  | nil =>
    have h := List.takeWhile_append_dropWhile (fun c => c != '(') s
    rw [hdw, List.append_nil] at h
    exact absurd (congrArg List.length h) h2
  | cons x rest =>
    have hx : x = '(' := by
      have := List.head_dropWhile_not (fun c => c != '(') s (by rw [hdw]; simp)
      simp only [hdw, List.head_cons] at this
      simpa using this
    subst hx
    have hs : s = s.takeWhile (fun c => c != '(') ++ '(' :: rest := by
      have h := List.takeWhile_append_dropWhile (fun c => c != '(') s
      rw [hdw] at h
      exact h.symm
    have hrest : rest ≠ [] := by
      rintro rfl
      rw [hs, List.getLast?_append] at h3
      simp at h3
    have hlast : rest.getLast? = some ')' := by
      rw [hs, List.getLast?_append] at h3
      cases rest with
      | nil => exact absurd rfl hrest
      | cons b r2 => simpa [List.getLast?_cons_cons] using h3
    have hrl : rest = rest.dropLast ++ [')'] :=
      (List.dropLast_append_getLast? ')' (by simpa using hlast)).symm
    have hd1 : s.drop ((s.takeWhile (fun c => c != '(')).length + 1) = rest := by
      rw [← List.drop_drop, hdrop, hdw]
      rfl
    have hlen : s.length = (s.takeWhile (fun c => c != '(')).length + 1 + rest.length := by
      conv_lhs => rw [hs]
      simp
      omega
    refine ⟨?_, by rw [htake]; exact hnot⟩
    rw [htake, hd1]
    have : rest.take (s.length - ((s.takeWhile (fun c => c != '(')).length + 1) - 1)
        = rest.dropLast := by
      rw [List.dropLast_eq_take]
      congr 1
      omega
    rw [this]
    have e : '(' :: rest.dropLast ++ [')'] = '(' :: rest := by
      rw [List.cons_append, ← hrl]
    rw [List.append_assoc]
    rw [show s.takeWhile (fun c => c != '(') ++ ('(' :: rest.dropLast ++ [')'])
      = s.takeWhile (fun c => c != '(') ++ '(' :: rest by rw [e]]
    exact hs

/-- The five ways in which a call of `parse` returns a formula. -/
theorem parse_ok_cases (ops : TypeOps D T) {n : Nat} {sections : List Str} {d : List Address}
    {r : Function T × List Address} (h : parse ops (n + 1) sections d = .ok r) :
    (∃ s v, sections = [s] ∧ ops.isLiteral s = true ∧ ops.fromString s true = .ok v ∧
      r = (.Literal v, d)) ∨
    (∃ s a, sections = [s] ∧ isLink s = true ∧ Address.ofString s = .ok a ∧
      r = (.Link a, d ++ [a])) ∨
    (∃ s newSections, sections = [s] ∧ ¬ ops.isLiteral s = true ∧ ¬ isLink s = true ∧
      splitLogical s = .ok newSections ∧ [s] ≠ newSections ∧
      parse ops n newSections d = .ok r) ∨
    (∃ s ident mid g a0 inner arg, sections = [s] ∧ ¬ ops.isLiteral s = true ∧
      ¬ isLink s = true ∧ splitLogical s = .ok [s] ∧ ident ≠ [] ∧
      s = ident ++ '(' :: mid ++ [')'] ∧ '(' ∉ ident ∧
      mkFunction (T := T) (Utils.toLower ident) = some g ∧
      splitLogical mid ",".toList = .ok [a0] ∧ splitLogical a0 = .ok inner ∧
      parse ops n inner d = .ok arg ∧ r = (g arg.1, arg.2)) ∨
    (∃ left op last l a1 rt a2 f, sections = left ++ [[op], last] ∧ left ≠ [] ∧
      ((1 < left.length ∧ l = left) ∨ ∃ l0, left = [l0] ∧ splitLogical l0 = .ok l) ∧
      parse ops n l d = .ok a1 ∧ splitLogical last = .ok rt ∧ parse ops n rt a1.2 = .ok a2 ∧
      mkOperation op a1.1 a2.1 = .ok f ∧ r = (f, a2.2)) := by
  by_cases hlen : sections.length = 1
  · obtain ⟨s, rfl⟩ := List.length_eq_one.mp hlen
    rw [parse_single] at h
    by_cases hlit : ops.isLiteral s = true
    · rw [if_pos hlit] at h
      obtain ⟨v, hv, e⟩ := Res.bind_eq_ok h
      injection e with e
      exact Or.inl ⟨s, v, rfl, hlit, hv, e.symm⟩
    · rw [if_neg hlit] at h
      by_cases hlink : isLink s = true
      · rw [if_pos hlink] at h
        obtain ⟨a, ha, e⟩ := Res.bind_eq_ok h
        injection e with e
        exact Or.inr (Or.inl ⟨s, a, rfl, hlink, ha, e.symm⟩)
      · rw [if_neg hlink] at h
        obtain ⟨newSections, hnew, h⟩ := Res.bind_eq_ok h
        by_cases hne : [s] ≠ newSections
        · rw [if_pos hne] at h
          exact Or.inr (Or.inr (Or.inl ⟨s, newSections, rfl, hlit, hlink, hnew, hne, h⟩))
        · rw [if_neg hne] at h
          have hsame : newSections = [s] := by
            by_contra hc
            exact hne (fun e => hc e.symm)
          subst hsame
          by_cases hcond : (s.takeWhile (fun c => c != '(')).length > 0 ∧
              (s.takeWhile (fun c => c != '(')).length ≠ s.length ∧ s.getLast? = some ')'
          · rw [if_pos hcond] at h
            obtain ⟨arguments, hargs, h⟩ := Res.bind_eq_ok h
            obtain ⟨hshape, hnot⟩ := function_shape hcond.2.1 hcond.2.2
            cases hg : mkFunction (T := T)
                (Utils.toLower (s.take (s.takeWhile (fun c => c != '(')).length)) with
            | none =>
              rw [hg] at h
              cases h
            | some g =>
              rw [hg] at h
              simp only at h
              cases arguments with
              | nil => cases h
              | cons a0 rest =>
                cases rest with
                | cons a1 rest2 => cases h
                | nil =>
                  simp only at h
                  obtain ⟨inner, hinner, h⟩ := Res.bind_eq_ok h
                  obtain ⟨arg, harg, e⟩ := Res.bind_eq_ok h
                  injection e with e
                  refine Or.inr (Or.inr (Or.inr (Or.inl ⟨s, _, _, g, a0, inner, arg, rfl, hlit,
                    hlink, hnew, ?_, hshape, hnot, hg, hargs, hinner, harg, e.symm⟩)))
                  intro he
                  rcases List.take_eq_nil_iff.mp he with h0 | h0
                  · have := hcond.1
                    omega
                  · have := hcond.1
                    rw [h0] at this
                    simp at this
          · rw [if_neg hcond] at h
            cases h
  · rw [parse_many ops n sections d hlen] at h
    by_cases hcond : sections.length ≥ 3 ∧ (sections.getD (sections.length - 2) []).length = 1
    · rw [if_pos hcond] at h
      obtain ⟨l, hl, h⟩ := Res.bind_eq_ok h
      obtain ⟨a1, ha1, h⟩ := Res.bind_eq_ok h
      obtain ⟨rt, hrt, h⟩ := Res.bind_eq_ok h
      obtain ⟨a2, ha2, h⟩ := Res.bind_eq_ok h
      obtain ⟨f, hf, e⟩ := Res.bind_eq_ok h
      injection e with e
      have hsplit := split_last_two sections hcond.1
      have hop := singleton_of_length uninitialisedChar hcond.2
      rw [hop] at hsplit
      have htl : (sections.take (sections.length - 2)).length = sections.length - 2 := by
        rw [List.length_take]
        omega
      refine Or.inr (Or.inr (Or.inr (Or.inr ⟨sections.take (sections.length - 2), _, _, l, a1, rt,
        a2, f, hsplit, ?_, ?_, ha1, hrt, ha2, hf, e.symm⟩)))
      · intro he
        rw [he] at htl
        simp at htl
        omega
      · by_cases hl1 : (sections.take (sections.length - 2)).length > 1
        · rw [if_pos hl1] at hl
          injection hl with hl
          exact Or.inl ⟨hl1, hl.symm⟩
        · rw [if_neg hl1] at hl
          have h1 : (sections.take (sections.length - 2)).length = 1 := by omega
          obtain ⟨l0, hl0⟩ := List.length_eq_one.mp h1
          rw [hl0] at hl
          exact Or.inr ⟨l0, hl0, hl⟩
    · rw [if_neg hcond] at h
      cases h

end Parser

/-! ## What a successful `parse` tells about the sections -/

namespace Parser

variable {D T : Type}

/-- The addresses appended to the dependency vector are those of the links
of the formula, from left to right. -/
theorem parse_links (ops : TypeOps D T) :
    ∀ (n : Nat) (sections : List Str) (d : List Address) (r : Function T × List Address),
      parse ops n sections d = .ok r → r.2 = d ++ r.1.links := by
  intro n
  induction n with
  | zero => intro sections d r h; cases h
  | succ n ih =>
    intro sections d r h
    rcases parse_ok_cases ops h with ⟨s, v, -, -, -, rfl⟩ | ⟨s, a, -, -, -, rfl⟩ |
      ⟨s, new, -, -, -, -, -, hp⟩ | ⟨s, ident, mid, g, a0, inner, arg, -, -, -, -, -, -, -, hg, -,
        -, hp, rfl⟩ | ⟨left, op, last, l, a1, rt, a2, f, -, -, -, hp1, -, hp2, hf, rfl⟩
    · simp [Function.links]
    · simp [Function.links]
    · exact ih _ _ _ hp
    · have := ih _ _ _ hp
      simp only
      rw [links_function (mkFunction_some hg).2]
      exact this
    · obtain ⟨o, -, rfl⟩ := mkOperation_ok hf
      have h1 := ih _ _ _ hp1
      have h2 := ih _ _ _ hp2
      simp only
      rw [links_node, h2, h1, List.append_assoc]

theorem isDigit_not_paren {c : Char} (h : isDigit c = true) : c ≠ '(' ∧ c ≠ ')' := by
  constructor <;> rintro rfl <;> exact absurd h (by decide)

theorem isLetter_not_paren {c : Char} (h : isLetter c = true) : c ≠ '(' ∧ c ≠ ')' := by
  constructor <;> rintro rfl <;> exact absurd h (by decide)

/-- A link consists of letters and digits. -/
theorem isLink_chars {s : Str} (h : isLink s = true) :
    s ≠ [] ∧ ∀ c ∈ s, isLetter c = true ∨ isDigit c = true := by
  unfold isLink at h
  simp only [Bool.and_eq_true, Bool.not_eq_true', List.isEmpty_eq_false] at h
  obtain ⟨hl, hr⟩ := h
  have hs := List.takeWhile_append_dropWhile isLetter s
  refine ⟨fun e => ?_, fun c hc => ?_⟩
  · subst e
    simp at hl
  · rw [← hs] at hc
    rcases List.mem_append.mp hc with h1 | h1
    · exact Or.inl (List.mem_takeWhile_imp h1)
    · cases hd : s.dropWhile isLetter with
      | nil => rw [hd] at hr; cases hr
      | cons x ds =>
        rw [hd] at hr h1
        simp only [Bool.and_eq_true, List.all_eq_true] at hr
        rcases List.mem_cons.mp h1 with rfl | h2
        · exact Or.inr hr.1.1
        · exact Or.inr (hr.2 c h2)

theorem literalShape_int (h : Host D) : LiteralShape (intOps h) := by
  intro t ht _
  simp only [intOps, isLiteralInt, Bool.and_eq_true, Bool.not_eq_true', List.isEmpty_eq_false,
    List.all_eq_true] at ht
  exact ⟨fun e => by simp [e] at ht, fun c hc => Or.inl (ht.2 c hc)⟩

theorem literalShape_double (h : Host D) : LiteralShape (doubleOps h) := by
  intro t ht _
  simp only [doubleOps, isLiteralDouble, Bool.or_eq_true] at ht
  rcases ht with ht | ht
  · have hs := List.takeWhile_append_dropWhile isDigit t
    cases hd : t.dropWhile isDigit with
    | nil => rw [hd] at ht; cases ht
    | cons x frac =>
      rw [hd] at ht hs
      by_cases hx : x = '.'
      · subst hx
        simp only [Bool.and_eq_true, Bool.not_eq_true', List.isEmpty_eq_false,
          List.all_eq_true] at ht
        refine ⟨fun e => by rw [e] at hs; simp at hs, fun c hc => ?_⟩
        rw [← hs] at hc
        rcases List.mem_append.mp hc with h1 | h1
        · exact Or.inl (List.mem_takeWhile_imp h1)
        · rcases List.mem_cons.mp h1 with rfl | h2
          · exact Or.inr rfl
          · exact Or.inl (ht.2 c h2)
      · exfalso
        revert ht
        split
        · rename_i heq
          injection heq with h1 h2
          exact absurd h1 hx
        · intro hf
          cases hf
  · simp only [isLiteralInt, Bool.and_eq_true, Bool.not_eq_true', List.isEmpty_eq_false,
      List.all_eq_true] at ht
    exact ⟨fun e => by simp [e] at ht, fun c hc => Or.inl (ht.2 c hc)⟩

theorem literalShape_string (D : Type) : LiteralShape (stringOps D) := by
  intro t ht hq
  exfalso
  cases t with
  | nil => simp [stringOps, isLiteralString] at ht
  | cons c r =>
    by_cases hc : c = '"'
    · subst hc
      exact hq (List.mem_cons_self _ _)
    · simp only [stringOps] at ht
      unfold isLiteralString at ht
      split at ht
      · rename_i heq
        injection heq with h1 h2
        exact hc h1
      · cases ht

theorem literal_plain {ops : TypeOps D T} (hshape : LiteralShape ops) {t : Str}
    (ht : ops.isLiteral t = true) (hq : '"' ∉ t) :
    t ≠ [] ∧ ∀ c ∈ t, c ∉ defaultSeparators ∧ c ≠ '(' ∧ c ≠ ')' ∧ isspace c = false := by
  obtain ⟨hne, hc⟩ := hshape t ht hq
  refine ⟨hne, fun c hcm => ?_⟩
  rcases hc c hcm with h | rfl
  · refine ⟨?_, (isDigit_not_paren h).1, (isDigit_not_paren h).2, ?_⟩
    · intro hin
      simp only [defaultSeparators, String.toList, List.mem_cons, List.mem_singleton] at hin
      rcases hin with rfl | rfl | rfl | rfl | rfl | hin
      all_goals first | exact absurd h (by decide) | cases hin
    · cases hsp : isspace c with
      | false => rfl
      | true =>
        exfalso
        simp only [isspace, Bool.or_eq_true, decide_eq_true_eq] at hsp
        rcases hsp with ((((rfl | rfl) | rfl) | rfl) | rfl) | rfl <;>
          exact absurd h (by decide)
  · exact ⟨by decide, by decide, by decide, by decide⟩

theorem link_plain {t : Str} (ht : isLink t = true) :
    t ≠ [] ∧ ∀ c ∈ t, c ∉ defaultSeparators ∧ c ≠ '(' ∧ c ≠ ')' ∧ isspace c = false := by
  obtain ⟨hne, hc⟩ := isLink_chars ht
  refine ⟨hne, fun c hcm => ?_⟩
  have key : ∀ c, (isLetter c = true ∨ isDigit c = true) →
      c ≠ ',' ∧ c ≠ '+' ∧ c ≠ '-' ∧ c ≠ '*' ∧ c ≠ '/' ∧ c ≠ '(' ∧ c ≠ ')' ∧ c ≠ ' ' ∧
      c ≠ '\t' ∧ c ≠ '\n' ∧ c ≠ Char.ofNat 11 ∧ c ≠ Char.ofNat 12 ∧ c ≠ '\r' := by
    intro c hcl
    refine ⟨?_, ?_, ?_, ?_, ?_, ?_, ?_, ?_, ?_, ?_, ?_, ?_, ?_⟩ <;> rintro rfl <;>
      rcases hcl with h | h <;> exact absurd h (by decide)
  obtain ⟨k1, k2, k3, k4, k5, k6, k7, k8, k9, k10, k11, k12, k13⟩ := key c (hc c hcm)
  refine ⟨?_, k6, k7, ?_⟩
  · intro hin
    simp only [defaultSeparators, String.toList, List.mem_cons, List.mem_singleton] at hin
    rcases hin with rfl | rfl | rfl | rfl | rfl | hin
    · exact k1 rfl
    · exact k2 rfl
    · exact k3 rfl
    · exact k4 rfl
    · exact k5 rfl
    · cases hin
  · cases hsp : isspace c with
    | false => rfl
    | true =>
      exfalso
      simp only [isspace, Bool.or_eq_true, decide_eq_true_eq] at hsp
      rcases hsp with ((((rfl | rfl) | rfl) | rfl) | rfl) | rfl
      · exact k8 rfl
      · exact k9 rfl
      · exact k10 rfl
      · exact k11 rfl
      · exact k12 rfl
      · exact k13 rfl

theorem wellNested_of_plain {t : Str}
    (h : ∀ c ∈ t, c ∉ defaultSeparators ∧ c ≠ '(' ∧ c ≠ ')' ∧ isspace c = false) :
    WellNested t :=
  WellNested.plain (fun c hc => ⟨(h c hc).2.1, (h c hc).2.2.1⟩)

theorem tolower_paren {c : Char} (h : c = ')') : tolower c = ')' := by
  subst h
  decide

/-- An identifier of a function has no `)`. -/
theorem identifier_no_close {ident : Str}
    (h : Utils.toLower ident = "abs".toList ∨ Utils.toLower ident = "sin".toList ∨
      Utils.toLower ident = "cos".toList ∨ Utils.toLower ident = "tan".toList) :
    ')' ∉ ident := by
  intro hin
  have hmem : ')' ∈ Utils.toLower ident := by
    unfold Utils.toLower
    exact List.mem_map.mpr ⟨')', hin, tolower_paren rfl⟩
  rcases h with h | h | h | h <;> rw [h] at hmem <;> revert hmem <;> decide

theorem wellNested_char (o : BinOp) : WellNested [o.char] := by
  unfold WellNested
  cases o <;> decide

/-- When `parse` returns a formula for sections without double quote, every
section is well nested. -/
theorem parse_wellNested (ops : TypeOps D T) (hshape : LiteralShape ops) :
    ∀ (n : Nat) (sections : List Str) (d : List Address) (r : Function T × List Address),
      parse ops n sections d = .ok r → (∀ s ∈ sections, '"' ∉ s) →
      ∀ s ∈ sections, WellNested s := by
  intro n
  induction n with
  | zero => intro sections d r h; cases h
  | succ n ih =>
    intro sections d r h hq
    rcases parse_ok_cases ops h with ⟨s, v, rfl, hlit, -, -⟩ | ⟨s, a, rfl, hlink, -, -⟩ |
      ⟨s, new, rfl, -, -, hnew, -, hp⟩ |
      ⟨s, ident, mid, g, a0, inner, arg, rfl, -, -, -, -, hs, hno, hg, hargs, hinner, hp, -⟩ |
      ⟨left, op, last, l, a1, rt, a2, f, rfl, -, hl, hp1, hrt, hp2, hf, -⟩
    · intro t ht
      simp only [List.mem_singleton] at ht
      subst ht
      exact wellNested_of_plain (literal_plain hshape hlit (hq _ (by simp))).2
    · intro t ht
      simp only [List.mem_singleton] at ht
      subst ht
      exact wellNested_of_plain (link_plain hlink).2
    · intro t ht
      simp only [List.mem_singleton] at ht
      subst ht
      have hqs : '"' ∉ t := hq _ (by simp)
      rw [splitLogical_sectionsOf t hqs] at hnew
      injection hnew with hnew
      subst hnew
      exact sectionsOf_wellNested
        (ih _ _ _ hp (fun u hu => sectionsOf_noquote hqs hu))
    · intro t ht
      simp only [List.mem_singleton] at ht
      subst ht
      have hqs : '"' ∉ t := hq _ (by simp)
      have hqmid : '"' ∉ mid := by
        intro hin
        apply hqs
        rw [hs]
        simp [hin]
      rw [splitLogical_pure mid _ hqmid] at hargs
      injection hargs with hargs
      have ha0 : a0 <:+: stripSpace mid := by
        have hmem : a0 ∈ splitPure ",".toList (stripSpace mid) [] [] 0 := by
          rw [hargs]
          simp
        rcases splitPure_part _ _ _ _ _ _ hmem with h' | h'
        · simp at h'
        · simpa using h'.1
      have hqa0 : '"' ∉ a0 := fun hin => not_mem_stripSpace hqmid (ha0.subset hin)
      rw [splitLogical_sectionsOf a0 hqa0] at hinner
      injection hinner with hinner
      subst hinner
      have hwa0 : WellNested a0 := sectionsOf_wellNested
        (ih _ _ _ hp (fun u hu => sectionsOf_noquote hqa0 hu))
      have hwmid : WellNested mid := by
        have := (splitPure_wellNested ",".toList (by decide) (by decide) (stripSpace mid) [] [] 0
          (by rw [hargs]; intro u hu; simp only [List.mem_singleton] at hu; rw [hu]; exact hwa0)).1
        exact wellNested_stripSpace.mp (by simpa using this)
      have hident : WellNested ident :=
        WellNested.plain (fun c hc =>
          ⟨fun e => hno (e ▸ hc), fun e => identifier_no_close (mkFunction_some hg).1 (e ▸ hc)⟩)
      rw [hs, List.append_assoc]
      exact WellNested.append hident (WellNested.paren hwmid)
    · have hqlast : '"' ∉ last := hq _ (by simp)
      rw [splitLogical_sectionsOf last hqlast] at hrt
      injection hrt with hrt
      subst hrt
      have hwlast : WellNested last := sectionsOf_wellNested
        (ih _ _ _ hp2 (fun u hu => sectionsOf_noquote hqlast hu))
      obtain ⟨o, rfl, -⟩ := mkOperation_ok hf
      have hwleft : ∀ t ∈ left, WellNested t := by
        rcases hl with ⟨-, rfl⟩ | ⟨l0, rfl, hl0⟩
        · exact ih _ _ _ hp1 (fun u hu => hq u (by simp [hu]))
        · have hql0 : '"' ∉ l0 := hq _ (by simp)
          rw [splitLogical_sectionsOf l0 hql0] at hl0
          injection hl0 with hl0
          subst hl0
          intro t ht
          simp only [List.mem_singleton] at ht
          subst ht
          exact sectionsOf_wellNested
            (ih _ _ _ hp1 (fun u hu => sectionsOf_noquote hql0 hu))
      intro t ht
      simp only [List.mem_append, List.mem_cons, List.mem_singleton, List.not_mem_nil,
        or_false] at ht
      rcases ht with ht | rfl | rfl
      · exact hwleft t ht
      · exact wellNested_char o
      · exact hwlast

/-- When `parseSource` returns a formula for a source without double quote,
the source is well nested. -/
theorem parseSource_wellNested (ops : TypeOps D T) (hshape : LiteralShape ops) {s : Str}
    {d : List Address} {r : Function T × List Address} (hq : '"' ∉ s)
    (h : parseSource ops s d = .ok r) : WellNested s := by
  unfold parseSource at h
  rw [splitLogical_sectionsOf s hq] at h
  simp only [Res.bind_ok] at h
  exact sectionsOf_wellNested
    (parse_wellNested ops hshape _ _ _ _ h (fun u hu => sectionsOf_noquote hq hu))

end Parser

/-! ## Sources put together from sources that parse -/

namespace Parser

variable {D T : Type}

theorem sectionsOf_stripSpace (s : Str) : sectionsOf (stripSpace s) = sectionsOf s := by
  unfold sectionsOf
  rw [stripSpace_idem]

theorem stripSpace_char (o : BinOp) : stripSpace [o.char] = [o.char] := by
  cases o <;> rfl

theorem char_mem_separators (o : BinOp) : defaultSeparators.contains o.char = true := by
  cases o <;> rfl

/-- What a source that parses gives: its sections parse, it is well nested
and not blank. -/
theorem parseSource_ok_facts (ops : TypeOps D T) (hshape : LiteralShape ops) {e : Str}
    {d : List Address} {r : Function T × List Address} (hq : '"' ∉ e)
    (h : parseSource ops e d = .ok r) :
    parse ops (2 * e.length + 4) (sectionsOf e) d = .ok r ∧ WellNested (stripSpace e) ∧
      stripSpace e ≠ [] := by
  have hw := parseSource_wellNested ops hshape hq h
  unfold parseSource at h
  rw [splitLogical_sectionsOf e hq] at h
  simp only [Res.bind_ok] at h
  refine ⟨h, wellNested_stripSpace.mpr hw, fun he => ?_⟩
  have : sectionsOf e = [] := by
    unfold sectionsOf
    rw [he]
    rfl
  rw [this, show 2 * e.length + 4 = (2 * e.length + 3) + 1 from rfl, parse_nil] at h
  cases h

/-- The sections of `(e1)op(e2)`. -/
theorem sectionsOf_pair (e1 e2 : Str) (o : BinOp) (h1 : WellNested (stripSpace e1))
    (h2 : WellNested (stripSpace e2)) (n1 : stripSpace e1 ≠ []) (n2 : stripSpace e2 ≠ []) :
    sectionsOf ("(".toList ++ e1 ++ ")".toList ++ [o.char] ++ "(".toList ++ e2 ++ ")".toList)
      = [stripSpace e1, [o.char], stripSpace e2] := by
  have hs : stripSpace ("(".toList ++ e1 ++ ")".toList ++ [o.char] ++ "(".toList ++ e2 ++
      ")".toList) = '(' :: stripSpace e1 ++ ')' ::
        (o.char :: ('(' :: stripSpace e2 ++ ')' :: [])) := by
    simp only [stripSpace_append, stripSpace_char]
    have e1' : stripSpace "(".toList = ['('] := rfl
    have e2' : stripSpace ")".toList = [')'] := rfl
    rw [e1', e2']
    simp
  unfold sectionsOf
  rw [hs, splitPure_paren _ (by decide) _ _ _ _ h1]
  rw [splitPure]
  simp only [char_mem_separators, and_self, if_true, List.nil_append]
  rw [pushCur_paren [] n1]
  simp only [List.nil_append]
  rw [splitPure_paren _ (by decide) _ _ _ _ h2]
  simp only [splitPure, List.nil_append]
  rw [pushCur_paren _ n2]
  rfl

/-- The sections of `(e)`. -/
theorem sectionsOf_paren (e : Str) (h1 : WellNested (stripSpace e)) (n1 : stripSpace e ≠ []) :
    sectionsOf ("(".toList ++ e ++ ")".toList) = [stripSpace e] := by
  have hs : stripSpace ("(".toList ++ e ++ ")".toList) = '(' :: stripSpace e ++ ')' :: [] := by
    simp only [stripSpace_append]
    have e1' : stripSpace "(".toList = ['('] := rfl
    have e2' : stripSpace ")".toList = [')'] := rfl
    rw [e1', e2']
    simp
  unfold sectionsOf
  rw [hs, splitPure_paren _ (by decide) _ _ _ _ h1]
  simp only [splitPure, List.nil_append]
  rw [pushCur_paren _ n1]
  rfl

theorem not_mem_quote_char (o : BinOp) : '"' ≠ o.char := by
  cases o <;> decide

/-- `(e1)op(e2)` parses to the node of `op` over what `e1` and `e2` parse to. -/
theorem parseSource_pair (ops : TypeOps D T) (hshape : LiteralShape ops) (e1 e2 : Str)
    (o : BinOp) (d d1 d2 : List Address) (g1 g2 : Function T) (hq1 : '"' ∉ e1) (hq2 : '"' ∉ e2)
    (h1 : parseSource ops e1 d = .ok (g1, d1)) (h2 : parseSource ops e2 d1 = .ok (g2, d2)) :
    parseSource ops
      ("(".toList ++ e1 ++ ")".toList ++ [o.char] ++ "(".toList ++ e2 ++ ")".toList) d
      = .ok (o.node g1 g2, d2) := by
  obtain ⟨p1, w1, n1⟩ := parseSource_ok_facts ops hshape hq1 h1
  obtain ⟨p2, w2, n2⟩ := parseSource_ok_facts ops hshape hq2 h2
  have hq : '"' ∉ "(".toList ++ e1 ++ ")".toList ++ [o.char] ++ "(".toList ++ e2 ++ ")".toList := by
    simp only [List.mem_append, List.mem_singleton, not_or]
    refine ⟨⟨⟨⟨⟨⟨?_, hq1⟩, ?_⟩, not_mem_quote_char o⟩, ?_⟩, hq2⟩, ?_⟩ <;> decide
  unfold parseSource
  rw [splitLogical_sectionsOf _ hq, sectionsOf_pair e1 e2 o w1 w2 n1 n2]
  simp only [Res.bind_ok]
  have hlen : ("(".toList ++ e1 ++ ")".toList ++ [o.char] ++ "(".toList ++ e2 ++ ")".toList).length
      = e1.length + e2.length + 5 := by
    simp
    omega
  rw [hlen, show 2 * (e1.length + e2.length + 5) + 4 = (2 * (e1.length + e2.length + 5) + 3) + 1
    from rfl, parse_many _ _ _ _ (by simp)]
  have hc : ([stripSpace e1, [o.char], stripSpace e2].length ≥ 3 ∧
      (([stripSpace e1, [o.char], stripSpace e2] : List Str).getD
        ([stripSpace e1, [o.char], stripSpace e2].length - 2) []).length = 1) := by
    simp
  rw [if_pos hc]
  have hl : ¬ (([stripSpace e1, [o.char], stripSpace e2] : List Str).take
      ([stripSpace e1, [o.char], stripSpace e2].length - 2)).length > 1 := by
    simp
  rw [if_neg hl]
  have el : (([stripSpace e1, [o.char], stripSpace e2] : List Str).take
      ([stripSpace e1, [o.char], stripSpace e2].length - 2)).headD [] = stripSpace e1 := by
    simp
  have er : ([stripSpace e1, [o.char], stripSpace e2] : List Str).getD
      ([stripSpace e1, [o.char], stripSpace e2].length - 1) [] = stripSpace e2 := by
    simp
  have eo : (([stripSpace e1, [o.char], stripSpace e2] : List Str).getD
      ([stripSpace e1, [o.char], stripSpace e2].length - 2) []).headD uninitialisedChar
        = o.char := by
    simp
  rw [el, er, eo, splitLogical_sectionsOf _ (not_mem_stripSpace hq1),
    splitLogical_sectionsOf _ (not_mem_stripSpace hq2), sectionsOf_stripSpace,
    sectionsOf_stripSpace]
  simp only [Res.bind_ok]
  rw [parse_mono_ok ops (by omega) p1]
  simp only [Res.bind_ok]
  rw [parse_mono_ok ops (by omega) p2]
  simp only [Res.bind_ok]
  rw [mkOperation_char]
  rfl

/-- `(e)` parses to what `e` parses to. -/
theorem parseSource_paren (ops : TypeOps D T) (hshape : LiteralShape ops) (e : Str)
    (d d1 : List Address) (g : Function T) (hq1 : '"' ∉ e)
    (h1 : parseSource ops e d = .ok (g, d1)) :
    parseSource ops ("(".toList ++ e ++ ")".toList) d = .ok (g, d1) := by
  obtain ⟨p1, w1, n1⟩ := parseSource_ok_facts ops hshape hq1 h1
  have hq : '"' ∉ "(".toList ++ e ++ ")".toList := by
    simp only [List.mem_append, not_or]
    refine ⟨⟨?_, hq1⟩, ?_⟩ <;> decide
  unfold parseSource
  rw [splitLogical_sectionsOf _ hq, sectionsOf_paren e w1 n1]
  simp only [Res.bind_ok]
  have hlen : ("(".toList ++ e ++ ")".toList).length = e.length + 2 := by
    simp
  rw [hlen]
  by_cases hsame : sectionsOf e = [stripSpace e]
  · rw [hsame] at p1
    exact parse_mono_ok ops (by omega) p1
  · have hnl : ¬ ops.isLiteral (stripSpace e) = true := by
      intro hl
      obtain ⟨hne, hp⟩ := literal_plain hshape hl (not_mem_stripSpace hq1)
      apply hsame
      rw [← sectionsOf_stripSpace]
      exact sectionsOf_plain hne hp
    have hnk : ¬ isLink (stripSpace e) = true := by
      intro hl
      obtain ⟨hne, hp⟩ := link_plain hl
      apply hsame
      rw [← sectionsOf_stripSpace]
      exact sectionsOf_plain hne hp
    rw [show 2 * (e.length + 2) + 4 = (2 * (e.length + 2) + 3) + 1 from rfl, parse_single,
      if_neg hnl, if_neg hnk, splitLogical_sectionsOf _ (not_mem_stripSpace hq1),
      sectionsOf_stripSpace]
    simp only [Res.bind_ok]
    rw [if_pos (fun he => hsame he.symm)]
    exact parse_mono_ok ops (by omega) p1

end Parser

/-! ## Chains of literals and operators -/

namespace Parser

variable {D : Type}

/-- The sections `[o1], x1, ..., [on], xn` after the first literal. -/
theorem chain_split (rest : List (BinOp × Str × Int))
    (hrest : ∀ p ∈ rest, p.2.1 ≠ [] ∧
      ∀ c ∈ p.2.1, c ∉ defaultSeparators ∧ c ≠ '(' ∧ c ≠ ')' ∧ isspace c = false) :
    ∀ (x : Str) (res : List Str), x ≠ [] →
      (∀ c ∈ x, c ∉ defaultSeparators ∧ c ≠ '(' ∧ c ≠ ')' ∧ isspace c = false) →
      splitPure defaultSeparators (chainSource x rest) [] res 0
        = res ++ x :: (rest.map (fun p => [[p.1.char], p.2.1])).flatten := by
  induction rest with
  | nil =>
    intro x res hne hx
    have := splitPure_plain defaultSeparators x (fun c hc => ⟨(hx c hc).1, (hx c hc).2.1,
      (hx c hc).2.2.1⟩) [] res 0 []
    simp only [chainSource, List.map_nil, List.flatten_nil, List.append_nil,
      List.nil_append] at this ⊢
    rw [this]
    simp only [splitPure]
    rw [pushCur_plain res hne]
    cases x with
    | nil => exact absurd rfl hne
    | cons c r =>
      simp only [List.head?_cons, ne_eq, Option.some.injEq]
      exact (hx c (List.mem_cons_self _ _)).2.1
  | cons p rest ih =>
    intro x res hne hx
    obtain ⟨hpne, hp⟩ := hrest p (List.mem_cons_self _ _)
    have hsrc : chainSource x (p :: rest) = x ++ p.1.char :: chainSource p.2.1 rest := by
      simp [chainSource]
    rw [hsrc, splitPure_plain defaultSeparators x (fun c hc => ⟨(hx c hc).1, (hx c hc).2.1,
      (hx c hc).2.2.1⟩), splitPure]
    simp only [char_mem_separators, and_self, if_true, List.nil_append]
    have hhead : x.head? ≠ some '(' := by
      cases x with
      | nil => exact absurd rfl hne
      | cons c r =>
        simp only [List.head?_cons, ne_eq, Option.some.injEq]
        exact (hx c (List.mem_cons_self _ _)).2.1
    rw [pushCur_plain res hne hhead]
    simp only
    rw [ih (fun q hq => hrest q (List.mem_cons_of_mem _ hq)) p.2.1 _ hpne hp]
    simp

theorem chainSource_chars (x : Str) (rest : List (BinOp × Str × Int)) (P : Char → Prop)
    (hx : ∀ c ∈ x, P c) (hrest : ∀ p ∈ rest, ∀ c ∈ p.2.1, P c) (hop : ∀ o : BinOp, P o.char) :
    ∀ c ∈ chainSource x rest, P c := by
  intro c hc
  simp only [chainSource, List.mem_append, List.mem_flatten, List.mem_map] at hc
  rcases hc with hc | ⟨l, ⟨p, hp, rfl⟩, hc⟩
  · exact hx c hc
  · rcases List.mem_cons.mp hc with rfl | hc
    · exact hop _
    · exact hrest p hp c hc

theorem chainSource_length (x : Str) (rest : List (BinOp × Str × Int)) :
    rest.length ≤ (chainSource x rest).length := by
  induction rest generalizing x with
  | nil => simp
  | cons p rest ih =>
    have hsrc : chainSource x (p :: rest) = x ++ p.1.char :: chainSource p.2.1 rest := by
      simp [chainSource]
    rw [hsrc]
    have := ih p.2.1
    simp only [List.length_append, List.length_cons]
    omega

theorem last_two_append (L : List Str) (a b : Str) :
    (L ++ [a, b]).length - 2 = L.length ∧ (L ++ [a, b]).length - 1 = L.length + 1 ∧
      (L ++ [a, b]).take L.length = L ∧ (L ++ [a, b]).getD L.length [] = a ∧
      (L ++ [a, b]).getD (L.length + 1) [] = b := by
  refine ⟨by simp, by simp, by simp, ?_, ?_⟩
  · rw [List.getD_eq_getElem?_getD, List.getElem?_append_right (by omega)]
    simp
  · rw [List.getD_eq_getElem?_getD, List.getElem?_append_right (by omega)]
    simp

theorem int_literal_plain (h : Host D) {x : Str} (hx : isLiteralInt x = true) :
    x ≠ [] ∧ '"' ∉ x ∧
      ∀ c ∈ x, c ∉ defaultSeparators ∧ c ≠ '(' ∧ c ≠ ')' ∧ isspace c = false := by
  have hq : '"' ∉ x := by
    intro hin
    simp only [isLiteralInt, Bool.and_eq_true, List.all_eq_true] at hx
    exact absurd (hx.2 _ hin) (by decide)
  obtain ⟨h1, h2⟩ := literal_plain (literalShape_int h) (t := x) hx hq
  exact ⟨h1, hq, h2⟩

/-- The sections of a chain parse to the left-nested tree. -/
theorem parse_chain (h : Host D) (x0 : Str) (v0 : Int) (hx0 : isLiteralInt x0 = true)
    (hv0 : intFromString x0 = .ok v0) (d : List Address) :
    ∀ (rest : List (BinOp × Str × Int)),
      (∀ p ∈ rest, isLiteralInt p.2.1 = true ∧ intFromString p.2.1 = .ok p.2.2) →
      ∀ n, rest.length + 1 ≤ n →
        parse (intOps h) n (x0 :: (rest.map (fun p => [[p.1.char], p.2.1])).flatten) d
          = .ok (leftNested v0 rest, d) := by
  intro rest
  induction rest using List.reverseRecOn with
  | nil =>
    intro _ n hn
    obtain ⟨m, rfl⟩ : ∃ m, n = m + 1 := ⟨n - 1, by omega⟩
    simp only [List.map_nil, List.flatten_nil]
    rw [parse_single, if_pos (by exact hx0)]
    show (intFromString x0).bind _ = _
    rw [hv0]
    rfl
  | append_singleton init p ih =>
    intro hrest n hn
    obtain ⟨m, rfl⟩ : ∃ m, n = m + 1 := ⟨n - 1, by omega⟩
    have hinit := ih (fun q hq => hrest q (by simp [hq])) m (by simp at hn; omega)
    obtain ⟨hpl, hpv⟩ := hrest p (by simp)
    have hsec : x0 :: ((init ++ [p]).map (fun p => [[p.1.char], p.2.1])).flatten
        = (x0 :: (init.map (fun p => [[p.1.char], p.2.1])).flatten) ++ [[p.1.char], p.2.1] := by
      simp
    obtain ⟨e1, e2, e3, e4, e5⟩ :=
      last_two_append (x0 :: (init.map (fun p => [[p.1.char], p.2.1])).flatten) [p.1.char] p.2.1
    rw [hsec, parse_many _ _ _ _ (by simp)]
    rw [e1, e2, e3, e4, e5]
    rw [if_pos ⟨by simp, rfl⟩]
    have hleft : (if (x0 :: (init.map (fun p => [[p.1.char], p.2.1])).flatten).length > 1 then
          Res.ok (x0 :: (init.map (fun p => [[p.1.char], p.2.1])).flatten)
        else splitLogical ((x0 :: (init.map (fun p => [[p.1.char], p.2.1])).flatten).headD []))
        = Res.ok (x0 :: (init.map (fun p => [[p.1.char], p.2.1])).flatten) := by
      split_ifs with hl
      · rfl
      · have hnil : init = [] := by
          cases init with
          | nil => rfl
          | cons q r => simp at hl
        subst hnil
        obtain ⟨a1, a2, a3⟩ := int_literal_plain h hx0
        simp only [List.map_nil, List.flatten_nil, List.headD_cons]
        rw [splitLogical_sectionsOf x0 a2, sectionsOf_plain a1 a3]
    rw [hleft]
    simp only [Res.bind_ok]
    rw [hinit]
    simp only [Res.bind_ok]
    obtain ⟨b1, b2, b3⟩ := int_literal_plain h hpl
    rw [splitLogical_sectionsOf p.2.1 b2, sectionsOf_plain b1 b3]
    simp only [Res.bind_ok]
    obtain ⟨k, rfl⟩ : ∃ k, m = k + 1 := ⟨m - 1, by simp at hn; omega⟩
    rw [parse_single, if_pos (by exact hpl)]
    have : (intOps h).fromString p.2.1 true = .ok p.2.2 := hpv
    rw [this]
    simp only [Res.bind_ok, List.headD_cons]
    rw [mkOperation_char]
    simp [leftNested, List.foldl_append]

/-- A chain of `int` literals and operators parses to the left-nested tree. -/
theorem parseSource_chain (h : Host D) (x0 : Str) (v0 : Int) (rest : List (BinOp × Str × Int))
    (d : List Address) (hx0 : isLiteralInt x0 = true) (hv0 : intFromString x0 = .ok v0)
    (hrest : ∀ p ∈ rest, isLiteralInt p.2.1 = true ∧ intFromString p.2.1 = .ok p.2.2) :
    parseSource (intOps h) (chainSource x0 rest) d = .ok (leftNested v0 rest, d) := by
  obtain ⟨a1, a2, a3⟩ := int_literal_plain h hx0
  have hplain : ∀ p ∈ rest, p.2.1 ≠ [] ∧
      ∀ c ∈ p.2.1, c ∉ defaultSeparators ∧ c ≠ '(' ∧ c ≠ ')' ∧ isspace c = false :=
    fun p hp => ⟨(int_literal_plain h (hrest p hp).1).1, (int_literal_plain h (hrest p hp).1).2.2⟩
  have hq : '"' ∉ chainSource x0 rest := by
    intro hin
    exact chainSource_chars x0 rest (fun c => c ≠ '"') (fun c hc e => a2 (e ▸ hc))
      (fun p hp c hc e => (int_literal_plain h (hrest p hp).1).2.1 (e ▸ hc))
      (fun o => by cases o <;> decide) _ hin rfl
  have hsp : stripSpace (chainSource x0 rest) = chainSource x0 rest :=
    stripSpace_of_nospace (chainSource_chars x0 rest (fun c => isspace c = false)
      (fun c hc => (a3 c hc).2.2.2) (fun p hp c hc => ((hplain p hp).2 c hc).2.2.2)
      (fun o => by cases o <;> rfl))
  unfold parseSource
  rw [splitLogical_sectionsOf _ hq]
  simp only [Res.bind_ok]
  unfold sectionsOf
  rw [hsp, chain_split rest hplain x0 [] a1 a3]
  simp only [List.nil_append]
  exact parse_chain h x0 v0 hx0 hv0 d rest hrest _
    (by have := chainSource_length x0 rest; omega)

/-- The left-nested tree evaluates as the left fold. -/
theorem evaluate_leftNested (h : Host D) (link : List Nat → Address → Res Int) :
    ∀ (rest : List (BinOp × Str × Int)) (v0 : Int) (path : List Nat),
      (leftNested v0 rest).evaluate (intOps h) link path = leftFold h v0 rest := by
  intro rest
  induction rest using List.reverseRecOn with
  | nil => intro v0 path; rfl
  | append_singleton init p ih =>
    intro v0 path
    have e1 : leftNested v0 (init ++ [p]) = p.1.node (leftNested v0 init) (.Literal p.2.2) := by
      simp [leftNested, List.foldl_append]
    have e2 : leftFold h v0 (init ++ [p])
        = (leftFold h v0 init).bind fun a => p.1.apply (intOps h) a p.2.2 := by
      simp [leftFold, List.foldl_append]
    rw [e1, e2, ← ih v0 (0 :: path)]
    cases hp : p.1 <;>
      simp only [BinOp.node, Function.evaluate, Function.binary, BinOp.apply, intOps] <;>
      cases (leftNested v0 init).evaluate (intOps h) link (0 :: path) <;> rfl

end Parser

/-! ## `parse` returns or throws, and what it throws -/

namespace Parser

variable {D T : Type}

theorem colLoop_ne_diverge : ∀ (letters : List Char) (k : Nat) (col : Int),
    Address.colLoop letters k col ≠ .diverge := by
  intro letters
  induction letters with
  | nil => intro k col h; cases h
  | cons c rest ih =>
    intro k col
    unfold Address.colLoop
    simp only
    split_ifs
    · intro h; cases h
    · intro h; cases h
    · exact ih _ _

theorem bind_ne_diverge {α β : Type} {r : Res α} {f : α → Res β} (hr : r ≠ .diverge)
    (hf : ∀ a, f a ≠ .diverge) : r.bind f ≠ .diverge := by
  cases r with
  | ok a => exact hf a
  | error e => intro h; cases h
  | diverge => exact absurd rfl hr

theorem stoul_ne_diverge (s : Str) : stoul s ≠ .diverge := by
  unfold stoul
  simp only
  split_ifs <;> intro h <;> cases h

theorem ofString_ne_diverge (s : Str) : Address.ofString s ≠ .diverge := by
  unfold Address.ofString
  simp only
  split_ifs
  · intro h; cases h
  · refine bind_ne_diverge (colLoop_ne_diverge _ _ _) (fun col => ?_)
    refine bind_ne_diverge (stoul_ne_diverge _) (fun row => ?_)
    split_ifs <;> intro h <;> cases h

theorem mkOperation_error {op : Char} {a b : Function T} :
    mkOperation op a b ≠ .diverge ∧
      ∀ e, mkOperation op a b = .error e → e = .IncorrectFormulaSyntaxException := by
  unfold mkOperation
  split_ifs
  all_goals
    refine ⟨(fun h => by cases h), fun e h => ?_⟩
    cases h <;> rfl

theorem weight_singleton (s : Str) : weight [s] = 2 * s.length + 1 := by
  simp [weight]

theorem weight_le (sections : List Str) :
    weight sections ≤ 2 * (sections.map List.length).sum + 1 := by
  unfold weight
  split_ifs <;> omega

theorem weight_sectionsOf_le (s : Str) : weight (sectionsOf s) ≤ 2 * s.length + 1 := by
  have := (sectionsOf_length s).1
  have := weight_le (sectionsOf s)
  omega

theorem weight_sectionsOf_lt {s : Str} (h : [s] ≠ sectionsOf s) :
    weight (sectionsOf s) < 2 * s.length + 1 := by
  obtain ⟨hsum, hone⟩ := sectionsOf_length s
  unfold weight
  split_ifs with hl
  · obtain ⟨t, ht⟩ := List.length_eq_one.mp hl
    rw [ht] at hsum ⊢
    simp only [List.map_cons, List.map_nil, List.sum_cons, List.sum_nil, add_zero] at hsum ⊢
    have : t.length ≠ s.length := fun e => h (by rw [ht, hone t ht e])
    omega
  · omega

theorem length_le_of_mem_sum {l : List Str} {t : Str} (h : t ∈ l) :
    t.length ≤ (l.map List.length).sum :=
  List.single_le_sum (fun _ _ => Nat.zero_le _) _ (List.mem_map_of_mem _ h)

/-- Every section of `sections'` is, white space not counted, a part of a
section of `sections`. -/
theorem conversionThrows_mono {ops : TypeOps D T} {sections sections' : List Str}
    {e : Exception}
    (hc : ∀ u ∈ sections', ∃ s ∈ sections, stripSpace u <:+: stripSpace s)
    (h : ConversionThrows ops sections' e) : ConversionThrows ops sections e := by
  obtain ⟨t, ⟨u, hu, htu⟩, ht⟩ := h
  obtain ⟨s, hs, hus⟩ := hc u hu
  exact ⟨t, ⟨s, hs, htu.trans hus⟩, ht⟩

theorem stripSpace_part {a b : Str} (h : a <:+: b) : stripSpace a <:+: stripSpace b :=
  List.IsInfix.filter _ h

theorem covers_sectionsOf {s : Str} :
    ∀ u ∈ sectionsOf s, ∃ s' ∈ [s], stripSpace u <:+: stripSpace s' := by
  intro u hu
  refine ⟨s, by simp, ?_⟩
  have := stripSpace_part (sectionsOf_part hu).1
  rwa [stripSpace_idem] at this

/-- A call of `parse` with fuel above the weight of sections without double
quote returns or throws; what it throws is `IncorrectFormulaSyntaxException`,
or what the conversion of a literal or of a link among the parts of the
sections throws. -/
theorem parse_outcome (ops : TypeOps D T) (hshape : LiteralShape ops)
    (hfs : ∀ t, ops.fromString t true ≠ .diverge) :
    ∀ (n : Nat) (sections : List Str) (d : List Address),
      weight sections < n → (∀ s ∈ sections, '"' ∉ s) →
      parse ops n sections d ≠ .diverge ∧
        ∀ e, parse ops n sections d = .error e →
          e = .IncorrectFormulaSyntaxException ∨ ConversionThrows ops sections e := by
  intro n
  induction n with
  | zero => intro sections d hw; omega
  | succ n ih =>
    intro sections d hw hq
    have key : ∀ (sections' : List Str) (d' : List Address), weight sections' < n →
        (∀ s ∈ sections', '"' ∉ s) →
        (∀ u ∈ sections', ∃ s ∈ sections, stripSpace u <:+: stripSpace s) →
        parse ops n sections' d' ≠ .diverge ∧
          ∀ e, parse ops n sections' d' = .error e →
            e = .IncorrectFormulaSyntaxException ∨ ConversionThrows ops sections e := by
      intro sections' d' hw' hq' hc
      obtain ⟨h1, h2⟩ := ih sections' d' hw' hq'
      refine ⟨h1, fun e he => ?_⟩
      rcases h2 e he with h | h
      · exact Or.inl h
      · exact Or.inr (conversionThrows_mono hc h)
    have ifs : (Res.error .IncorrectFormulaSyntaxException : Res (Function T × List Address))
          ≠ .diverge ∧
        ∀ e, (Res.error .IncorrectFormulaSyntaxException : Res (Function T × List Address))
            = .error e →
          e = .IncorrectFormulaSyntaxException ∨ ConversionThrows ops sections e :=
      ⟨(fun h => by cases h), fun e h => Or.inl (by injection h with h; exact h.symm)⟩
    by_cases hlen : sections.length = 1
    · obtain ⟨s, rfl⟩ := List.length_eq_one.mp hlen
      have hqs : '"' ∉ s := hq s (by simp)
      rw [weight_singleton] at hw
      rw [parse_single]
      by_cases hlit : ops.isLiteral s = true
      · rw [if_pos hlit]
        cases hv : ops.fromString s true with
        | ok v => exact ⟨(fun h => by cases h), fun e h => by cases h⟩
        | diverge => exact absurd hv (hfs s)
        | error e' =>
          refine ⟨(fun h => by cases h), fun e h => Or.inr ?_⟩
          have he : e' = e := by
            injection h
          subst he
          have hsp : stripSpace s = s :=
            stripSpace_of_nospace (fun c hc => ((literal_plain hshape hlit hqs).2 c hc).2.2.2)
          exact ⟨s, ⟨s, by simp, by rw [hsp]⟩, Or.inl ⟨hlit, hv⟩⟩
      · rw [if_neg hlit]
        by_cases hlink : isLink s = true
        · rw [if_pos hlink]
          cases hv : Address.ofString s with
          | ok v => exact ⟨(fun h => by cases h), fun e h => by cases h⟩
          | diverge => exact absurd hv (ofString_ne_diverge s)
          | error e' =>
            refine ⟨(fun h => by cases h), fun e h => Or.inr ?_⟩
            have he : e' = e := by
              injection h
            subst he
            have hsp : stripSpace s = s :=
              stripSpace_of_nospace (fun c hc => ((link_plain hlink).2 c hc).2.2.2)
            exact ⟨s, ⟨s, by simp, by rw [hsp]⟩, Or.inr ⟨hlink, hv⟩⟩
        · rw [if_neg hlink, splitLogical_sectionsOf s hqs]
          simp only [Res.bind_ok]
          by_cases hne : [s] ≠ sectionsOf s
          · rw [if_pos hne]
            exact key _ _ (by have := weight_sectionsOf_lt hne; omega)
              (fun u hu => sectionsOf_noquote hqs hu) covers_sectionsOf
          · rw [if_neg hne]
            by_cases hcond : (s.takeWhile (fun c => c != '(')).length > 0 ∧
                (s.takeWhile (fun c => c != '(')).length ≠ s.length ∧ s.getLast? = some ')'
            · rw [if_pos hcond]
              have hmidinf : ((s.drop ((s.takeWhile (fun c => c != '(')).length + 1)).take
                  (s.length - ((s.takeWhile (fun c => c != '(')).length + 1) - 1)) <:+: s :=
                (List.take_prefix _ _).isInfix.trans (List.drop_suffix _ _).isInfix
              have hmidlen : ((s.drop ((s.takeWhile (fun c => c != '(')).length + 1)).take
                  (s.length - ((s.takeWhile (fun c => c != '(')).length + 1) - 1)).length + 2
                    ≤ s.length := by
                have hl := (List.takeWhile_prefix (fun c => c != '(') (l := s)).length_le
                rw [List.length_take, List.length_drop]
                omega
              have hqmid : '"' ∉ ((s.drop ((s.takeWhile (fun c => c != '(')).length + 1)).take
                  (s.length - ((s.takeWhile (fun c => c != '(')).length + 1) - 1)) :=
                fun hin => hqs (hmidinf.subset hin)
              rw [splitLogical_pure _ _ hqmid]
              simp only [Res.bind_ok]
              cases mkFunction (T := T)
                  (Utils.toLower (s.take (s.takeWhile (fun c => c != '(')).length)) with
              | none => exact ifs
              | some g =>
                simp only
                cases hargs : splitPure ",".toList
                    (stripSpace ((s.drop ((s.takeWhile (fun c => c != '(')).length + 1)).take
                      (s.length - ((s.takeWhile (fun c => c != '(')).length + 1) - 1))) [] [] 0 with
                | nil => exact ifs
                | cons a0 rest =>
                  cases rest with
                  | cons a1 rest2 => exact ifs
                  | nil =>
                    simp only
                    have ha0 : a0 <:+: stripSpace
                        ((s.drop ((s.takeWhile (fun c => c != '(')).length + 1)).take
                        (s.length - ((s.takeWhile (fun c => c != '(')).length + 1) - 1)) := by
                      have hmem : a0 ∈ splitPure ",".toList
                          (stripSpace
                            ((s.drop ((s.takeWhile (fun c => c != '(')).length + 1)).take
                            (s.length - ((s.takeWhile (fun c => c != '(')).length + 1) - 1)))
                          [] [] 0 := by
                        rw [hargs]
                        simp
                      rcases splitPure_part _ _ _ _ _ _ hmem with h' | h'
                      · simp at h'
                      · simpa using h'.1
                    have hqa0 : '"' ∉ a0 := fun hin => not_mem_stripSpace hqmid (ha0.subset hin)
                    have hla0 : a0.length + 2 ≤ s.length := by
                      have h1 := ha0.length_le
                      have h2 := stripSpace_length
                        ((s.drop ((s.takeWhile (fun c => c != '(')).length + 1)).take
                        (s.length - ((s.takeWhile (fun c => c != '(')).length + 1) - 1))
                      omega
                    rw [splitLogical_sectionsOf a0 hqa0]
                    simp only [Res.bind_ok]
                    have hk := key (sectionsOf a0) d
                      (by have := weight_sectionsOf_le a0; omega)
                      (fun u hu => sectionsOf_noquote hqa0 hu)
                      (by
                        intro u hu
                        refine ⟨s, by simp, ?_⟩
                        have h1 := stripSpace_part (sectionsOf_part hu).1
                        rw [stripSpace_idem] at h1
                        have h2 := stripSpace_part ha0
                        rw [stripSpace_idem] at h2
                        exact h1.trans (h2.trans (stripSpace_part hmidinf)))
                    cases hp : parse ops n (sectionsOf a0) d with
                    | ok arg => exact ⟨(fun h => by cases h), fun e h => by cases h⟩
                    | diverge => exact absurd hp hk.1
                    | error e' =>
                      refine ⟨(fun h => by cases h), fun e h => ?_⟩
                      have he : e' = e := by
                        injection h
                      subst he
                      exact hk.2 e' hp
            · rw [if_neg hcond]
              exact ifs
    · rw [parse_many ops n sections d hlen]
      by_cases hcond : sections.length ≥ 3 ∧ (sections.getD (sections.length - 2) []).length = 1
      · rw [if_pos hcond]
        have hsplit := split_last_two sections hcond.1
        have hsum : (sections.map List.length).sum
            = ((sections.take (sections.length - 2)).map List.length).sum
              + (sections.getD (sections.length - 2) []).length
              + (sections.getD (sections.length - 1) []).length := by
          conv_lhs => rw [hsplit]
          simp only [List.map_append, List.sum_append, List.map_cons, List.map_nil,
            List.sum_cons, List.sum_nil]
          omega
        have hwt : weight sections = 2 * (sections.map List.length).sum := by
          unfold weight
          rw [if_neg hlen]
          rfl
        have hlast_mem : sections.getD (sections.length - 1) [] ∈ sections := by
          rw [List.getD_eq_getElem _ _ (by omega)]
          exact List.getElem_mem _
        have hqlast : '"' ∉ sections.getD (sections.length - 1) [] := hq _ hlast_mem
        have htl : (sections.take (sections.length - 2)).length = sections.length - 2 := by
          rw [List.length_take]
          omega
        have hleft : ∃ left, (if (sections.take (sections.length - 2)).length > 1 then
              Res.ok (sections.take (sections.length - 2))
            else splitLogical ((sections.take (sections.length - 2)).headD [])) = .ok left ∧
            weight left < n ∧ (∀ s ∈ left, '"' ∉ s) ∧
            (∀ u ∈ left, ∃ s ∈ sections, stripSpace u <:+: stripSpace s) := by
          by_cases hl1 : (sections.take (sections.length - 2)).length > 1
          · rw [if_pos hl1]
            refine ⟨_, rfl, ?_, fun s hs => hq s (List.mem_of_mem_take hs),
              fun u hu => ⟨u, List.mem_of_mem_take hu, List.infix_refl _⟩⟩
            unfold weight
            rw [if_neg (by omega)]
            omega
          · rw [if_neg hl1]
            have h1 : (sections.take (sections.length - 2)).length = 1 := by omega
            obtain ⟨l0, hl0⟩ := List.length_eq_one.mp h1
            have hl0mem : l0 ∈ sections :=
              List.mem_of_mem_take (by rw [hl0]; simp)
            have hql0 : '"' ∉ l0 := hq _ hl0mem
            rw [hl0] at hsum ⊢
            simp only [List.headD_cons]
            rw [splitLogical_sectionsOf l0 hql0]
            refine ⟨_, rfl, ?_, fun u hu => sectionsOf_noquote hql0 hu, ?_⟩
            · have := weight_sectionsOf_le l0
              simp only [List.map_cons, List.map_nil, List.sum_cons, List.sum_nil,
                add_zero] at hsum
              omega
            · intro u hu
              refine ⟨l0, hl0mem, ?_⟩
              have := stripSpace_part (sectionsOf_part hu).1
              rwa [stripSpace_idem] at this
        obtain ⟨left, hle, hwl, hql, hcl⟩ := hleft
        rw [hle]
        simp only [Res.bind_ok]
        have hk1 := key left d hwl hql hcl
        cases hp1 : parse ops n left d with
        | diverge => exact absurd hp1 hk1.1
        | error e' =>
          refine ⟨(fun h => by cases h), fun e h => ?_⟩
          have he : e' = e := by
            injection h
          subst he
          exact hk1.2 e' hp1
        | ok arg1 =>
          simp only [Res.bind_ok]
          rw [splitLogical_sectionsOf _ hqlast]
          simp only [Res.bind_ok]
          have hk2 := key (sectionsOf (sections.getD (sections.length - 1) [])) arg1.2
            (by
              have := weight_sectionsOf_le (sections.getD (sections.length - 1) [])
              omega)
            (fun u hu => sectionsOf_noquote hqlast hu)
            (by
              intro u hu
              refine ⟨_, hlast_mem, ?_⟩
              have := stripSpace_part (sectionsOf_part hu).1
              rwa [stripSpace_idem] at this)
          cases hp2 : parse ops n (sectionsOf (sections.getD (sections.length - 1) [])) arg1.2 with
          | diverge => exact absurd hp2 hk2.1
          | error e' =>
            refine ⟨(fun h => by cases h), fun e h => ?_⟩
            have he : e' = e := by
              injection h
            subst he
            exact hk2.2 e' hp2
          | ok arg2 =>
            simp only [Res.bind_ok]
            obtain ⟨m1, m2⟩ := @mkOperation_error T
              ((sections.getD (sections.length - 2) []).headD uninitialisedChar) arg1.1 arg2.1
            cases hm : mkOperation
                ((sections.getD (sections.length - 2) []).headD uninitialisedChar)
                arg1.1 arg2.1 with
            | diverge => exact absurd hm m1
            | ok f => exact ⟨(fun h => by cases h), fun e h => by cases h⟩
            | error e' =>
              refine ⟨(fun h => by cases h), fun e h => Or.inl ?_⟩
              have he : e' = e := by
                injection h
              subst he
              exact m2 e' hm
      · rw [if_neg hcond]
        exact ifs

/-- On a source without double quote `parseSource` returns or throws, and
what it throws is `IncorrectFormulaSyntaxException` or what a conversion of
a part of the source throws. -/
theorem parseSource_outcome (ops : TypeOps D T) (hshape : LiteralShape ops)
    (hfs : ∀ t, ops.fromString t true ≠ .diverge) (s : Str) (d : List Address) (hq : '"' ∉ s) :
    parseSource ops s d ≠ .diverge ∧
      ∀ e, parseSource ops s d = .error e →
        e = .IncorrectFormulaSyntaxException ∨ ConversionThrows ops [s] e := by
  unfold parseSource
  rw [splitLogical_sectionsOf s hq]
  simp only [Res.bind_ok]
  obtain ⟨h1, h2⟩ := parse_outcome ops hshape hfs (2 * s.length + 4) (sectionsOf s) d
    (by have := weight_sectionsOf_le s; omega) (fun u hu => sectionsOf_noquote hq hu)
  refine ⟨h1, fun e he => ?_⟩
  rcases h2 e he with h | h
  · exact Or.inl h
  · exact Or.inr (conversionThrows_mono covers_sectionsOf h)

end Parser

/-! ## The claims about the parser -/

namespace Parser

variable {D T : Type}

theorem unescapeString_ne_diverge : ∀ (n : Nat) (s : Str), s.length ≤ n →
    Utils.unescapeString s ≠ .diverge := by
  intro n
  induction n with
  | zero =>
    intro s hs
    have : s = [] := List.length_eq_zero.mp (Nat.le_zero.mp hs)
    subst this
    intro h
    cases h
  | succ n ih =>
    intro s hs
    cases s with
    | nil => intro h; cases h
    | cons c rest =>
      unfold Utils.unescapeString
      split_ifs
      · cases rest with
        | nil => intro h; cases h
        | cons c' rest' =>
          simp only
          refine bind_ne_diverge (ih rest' (by simp at hs; omega)) (fun a h => ?_)
          cases h
      · refine bind_ne_diverge (ih rest (by simp at hs; omega)) (fun a h => ?_)
        cases h

theorem fromString_int_ne_diverge (h : Host D) (t : Str) :
    (intOps h).fromString t true ≠ .diverge := by
  simp only [intOps, intFromString]
  split_ifs
  · intro h; cases h
  · cases stoi t <;> intro h <;> cases h

theorem fromString_double_ne_diverge (h : Host D) (t : Str) :
    (doubleOps h).fromString t true ≠ .diverge := by
  simp only [doubleOps, doubleFromString]
  split_ifs
  · intro h; cases h
  · cases h.stod t <;> intro h <;> cases h

theorem fromString_string_ne_diverge (D : Type) (t : Str) :
    (stringOps D).fromString t true ≠ .diverge := by
  simp only [stringOps, stringFromString, if_true]
  split_ifs
  · intro h; cases h
  · exact unescapeString_ne_diverge _ _ (le_refl _)

theorem parenthesesUnit_of_shape (ops : TypeOps D T) (hshape : LiteralShape ops) :
    ParenthesesUnit ops :=
  fun e1 e2 o d d1 d2 g1 g2 hq1 hq2 h1 h2 =>
    ⟨parseSource_pair ops hshape e1 e2 o d d1 d2 g1 g2 hq1 hq2 h1 h2,
      parseSource_paren ops hshape e1 d d1 g1 hq1 h1⟩

theorem rejectsUnbalanced_of_shape (ops : TypeOps D T) (hshape : LiteralShape ops)
    (hfs : ∀ t, ops.fromString t true ≠ .diverge) : RejectsUnbalanced ops := by
  intro s d hq hb
  have hno : ∀ r, parseSource ops s d ≠ .ok r :=
    fun r hr => hb (parseSource_wellNested ops hshape hq hr).balanced
  refine ⟨hno, fun hin => ?_⟩
  obtain ⟨h1, h2⟩ := parseSource_outcome ops hshape hfs s d hq
  cases hp : parseSource ops s d with
  | ok r => exact absurd hp (hno r)
  | diverge => exact absurd hp h1
  | error e =>
    rcases h2 e hp with he | ⟨t, ⟨u, hu, htu⟩, ht⟩
    · rw [he]
    · exfalso
      simp only [List.mem_singleton] at hu
      subst hu
      obtain ⟨i1, i2⟩ := hin t htu
      rcases ht with ⟨hl, hf⟩ | ⟨hl, hf⟩
      · obtain ⟨v, hv⟩ := i1 hl
        rw [hv] at hf
        cases hf
      · obtain ⟨a, ha⟩ := i2 hl
        rw [ha] at hf
        cases hf

end Parser

set_option maxRecDepth 100000

/-- C14 (the code departs from the claim): `parseSource<int>` on the link
`A99999999999`, whose row is above `INT_MAX`, throws
`InvalidArgumentException`, and on `A99999999999999999999999`, whose row is
above `ULONG_MAX`, `std::out_of_range`; both are neither
`IncorrectFormulaSyntaxException` nor `InvalidTypeException`, and both leave
`setCellContent`. -/
theorem parseSource_throws_other_kinds :
    Parser.parseSource (intOps exampleHost) (str "A99999999999") []
        = .error .InvalidArgumentException ∧
      Parser.parseSource (intOps exampleHost) (str "A99999999999999999999999") []
        = .error .StdOutOfRange ∧
      ((Sheet.empty ExampleDouble).setCellContent exampleHost (addr "A1")
          (str "=A99999999999")).result = .error .InvalidArgumentException ∧
      ((Sheet.empty ExampleDouble).setCellContent exampleHost (addr "A1")
          (str "=A99999999999999999999999")).result = .error .StdOutOfRange := by
  decide

/-- C15: for `int` literals `x0..xn` with values and operators `o1..on`, the
source `x0 o1 x1 ... on xn` without spaces parses as `int` to the left-nested
tree `Binary(on, Binary(..., Binary(o1, x0, x1) ...), xn)`, which evaluates
as the left fold `((x0 o1 x1) o2 x2) ... on xn` of the `int` operators. The
`double` formula of the test evaluates to -8 on the example host. -/
theorem chain_parses_left_nested (h : Host D) (x0 : Str) (v0 : Int)
    (rest : List (BinOp × Str × Int)) (hx0 : Parser.isLiteralInt x0 = true)
    (hv0 : intFromString x0 = .ok v0)
    (hrest : ∀ p ∈ rest, Parser.isLiteralInt p.2.1 = true ∧ intFromString p.2.1 = .ok p.2.2) :
    Parser.parseSource (intOps h) (Parser.chainSource x0 rest) []
        = .ok (Parser.leftNested v0 rest, []) ∧
      (∀ link path, (Parser.leftNested v0 rest).evaluate (intOps h) link path
        = Parser.leftFold h v0 rest) ∧
      (Parser.parseSource (doubleOps exampleHost)
        (str "1+2-4*6/3*(1)*(6-2)*abs(abs(1-2)-abs(3-5))+0.1-abs(0-.2)+0.1*57/57") []).bind
        (fun r => r.1.evaluate (doubleOps exampleHost)
          (fun _ _ => .error .InvalidTypeException) [])
        = .ok (.micro (-8000000)) :=
  ⟨Parser.parseSource_chain h x0 v0 rest [] hx0 hv0 hrest,
    fun link path => Parser.evaluate_leftNested h link rest v0 path, by decide⟩

/-- Witness of C15: `7-2-1` parses to `Sub(Sub(7, 2), 1)` and its left fold
is 4. -/
theorem chain_parses_left_nested_witness :
    (Parser.isLiteralInt (str "7") = true ∧ intFromString (str "7") = .ok 7) ∧
      Parser.parseSource (intOps exampleHost) (str "7-2-1") []
        = .ok (.Sub (.Sub (.Literal 7) (.Literal 2)) (.Literal 1), []) ∧
      Parser.leftFold exampleHost 7 [(.sub, str "2", 2), (.sub, str "1", 1)] = .ok 4 :=
  ⟨by decide,
    (chain_parses_left_nested exampleHost (str "7") 7
      [(.sub, str "2", 2), (.sub, str "1", 1)] (by decide) (by decide) (by decide)).1,
    by decide⟩

/-- C16: for each of the three types, when the sources `e1` and `e2` have no
double quote and parse, `(e1)op(e2)` parses to `Binary(op, parse(e1),
parse(e2))` and `(e1)` parses to the formula of `e1`. The source
`((1+(2)))+(3+(4+(5+((6)))))` parsed as `int` evaluates to 21. -/
theorem parenthesised_parsed_as_unit (h : Host D) :
    Parser.ParenthesesUnit (intOps h) ∧ Parser.ParenthesesUnit (doubleOps h) ∧
      Parser.ParenthesesUnit (stringOps D) ∧
      (Parser.parseSource (intOps exampleHost) (str "((1+(2)))+(3+(4+(5+((6)))))") []).bind
        (fun r => r.1.evaluate (intOps exampleHost)
          (fun _ _ => .error .InvalidTypeException) []) = .ok 21 :=
  ⟨Parser.parenthesesUnit_of_shape _ (Parser.literalShape_int h),
    Parser.parenthesesUnit_of_shape _ (Parser.literalShape_double h),
    Parser.parenthesesUnit_of_shape _ (Parser.literalShape_string D), by decide⟩

/-- Witness of C16: from `1 - 2` and `A1` the source `(1 - 2)*(A1)` parses to
`Mul(Sub(1, 2), Link(A1))` and `(1 - 2)` to `Sub(1, 2)`. -/
theorem parenthesised_parsed_as_unit_witness :
    Parser.parseSource (intOps exampleHost) (str "(1 - 2)*(A1)") []
        = .ok (.Mul (.Sub (.Literal 1) (.Literal 2)) (.Link (addr "A1")), [addr "A1"]) ∧
      Parser.parseSource (intOps exampleHost) (str "(1 - 2)") []
        = .ok (.Sub (.Literal 1) (.Literal 2), []) :=
  (parenthesised_parsed_as_unit exampleHost).1 (str "1 - 2") (str "A1") .mul [] [] [addr "A1"]
    (.Sub (.Literal 1) (.Literal 2)) (.Link (addr "A1")) (by decide) (by decide) (by decide)
    (by decide)

/-- C17 (the code departs from the claim): `(1)+(2)` has no double quote and
parses as `int` with value 3, but `abs((1)+(2))` is rejected with
`IncorrectFormulaSyntaxException`: the argument loses its first and its last
character as if they were a pair of parentheses. `abs(7-9)` evaluates to 2. -/
theorem function_argument_rejected :
    (Parser.parseSource (intOps exampleHost) (str "(1)+(2)") []).bind
        (fun r => r.1.evaluate (intOps exampleHost)
          (fun _ _ => .error .InvalidTypeException) []) = .ok 3 ∧
      Parser.parseSource (intOps exampleHost) (str "abs((1)+(2))") []
        = .error .IncorrectFormulaSyntaxException ∧
      Parser.splitLogical (str "(1)+(2)") (str ",") = .ok [str "1)+(2"] ∧
      (Parser.parseSource (intOps exampleHost) (str "abs(7-9)") []).bind
        (fun r => r.1.evaluate (intOps exampleHost)
          (fun _ _ => .error .InvalidTypeException) []) = .ok 2 := by
  decide

/-- C18: for each of the three types, a source without double quote whose
parentheses are not balanced gets no formula from `parseSource`, and
`parseSource` throws `IncorrectFormulaSyntaxException` for it when every
literal among the parts of the source converts and every link among them is
an address. `1+2+(3+4+(5+6` parsed as `int` throws
`IncorrectFormulaSyntaxException`. -/
theorem unbalanced_rejected (h : Host D) :
    Parser.RejectsUnbalanced (intOps h) ∧ Parser.RejectsUnbalanced (doubleOps h) ∧
      Parser.RejectsUnbalanced (stringOps D) ∧
      Parser.parseSource (intOps exampleHost) (str "1+2+(3+4+(5+6") []
        = .error .IncorrectFormulaSyntaxException :=
  ⟨Parser.rejectsUnbalanced_of_shape _ (Parser.literalShape_int h)
      (Parser.fromString_int_ne_diverge h),
    Parser.rejectsUnbalanced_of_shape _ (Parser.literalShape_double h)
      (Parser.fromString_double_ne_diverge h),
    Parser.rejectsUnbalanced_of_shape _ (Parser.literalShape_string D)
      (Parser.fromString_string_ne_diverge D), by decide⟩

/-- Witness of C18: `(1+2))` has no double quote and is not balanced, so
`parseSource<int>` returns no formula for it. -/
theorem unbalanced_rejected_witness :
    ('"' ∉ str "(1+2))" ∧ ¬ Parser.Balanced (str "(1+2))")) ∧
      ∀ r, Parser.parseSource (intOps exampleHost) (str "(1+2))") [] ≠ .ok r :=
  ⟨⟨by decide, by decide⟩,
    ((unbalanced_rejected exampleHost).1 (str "(1+2))") [] (by decide) (by decide)).1⟩

/-- C19 (the code departs from the claim): the source `1 + 2` has white space
outside a string literal, and `parseSource` accepts it, as `int` and as
`double`: the splitter reads the source through a stream that skips white
space. -/
theorem whitespace_accepted :
    Parser.parseSource (intOps exampleHost) (str "1 + 2") []
        = .ok (.Add (.Literal 1) (.Literal 2), []) ∧
      Parser.parseSource (doubleOps exampleHost) (str " 1\t+ 2 ") []
        = .ok (.Add (.Literal (.micro 1000000)) (.Literal (.micro 2000000)), []) ∧
      Parser.splitLogical (str "1 + 2") = .ok [str "1", str "+", str "2"] := by
  decide

/-- C20: when `parseSource<T>(s, deps)` returns, the dependency vector is
`deps` followed by the addresses of the `Link` nodes of the formula returned,
from left to right and with duplicates; a formula without links leaves `deps`
as it was. `123` appends nothing, `ABC123` appends `[ABC123]`. -/
theorem parseSource_appends_links (ops : TypeOps D T) (s : Str) (deps deps' : List Address)
    (f : Function T) (h : Parser.parseSource ops s deps = .ok (f, deps')) :
    deps' = deps ++ f.links ∧ (f.links = [] → deps' = deps) ∧
      (Parser.parseSource (intOps exampleHost) (str "123") []).bind (fun r => .ok r.2)
        = .ok [] ∧
      (Parser.parseSource (intOps exampleHost) (str "ABC123") []).bind (fun r => .ok r.2)
        = .ok [addr "ABC123"] := by
  have hl : deps' = deps ++ f.links := by
    obtain ⟨secs, -, hp⟩ := Res.bind_eq_ok h
    exact Parser.parse_links ops _ _ _ _ hp
  exact ⟨hl, fun hnil => by rw [hl, hnil, List.append_nil], by decide, by decide⟩

/-- Witness of C20: `A1+B2*A1` appends `A1`, `B2`, `A1` to the vector `[C3]`. -/
theorem parseSource_appends_links_witness :
    Parser.parseSource (intOps exampleHost) (str "A1+B2*A1") [addr "C3"]
        = .ok (.Mul (.Add (.Link (addr "A1")) (.Link (addr "B2"))) (.Link (addr "A1")),
            [addr "C3", addr "A1", addr "B2", addr "A1"]) ∧
      [addr "C3", addr "A1", addr "B2", addr "A1"]
        = [addr "C3"] ++
          (Function.Mul (.Add (.Link (addr "A1")) (.Link (addr "B2")))
            (.Link (addr "A1")) : Function Int).links :=
  ⟨by decide,
    (parseSource_appends_links (intOps exampleHost) (str "A1+B2*A1") [addr "C3"]
      [addr "C3", addr "A1", addr "B2", addr "A1"]
      (.Mul (.Add (.Link (addr "A1")) (.Link (addr "B2"))) (.Link (addr "A1")))
      (by decide)).1⟩

/-! ## The serialized sheet -/

namespace Sheet

variable {D : Type}

theorem CellBase_serialize_eq (h : Host D) (c : CellBase D) :
    c.serialize h = c.objectText h := by
  cases c with
  | int c =>
    simp only [CellBase.serialize, Cell.serialize, CellBase.objectText, Address.serialize,
      CellBase.ty, CellBase.getAddr, CellBase.getContentSource, Ty.name, intOps]
    have : Utils.escapeString "int".toList = "int".toList := by decide
    rw [this]
    simp [List.append_assoc]
  | double c =>
    simp only [CellBase.serialize, Cell.serialize, CellBase.objectText, Address.serialize,
      CellBase.ty, CellBase.getAddr, CellBase.getContentSource, Ty.name, doubleOps]
    have : Utils.escapeString "double".toList = "double".toList := by decide
    rw [this]
    simp [List.append_assoc]
  | string c =>
    simp only [CellBase.serialize, Cell.serialize, CellBase.objectText, Address.serialize,
      CellBase.ty, CellBase.getAddr, CellBase.getContentSource, Ty.name, stringOps]
    have : Utils.escapeString "string".toList = "string".toList := by decide
    rw [this]
    simp [List.append_assoc]

theorem serializeCells_eq (h : Host D) (l : List (Address × CellPtr D)) :
    serializeCells h l = (",".toList).intercalate (l.map (fun kv => kv.2.obj.objectText h)) := by
  induction l with
  | nil => rfl
  | cons kv rest ih =>
    cases rest with
    | nil => simp [serializeCells, List.intercalate, CellBase_serialize_eq]
    | cons kv2 rest2 =>
      rw [serializeCells, ih]
      · simp [List.intercalate, List.intersperse, CellBase_serialize_eq]
      · intro hh
        cases hh

theorem Map_keys_set {V : Type} (m : List (Address × V)) (a : Address) (v : V) :
    (Map.set m a v).map Prod.fst =
      if a ∈ m.map Prod.fst then m.map Prod.fst else m.map Prod.fst ++ [a] := by
  induction m with
  | nil => simp [Map.set]
  | cons kv rest ih =>
    obtain ⟨k, w⟩ := kv
    by_cases hk : k = a
    · subst hk
      simp [Map.set]
    · have hak : ¬ a = k := fun e => hk e.symm
      simp only [Map.set, hk, if_false, List.map_cons, List.mem_cons, hak, false_or, ih]
      split_ifs <;> simp

theorem Map_keys_erase {V : Type} (m : List (Address × V)) (a : Address) :
    (Map.erase m a).map Prod.fst = (m.map Prod.fst).filter (fun k => k ≠ a) := by
  induction m with
  | nil => rfl
  | cons kv rest ih =>
    obtain ⟨k, w⟩ := kv
    by_cases hk : k = a
    · simp [Map.erase, hk, ih]
    · simp [Map.erase, hk, ih]

theorem Map_nodup_set {V : Type} {m : List (Address × V)} (a : Address) (v : V)
    (hm : (m.map Prod.fst).Nodup) : ((Map.set m a v).map Prod.fst).Nodup := by
  rw [Map_keys_set]
  split_ifs with ha
  · exact hm
  · exact List.Nodup.append hm (List.nodup_singleton a) (by simpa using ha)

theorem Map_nodup_erase {V : Type} {m : List (Address × V)} (a : Address)
    (hm : (m.map Prod.fst).Nodup) : ((Map.erase m a).map Prod.fst).Nodup := by
  rw [Map_keys_erase]
  exact hm.filter _

theorem Map_find_of_mem {V : Type} {m : List (Address × V)} (hm : (m.map Prod.fst).Nodup)
    {a : Address} {v : V} (hv : (a, v) ∈ m) : Map.find m a = some v := by
  induction m with
  | nil => simp at hv
  | cons kv rest ih =>
    obtain ⟨k, w⟩ := kv
    simp only [List.map_cons, List.nodup_cons] at hm
    rcases List.mem_cons.mp hv with e | hin
    · injection e with e1 e2
      subst e1 e2
      simp [Map.find]
    · have hne : k ≠ a := by
        rintro rfl
        exact hm.1 (List.mem_map_of_mem Prod.fst hin)
      simp only [Map.find, hne, if_false]
      exact ih hm.2 hin

/-- The keys of the cell map stay distinct under a setter. -/
theorem Step.nodup {s : Sheet D} {addr : Address} {N : Prop} {Q : CellBase D → Prop}
    {e : Effect D} (hs : (s.m_Cells.map Prod.fst).Nodup) (he : Step s addr N Q e) :
    (e.sheet.m_Cells.map Prod.fst).Nodup := by
  cases he with
  | same r hr => exact hs
  | deleted old r hold hr =>
    simp only
    rw [(deleteDependencies_frame s old).1]
    exact hs
  | erased old root evs n hold hroot haddr hn hevs =>
    simp only
    rw [(deleteDependencies_frame s old).1]
    exact Map_nodup_erase _ hs
  | put base obj evs hbase hQ haddr hevs =>
    simp only
    rw [(createDependencies_frame _ _).1]
    simp only
    have hb : base.m_Cells = s.m_Cells := by
      rcases hbase with ⟨-, rfl⟩ | ⟨old, -, rfl⟩
      · rfl
      · exact (deleteDependencies_frame s old).1
    rw [hb]
    exact Map_nodup_set _ _ hs

theorem run_nodup (h : Host D) (ops : List Op) :
    ∀ {s : Sheet D}, (s.m_Cells.map Prod.fst).Nodup → ((s.run h ops).m_Cells.map Prod.fst).Nodup := by
  induction ops with
  | nil => exact fun hs => hs
  | cons op rest ih =>
    intro s hs
    apply ih
    cases op with
    | setCellContent addr text => exact Step.nodup hs (setCellContent_step h s addr text)
    | setCellType ty addr => exact Step.nodup hs (setCellType_step h s ty addr)
    | attachCellContentChangedEvent installed => exact hs

end Sheet

/-- C11: `Sheet::serialize` writes `[`, the objects of the entries of the
cell map separated by single `,`, and `]`; the object of a cell is
`{"type":"<type name>","addr":"<ADDR>","content":"<escapeString(source)>"}`
with the keys in this order and no white space around them. In a sheet made
by calls of the public interface the cell map has one entry per stored
address, so there is one object per stored cell and none for an absent
address. The empty sheet gives `[]`, and the sheet with only
`setCellType<int>(A1)` gives `[{"type":"int","addr":"A1","content":"0"}]`. -/
theorem serialize_format (h : Host D) :
    (∀ s : Sheet D, s.serialize h
      = str "[" ++ (str ",").intercalate (s.m_Cells.map (fun kv => kv.2.obj.objectText h))
          ++ str "]") ∧
    (∀ ops : List Op,
      (((Sheet.empty D).run h ops).m_Cells.map Prod.fst).Nodup ∧
      ∀ a c, (a, c) ∈ ((Sheet.empty D).run h ops).m_Cells ↔
        ((Sheet.empty D).run h ops).stored a = some c) ∧
    (Sheet.empty D).serialize h = str "[]" ∧
    ((Sheet.empty D).run h [.setCellType .int (addr "A1")]).serialize h
      = str "[\x7b\"type\":\"int\",\"addr\":\"A1\",\"content\":\"0\"\x7d]" := by
  refine ⟨fun s => ?_, fun ops => ?_, rfl, rfl⟩
  · simp only [Sheet.serialize, Sheet.serializeCells_eq]
  · have hn := Sheet.run_nodup h ops (s := Sheet.empty D) (by simp [Sheet.empty])
    exact ⟨hn, fun a c => ⟨fun hin => Sheet.Map_find_of_mem hn hin,
      fun hf => Sheet.Map_find_mem hf⟩⟩

/-! ## Reading the wire format from a good stream -/

namespace IStream

theorem Good.setSkipws {is : IStream} {buf : List Char} (h : is.Good buf) :
    is.setSkipws.Good buf := h

theorem Good.setNoskipws {is : IStream} {buf : List Char} (h : is.Good buf) :
    is.setNoskipws.Good buf := h

/-- Extraction of a character that is no white space. -/
theorem get_good {is : IStream} {c : Char} {rest : List Char} (x : Char)
    (h : is.Good (c :: rest)) (hc : isspace c = false) :
    (is.get x).2 = c ∧ (is.get x).1.Good rest ∧ (is.get x).1.consumed = c :: is.consumed ∧
      (is.get x).1.skipws = is.skipws := by
  obtain ⟨hb, he, hf⟩ := h
  unfold get
  simp only [he, hf, Bool.or_self, Bool.false_eq_true, if_false, hb]
  cases hs : is.skipws
  · simp [Good, he, hf, hs]
  · simp [Good, dropWs, hc, he, hf, hs]

/-- Extraction of any character when white space is not skipped. -/
theorem get_noskip {is : IStream} {c : Char} {rest : List Char} (x : Char)
    (h : is.Good (c :: rest)) (hs : is.skipws = false) :
    (is.get x).2 = c ∧ (is.get x).1.Good rest ∧ (is.get x).1.skipws = false := by
  obtain ⟨hb, he, hf⟩ := h
  unfold get
  simp [he, hf, hb, hs, Good]

/-- `seekg(-1, cur)` after an extraction puts the character back. -/
theorem seekgBack_good {is : IStream} {c : Char} {rest cons : List Char}
    (h : is.Good rest) (hc : is.consumed = c :: cons) : is.seekgBack.Good (c :: rest) := by
  obtain ⟨hb, he, hf⟩ := h
  unfold seekgBack
  simp [hf, hc, Good, hb]

/-- `getline` up to a delimiter that is in the buffer. -/
theorem getline_good {is : IStream} {line rest : List Char} {d : Char} (s : Str)
    (h : is.Good (line ++ d :: rest)) (hd : d ∉ line) :
    (is.getline s d).2 = line ∧ (is.getline s d).1.Good rest ∧
      (is.getline s d).1.skipws = is.skipws := by
  obtain ⟨hb, he, hf⟩ := h
  have ht : (line ++ d :: rest).takeWhile (fun c => c != d) = line := by
    rw [List.takeWhile_append_of_pos (fun c hc => by
      simp only [bne_iff_ne, ne_eq]
      rintro rfl
      exact hd hc)]
    simp
  have hdw : (line ++ d :: rest).dropWhile (fun c => c != d) = d :: rest := by
    rw [List.dropWhile_append_of_pos (fun c hc => by
      simp only [bne_iff_ne, ne_eq]
      rintro rfl
      exact hd hc)]
    simp
  unfold getline
  simp only [he, hf, Bool.or_self, Bool.false_eq_true, if_false, hb, ht, hdw]
  simp [Good, he, hf]

end IStream

namespace Utils

open IStream

/-- `assertInput` for the character that is next in the buffer. -/
theorem assertInput_good {is : IStream} {c : Char} {rest : List Char}
    (h : is.Good (c :: rest)) (hc : isspace c = false) :
    ∃ is', assertInput is c = .ok is' ∧ is'.Good rest ∧ is'.skipws = is.skipws ∧
      is'.consumed = c :: is.consumed := by
  obtain ⟨h1, h2, h3, h4⟩ := get_good uninitialisedChar h hc
  refine ⟨(is.get uninitialisedChar).1, ?_, h2, h4, h3⟩
  unfold assertInput
  simp only [h1, IStream.eof, h2.2.1, bne_self_eq_false, Bool.or_self, Bool.false_eq_true,
    if_false]

/-- The loop of `readString` on a well escaped string that a quote ends. -/
theorem readStringLoop_good : ∀ (n : Nat) (raw rest : List Char) (is : IStream) (c : Char)
    (oss : Str) (fuel : Nat), raw.length ≤ n → wellEscaped raw = true →
    is.Good (raw ++ '"' :: rest) → is.skipws = false → raw.length + 1 ≤ fuel →
    ∃ is', readStringLoop fuel is c oss = .ok (oss ++ raw, is') ∧ is'.Good rest ∧
      is'.skipws = false := by
  intro n
  induction n with
  | zero =>
    intro raw rest is c oss fuel hn hw hg hs hfuel
    have : raw = [] := List.length_eq_zero.mp (Nat.le_zero.mp hn)
    subst this
    obtain ⟨f, rfl⟩ : ∃ f, fuel = f + 1 := ⟨fuel - 1, by omega⟩
    obtain ⟨h1, h2, h3⟩ := get_noskip c hg hs
    refine ⟨(is.get c).1, ?_, h2, h3⟩
    have hq : ¬ ('"' = '\\') := by decide
    simp [readStringLoop, IStream.eof, hg.2.1, h1, hq]
  | succ n ih =>
    intro raw rest is c oss fuel hn hw hg hs hfuel
    obtain ⟨f, rfl⟩ : ∃ f, fuel = f + 1 := ⟨fuel - 1, by omega⟩
    cases raw with
    | nil =>
      obtain ⟨h1, h2, h3⟩ := get_noskip c hg hs
      refine ⟨(is.get c).1, ?_, h2, h3⟩
      have hq : ¬ ('"' = '\\') := by decide
      simp [readStringLoop, IStream.eof, hg.2.1, h1, hq]
    | cons x r =>
      obtain ⟨h1, h2, h3⟩ := get_noskip c (by simpa using hg) hs
      by_cases hx : x = '\\'
      · subst hx
        cases r with
        | nil => simp [wellEscaped] at hw
        | cons y r2 =>
          unfold wellEscaped at hw
          simp only [if_true] at hw
          obtain ⟨k1, k2, k3⟩ := get_noskip (is.get c).2 (by simpa using h2) h3
          obtain ⟨is', e, g, sk⟩ := ih r2 rest ((is.get c).1.get (is.get c).2).1
            ((is.get c).1.get (is.get c).2).2 (oss ++ [(is.get c).2] ++
              [((is.get c).1.get (is.get c).2).2]) f (by simp at hn; omega) hw k2 k3
            (by simp at hfuel; omega)
          refine ⟨is', ?_, g, sk⟩
          rw [readStringLoop]
          simp only [IStream.eof, hg.2.1, Bool.false_eq_true, if_false, h1, if_true]
          rw [h1] at e k1
          rw [e, k1]
          simp
      · unfold wellEscaped at hw
        rw [if_neg hx] at hw
        have hxq : x ≠ '"' := by
          rintro rfl
          simp at hw
        rw [if_neg hxq] at hw
        have hw2 : wellEscaped r = true := hw
        obtain ⟨is', e, g, sk⟩ := ih r rest (is.get c).1 (is.get c).2 (oss ++ [(is.get c).2]) f
          (by simp at hn; omega) hw2 h2 h3 (by simp at hfuel; omega)
        refine ⟨is', ?_, g, sk⟩
        rw [readStringLoop]
        simp only [IStream.eof, hg.2.1, Bool.false_eq_true, if_false, h1, hx, hxq]
        rw [h1] at e
        rw [e]
        simp

/-- `readString` on a well escaped string that a quote ends. -/
theorem readString_good {raw rest : List Char} {is : IStream} (hw : wellEscaped raw = true)
    (hg : is.Good (raw ++ '"' :: rest)) :
    ∃ is', readString is = .ok (raw, is') ∧ is'.Good rest := by
  unfold readString
  obtain ⟨is', e, g, -⟩ := readStringLoop_good raw.length raw rest is.setNoskipws
    uninitialisedChar [] (is.buf.length + 2) (le_refl _) hw hg.setNoskipws rfl
    (by rw [hg.1]; simp; omega)
  exact ⟨is', by simpa using e, g⟩

end Utils

/-! ## Deserialization of well formed input -/

namespace Sheet

variable {D : Type}

open IStream Utils

theorem intercalate_nil (sep : Str) : sep.intercalate ([] : List Str) = [] := rfl

theorem intercalate_single (sep t : Str) : sep.intercalate [t] = t := by
  simp [List.intercalate, List.intersperse]

theorem intercalate_cons_cons (sep t u : Str) (l : List Str) :
    sep.intercalate (t :: u :: l) = t ++ sep ++ sep.intercalate (u :: l) := by
  simp [List.intercalate, List.intersperse]

theorem quote_not_mem_name (k : JsonKey) : '"' ∉ k.name := by
  cases k <;> decide

theorem quote_not_mem_tyname (t : Ty) : '"' ∉ t.name := by
  cases t <;> decide

theorem member_append (o : CellObject) (k : JsonKey) (tail : List Char) :
    o.member k ++ tail = '"' :: (k.name ++ '"' :: ':' :: '"' :: (o.value k ++ '"' :: tail)) := by
  simp [CellObject.member]

/-- `Address::deserialize` on the text of an address in quotes. -/
theorem Address_deserialize_good {is : IStream} {text rest : List Char} {a : Address}
    (hg : is.Good ('"' :: (text ++ '"' :: rest))) (hq : '"' ∉ text)
    (ha : Address.ofString text = .ok a) :
    ∃ is', Address.deserialize is = .ok (a, is') ∧ is'.Good rest := by
  obtain ⟨is1, e1, g1, -, -⟩ := assertInput_good hg.setSkipws (by decide)
  obtain ⟨l1, l2, -⟩ := getline_good [] g1.setNoskipws hq
  refine ⟨(is1.setNoskipws.getline [] '"').1, ?_, l2⟩
  unfold Address.deserialize
  rw [e1]
  simp only [Res.bind_ok, IStream.eof, l2.2.1, Bool.false_eq_true, if_false, l1, ha]

theorem holds_cons_type {st st' : DeserializeState} {o : CellObject} {a : Address}
    {content : Str} {ks : List JsonKey} (hh : st.Holds o a content ks)
    (h1 : st'.type = o.ty.name) (h2 : st'.addr = st.addr)
    (h3 : st'.addrInitialized = st.addrInitialized) (h4 : st'.content = st.content) :
    st'.Holds o a content (.type :: ks) := by
  refine ⟨fun _ => h1, fun hm => ?_, fun hm => ?_⟩
  · rw [h2, h3]
    exact hh.2.1 (by simpa using hm)
  · rw [h4]
    exact hh.2.2 (by simpa using hm)

theorem holds_cons_addr {st st' : DeserializeState} {o : CellObject} {a : Address}
    {content : Str} {ks : List JsonKey} (hh : st.Holds o a content ks)
    (h1 : st'.type = st.type) (h2 : st'.addr = a)
    (h3 : st'.addrInitialized = true) (h4 : st'.content = st.content) :
    st'.Holds o a content (.addr :: ks) := by
  refine ⟨fun hm => ?_, fun _ => ⟨h2, h3⟩, fun hm => ?_⟩
  · rw [h1]
    exact hh.1 (by simpa using hm)
  · rw [h4]
    exact hh.2.2 (by simpa using hm)

theorem holds_cons_content {st st' : DeserializeState} {o : CellObject} {a : Address}
    {content : Str} {ks : List JsonKey} (hh : st.Holds o a content ks)
    (h1 : st'.type = st.type) (h2 : st'.addr = st.addr)
    (h3 : st'.addrInitialized = st.addrInitialized) (h4 : st'.content = content) :
    st'.Holds o a content (.content :: ks) := by
  refine ⟨fun hm => ?_, fun hm => ?_, fun _ => h4⟩
  · rw [h1]
    exact hh.1 (by simpa using hm)
  · rw [h2, h3]
    exact hh.2.1 (by simpa using hm)

/-- The end of a turn of the loop over the keys: the comma after the first
and the second member. -/
theorem key_end (st2 : DeserializeState) (i : Nat) (rest : List Char)
    (hg : st2.is.Good (if i < 2 then ',' :: rest else rest)) :
    ∃ st', (if i < 2 then
          (assertInput st2.is.setSkipws ',').bind fun is5 => Res.ok { st2 with is := is5 }
        else Res.ok st2) = .ok st' ∧ st'.is.Good rest ∧ st'.type = st2.type ∧
      st'.addr = st2.addr ∧ st'.addrInitialized = st2.addrInitialized ∧
      st'.content = st2.content := by
  by_cases hi : i < 2
  · rw [if_pos hi] at hg ⊢
    obtain ⟨is5, e5, g5, -, -⟩ := assertInput_good hg.setSkipws (by decide)
    exact ⟨{ st2 with is := is5 }, by rw [e5]; rfl, g5, rfl, rfl, rfl, rfl⟩
  · rw [if_neg hi] at hg ⊢
    exact ⟨st2, rfl, hg, rfl, rfl, rfl, rfl⟩

/-- One turn of the loop over the keys, on the member of the key `k`. -/
theorem deserializeKey_good (o : CellObject) (a : Address) (content : Str) (k : JsonKey)
    (ks : List JsonKey) (st : DeserializeState) (i : Nat) (rest : List Char)
    (hg : st.is.Good (o.member k ++ (if i < 2 then ',' :: rest else rest)))
    (hq : '"' ∉ o.addr) (hw : wellEscaped o.content = true)
    (ha : Address.ofString o.addr = .ok a) (hu : unescapeString o.content = .ok content)
    (hh : st.Holds o a content ks) :
    ∃ st', CellBase.deserializeKey st i = .ok st' ∧ st'.is.Good rest ∧
      st'.Holds o a content (k :: ks) := by
  rw [member_append] at hg
  obtain ⟨is1, e1, g1, -, -⟩ := assertInput_good hg.setSkipws (by decide)
  obtain ⟨l1, l2, -⟩ := getline_good st.s g1.setNoskipws
    (quote_not_mem_name k)
  obtain ⟨is2, e2, g2, -, -⟩ := assertInput_good l2.setSkipws (by decide)
  unfold CellBase.deserializeKey
  rw [e1]
  simp only [Res.bind_ok]
  rw [e2]
  simp only [Res.bind_ok, l1]
  cases k with
  | addr =>
    have hn : JsonKey.addr.name = "addr".toList := rfl
    rw [if_pos hn]
    obtain ⟨is3, e3, g3⟩ := Address_deserialize_good g2 hq ha
    rw [e3]
    simp only [Res.bind_ok]
    obtain ⟨st', e, g, t1, t2, t3, t4⟩ := key_end
      { st with is := is3, s := JsonKey.addr.name, addr := a, addrInitialized := true } i rest g3
    exact ⟨st', e, g, holds_cons_addr hh t1 t2 t3 t4⟩
  | type =>
    have hn : ¬ JsonKey.type.name = "addr".toList := by decide
    have hn2 : JsonKey.type.name = "type".toList := rfl
    rw [if_neg hn]
    obtain ⟨is3, e3, g3, -, -⟩ := assertInput_good g2 (by decide)
    rw [e3]
    simp only [Res.bind_ok]
    rw [if_pos hn2]
    obtain ⟨m1, m2, -⟩ := getline_good st.type
      g3.setNoskipws (quote_not_mem_tyname o.ty)
    simp only [Res.bind_ok]
    obtain ⟨st', e, g, t1, t2, t3, t4⟩ := key_end
      { st with is := (is3.setNoskipws.getline st.type '"').1, s := JsonKey.type.name,
                type := (is3.setNoskipws.getline st.type '"').2 } i rest m2
    exact ⟨st', e, g, holds_cons_type hh (by rw [t1]; exact m1) t2 t3 t4⟩
  | content =>
    have hn : ¬ JsonKey.content.name = "addr".toList := by decide
    have hn1 : ¬ JsonKey.content.name = "type".toList := by decide
    have hn2 : JsonKey.content.name = "content".toList := rfl
    rw [if_neg hn]
    obtain ⟨is3, e3, g3, -, -⟩ := assertInput_good g2 (by decide)
    rw [e3]
    simp only [Res.bind_ok]
    rw [if_neg hn1, if_pos hn2]
    obtain ⟨is4, e4, g4⟩ := readString_good hw
      g3.setNoskipws
    rw [e4]
    simp only [Res.bind_ok]
    rw [hu]
    simp only [Res.bind_ok]
    obtain ⟨st', e, g, t1, t2, t3, t4⟩ := key_end
      { st with is := is4, s := JsonKey.content.name, content := content } i rest g4
    exact ⟨st', e, g, holds_cons_content hh t1 t2 t3 t4⟩

theorem keys_three {keys : List JsonKey} (hp : keys.Perm [.type, .addr, .content]) :
    ∃ k0 k1 k2, keys = [k0, k1, k2] ∧ JsonKey.type ∈ [k2, k1, k0] ∧ JsonKey.addr ∈ [k2, k1, k0] ∧
      JsonKey.content ∈ [k2, k1, k0] := by
  have hl := hp.length_eq
  obtain ⟨k0, k1, k2, rfl⟩ := List.length_eq_three.mp hl
  have m : ∀ k, k ∈ [k0, k1, k2] → k ∈ [k2, k1, k0] := by
    intro k hk
    simp only [List.mem_cons, List.mem_singleton, List.not_mem_nil, or_false] at hk ⊢
    tauto
  exact ⟨k0, k1, k2, rfl, m _ (hp.mem_iff.mpr (by simp)), m _ (hp.mem_iff.mpr (by simp)),
    m _ (hp.mem_iff.mpr (by simp))⟩

/-- `CellBase::deserialize` on the text of a well formed object. -/
theorem CellBase_deserialize_good (h : Host D) (o : CellObject) (c : CellBase D)
    (is : IStream) (rest : List Char) (hwf : o.WellFormed) (hd : o.Describes h c)
    (hg : is.Good (o.text ++ rest)) :
    ∃ is', CellBase.deserialize h is = .ok (c, is') ∧ is'.Good rest := by
  obtain ⟨hp, hq, hw⟩ := hwf
  obtain ⟨a, content, ha, hu, hm⟩ := hd
  obtain ⟨k0, k1, k2, hk, mt, ma, mc⟩ := keys_three hp
  have htext : o.text ++ rest = '\x7b' :: (o.member k0 ++ (if 0 < 2 then
      ',' :: (o.member k1 ++ (if 1 < 2 then ',' :: (o.member k2 ++
        (if 2 < 2 then ',' :: ('\x7d' :: rest) else '\x7d' :: rest))
        else (o.member k2 ++ '\x7d' :: rest)))
      else (o.member k1 ++ '\x7d' :: rest))) := by
    simp only [CellObject.text, hk, List.map_cons, List.map_nil, intercalate_cons_cons,
      intercalate_single]
    simp
  rw [htext] at hg
  have hb : isspace '\x7b' = false := by decide
  obtain ⟨is1, e1, g1, -, -⟩ := assertInput_good hg.setSkipws hb
  obtain ⟨st1, d1, s1, hh1⟩ := deserializeKey_good o a content k0 [] { is := is1 } 0 _ g1 hq hw
    ha hu ⟨fun hm => by simp at hm, fun hm => by simp at hm, fun hm => by simp at hm⟩
  obtain ⟨st2, d2, s2, hh2⟩ := deserializeKey_good o a content k1 [k0] st1 1 _ s1 hq hw ha hu hh1
  obtain ⟨st3, d3, s3, hh3⟩ := deserializeKey_good o a content k2 [k1, k0] st2 2 _ s2 hq hw ha hu
    hh2
  have hb2 : isspace '\x7d' = false := by decide
  obtain ⟨is2, e2, g2, -, -⟩ := assertInput_good s3 hb2
  refine ⟨is2, ?_, g2⟩
  unfold CellBase.deserialize
  rw [e1]
  simp only [Res.bind_ok]
  rw [d1]
  simp only [Res.bind_ok]
  rw [d2]
  simp only [Res.bind_ok]
  rw [d3]
  simp only [Res.bind_ok]
  rw [e2]
  simp only [Res.bind_ok]
  obtain ⟨t1, t2, t3⟩ := hh3
  rw [(t2 ma).2, t1 mt, (t2 ma).1, t3 mc]
  cases hty : o.ty with
  | int =>
    rw [hty] at hm
    simp only [Ty.name, Bool.not_true, Bool.false_eq_true, if_false, if_true, hm, Res.bind_ok]
  | double =>
    rw [hty] at hm
    have n1 : ¬ "double".toList = "int".toList := by decide
    simp only [Ty.name, Bool.not_true, Bool.false_eq_true, if_false, if_true, hm, Res.bind_ok,
      n1]
  | string =>
    rw [hty] at hm
    have n1 : ¬ "string".toList = "int".toList := by decide
    have n2 : ¬ "string".toList = "double".toList := by decide
    simp only [Ty.name, Bool.not_true, Bool.false_eq_true, if_false, if_true, hm, Res.bind_ok,
      n1, n2]

end Sheet

/-! ## The claims about deserialization -/

namespace Sheet

variable {D : Type}

open IStream Utils

theorem Map_set_absent {V : Type} (m : List (Address × V)) (a : Address) (v : V)
    (h : a ∉ m.map Prod.fst) : Map.set m a v = m ++ [(a, v)] := by
  induction m with
  | nil => rfl
  | cons kv rest ih =>
    obtain ⟨k, w⟩ := kv
    simp only [List.map_cons, List.mem_cons, not_or] at h
    have hk : ¬ k = a := fun e => h.1 e.symm
    simp only [Map.set, hk, if_false, List.cons_append, ih h.2]

theorem text_cons (o : CellObject) : ∃ Y, o.text = '\x7b' :: Y := by
  exact ⟨_, rfl⟩

theorem intercalate_head (sep t : Str) (ts : List Str) :
    ∃ Y, sep.intercalate (t :: ts) = t ++ Y := by
  cases ts with
  | nil => exact ⟨[], by rw [intercalate_single]; simp⟩
  | cons u l => exact ⟨sep ++ sep.intercalate (u :: l), by
      rw [intercalate_cons_cons, List.append_assoc]⟩

theorem intercalate_length (os : List CellObject) :
    os.length ≤ ((",".toList).intercalate (os.map CellObject.text)).length := by
  induction os with
  | nil => simp
  | cons o rest ih =>
    cases rest with
    | nil =>
      obtain ⟨Y, hY⟩ := text_cons o
      simp only [List.map_cons, List.map_nil, intercalate_single, hY, List.length_cons,
        List.length_nil]
      omega
    | cons o2 rest2 =>
      obtain ⟨Y, hY⟩ := text_cons o
      simp only [List.map_cons] at ih ⊢
      rw [intercalate_cons_cons]
      simp only [List.length_append, hY, List.length_cons] at ih ⊢
      omega

/-- The loop of `Sheet::deserialize` on the texts of well formed objects
with distinct addresses that the sheet does not have: it ends at the `]`
with the cells of the objects added to the cell map. -/
theorem deserializeLoop_good (h : Host D) :
    ∀ (os : List CellObject) (cells : List (CellBase D)) (o : CellObject) (c0 : CellBase D)
      (sheet : Sheet D) (is : IStream) (c : Char) (fuel : Nat) (rest : List Char),
      List.Forall₂ (fun o c => o.WellFormed ∧ o.Describes h c) (o :: os) (c0 :: cells) →
      is.Good ((",".toList).intercalate ((o :: os).map CellObject.text) ++ ']' :: rest) →
      os.length + 1 ≤ fuel →
      (∀ x ∈ c0 :: cells, x.getAddr ∉ sheet.m_Cells.map Prod.fst) →
      ((c0 :: cells).map CellBase.getAddr).Nodup →
      ∃ sheet' is', deserializeLoop h fuel sheet is c = .ok (sheet', is', ']') ∧
        is'.seekgBack.Good (']' :: rest) ∧
        sheet'.m_Cells.map (fun kv => (kv.1, kv.2.obj))
          = sheet.m_Cells.map (fun kv => (kv.1, kv.2.obj))
            ++ (c0 :: cells).map (fun x => (x.getAddr, x)) := by
  intro os
  induction os with
  | nil =>
    intro cells o c0 sheet is c fuel rest hf hg hfuel hnew hnd
    obtain ⟨f, rfl⟩ : ∃ f, fuel = f + 1 := ⟨fuel - 1, by omega⟩
    cases hf with
    | cons hoc htl =>
      cases htl
      simp only [List.map_cons, List.map_nil, intercalate_single] at hg
      obtain ⟨is1, e1, g1⟩ := CellBase_deserialize_good h o c0 is _ hoc.1 hoc.2 hg
      obtain ⟨k1, k2, k3, -⟩ := get_good c g1.setSkipws (by decide)
      refine ⟨createDependencies
          { sheet with m_Cells := Map.set sheet.m_Cells c0.getAddr ⟨sheet.nextPtr, c0⟩,
                       nextPtr := sheet.nextPtr + 1 } ⟨sheet.nextPtr, c0⟩,
        (is1.setSkipws.get c).1, ?_, seekgBack_good k2 k3, ?_⟩
      · rw [deserializeLoop, e1]
        simp only [Res.bind_ok, k1]
        have hne : ¬ (']' = ',') := by decide
        rw [if_neg hne]
      · rw [(createDependencies_frame _ _).1]
        simp only
        rw [Map_set_absent _ _ _ (hnew c0 (by simp))]
        simp
  | cons o2 os ih =>
    intro cells o c0 sheet is c fuel rest hf hg hfuel hnew hnd
    obtain ⟨f, rfl⟩ : ∃ f, fuel = f + 1 := ⟨fuel - 1, by omega⟩
    cases hf with
    | cons hoc htl =>
      cases htl with
      | cons hoc2 htl2 =>
        rename_i c1 cells2
        simp only [List.map_cons] at hg
        rw [intercalate_cons_cons, List.append_assoc, List.append_assoc] at hg
        obtain ⟨is1, e1, g1⟩ := CellBase_deserialize_good h o c0 is _ hoc.1 hoc.2 hg
        obtain ⟨k1, k2, k3, -⟩ := get_good c g1.setSkipws (by decide)
        have hkeys : ((createDependencies
            { sheet with m_Cells := Map.set sheet.m_Cells c0.getAddr ⟨sheet.nextPtr, c0⟩,
                         nextPtr := sheet.nextPtr + 1 } ⟨sheet.nextPtr, c0⟩).m_Cells)
            = sheet.m_Cells ++ [(c0.getAddr, ⟨sheet.nextPtr, c0⟩)] := by
          rw [(createDependencies_frame _ _).1]
          simp only
          exact Map_set_absent _ _ _ (hnew c0 (by simp))
        simp only [List.map_cons, List.nodup_cons] at hnd
        obtain ⟨sheet', is', e, g, hm⟩ := ih cells2 o2 c1
          (createDependencies
            { sheet with m_Cells := Map.set sheet.m_Cells c0.getAddr ⟨sheet.nextPtr, c0⟩,
                         nextPtr := sheet.nextPtr + 1 } ⟨sheet.nextPtr, c0⟩)
          (is1.setSkipws.get c).1 (is1.setSkipws.get c).2 f rest
          (List.Forall₂.cons hoc2 htl2) (by simpa using k2) (by simp at hfuel; omega)
          (by
            intro x hx
            rw [hkeys]
            simp only [List.map_append, List.map_cons, List.map_nil, List.mem_append,
              List.mem_singleton, not_or]
            refine ⟨hnew x (List.mem_cons_of_mem _ hx), fun e => hnd.1 ?_⟩
            rw [← e]
            exact List.mem_map_of_mem CellBase.getAddr hx)
          (by simpa using hnd.2)
        refine ⟨sheet', is', ?_, g, ?_⟩
        · rw [deserializeLoop, e1]
          simp only [Res.bind_ok]
          rw [if_pos k1]
          exact e
        · rw [hm, hkeys]
          simp

/-- `Sheet::deserialize` on the text of an array of well formed objects with
distinct addresses. -/
theorem deserialize_good (h : Host D) (os : List CellObject) (cells : List (CellBase D))
    (hos : List.Forall₂ (fun o c => o.WellFormed ∧ o.Describes h c) os cells)
    (hdist : (cells.map CellBase.getAddr).Nodup) :
    ∃ s, Sheet.deserialize h (IStream.ofStr (arrayText os)) = .ok s ∧
      s.m_Cells.map (fun kv => (kv.1, kv.2.obj)) = cells.map (fun c => (c.getAddr, c)) := by
  have hg0 : (IStream.ofStr (arrayText os)).Good
      ('[' :: ((",".toList).intercalate (os.map CellObject.text) ++ ']' :: [])) :=
    ⟨by simp [IStream.ofStr, arrayText], rfl, rfl⟩
  obtain ⟨is1, e1, g1, -, -⟩ := assertInput_good hg0.setSkipws (by decide)
  unfold Sheet.deserialize
  rw [e1]
  simp only [Res.bind_ok]
  cases hos with
  | nil =>
    simp only [List.map_nil, intercalate_nil, List.nil_append] at g1
    obtain ⟨k1, -, -, -⟩ := get_good uninitialisedChar g1 (by decide)
    rw [if_pos k1]
    exact ⟨{}, rfl, rfl⟩
  | cons hoc htl =>
    rename_i o c0 os2 cells2
    obtain ⟨Y, hY⟩ := intercalate_head ",".toList o.text (os2.map CellObject.text)
    obtain ⟨Z, hZ⟩ := text_cons o
    have hbuf : (",".toList).intercalate ((o :: os2).map CellObject.text) ++ ']' :: []
        = '\x7b' :: (Z ++ Y ++ ']' :: []) := by
      rw [List.map_cons, hY, hZ]
      simp
    have g1' := g1
    rw [hbuf] at g1'
    have hb : isspace '\x7b' = false := by decide
    obtain ⟨k1, k2, k3, -⟩ := get_good uninitialisedChar g1' hb
    have hne : ¬ ((is1.get uninitialisedChar).2 = ']') := by
      rw [k1]
      decide
    rw [if_neg hne]
    have gb : (is1.get uninitialisedChar).1.seekgBack.Good
        ((",".toList).intercalate ((o :: os2).map CellObject.text) ++ ']' :: []) := by
      rw [hbuf]
      exact seekgBack_good k2 k3
    obtain ⟨sheet', is', e, g, hm⟩ := deserializeLoop_good h os2 cells2 o c0 {}
      (is1.get uninitialisedChar).1.seekgBack (is1.get uninitialisedChar).2
      ((IStream.ofStr (arrayText (o :: os2))).buf.length + 1) [] (List.Forall₂.cons hoc htl) gb
      (by
        have h1 : os2.length + 1 ≤ _ := intercalate_length (o :: os2)
        have h2 : (IStream.ofStr (arrayText (o :: os2))).buf.length
            = ((",".toList).intercalate ((o :: os2).map CellObject.text)).length + 2 := by
          simp [IStream.ofStr, arrayText]
        rw [h2]
        omega)
      (by intro x _; simp) hdist
    rw [e]
    simp only [Res.bind_ok]
    obtain ⟨is2, e2, -, -, -⟩ := assertInput_good g (by decide)
    rw [e2]
    exact ⟨sheet', rfl, by simpa using hm⟩

end Sheet

set_option maxRecDepth 100000

/-- Deserialization of a text without white space: for an array text of well
formed cell objects (each lists the keys `type`, `addr` and `content` once, in
any order; the address text is an address; the content is a well escaped
string), written as `Sheet::serialize` writes it, whose cells construct and
have distinct addresses, `Sheet::deserialize` returns a sheet whose cell map
holds exactly the cells of the objects, each under its address; each cell has
the declared type and the address given and is constructed from the
unescaped content. The 4-object input of the test gives 4 cells with the
evaluated texts `some "escaped" string with \ backslash`, `5`, `6.000000` and
`foo and "bar"`. -/
theorem deserialize_well_formed (h : Host D) (os : List CellObject) (cells : List (CellBase D))
    (hos : List.Forall₂ (fun o c => o.WellFormed ∧ o.Describes h c) os cells)
    (hdist : (cells.map CellBase.getAddr).Nodup) :
    (∃ s, Sheet.deserialize h (IStream.ofStr (arrayText os)) = .ok s ∧
      s.m_Cells.map (fun kv => (kv.1, kv.2.obj)) = cells.map (fun c => (c.getAddr, c))) ∧
    List.Forall₂ (fun o c => c.ty = o.ty ∧ Address.ofString o.addr = .ok c.getAddr ∧
      ∃ content, Utils.unescapeString o.content = .ok content ∧
        CellBase.make h o.ty c.getAddr content = .ok c) os cells ∧
    (Sheet.deserialize exampleHost (IStream.ofStr (str
      "[\x7b\"type\":\"string\",\"addr\":\"A1\",\"content\":\"some \\\"escaped\\\" string with \\\\ backslash\"\x7d,\x7b\"type\":\"int\",\"addr\":\"A2\",\"content\":\"5\"\x7d,\x7b\"type\":\"double\",\"addr\":\"A3\",\"content\":\"=5.75+0.25\"\x7d,\x7b\"type\":\"string\",\"addr\":\"A4\",\"content\":\"=\\\"foo\\\"+\\\" and \\\\\\\"bar\\\\\\\"\\\"\"\x7d]"))).bind
      (fun s => .ok (s.m_Cells.length,
        [addr "A1", addr "A2", addr "A3", addr "A4"].map (fun a => s.textAt exampleHost a)))
      = .ok (4, [.ok (str "some \"escaped\" string with \\ backslash"), .ok (str "5"),
          .ok (str "6.000000"), .ok (str "foo and \"bar\"")]) := by
  refine ⟨Sheet.deserialize_good h os cells hos hdist, ?_, by decide⟩
  refine List.Forall₂.imp ?_ hos
  rintro o c ⟨-, a, content, ha, hu, hm⟩
  obtain ⟨p1, p2⟩ := CellBase.make_props hm
  rw [p1]
  exact ⟨p2, ha, content, hu, hm⟩

/-- An instance of the deserialization of a text without white space: the text
`[{"content":"5","type":"int","addr":"A2"},{"addr":"B1","content":"a\"b","type":"string"}]`,
with the keys in two other orders, gives the `int` cell `A2` of value 5 and
the string cell `B1` of value `a"b`. -/
theorem deserialize_well_formed_witness :
    ∃ s, Sheet.deserialize exampleHost (IStream.ofStr (arrayText
        [⟨[.content, .type, .addr], .int, str "A2", str "5"⟩,
         ⟨[.addr, .content, .type], .string, str "B1", str "a\\\"b"⟩])) = .ok s ∧
      s.m_Cells.map (fun kv => (kv.1, kv.2.obj))
        = [(addr "A2", .int ⟨addr "A2", [], false, .Literal 5⟩),
           (addr "B1", .string ⟨addr "B1", [], false, .Literal (str "a\"b")⟩)] :=
  (deserialize_well_formed exampleHost
    [⟨[.content, .type, .addr], .int, str "A2", str "5"⟩,
     ⟨[.addr, .content, .type], .string, str "B1", str "a\\\"b"⟩]
    [.int ⟨addr "A2", [], false, .Literal 5⟩,
     .string ⟨addr "B1", [], false, .Literal (str "a\"b")⟩]
    (List.Forall₂.cons
      ⟨⟨by decide, by decide, by decide⟩, addr "A2", str "5", by decide, by decide, by decide⟩
      (List.Forall₂.cons
        ⟨⟨by decide, by decide, by decide⟩, addr "B1", str "a\"b", by decide, by decide,
          by decide⟩
        List.Forall₂.nil))
    (by decide)).1

/-- C12 (the code departs from the claim): a space before the closing brace
of a cell object makes `Sheet::deserialize` throw `InvalidInputException`,
although the text is a JSON array of one well formed cell object, which
without that space gives the sheet of the `int` cell `A1` of text `5`.
`CellBase::deserialize` sets `skipws` before every other token of an object,
but reads the closing brace with the `noskipws` that reading the last value
left set: the same kind of text with white space before every other token, the
keys of the second object in another order, gives the sheet of the two cells
`A1` of text `5` and `B1` of text `6`. -/
theorem deserialize_space_before_brace :
    Sheet.deserialize exampleHost (IStream.ofStr (str
        "[\x7b\"type\":\"int\",\"addr\":\"A1\",\"content\":\"5\" \x7d]"))
      = .error .InvalidInputException ∧
    (Sheet.deserialize exampleHost (IStream.ofStr (str
        "[\x7b\"type\":\"int\",\"addr\":\"A1\",\"content\":\"5\"\x7d]"))).bind
        (fun s => .ok (s.textAt exampleHost (addr "A1"), s.m_Cells.length))
      = .ok (.ok (str "5"), 1) ∧
    (Sheet.deserialize exampleHost (IStream.ofStr (str
        " [ \x7b \"type\" : \"int\" , \"addr\" : \"A1\" , \"content\" : \"5\"\x7d , \x7b \"addr\" : \"B1\" , \"content\" : \"=A1+1\" , \"type\" : \"int\"\x7d ] "))).bind
        (fun s => .ok (s.textAt exampleHost (addr "A1"), s.textAt exampleHost (addr "B1"),
          s.m_Cells.length))
      = .ok (.ok (str "5"), .ok (str "6"), 2) := by
  decide

/-- C13 (the code departs from the claim): `Sheet::deserialize` lets other
exceptions than `InvalidInputException` leave. A content that does not fit
the declared type leaves as `InvalidTypeException`, the address `A0` as
`InvalidArgumentException`, an address whose row is above `ULONG_MAX` as
`std::out_of_range`, and the content `=(` as
`IncorrectFormulaSyntaxException`. -/
theorem deserialize_throws_other_kinds :
    Sheet.deserialize exampleHost (IStream.ofStr (str
        "[\x7b\"type\":\"int\",\"addr\":\"A1\",\"content\":\"abc\"\x7d]"))
      = .error .InvalidTypeException ∧
    Sheet.deserialize exampleHost (IStream.ofStr (str
        "[\x7b\"type\":\"int\",\"addr\":\"A0\",\"content\":\"1\"\x7d]"))
      = .error .InvalidArgumentException ∧
    Sheet.deserialize exampleHost (IStream.ofStr (str
        "[\x7b\"type\":\"int\",\"addr\":\"A99999999999999999999999\",\"content\":\"1\"\x7d]"))
      = .error .StdOutOfRange ∧
    Sheet.deserialize exampleHost (IStream.ofStr (str
        "[\x7b\"type\":\"int\",\"addr\":\"A1\",\"content\":\"=(\"\x7d]"))
      = .error .IncorrectFormulaSyntaxException := by
  decide

/-! ## Evaluation of a formula -/

namespace Function

variable {D T : Type}

theorem linkPositions_length (f : Function T) :
    ∀ path, (linkPositions path f).length = f.linkCount := by
  induction f with
  | Literal v => intro path; rfl
  | Link a => intro path; rfl
  | Add a b iha ihb => intro path; simp [linkPositions, linkCount, iha, ihb]
  | Sub a b iha ihb => intro path; simp [linkPositions, linkCount, iha, ihb]
  | Mul a b iha ihb => intro path; simp [linkPositions, linkCount, iha, ihb]
  | Div a b iha ihb => intro path; simp [linkPositions, linkCount, iha, ihb]
  | Abs a iha => intro path; simp [linkPositions, linkCount, iha]
  | Sin a iha => intro path; simp [linkPositions, linkCount, iha]
  | Cos a iha => intro path; simp [linkPositions, linkCount, iha]
  | Tan a iha => intro path; simp [linkPositions, linkCount, iha]

theorem linkPositions_links (f : Function T) :
    ∀ path, (linkPositions path f).map Prod.snd = f.links := by
  induction f with
  | Literal v => intro path; rfl
  | Link a => intro path; rfl
  | Add a b iha ihb => intro path; simp [linkPositions, links, iha, ihb]
  | Sub a b iha ihb => intro path; simp [linkPositions, links, iha, ihb]
  | Mul a b iha ihb => intro path; simp [linkPositions, links, iha, ihb]
  | Div a b iha ihb => intro path; simp [linkPositions, links, iha, ihb]
  | Abs a iha => intro path; simp [linkPositions, links, iha]
  | Sin a iha => intro path; simp [linkPositions, links, iha]
  | Cos a iha => intro path; simp [linkPositions, links, iha]
  | Tan a iha => intro path; simp [linkPositions, links, iha]

/-- A binary node whose arguments return or throw does so too. -/
theorem binary_ne_diverge {op : Option (T → T → Res T)} {a1 a2 : Unit → Res T}
    (hop : ∀ g, op = some g → ∀ x y, g x y ≠ .diverge)
    (h1 : a1 () ≠ .diverge) (h2 : a2 () ≠ .diverge) : binary op a1 a2 ≠ .diverge := by
  cases op with
  | none => simp [binary]
  | some g =>
    simp only [binary]
    cases e1 : a1 () with
    | diverge => exact absurd e1 h1
    | error e => simp
    | ok x =>
      cases e2 : a2 () with
      | diverge => exact absurd e2 h2
      | error e => simp
      | ok y => simpa using hop g rfl x y

theorem unary_ne_diverge {op : Option (T → Res T)} {a : Unit → Res T}
    (hop : ∀ g, op = some g → ∀ x, g x ≠ .diverge)
    (h1 : a () ≠ .diverge) : unary op a ≠ .diverge := by
  cases op with
  | none => simp [unary]
  | some g =>
    simp only [unary]
    cases e1 : a () with
    | diverge => exact absurd e1 h1
    | error e => simp
    | ok x => simpa using hop g rfl x

/-- The arguments of a binary node that returns a value have returned one. -/
theorem binary_ok {op : Option (T → T → Res T)} {a1 a2 : Unit → Res T} {v : T}
    (h : binary op a1 a2 = .ok v) : (∃ x, a1 () = .ok x) ∧ ∃ y, a2 () = .ok y := by
  cases op with
  | none => simp [binary] at h
  | some g =>
    simp only [binary] at h
    obtain ⟨x, hx, h⟩ := Res.bind_eq_ok h
    obtain ⟨y, hy, _⟩ := Res.bind_eq_ok h
    exact ⟨⟨x, hx⟩, ⟨y, hy⟩⟩

theorem unary_ok {op : Option (T → Res T)} {a : Unit → Res T} {v : T}
    (h : unary op a = .ok v) : ∃ x, a () = .ok x := by
  cases op with
  | none => simp [unary] at h
  | some g =>
    simp only [unary] at h
    obtain ⟨x, hx, _⟩ := Res.bind_eq_ok h
    exact ⟨x, hx⟩

/-- A `DependencyLoopException` that leaves a binary node left one of its
arguments. -/
theorem binary_loop {op : Option (T → T → Res T)} {a1 a2 : Unit → Res T}
    (hop : ∀ g, op = some g → ∀ x y, g x y ≠ .error .DependencyLoopException)
    (h : binary op a1 a2 = .error .DependencyLoopException) :
    a1 () = .error .DependencyLoopException ∨ a2 () = .error .DependencyLoopException := by
  cases op with
  | none => simp [binary] at h
  | some g =>
    simp only [binary] at h
    cases e1 : a1 () with
    | diverge => rw [e1] at h; simp at h
    | error e => rw [e1] at h; left; simpa using h
    | ok x =>
      rw [e1] at h
      cases e2 : a2 () with
      | diverge => rw [e2] at h; simp at h
      | error e => rw [e2] at h; right; simpa using h
      | ok y => rw [e2] at h; exact absurd h (hop g rfl x y)

theorem unary_loop {op : Option (T → Res T)} {a : Unit → Res T}
    (hop : ∀ g, op = some g → ∀ x, g x ≠ .error .DependencyLoopException)
    (h : unary op a = .error .DependencyLoopException) :
    a () = .error .DependencyLoopException := by
  cases op with
  | none => simp [unary] at h
  | some g =>
    simp only [unary] at h
    cases e1 : a () with
    | diverge => rw [e1] at h; simp at h
    | error e => rw [e1] at h; simpa using h
    | ok x => rw [e1] at h; exact absurd h (hop g rfl x)

/-- A binary node that returns or throws does the same with arguments that
agree with its own wherever these return or throw. -/
theorem binary_congr {op : Option (T → T → Res T)} {a1 a2 b1 b2 : Unit → Res T}
    (h1 : a1 () ≠ .diverge → b1 () = a1 ()) (h2 : a2 () ≠ .diverge → b2 () = a2 ())
    (h : binary op a1 a2 ≠ .diverge) : binary op b1 b2 = binary op a1 a2 := by
  cases op with
  | none => rfl
  | some g =>
    simp only [binary] at h ⊢
    cases e1 : a1 () with
    | diverge => rw [e1] at h; simp at h
    | error e => rw [h1 (by rw [e1]; simp), e1]; rfl
    | ok x =>
      rw [h1 (by rw [e1]; simp), e1]
      rw [e1] at h
      cases e2 : a2 () with
      | diverge => rw [e2] at h; simp at h
      | error e => rw [h2 (by rw [e2]; simp), e2]
      | ok y => rw [h2 (by rw [e2]; simp), e2]

theorem unary_congr {op : Option (T → Res T)} {a b : Unit → Res T}
    (h1 : a () ≠ .diverge → b () = a ())
    (h : unary op a ≠ .diverge) : unary op b = unary op a := by
  cases op with
  | none => rfl
  | some g =>
    simp only [unary] at h ⊢
    cases e1 : a () with
    | diverge => rw [e1] at h; simp at h
    | error e => rw [h1 (by rw [e1]; simp), e1]
    | ok x => rw [h1 (by rw [e1]; simp), e1]

/-- Evaluation returns or throws when every link of the tree does. -/
theorem evaluate_ne_diverge {ops : TypeOps D T} (hops : ops.Sound)
    (link : List Nat → Address → Res T) (f : Function T) :
    ∀ path, (∀ q ∈ linkPositions path f, link q.1 q.2 ≠ .diverge) →
      evaluate ops link path f ≠ .diverge := by
  induction f with
  | Literal v => intro path _; simp [evaluate]
  | Link a => intro path h; exact h (path, a) (by simp [linkPositions])
  | Add a b iha ihb =>
    intro path h
    exact binary_ne_diverge (fun g hg x y => (hops.binary g (Or.inl hg) x y).1)
      (iha _ fun q hq => h q (by simp [linkPositions, hq]))
      (ihb _ fun q hq => h q (by simp [linkPositions, hq]))
  | Sub a b iha ihb =>
    intro path h
    exact binary_ne_diverge (fun g hg x y => (hops.binary g (Or.inr (Or.inl hg)) x y).1)
      (iha _ fun q hq => h q (by simp [linkPositions, hq]))
      (ihb _ fun q hq => h q (by simp [linkPositions, hq]))
  | Mul a b iha ihb =>
    intro path h
    exact binary_ne_diverge
      (fun g hg x y => (hops.binary g (Or.inr (Or.inr (Or.inl hg))) x y).1)
      (iha _ fun q hq => h q (by simp [linkPositions, hq]))
      (ihb _ fun q hq => h q (by simp [linkPositions, hq]))
  | Div a b iha ihb =>
    intro path h
    exact binary_ne_diverge
      (fun g hg x y => (hops.binary g (Or.inr (Or.inr (Or.inr hg))) x y).1)
      (iha _ fun q hq => h q (by simp [linkPositions, hq]))
      (ihb _ fun q hq => h q (by simp [linkPositions, hq]))
  | Abs a iha =>
    intro path h
    exact unary_ne_diverge (fun g hg x => (hops.unary g (Or.inl hg) x).1)
      (iha _ fun q hq => h q (by simpa [linkPositions] using hq))
  | Sin a iha =>
    intro path h
    exact unary_ne_diverge (fun g hg x => (hops.unary g (Or.inr (Or.inl hg)) x).1)
      (iha _ fun q hq => h q (by simpa [linkPositions] using hq))
  | Cos a iha =>
    intro path h
    exact unary_ne_diverge (fun g hg x => (hops.unary g (Or.inr (Or.inr (Or.inl hg))) x).1)
      (iha _ fun q hq => h q (by simpa [linkPositions] using hq))
  | Tan a iha =>
    intro path h
    exact unary_ne_diverge (fun g hg x => (hops.unary g (Or.inr (Or.inr (Or.inr hg))) x).1)
      (iha _ fun q hq => h q (by simpa [linkPositions] using hq))

/-- When evaluation returns a value, every link of the tree returned one. -/
theorem evaluate_ok_links {ops : TypeOps D T} (link : List Nat → Address → Res T)
    (f : Function T) :
    ∀ path v, evaluate ops link path f = .ok v →
      ∀ q ∈ linkPositions path f, ∃ w, link q.1 q.2 = .ok w := by
  induction f with
  | Literal v => intro path w _ q hq; simp [linkPositions] at hq
  | Link a =>
    intro path w h q hq
    simp only [linkPositions, List.mem_singleton] at hq
    subst hq
    exact ⟨w, h⟩
  | Add a b iha ihb =>
    intro path w h q hq
    obtain ⟨⟨x, hx⟩, ⟨y, hy⟩⟩ := binary_ok h
    simp only [linkPositions, List.mem_append] at hq
    rcases hq with hq | hq
    · exact iha _ x hx q hq
    · exact ihb _ y hy q hq
  | Sub a b iha ihb =>
    intro path w h q hq
    obtain ⟨⟨x, hx⟩, ⟨y, hy⟩⟩ := binary_ok h
    simp only [linkPositions, List.mem_append] at hq
    rcases hq with hq | hq
    · exact iha _ x hx q hq
    · exact ihb _ y hy q hq
  | Mul a b iha ihb =>
    intro path w h q hq
    obtain ⟨⟨x, hx⟩, ⟨y, hy⟩⟩ := binary_ok h
    simp only [linkPositions, List.mem_append] at hq
    rcases hq with hq | hq
    · exact iha _ x hx q hq
    · exact ihb _ y hy q hq
  | Div a b iha ihb =>
    intro path w h q hq
    obtain ⟨⟨x, hx⟩, ⟨y, hy⟩⟩ := binary_ok h
    simp only [linkPositions, List.mem_append] at hq
    rcases hq with hq | hq
    · exact iha _ x hx q hq
    · exact ihb _ y hy q hq
  | Abs a iha =>
    intro path w h q hq
    obtain ⟨x, hx⟩ := unary_ok h
    exact iha _ x hx q hq
  | Sin a iha =>
    intro path w h q hq
    obtain ⟨x, hx⟩ := unary_ok h
    exact iha _ x hx q hq
  | Cos a iha =>
    intro path w h q hq
    obtain ⟨x, hx⟩ := unary_ok h
    exact iha _ x hx q hq
  | Tan a iha =>
    intro path w h q hq
    obtain ⟨x, hx⟩ := unary_ok h
    exact iha _ x hx q hq

/-- A `DependencyLoopException` that leaves the evaluation left one of the
links of the tree. -/
theorem evaluate_loop {ops : TypeOps D T} (hops : ops.Sound)
    (link : List Nat → Address → Res T) (f : Function T) :
    ∀ path, evaluate ops link path f = .error .DependencyLoopException →
      ∃ q ∈ linkPositions path f, link q.1 q.2 = .error .DependencyLoopException := by
  induction f with
  | Literal v => intro path h; simp [evaluate] at h
  | Link a => intro path h; exact ⟨(path, a), by simp [linkPositions], h⟩
  | Add a b iha ihb =>
    intro path h
    rcases binary_loop (fun g hg x y => (hops.binary g (Or.inl hg) x y).2) h with h | h
    · obtain ⟨q, hq, hl⟩ := iha _ h
      exact ⟨q, by simp [linkPositions, hq], hl⟩
    · obtain ⟨q, hq, hl⟩ := ihb _ h
      exact ⟨q, by simp [linkPositions, hq], hl⟩
  | Sub a b iha ihb =>
    intro path h
    rcases binary_loop (fun g hg x y => (hops.binary g (Or.inr (Or.inl hg)) x y).2) h
      with h | h
    · obtain ⟨q, hq, hl⟩ := iha _ h
      exact ⟨q, by simp [linkPositions, hq], hl⟩
    · obtain ⟨q, hq, hl⟩ := ihb _ h
      exact ⟨q, by simp [linkPositions, hq], hl⟩
  | Mul a b iha ihb =>
    intro path h
    rcases binary_loop
      (fun g hg x y => (hops.binary g (Or.inr (Or.inr (Or.inl hg))) x y).2) h with h | h
    · obtain ⟨q, hq, hl⟩ := iha _ h
      exact ⟨q, by simp [linkPositions, hq], hl⟩
    · obtain ⟨q, hq, hl⟩ := ihb _ h
      exact ⟨q, by simp [linkPositions, hq], hl⟩
  | Div a b iha ihb =>
    intro path h
    rcases binary_loop
      (fun g hg x y => (hops.binary g (Or.inr (Or.inr (Or.inr hg))) x y).2) h with h | h
    · obtain ⟨q, hq, hl⟩ := iha _ h
      exact ⟨q, by simp [linkPositions, hq], hl⟩
    · obtain ⟨q, hq, hl⟩ := ihb _ h
      exact ⟨q, by simp [linkPositions, hq], hl⟩
  | Abs a iha =>
    intro path h
    exact iha _ (unary_loop (fun g hg x => (hops.unary g (Or.inl hg) x).2) h)
  | Sin a iha =>
    intro path h
    exact iha _ (unary_loop (fun g hg x => (hops.unary g (Or.inr (Or.inl hg)) x).2) h)
  | Cos a iha =>
    intro path h
    exact iha _
      (unary_loop (fun g hg x => (hops.unary g (Or.inr (Or.inr (Or.inl hg))) x).2) h)
  | Tan a iha =>
    intro path h
    exact iha _
      (unary_loop (fun g hg x => (hops.unary g (Or.inr (Or.inr (Or.inr hg))) x).2) h)

/-- Evaluation that returns or throws does the same with links that agree
with its own wherever these return or throw. -/
theorem evaluate_congr {ops : TypeOps D T} (link1 link2 : List Nat → Address → Res T)
    (f : Function T) :
    ∀ path, (∀ q ∈ linkPositions path f, link1 q.1 q.2 ≠ .diverge →
        link2 q.1 q.2 = link1 q.1 q.2) →
      evaluate ops link1 path f ≠ .diverge →
      evaluate ops link2 path f = evaluate ops link1 path f := by
  induction f with
  | Literal v => intro path _ _; rfl
  | Link a => intro path h hd; exact h (path, a) (by simp [linkPositions]) hd
  | Add a b iha ihb =>
    intro path h hd
    exact binary_congr (iha _ fun q hq => h q (by simp [linkPositions, hq]))
      (ihb _ fun q hq => h q (by simp [linkPositions, hq])) hd
  | Sub a b iha ihb =>
    intro path h hd
    exact binary_congr (iha _ fun q hq => h q (by simp [linkPositions, hq]))
      (ihb _ fun q hq => h q (by simp [linkPositions, hq])) hd
  | Mul a b iha ihb =>
    intro path h hd
    exact binary_congr (iha _ fun q hq => h q (by simp [linkPositions, hq]))
      (ihb _ fun q hq => h q (by simp [linkPositions, hq])) hd
  | Div a b iha ihb =>
    intro path h hd
    exact binary_congr (iha _ fun q hq => h q (by simp [linkPositions, hq]))
      (ihb _ fun q hq => h q (by simp [linkPositions, hq])) hd
  | Abs a iha =>
    intro path h hd
    exact unary_congr (iha _ fun q hq => h q (by simpa [linkPositions] using hq)) hd
  | Sin a iha =>
    intro path h hd
    exact unary_congr (iha _ fun q hq => h q (by simpa [linkPositions] using hq)) hd
  | Cos a iha =>
    intro path h hd
    exact unary_congr (iha _ fun q hq => h q (by simpa [linkPositions] using hq)) hd
  | Tan a iha =>
    intro path h hd
    exact unary_congr (iha _ fun q hq => h q (by simpa [linkPositions] using hq)) hd

/-- Evaluation depends on the links of the tree only. -/
theorem evaluate_ext {ops : TypeOps D T} (link1 link2 : List Nat → Address → Res T)
    (f : Function T) :
    ∀ path, (∀ q ∈ linkPositions path f, link2 q.1 q.2 = link1 q.1 q.2) →
      evaluate ops link2 path f = evaluate ops link1 path f := by
  induction f with
  | Literal v => intro path _; rfl
  | Link a => intro path h; exact h (path, a) (by simp [linkPositions])
  | Add a b iha ihb =>
    intro path h
    simp only [evaluate]
    rw [iha _ fun q hq => h q (by simp [linkPositions, hq]),
      ihb _ fun q hq => h q (by simp [linkPositions, hq])]
  | Sub a b iha ihb =>
    intro path h
    simp only [evaluate]
    rw [iha _ fun q hq => h q (by simp [linkPositions, hq]),
      ihb _ fun q hq => h q (by simp [linkPositions, hq])]
  | Mul a b iha ihb =>
    intro path h
    simp only [evaluate]
    rw [iha _ fun q hq => h q (by simp [linkPositions, hq]),
      ihb _ fun q hq => h q (by simp [linkPositions, hq])]
  | Div a b iha ihb =>
    intro path h
    simp only [evaluate]
    rw [iha _ fun q hq => h q (by simp [linkPositions, hq]),
      ihb _ fun q hq => h q (by simp [linkPositions, hq])]
  | Abs a iha =>
    intro path h
    simp only [evaluate]
    rw [iha _ fun q hq => h q (by simpa [linkPositions] using hq)]
  | Sin a iha =>
    intro path h
    simp only [evaluate]
    rw [iha _ fun q hq => h q (by simpa [linkPositions] using hq)]
  | Cos a iha =>
    intro path h
    simp only [evaluate]
    rw [iha _ fun q hq => h q (by simpa [linkPositions] using hq)]
  | Tan a iha =>
    intro path h
    simp only [evaluate]
    rw [iha _ fun q hq => h q (by simpa [linkPositions] using hq)]

end Function

/-! ## The operations of the three types -/

theorem intOps_sound {D : Type} (h : Host D) : (intOps h).Sound where
  cast_some := by
    intro obj c hc
    cases obj <;> simp [intOps] at hc ⊢
    exact hc
  cast_none := by
    intro obj hc
    cases obj <;> simp [intOps, CellBase.ty] at hc ⊢
  cast_upcast := fun _ => rfl
  upcast_ty := fun _ => rfl
  upcast_links := fun _ => rfl
  binary := by
    intro g hg x y
    simp only [intOps, Option.some.injEq] at hg
    rcases hg with hg | hg | hg | hg <;> subst hg <;> simp [intDiv]
    split <;> simp
  unary := by
    intro g hg x
    simp only [intOps, Option.some.injEq] at hg
    rcases hg with hg | hg | hg | hg <;> subst hg <;> simp

theorem doubleOps_sound {D : Type} (h : Host D) : (doubleOps h).Sound where
  cast_some := by
    intro obj c hc
    cases obj <;> simp [doubleOps] at hc ⊢
    exact hc
  cast_none := by
    intro obj hc
    cases obj <;> simp [doubleOps, CellBase.ty] at hc ⊢
  cast_upcast := fun _ => rfl
  upcast_ty := fun _ => rfl
  upcast_links := fun _ => rfl
  binary := by
    intro g hg x y
    simp only [doubleOps, Option.some.injEq] at hg
    rcases hg with hg | hg | hg | hg <;> subst hg <;> simp
  unary := by
    intro g hg x
    simp only [doubleOps, Option.some.injEq] at hg
    rcases hg with hg | hg | hg | hg <;> subst hg <;> simp

theorem stringOps_sound (D : Type) : (stringOps D).Sound where
  cast_some := by
    intro obj c hc
    cases obj <;> simp [stringOps] at hc ⊢
    exact hc
  cast_none := by
    intro obj hc
    cases obj <;> simp [stringOps, CellBase.ty] at hc ⊢
  cast_upcast := fun _ => rfl
  upcast_ty := fun _ => rfl
  upcast_links := fun _ => rfl
  binary := by
    intro g hg x y
    simp only [stringOps, Option.some.injEq] at hg
    rcases hg with hg | hg | hg | hg
    · subst hg
      simp
    all_goals cases hg
  unary := by
    intro g hg x
    simp [stringOps] at hg

/-! ## Evaluation of a cell -/

namespace Sheet

variable {D T : Type}

theorem Map_mem_of_find {V : Type} {m : List (Address × V)} {a : Address} {v : V}
    (hv : Map.find m a = some v) : (a, v) ∈ m := by
  induction m with
  | nil => simp [Map.find] at hv
  | cons kv rest ih =>
    obtain ⟨k, w⟩ := kv
    simp only [Map.find] at hv
    by_cases hk : k = a
    · rw [if_pos hk] at hv
      simp only [Option.some.injEq] at hv
      subst hk hv
      exact List.mem_cons_self _ _
    · rw [if_neg hk] at hv
      exact List.mem_cons_of_mem _ (ih hv)

theorem flagSpace_length (s : Sheet D) : s.flagSpace.length = s.linkCount := by
  unfold flagSpace linkCount
  induction s.m_Cells with
  | nil => rfl
  | cons kv rest ih =>
    simp only [List.map_cons, List.flatten_cons, List.length_append, List.length_map,
      List.sum_cons, ih]
    congr 1
    cases kv.2.obj <;> exact Function.linkPositions_length _ _

theorem linkPositions_length_cell (c : CellBase D) : c.linkPositions.length = c.linkCount := by
  cases c <;> exact Function.linkPositions_length _ _

/-- The links of a cell that `getCell` returns are links of stored cells. -/
theorem getCell_links_space (s : Sheet D) (a : Address) :
    ∀ q ∈ (s.getCell a).obj.linkPositions, ((s.getCell a).ptr, q.1) ∈ s.flagSpace := by
  intro q hq
  cases hc : s.stored a with
  | none =>
    rw [getCell_of_absent hc] at hq
    simp [CellBase.linkPositions, Cell.createDefault, Function.linkPositions] at hq
  | some c =>
    rw [getCell_of_stored hc] at hq ⊢
    unfold flagSpace
    simp only [List.mem_flatten, List.mem_map]
    exact ⟨_, ⟨(a, c), Map_mem_of_find hc, rfl⟩, List.mem_map.mpr ⟨q, hq, rfl⟩⟩

theorem sdiff_cons_lt {α : Type} [DecidableEq α] {U P : List α} {x : α}
    (hx : x ∈ U) (hP : x ∉ P) :
    (U.toFinset \ (x :: P).toFinset).card < (U.toFinset \ P.toFinset).card := by
  apply Finset.card_lt_card
  rw [Finset.ssubset_iff_of_subset]
  · exact ⟨x, by simp [hx, hP], by simp⟩
  · intro y hy
    simp only [Finset.mem_sdiff, List.mem_toFinset, List.mem_cons, not_or] at hy ⊢
    exact ⟨hy.1, hy.2.2⟩

/-- One turn of `getContent`. -/
theorem getContent_succ (ops : TypeOps D T) (s : Sheet D) (fuel : Nat)
    (ev : List (Nat × List Nat)) (ptr : Nat) (cell : Cell T) :
    getContent ops s (fuel + 1) ev ptr cell
      = cell.m_Formula.evaluate ops
          (fun path m_Addr =>
            if (ptr, path) ∈ ev then .error .DependencyLoopException
            else
              match ops.cast (s.getCell m_Addr).obj with
              | none => .error .InvalidTypeException
              | some linkedCell =>
                getContent ops s fuel ((ptr, path) :: ev) (s.getCell m_Addr).ptr linkedCell)
          [] := rfl

/-- `getContent` returns or throws when the fuel exceeds the number of links
whose flag is not set: `space` holds the links of the cell and of the stored
cells. -/
theorem getContent_ne_diverge {ops : TypeOps D T} (hops : ops.Sound) (s : Sheet D)
    (space : List (Nat × List Nat)) (hspace : ∀ x ∈ s.flagSpace, x ∈ space) :
    ∀ (fuel : Nat) (ev : List (Nat × List Nat)) (ptr : Nat) (cell : Cell T),
      (∀ q ∈ cell.m_Formula.linkPositions [], (ptr, q.1) ∈ space) →
      (space.toFinset \ ev.toFinset).card < fuel →
      getContent ops s fuel ev ptr cell ≠ .diverge := by
  intro fuel
  induction fuel with
  | zero => intro ev ptr cell _ h; omega
  | succ fuel ih =>
    intro ev ptr cell hcell hcard
    rw [getContent_succ]
    apply Function.evaluate_ne_diverge hops
    intro q hq
    show (if (ptr, q.1) ∈ ev then _ else _) ≠ _
    by_cases hmem : (ptr, q.1) ∈ ev
    · rw [if_pos hmem]
      simp
    · rw [if_neg hmem]
      cases hcast : ops.cast (s.getCell q.2).obj with
      | none => simp
      | some c =>
        show getContent ops s fuel ((ptr, q.1) :: ev) (s.getCell q.2).ptr c ≠ _
        apply ih
        · intro r hr
          apply hspace
          apply getCell_links_space
          rw [hops.cast_some _ _ hcast, hops.upcast_links]
          exact hr
        · have := sdiff_cons_lt (hcell q hq) hmem
          omega

/-- More fuel does not change what `getContent` returns or throws. -/
theorem getContent_mono (ops : TypeOps D T) (s : Sheet D) :
    ∀ (fuel k : Nat) (ev : List (Nat × List Nat)) (ptr : Nat) (cell : Cell T),
      getContent ops s fuel ev ptr cell ≠ .diverge →
      getContent ops s (fuel + k) ev ptr cell = getContent ops s fuel ev ptr cell := by
  intro fuel
  induction fuel with
  | zero => intro k ev ptr cell h; exact absurd rfl h
  | succ fuel ih =>
    intro k ev ptr cell h
    rw [show fuel + 1 + k = (fuel + k) + 1 by omega, getContent_succ, getContent_succ]
    rw [getContent_succ] at h
    apply Function.evaluate_congr _ _ _ _ _ h
    intro q _ hd
    show (if (ptr, q.1) ∈ ev then _ else _) = (if (ptr, q.1) ∈ ev then _ else _)
    by_cases hmem : (ptr, q.1) ∈ ev
    · rw [if_pos hmem, if_pos hmem]
    · rw [if_neg hmem, if_neg hmem]
      have hd1 : (if (ptr, q.1) ∈ ev then (Res.error .DependencyLoopException : Res T)
          else
            match ops.cast (s.getCell q.2).obj with
            | none => .error .InvalidTypeException
            | some linkedCell =>
              getContent ops s fuel ((ptr, q.1) :: ev) (s.getCell q.2).ptr linkedCell)
          ≠ .diverge := hd
      rw [if_neg hmem] at hd1
      cases hcast : ops.cast (s.getCell q.2).obj with
      | none => rfl
      | some c =>
        rw [hcast] at hd1
        exact ih k _ _ c hd1

/-- `getContent` with the fuel above the number of links of the stored cells
returns or throws, for a cell that `getCell` returns. -/
theorem getContent_getCell_ne_diverge {ops : TypeOps D T} (hops : ops.Sound) (s : Sheet D)
    (a : Address) (target : Cell T) (htarget : (s.getCell a).obj = ops.upcast target)
    (ev : List (Nat × List Nat)) (k : Nat) :
    getContent ops s (s.linkCount + 1 + k) ev (s.getCell a).ptr target ≠ .diverge := by
  apply getContent_ne_diverge hops s s.flagSpace (fun _ hx => hx)
  · intro q hq
    apply getCell_links_space
    rw [htarget, hops.upcast_links]
    exact hq
  · have h1 : (s.flagSpace.toFinset \ ev.toFinset).card ≤ s.linkCount := by
      rw [← flagSpace_length]
      exact le_trans (Finset.card_le_card Finset.sdiff_subset) (List.toFinset_card_le _)
    omega

/-- `getContent` with the fuel of `getContentText` returns or throws, whatever
the cell. -/
theorem getContent_text_ne_diverge {ops : TypeOps D T} (hops : ops.Sound) (s : Sheet D)
    (ptr : Nat) (cell : Cell T) :
    getContent ops s (s.linkCount + cell.m_Formula.linkCount + 1) [] ptr cell ≠ .diverge := by
  apply getContent_ne_diverge hops s
    (s.flagSpace ++ (cell.m_Formula.linkPositions []).map fun q => (ptr, q.1))
    (fun _ hx => List.mem_append_left _ hx)
  · intro q hq
    exact List.mem_append_right _ (List.mem_map.mpr ⟨q, hq, rfl⟩)
  · have h1 : ((s.flagSpace ++ (cell.m_Formula.linkPositions []).map
        fun q => (ptr, q.1)).toFinset \ ([] : List (Nat × List Nat)).toFinset).card
        ≤ s.linkCount + cell.m_Formula.linkCount := by
      refine le_trans (Finset.card_le_card Finset.sdiff_subset)
        (le_trans (List.toFinset_card_le _) ?_)
      simp [flagSpace_length, Function.linkPositions_length]
    omega

/-- Only the flags of the links of the cell and of the cells that `getCell`
returns matter. -/
theorem getContent_flags (ops : TypeOps D T) (hops : ops.Sound) (s : Sheet D)
    (ev1 ev2 : List (Nat × List Nat))
    (hs : ∀ a, ∀ q ∈ (s.getCell a).obj.linkPositions,
      ((s.getCell a).ptr, q.1) ∈ ev1 ↔ ((s.getCell a).ptr, q.1) ∈ ev2) :
    ∀ (fuel : Nat) (more : List (Nat × List Nat)) (ptr : Nat) (cell : Cell T),
      (∀ q ∈ cell.m_Formula.linkPositions [], (ptr, q.1) ∈ ev1 ↔ (ptr, q.1) ∈ ev2) →
      getContent ops s fuel (more ++ ev1) ptr cell
        = getContent ops s fuel (more ++ ev2) ptr cell := by
  intro fuel
  induction fuel with
  | zero => intro more ptr cell _; rfl
  | succ fuel ih =>
    intro more ptr cell hc
    rw [getContent_succ, getContent_succ]
    apply Function.evaluate_ext
    intro q hq
    show (if (ptr, q.1) ∈ more ++ ev1 then _ else _) = (if (ptr, q.1) ∈ more ++ ev2 then _ else _)
    have hiff : (ptr, q.1) ∈ more ++ ev1 ↔ (ptr, q.1) ∈ more ++ ev2 := by
      simp only [List.mem_append]
      rw [hc q hq]
    by_cases hmem : (ptr, q.1) ∈ more ++ ev2
    · rw [if_pos hmem, if_pos (hiff.mpr hmem)]
    · rw [if_neg hmem, if_neg (fun h => hmem (hiff.mp h))]
      cases hcast : ops.cast (s.getCell q.2).obj with
      | none => rfl
      | some c =>
        show getContent ops s fuel ((ptr, q.1) :: (more ++ ev1)) _ c
          = getContent ops s fuel ((ptr, q.1) :: (more ++ ev2)) _ c
        rw [← List.cons_append, ← List.cons_append]
        refine ih _ _ c ?_
        intro r hr
        apply hs
        rw [hops.cast_some _ _ hcast, hops.upcast_links]
        exact hr

/-- `getContentText` returns or throws, whatever the sheet and the cell. -/
theorem getContentText_ne_diverge (h : Host D) (s : Sheet D) (cell : CellPtr D) :
    s.getContentText h cell ≠ .diverge := by
  unfold getContentText
  cases hobj : cell.obj with
  | int c =>
    simp only [CellBase.linkCount]
    have := getContent_text_ne_diverge (intOps_sound h) s cell.ptr c
    cases hr : getContent (intOps h) s (s.linkCount + c.m_Formula.linkCount + 1) [] cell.ptr c with
    | diverge => exact absurd hr this
    | error e => simp
    | ok v => simp
  | double c =>
    simp only [CellBase.linkCount]
    have := getContent_text_ne_diverge (doubleOps_sound h) s cell.ptr c
    cases hr : getContent (doubleOps h) s (s.linkCount + c.m_Formula.linkCount + 1) []
        cell.ptr c with
    | diverge => exact absurd hr this
    | error e => simp
    | ok v => simp
  | string c =>
    simp only [CellBase.linkCount]
    have := getContent_text_ne_diverge (stringOps_sound D) s cell.ptr c
    cases hr : getContent (stringOps D) s (s.linkCount + c.m_Formula.linkCount + 1) []
        cell.ptr c with
    | diverge => exact absurd hr this
    | error e => simp
    | ok v => simp

/-- For a cell that `getCell` returns the depth of the nesting is at most the
number of links of the stored cells, and one. -/
theorem getContentTextWithin_eq (h : Host D) (s : Sheet D) (a : Address) :
    s.getContentTextWithin h (s.linkCount + 1) (s.getCell a) = s.getContentText h (s.getCell a) := by
  unfold getContentTextWithin getContentText
  cases hobj : (s.getCell a).obj with
  | int c =>
    simp only [CellBase.linkCount]
    have h1 := getContent_getCell_ne_diverge (intOps_sound h) s a c hobj [] 0
    rw [show s.linkCount + c.m_Formula.linkCount + 1 = (s.linkCount + 1) + c.m_Formula.linkCount
      by omega, getContent_mono _ _ _ _ _ _ _ h1]
  | double c =>
    simp only [CellBase.linkCount]
    have h1 := getContent_getCell_ne_diverge (doubleOps_sound h) s a c hobj [] 0
    rw [show s.linkCount + c.m_Formula.linkCount + 1 = (s.linkCount + 1) + c.m_Formula.linkCount
      by omega, getContent_mono _ _ _ _ _ _ _ h1]
  | string c =>
    simp only [CellBase.linkCount]
    have h1 := getContent_getCell_ne_diverge (stringOps_sound D) s a c hobj [] 0
    rw [show s.linkCount + c.m_Formula.linkCount + 1 = (s.linkCount + 1) + c.m_Formula.linkCount
      by omega, getContent_mono _ _ _ _ _ _ _ h1]

end Sheet

/-! ## Links, cycles and the reentrancy guard -/

namespace Sheet

variable {D T : Type}

/-- One turn of `getContent` for a cell whose formula is a link. -/
theorem getContent_link (ops : TypeOps D T) (s : Sheet D) (fuel : Nat)
    (ev : List (Nat × List Nat)) (ptr : Nat) (cell : Cell T) (A : Address)
    (hcell : cell.m_Formula = .Link A) :
    getContent ops s (fuel + 1) ev ptr cell
      = if (ptr, []) ∈ ev then .error .DependencyLoopException
        else
          match ops.cast (s.getCell A).obj with
          | none => .error .InvalidTypeException
          | some linkedCell =>
            getContent ops s fuel ((ptr, []) :: ev) (s.getCell A).ptr linkedCell := by
  rw [getContent_succ, hcell]
  rfl

theorem linksTo_of_position {ops : TypeOps D T} (hops : ops.Sound) {s : Sheet D} {a : Address}
    {target : Cell T} {q : List Nat × Address} (htarget : (s.getCell a).obj = ops.upcast target)
    (hq : q ∈ target.m_Formula.linkPositions []) : s.LinksTo a q.2 := by
  unfold LinksTo CellBase.links
  rw [htarget, hops.upcast_links]
  exact List.mem_map.mpr ⟨q, hq, rfl⟩

/-- A cell with a link is a stored cell. -/
theorem stored_of_position {ops : TypeOps D T} (hops : ops.Sound) {s : Sheet D} {a : Address}
    {target : Cell T} {q : List Nat × Address} (htarget : (s.getCell a).obj = ops.upcast target)
    (hq : q ∈ target.m_Formula.linkPositions []) : s.stored a = some (s.getCell a) := by
  cases hst : s.stored a with
  | some c => rw [getCell_of_stored hst]
  | none =>
    have h1 : q ∈ (s.getCell a).obj.linkPositions := by
      rw [htarget, hops.upcast_links]
      exact hq
    rw [getCell_of_absent hst] at h1
    simp [CellBase.linkPositions, Cell.createDefault, Function.linkPositions] at h1

/-- When the evaluation of a cell returns a value, no link cycle is reachable
from the cell. -/
theorem getContent_ok_no_cycle {ops : TypeOps D T} (hops : ops.Sound) (s : Sheet D) :
    ∀ (fuel : Nat) (ev : List (Nat × List Nat)) (a : Address) (target : Cell T) (v : T),
      (s.getCell a).obj = ops.upcast target →
      getContent ops s fuel ev (s.getCell a).ptr target = .ok v → ¬ s.CycleReachable a := by
  intro fuel
  induction fuel with
  | zero => intro ev a target v _ h; cases h
  | succ fuel ih =>
    intro ev a target v htarget h hcyc
    rw [getContent_succ] at h
    have hl := Function.evaluate_ok_links _ _ _ _ h
    obtain ⟨x, hax, hxx⟩ := hcyc
    have hb : ∃ b, s.LinksTo a b ∧ s.CycleReachable b := by
      rcases hax.cases_head with rfl | ⟨b, hab, hbx⟩
      · obtain ⟨b, hab, hbx⟩ := Relation.TransGen.head'_iff.mp hxx
        exact ⟨b, hab, a, hbx, hxx⟩
      · exact ⟨b, hab, x, hbx, hxx⟩
    obtain ⟨b, hab, hbc⟩ := hb
    unfold LinksTo CellBase.links at hab
    rw [htarget, hops.upcast_links] at hab
    obtain ⟨q, hq, rfl⟩ := List.mem_map.mp hab
    obtain ⟨w, hw⟩ := hl q hq
    have hw1 : (if ((s.getCell a).ptr, q.1) ∈ ev then (Res.error .DependencyLoopException : Res T)
        else
          match ops.cast (s.getCell q.2).obj with
          | none => .error .InvalidTypeException
          | some linkedCell =>
            getContent ops s fuel (((s.getCell a).ptr, q.1) :: ev) (s.getCell q.2).ptr linkedCell)
        = .ok w := hw
    by_cases hmem : ((s.getCell a).ptr, q.1) ∈ ev
    · rw [if_pos hmem] at hw1
      cases hw1
    · rw [if_neg hmem] at hw1
      cases hcast : ops.cast (s.getCell q.2).obj with
      | none => rw [hcast] at hw1; cases hw1
      | some c =>
        rw [hcast] at hw1
        exact ih _ _ c w (hops.cast_some _ _ hcast) hw1 hbc

/-- Around a ring of pure links the evaluation comes back to the link whose
flag is set: `k` is the number of cells until then. -/
theorem getContent_ring {ops : TypeOps D T} (hops : ops.Sound) (s : Sheet D)
    (ring : List Address) (hring : PureLinkRing ops s ring) (i : Nat) :
    ∀ (k fuel : Nat) (ev : List (Nat × List Nat)) (j : Nat) (c : CellPtr D) (cell : Cell T),
      j < ring.length → (j + k) % ring.length = i → k < fuel →
      ((s.getCell (ring.getD i ⟨1, 1⟩)).ptr, []) ∈ ev →
      s.stored (ring.getD j ⟨1, 1⟩) = some c → c.obj = ops.upcast cell →
      cell.m_Formula = .Link (ring.getD ((j + 1) % ring.length) ⟨1, 1⟩) →
      getContent ops s fuel ev c.ptr cell = .error .DependencyLoopException := by
  intro k
  induction k with
  | zero =>
    intro fuel ev j c cell hj hji hfuel hflag hc _ hcell
    obtain ⟨f, rfl⟩ : ∃ f, fuel = f + 1 := ⟨fuel - 1, by omega⟩
    rw [Nat.add_zero, Nat.mod_eq_of_lt hj] at hji
    subst hji
    rw [getCell_of_stored hc] at hflag
    rw [getContent_link ops s f ev c.ptr cell _ hcell, if_pos hflag]
  | succ k ih =>
    intro fuel ev j c cell hj hji hfuel hflag hc _ hcell
    obtain ⟨f, rfl⟩ : ∃ f, fuel = f + 1 := ⟨fuel - 1, by omega⟩
    rw [getContent_link ops s f ev c.ptr cell _ hcell]
    by_cases hmem : (c.ptr, []) ∈ ev
    · rw [if_pos hmem]
    · rw [if_neg hmem]
      have hlt : (j + 1) % ring.length < ring.length := Nat.mod_lt _ (by omega)
      obtain ⟨c1, cell1, hc1, hobj1, hcell1⟩ := hring _ hlt
      rw [getCell_of_stored hc1, hobj1, hops.cast_upcast]
      show getContent ops s f ((c.ptr, []) :: ev) c1.ptr cell1 = _
      apply ih f _ _ c1 cell1 hlt _ (by omega) (List.mem_cons_of_mem _ hflag) hc1 hobj1 hcell1
      rw [Nat.mod_add_mod]
      rw [← hji]
      congr 1
      omega

/-- The evaluation of a cell of a ring of pure links throws
`DependencyLoopException`. -/
theorem getContent_ring_loop {ops : TypeOps D T} (hops : ops.Sound) (s : Sheet D)
    (ring : List Address) (hring : PureLinkRing ops s ring) (i : Nat) (hi : i < ring.length)
    (c : CellPtr D) (cell : Cell T) (hc : s.stored (ring.getD i ⟨1, 1⟩) = some c)
    (hobj : c.obj = ops.upcast cell) :
    getContent ops s (s.linkCount + cell.m_Formula.linkCount + 1) [] c.ptr cell
      = .error .DependencyLoopException := by
  obtain ⟨c0, cell0, hc0, hobj0, hcell0⟩ := hring i hi
  rw [hc] at hc0
  cases hc0
  have hcc : cell0 = cell := by
    have h1 := hops.cast_upcast cell0
    rw [← hobj0, hobj, hops.cast_upcast] at h1
    exact (Option.some.inj h1).symm
  subst hcc
  rw [← getContent_mono ops s _ (ring.length + 1) [] c.ptr cell0
    (getContent_text_ne_diverge hops s c.ptr cell0)]
  rw [show s.linkCount + cell0.m_Formula.linkCount + 1 + (ring.length + 1)
      = (s.linkCount + cell0.m_Formula.linkCount + 1 + ring.length) + 1 by omega,
    getContent_link ops s _ [] c.ptr cell0 _ hcell0, if_neg (by simp)]
  have hlt : (i + 1) % ring.length < ring.length := Nat.mod_lt _ (by omega)
  obtain ⟨c1, cell1, hc1, hobj1, hcell1⟩ := hring _ hlt
  rw [getCell_of_stored hc1, hobj1, hops.cast_upcast]
  show getContent ops s _ [(c.ptr, [])] c1.ptr cell1 = _
  apply getContent_ring hops s ring hring i (ring.length - 1) _ _ _ c1 cell1 hlt _ (by omega)
    _ hc1 hobj1 hcell1
  · rw [Nat.mod_add_mod, show i + 1 + (ring.length - 1) = i + ring.length by omega,
      Nat.add_mod_right, Nat.mod_eq_of_lt hi]
  · rw [getCell_of_stored hc]
    exact List.mem_singleton.mpr rfl

/-- In a sheet without link cycle the evaluation of a cell does not throw
`DependencyLoopException`: the links whose flag is set belong to stored cells
from which the cell is reached. -/
theorem getContent_no_loop {ops : TypeOps D T} (hops : ops.Sound) (s : Sheet D) (hinv : s.Inv)
    (hac : s.Acyclic) :
    ∀ (fuel : Nat) (ev : List (Nat × List Nat)) (a : Address) (target : Cell T),
      (s.getCell a).obj = ops.upcast target →
      (∀ x ∈ ev, ∃ b cb, s.stored b = some cb ∧ cb.ptr = x.1 ∧
        Relation.TransGen s.LinksTo b a) →
      getContent ops s fuel ev (s.getCell a).ptr target ≠ .error .DependencyLoopException := by
  intro fuel
  induction fuel with
  | zero => intro ev a target _ _ h; cases h
  | succ fuel ih =>
    intro ev a target htarget hev h
    rw [getContent_succ] at h
    obtain ⟨q, hq, hl⟩ := Function.evaluate_loop hops _ _ _ h
    have hsta := stored_of_position hops htarget hq
    have hl1 : (if ((s.getCell a).ptr, q.1) ∈ ev then (Res.error .DependencyLoopException : Res T)
        else
          match ops.cast (s.getCell q.2).obj with
          | none => .error .InvalidTypeException
          | some linkedCell =>
            getContent ops s fuel (((s.getCell a).ptr, q.1) :: ev) (s.getCell q.2).ptr linkedCell)
        = .error .DependencyLoopException := hl
    by_cases hmem : ((s.getCell a).ptr, q.1) ∈ ev
    · obtain ⟨b, cb, hb, hptr, hba⟩ := hev _ hmem
      have hab : b = a := hinv.ptr_inj b a cb _ hb hsta hptr
      subst hab
      exact hac b hba
    · rw [if_neg hmem] at hl1
      cases hcast : ops.cast (s.getCell q.2).obj with
      | none => rw [hcast] at hl1; cases hl1
      | some c =>
        rw [hcast] at hl1
        refine ih _ _ c (hops.cast_some _ _ hcast) ?_ hl1
        intro x hx
        rcases List.mem_cons.mp hx with rfl | hx
        · exact ⟨a, _, hsta, rfl, Relation.TransGen.single (linksTo_of_position hops htarget hq)⟩
        · obtain ⟨b, cb, hb, hptr, hba⟩ := hev x hx
          exact ⟨b, cb, hb, hptr, hba.tail (linksTo_of_position hops htarget hq)⟩

/-- The type check of `Link<T>::evaluate`. -/
theorem linkTypeChecked_of_sound {ops : TypeOps D T} (hops : ops.Sound) :
    LinkTypeChecked ops := by
  have part1 : ∀ (s : Sheet D) (A : Address) (fuel : Nat) (evaluating : List (Nat × List Nat))
      (ptr : Nat) (cell : Cell T), cell.m_Formula = .Link A → (ptr, []) ∉ evaluating →
      ((s.getCell A).obj.ty ≠ ops.ty →
        getContent ops s (fuel + 1) evaluating ptr cell = .error .InvalidTypeException) ∧
      ∀ target, (s.getCell A).obj = ops.upcast target →
        getContent ops s (fuel + 1) evaluating ptr cell
          = getContent ops s fuel ((ptr, []) :: evaluating) (s.getCell A).ptr target := by
    intro s A fuel ev ptr cell hcell hflag
    rw [getContent_link ops s fuel ev ptr cell A hcell, if_neg hflag]
    constructor
    · intro hty
      cases hcast : ops.cast (s.getCell A).obj with
      | none => rfl
      | some c =>
        exfalso
        apply hty
        rw [hops.cast_some _ _ hcast, hops.upcast_ty]
    · intro target htarget
      rw [htarget, hops.cast_upcast]
  refine ⟨part1, ?_⟩
  intro s A hinv
  have hp := part1 s A (s.linkCount + 1) [] (s.nextPtr + 1)
    { m_Addr := ⟨1, 1⟩, m_Dependencies := [], m_IsFormula := true, m_Formula := .Link A } rfl
    (by simp)
  have hle : ∀ a, (s.getCell a).ptr ≤ s.nextPtr := by
    intro a
    cases hst : s.stored a with
    | none => rw [getCell_of_absent hst]
    | some c =>
      rw [getCell_of_stored hst]
      exact Nat.le_of_lt (hinv.ptr_lt a c hst)
  constructor
  · intro hty
    exact hp.1 hty
  · intro target htarget
    have h1 : s.evaluate ops (.Link A)
        = getContent ops s (s.linkCount + 1) [(s.nextPtr + 1, [])] (s.getCell A).ptr target :=
      hp.2 target htarget
    rw [h1]
    have h2 := getContent_flags ops hops s [(s.nextPtr + 1, [])] []
      (by
        intro a q _
        have := hle a
        simp only [List.mem_singleton, Prod.mk.injEq, List.not_mem_nil, iff_false, not_and]
        intro hh
        omega)
      (s.linkCount + 1) [] (s.getCell A).ptr target
      (by
        intro q _
        have := hle A
        simp only [List.mem_singleton, Prod.mk.injEq, List.not_mem_nil, iff_false, not_and]
        intro hh
        omega)
    simp only [List.nil_append] at h2
    rw [h2]
    have h3 := getContent_getCell_ne_diverge hops s A target htarget [] 0
    rw [show s.linkCount + (s.getCell A).obj.linkCount + 1
      = (s.linkCount + 1) + (s.getCell A).obj.linkCount by omega, getContent_mono _ _ _ _ _ _ _ h3]

end Sheet

namespace Sheet

variable {D T : Type}

/-- A sheet whose links all go to addresses of lower rank has no link cycle. -/
theorem acyclic_of_rank (s : Sheet D) (rank : Address → Nat)
    (h : ∀ kv ∈ s.m_Cells, ∀ b ∈ kv.2.obj.links, rank b < rank kv.1) : s.Acyclic := by
  have hstep : ∀ a b, s.LinksTo a b → rank b < rank a := by
    intro a b hab
    unfold LinksTo at hab
    cases hst : s.stored a with
    | none =>
      rw [getCell_of_absent hst] at hab
      simp [CellBase.links, CellBase.linkPositions, Cell.createDefault,
        Function.linkPositions] at hab
    | some c =>
      rw [getCell_of_stored hst] at hab
      exact h (a, c) (Map_mem_of_find hst) b hab
  have htrans : ∀ a b, Relation.TransGen s.LinksTo a b → rank b < rank a := by
    intro a b hab
    induction hab with
    | single h1 => exact hstep _ _ h1
    | tail _ h2 ih => exact lt_trans (hstep _ _ h2) ih
  intro a ha
  exact lt_irrefl _ (htrans a a ha)

/-- The evaluated text of a cell from which a link cycle is reachable is an
exception. -/
theorem textAt_cycle (h : Host D) (s : Sheet D) (a : Address) (hc : s.CycleReachable a) :
    ∃ e, s.textAt h a = .error e := by
  have hnd := getContentText_ne_diverge h s (s.getCell a)
  unfold textAt
  cases hr : s.getContentText h (s.getCell a) with
  | diverge => exact absurd hr hnd
  | error e => exact ⟨e, rfl⟩
  | ok t =>
    exfalso
    unfold getContentText at hr
    cases hobj : (s.getCell a).obj with
    | int c =>
      rw [hobj] at hr
      obtain ⟨v, hv, _⟩ := Res.bind_eq_ok hr
      exact getContent_ok_no_cycle (intOps_sound h) s _ _ a c v hobj hv hc
    | double c =>
      rw [hobj] at hr
      obtain ⟨v, hv, _⟩ := Res.bind_eq_ok hr
      exact getContent_ok_no_cycle (doubleOps_sound h) s _ _ a c v hobj hv hc
    | string c =>
      rw [hobj] at hr
      obtain ⟨v, hv, _⟩ := Res.bind_eq_ok hr
      exact getContent_ok_no_cycle (stringOps_sound D) s _ _ a c v hobj hv hc

/-- The evaluated text of a cell of a ring of pure links is
`DependencyLoopException`. -/
theorem textAt_ring (h : Host D) (s : Sheet D) (ring : List Address)
    (hring : s.PureLinkRing (intOps h) ring ∨ s.PureLinkRing (doubleOps h) ring ∨
      s.PureLinkRing (stringOps D) ring) (a : Address) (ha : a ∈ ring) :
    s.textAt h a = .error .DependencyLoopException := by
  obtain ⟨i, hi, rfl⟩ := List.getElem_of_mem ha
  rw [← List.getD_eq_getElem ring ⟨1, 1⟩ hi]
  unfold textAt getContentText
  rcases hring with hr | hr | hr
  · obtain ⟨c, cell, hc, hobj, _⟩ := hr i hi
    have := getContent_ring_loop (intOps_sound h) s ring hr i hi c cell hc hobj
    have hobj1 : c.obj = .int cell := hobj
    rw [getCell_of_stored hc, hobj1]
    simp only [CellBase.linkCount]
    rw [this]
    rfl
  · obtain ⟨c, cell, hc, hobj, _⟩ := hr i hi
    have := getContent_ring_loop (doubleOps_sound h) s ring hr i hi c cell hc hobj
    have hobj1 : c.obj = .double cell := hobj
    rw [getCell_of_stored hc, hobj1]
    simp only [CellBase.linkCount]
    rw [this]
    rfl
  · obtain ⟨c, cell, hc, hobj, _⟩ := hr i hi
    have := getContent_ring_loop (stringOps_sound D) s ring hr i hi c cell hc hobj
    have hobj1 : c.obj = .string cell := hobj
    rw [getCell_of_stored hc, hobj1]
    simp only [CellBase.linkCount]
    rw [this]
    rfl

/-- In a sheet without link cycle the evaluated text of a cell is not
`DependencyLoopException`. -/
theorem textAt_no_loop (h : Host D) (s : Sheet D) (hinv : s.Inv) (hac : s.Acyclic)
    (a : Address) : s.textAt h a ≠ .error .DependencyLoopException := by
  unfold textAt getContentText
  intro hr
  cases hobj : (s.getCell a).obj with
  | int c =>
    rw [hobj] at hr
    have := getContent_no_loop (intOps_sound h) s hinv hac
      (s.linkCount + c.m_Formula.linkCount + 1) [] a c hobj (by simp)
    simp only [CellBase.linkCount] at hr
    cases hg : getContent (intOps h) s (s.linkCount + c.m_Formula.linkCount + 1) []
        (s.getCell a).ptr c with
    | diverge => rw [hg] at hr; cases hr
    | error e =>
      rw [hg] at hr
      simp only [Res.bind_error, Res.error.injEq] at hr
      rw [hr] at hg
      exact this hg
    | ok v => rw [hg] at hr; cases hr
  | double c =>
    rw [hobj] at hr
    have := getContent_no_loop (doubleOps_sound h) s hinv hac
      (s.linkCount + c.m_Formula.linkCount + 1) [] a c hobj (by simp)
    simp only [CellBase.linkCount] at hr
    cases hg : getContent (doubleOps h) s (s.linkCount + c.m_Formula.linkCount + 1) []
        (s.getCell a).ptr c with
    | diverge => rw [hg] at hr; cases hr
    | error e =>
      rw [hg] at hr
      simp only [Res.bind_error, Res.error.injEq] at hr
      rw [hr] at hg
      exact this hg
    | ok v => rw [hg] at hr; cases hr
  | string c =>
    rw [hobj] at hr
    have := getContent_no_loop (stringOps_sound D) s hinv hac
      (s.linkCount + c.m_Formula.linkCount + 1) [] a c hobj (by simp)
    simp only [CellBase.linkCount] at hr
    cases hg : getContent (stringOps D) s (s.linkCount + c.m_Formula.linkCount + 1) []
        (s.getCell a).ptr c with
    | diverge => rw [hg] at hr; cases hr
    | error e =>
      rw [hg] at hr
      simp only [Res.bind_error, Res.error.injEq] at hr
      rw [hr] at hg
      exact this hg
    | ok v => rw [hg] at hr; cases hr

/-- A link to an absent address gives the empty string to a `string` formula
and `InvalidTypeException` to the other types. -/
theorem evaluate_link_absent (h : Host D) (s : Sheet D) (A : Address)
    (hA : s.stored A = none) :
    s.evaluate (stringOps D) (.Link A) = .ok [] ∧
      s.evaluate (intOps h) (.Link A) = .error .InvalidTypeException ∧
      s.evaluate (doubleOps h) (.Link A) = .error .InvalidTypeException := by
  refine ⟨?_, ?_, ?_⟩
  · unfold evaluate
    rw [getContent_link _ s _ [] _ _ A rfl, if_neg (by simp), getCell_of_absent hA]
    rfl
  · unfold evaluate
    rw [getContent_link _ s _ [] _ _ A rfl, if_neg (by simp), getCell_of_absent hA]
    rfl
  · unfold evaluate
    rw [getContent_link _ s _ [] _ _ A rfl, if_neg (by simp), getCell_of_absent hA]
    rfl

end Sheet

/-! ## The splitter on any source -/

namespace IStream

/-- Extraction from a stream that has reached the end: it fails and `c` keeps
its value. -/
theorem get_eof (is : IStream) (c : Char) (h : is.eofbit = true) :
    (is.get c).1.eofbit = true ∧ (is.get c).2 = c := by
  unfold get
  simp [h]

/-- Extraction from a good stream with nothing left: the stream reaches the
end and `c` keeps its value. -/
theorem get_nil {is : IStream} (c : Char) (h : is.Good []) :
    (is.get c).1.eofbit = true ∧ (is.get c).2 = c := by
  obtain ⟨hb, he, hf⟩ := h
  unfold get
  simp only [he, hf, Bool.or_self, Bool.false_eq_true, if_false, hb]
  cases is.skipws <;> simp [dropWs]

/-- Extraction from a good stream: the end is reached, or the first character
that counts is extracted. -/
theorem get_cases {is : IStream} {buf : List Char} (c : Char) (h : is.Good buf) :
    ((if is.skipws = true then buf.dropWhile isspace else buf) = [] ∧
      (is.get c).1.eofbit = true) ∨
    ∃ x r, (if is.skipws = true then buf.dropWhile isspace else buf) = x :: r ∧
      (is.get c).2 = x ∧ (is.get c).1.Good r ∧ (is.get c).1.skipws = is.skipws ∧
      r.length < buf.length ∧ (is.skipws = true → isspace x = false) := by
  obtain ⟨hb, he, hf⟩ := h
  cases hs : is.skipws with
  | false =>
    simp only [Bool.false_eq_true, if_false]
    cases buf with
    | nil => exact Or.inl ⟨rfl, (get_nil c ⟨hb, he, hf⟩).1⟩
    | cons x r =>
      obtain ⟨h1, h2, h3⟩ := get_noskip c ⟨hb, he, hf⟩ hs
      exact Or.inr ⟨x, r, rfl, h1, h2, h3, by simp, by simp⟩
  | true =>
    simp only [if_true]
    cases hd : buf.dropWhile isspace with
    | nil =>
      exact Or.inl ⟨rfl, (get_skip_nil is c he hf hs (by rw [hb]; exact hd)).1⟩
    | cons x r =>
      obtain ⟨h1, h2, h3, h4, h5⟩ := get_skip_cons is c x r he hf hs (by rw [hb]; exact hd)
      have hx : isspace x = false := by
        have := List.head_dropWhile_not isspace buf (by rw [hd]; simp)
        simpa [hd] using this
      refine Or.inr ⟨x, r, rfl, h1, ⟨h2, h3, h4⟩, h5, ?_, fun _ => hx⟩
      have hsuf : (x :: r) <:+ buf := hd ▸ List.dropWhile_suffix _
      have := hsuf.length_le
      simp only [List.length_cons] at this
      omega

end IStream

namespace Parser

theorem splitScan_code_nil (seps : Str) (sk : Bool) (cur : Str) (res : List Str) (l : Int) :
    splitScan seps sk .code [] cur res l = .ok (pushCur cur res).2 := by
  rw [splitScan]

theorem splitScan_code_cons (seps : Str) (sk : Bool) (c : Char) (rest : List Char) (cur : Str)
    (res : List Str) (l : Int) :
    splitScan seps sk .code (c :: rest) cur res l
      = if sk = true ∧ isspace c = true then splitScan seps sk .code rest cur res l
        else if seps.contains c ∧ l = 0 then
          splitScan seps sk .code rest (pushCur cur res).1 ((pushCur cur res).2 ++ [[c]]) l
        else if c = '"' then
          if !cur.isEmpty then .error .IncorrectFormulaSyntaxException
          else splitScan seps sk (.literal []) rest cur res l
        else
          splitScan seps sk .code rest (cur ++ [c]) res
            (if c = '(' then l + 1 else if c = ')' then l - 1 else l) := by
  rw [splitScan]

theorem splitScan_literal_nil (seps : Str) (sk : Bool) (oss cur : Str) (res : List Str)
    (l : Int) :
    splitScan seps sk (.literal oss) [] cur res l = .error .IncorrectFormulaSyntaxException := by
  rw [splitScan]

theorem splitScan_literal_cons (seps : Str) (sk : Bool) (oss : Str) (c : Char)
    (rest : List Char) (cur : Str) (res : List Str) (l : Int) :
    splitScan seps sk (.literal oss) (c :: rest) cur res l
      = if c = '\\' then splitScan seps sk (.escape oss) rest cur res l
        else if c = '"' then
          splitScan seps false .code rest (pushCur (['"'] ++ oss ++ ['"']) res).1
            (pushCur (['"'] ++ oss ++ ['"']) res).2 l
        else splitScan seps sk (.literal (oss ++ [c])) rest cur res l := by
  rw [splitScan]

theorem splitScan_escape_nil (seps : Str) (sk : Bool) (oss cur : Str) (res : List Str)
    (l : Int) :
    splitScan seps sk (.escape oss) [] cur res l = .error .IncorrectFormulaSyntaxException := by
  rw [splitScan]

theorem splitScan_escape_cons (seps : Str) (sk : Bool) (oss : Str) (c : Char)
    (rest : List Char) (cur : Str) (res : List Str) (l : Int) :
    splitScan seps sk (.escape oss) (c :: rest) cur res l
      = if c = '"' ∧ rest = [] then
          .ok (pushCur (pushCur (['"'] ++ (oss ++ ['\\'] ++ [c]) ++ ['"']) res).1
            (pushCur (['"'] ++ (oss ++ ['\\'] ++ [c]) ++ ['"']) res).2).2
        else splitScan seps sk (.literal (oss ++ ['\\'] ++ [c])) rest cur res l := by
  rw [splitScan]

/-- With `skipws` set the white space before the next character is dropped. -/
theorem splitScan_dropWs (seps : Str) (buf : List Char) (cur : Str) (res : List Str) (l : Int) :
    splitScan seps true .code buf cur res l
      = splitScan seps true .code (buf.dropWhile isspace) cur res l := by
  induction buf with
  | nil => rfl
  | cons c r ih =>
    by_cases hc : isspace c = true
    · rw [splitScan_code_cons, if_pos ⟨rfl, hc⟩, ih, List.dropWhile_cons_of_pos hc]
    · rw [List.dropWhile_cons_of_neg hc]

theorem readStringLoop_eof (fuel : Nat) (is : IStream) (c : Char) (oss : Str)
    (h : is.eofbit = true) :
    Utils.readStringLoop (fuel + 1) is c oss = .error .InvalidInputException := by
  simp [Utils.readStringLoop, IStream.eof, h]

/-- The loop of `readString` and the reading of `splitScan` inside a string
literal: the input ends inside the literal and both throw; or the closing
quote is found and the reading goes on after it; or the input ends right
after an escaped quote, which closes the literal. -/
theorem readStringLoop_scan (seps : Str) :
    ∀ (n : Nat) (r : List Char) (is : IStream) (c : Char) (oss : Str) (fuel : Nat),
      r.length ≤ n → is.Good r → is.skipws = false → (r = [] → c ≠ '"') → r.length + 2 ≤ fuel →
      (Utils.readStringLoop fuel is c oss = .error .InvalidInputException ∧
        ∀ sk cur res l, splitScan seps sk (.literal oss) r cur res l
          = .error .IncorrectFormulaSyntaxException) ∨
      (∃ str is2 r2, Utils.readStringLoop fuel is c oss = .ok (str, is2) ∧ is2.Good r2 ∧
        r2.length < r.length ∧
        ∀ sk cur res l, splitScan seps sk (.literal oss) r cur res l
          = splitScan seps false .code r2 (pushCur (['"'] ++ str ++ ['"']) res).1
              (pushCur (['"'] ++ str ++ ['"']) res).2 l) ∨
      (∃ str is2, Utils.readStringLoop fuel is c oss = .ok (str, is2) ∧ is2.eofbit = true ∧
        ∀ sk cur res l, splitScan seps sk (.literal oss) r cur res l
          = .ok (pushCur (pushCur (['"'] ++ str ++ ['"']) res).1
              (pushCur (['"'] ++ str ++ ['"']) res).2).2) := by
  intro n
  induction n using Nat.strong_induction_on with
  | _ n ih =>
    intro r is c oss fuel hn hg hs hc hfuel
    obtain ⟨f, rfl⟩ : ∃ f, fuel = f + 2 := ⟨fuel - 2, by omega⟩
    have hnoteof : is.eof = false := hg.2.1
    cases r with
    | nil =>
      left
      obtain ⟨he, hcc⟩ := IStream.get_nil c hg
      refine ⟨?_, fun sk cur res l => splitScan_literal_nil seps sk oss cur res l⟩
      rw [Utils.readStringLoop]
      simp only [hnoteof, Bool.false_eq_true, if_false]
      rw [hcc]
      by_cases hb : c = '\\'
      · rw [if_pos hb]
        exact readStringLoop_eof f _ _ _ (IStream.get_eof _ _ he).1
      · rw [if_neg hb, if_neg (hc rfl)]
        exact readStringLoop_eof f _ _ _ he
    | cons z r1 =>
      obtain ⟨hz, hg1, hs1⟩ := IStream.get_noskip c hg hs
      by_cases hb : z = '\\'
      · cases r1 with
        | nil =>
          left
          obtain ⟨he, hcc⟩ := IStream.get_nil (is.get c).2 hg1
          refine ⟨?_, fun sk cur res l => ?_⟩
          · rw [Utils.readStringLoop]
            simp only [hnoteof, Bool.false_eq_true, if_false]
            rw [if_pos (by rw [hz]; exact hb)]
            exact readStringLoop_eof f _ _ _ he
          · rw [splitScan_literal_cons, if_pos hb, splitScan_escape_nil]
        | cons y r2 =>
          obtain ⟨hy, hg2, hs2⟩ := IStream.get_noskip (is.get c).2 hg1 hs1
          have hstep : Utils.readStringLoop (f + 2) is c oss
              = Utils.readStringLoop (f + 1) ((is.get c).1.get (is.get c).2).1 y
                  (oss ++ ['\\'] ++ [y]) := by
            rw [Utils.readStringLoop]
            simp only [hnoteof, Bool.false_eq_true, if_false]
            rw [if_pos (by rw [hz]; exact hb), hy, hz, hb]
          by_cases hglitch : y = '"' ∧ r2 = []
          · right; right
            obtain ⟨rfl, rfl⟩ := hglitch
            obtain ⟨he, hcc⟩ := IStream.get_nil '"' hg2
            refine ⟨oss ++ ['\\'] ++ ['"'], (((is.get c).1.get (is.get c).2).1.get '"').1, ?_, he,
              fun sk cur res l => ?_⟩
            · rw [hstep, Utils.readStringLoop]
              simp only [show ((is.get c).1.get (is.get c).2).1.eof = false from hg2.2.1,
                Bool.false_eq_true, if_false]
              rw [hcc, if_neg (by decide), if_pos rfl]
            · rw [splitScan_literal_cons, if_pos hb, splitScan_escape_cons, if_pos ⟨rfl, rfl⟩]
          · have hrec := ih (n - 2) (by simp at hn; omega) r2
              ((is.get c).1.get (is.get c).2).1 y (oss ++ ['\\'] ++ [y]) (f + 1)
              (by simp at hn; omega) hg2 hs2
              (fun hnil hyq => hglitch ⟨hyq, hnil⟩) (by simp at hfuel; omega)
            have hscan : ∀ sk cur res l, splitScan seps sk (.literal oss) (z :: y :: r2) cur res l
                = splitScan seps sk (.literal (oss ++ ['\\'] ++ [y])) r2 cur res l := by
              intro sk cur res l
              rw [splitScan_literal_cons, if_pos hb, splitScan_escape_cons, if_neg hglitch]
            rcases hrec with ⟨h1, h2⟩ | ⟨str, is2, r3, h1, h2, h3, h4⟩ | ⟨str, is2, h1, h2, h3⟩
            · exact Or.inl ⟨by rw [hstep, h1], fun sk cur res l => by rw [hscan, h2]⟩
            · exact Or.inr (Or.inl ⟨str, is2, r3, by rw [hstep, h1], h2,
                by simp only [List.length_cons]; omega,
                fun sk cur res l => by rw [hscan, h4]⟩)
            · exact Or.inr (Or.inr ⟨str, is2, by rw [hstep, h1], h2,
                fun sk cur res l => by rw [hscan, h3]⟩)
      · by_cases hq : z = '"'
        · right; left
          refine ⟨oss, (is.get c).1, r1, ?_, hg1, by simp, fun sk cur res l => ?_⟩
          · rw [Utils.readStringLoop]
            simp only [hnoteof, Bool.false_eq_true, if_false]
            rw [if_neg (by rw [hz]; exact hb), if_pos (by rw [hz]; exact hq)]
          · rw [splitScan_literal_cons, if_neg hb, if_pos hq]
        · have hstep : Utils.readStringLoop (f + 2) is c oss
              = Utils.readStringLoop (f + 1) (is.get c).1 z (oss ++ [z]) := by
            rw [Utils.readStringLoop]
            simp only [hnoteof, Bool.false_eq_true, if_false]
            rw [if_neg (by rw [hz]; exact hb), if_neg (by rw [hz]; exact hq), hz]
          have hrec := ih (n - 1) (by simp at hn; omega) r1 (is.get c).1 z (oss ++ [z]) (f + 1)
            (by simp at hn; omega) hg1 hs1 (fun _ => hq) (by simp at hfuel; omega)
          have hscan : ∀ sk cur res l, splitScan seps sk (.literal oss) (z :: r1) cur res l
              = splitScan seps sk (.literal (oss ++ [z])) r1 cur res l := by
            intro sk cur res l
            rw [splitScan_literal_cons, if_neg hb, if_neg hq]
          rcases hrec with ⟨h1, h2⟩ | ⟨str, is2, r3, h1, h2, h3, h4⟩ | ⟨str, is2, h1, h2, h3⟩
          · exact Or.inl ⟨by rw [hstep, h1], fun sk cur res l => by rw [hscan, h2]⟩
          · exact Or.inr (Or.inl ⟨str, is2, r3, by rw [hstep, h1], h2,
              by simp only [List.length_cons]; omega,
              fun sk cur res l => by rw [hscan, h4]⟩)
          · exact Or.inr (Or.inr ⟨str, is2, by rw [hstep, h1], h2,
              fun sk cur res l => by rw [hscan, h3]⟩)

/-- The loop of `splitLogical` after an extraction is `splitScan` on what the
stream had left. -/
theorem splitLoop_scan (seps : Str) :
    ∀ (n : Nat) (is : IStream) (buf : List Char) (c0 : Char) (cur : Str) (res : List Str)
      (l : Int) (fuel : Nat), buf.length ≤ n → is.Good buf → buf.length + 1 ≤ fuel →
      splitLoop seps fuel (is.get c0).1 (is.get c0).2 cur res l
        = splitScan seps is.skipws .code buf cur res l := by
  intro n
  induction n using Nat.strong_induction_on with
  | _ n ih =>
    intro is buf c0 cur res l fuel hn hg hfuel
    obtain ⟨f, rfl⟩ : ∃ f, fuel = f + 1 := ⟨fuel - 1, by omega⟩
    have hscan0 : splitScan seps is.skipws .code buf cur res l
        = splitScan seps is.skipws .code
            (if is.skipws = true then buf.dropWhile isspace else buf) cur res l := by
      cases hs : is.skipws with
      | false => simp
      | true => simp only [if_true]; exact splitScan_dropWs seps buf cur res l
    rw [hscan0]
    rcases IStream.get_cases c0 hg with ⟨hb, he⟩ | ⟨x, r, hb, hx, hg1, hs1, hlen, hsp⟩
    · rw [hb, splitLoop_eof _ _ _ _ _ _ _ he, splitScan_code_nil]
    · rw [hb, hx, splitScan_code_cons]
      have hnotsp : ¬ (is.skipws = true ∧ isspace x = true) := by
        rintro ⟨h1, h2⟩
        rw [hsp h1] at h2
        cases h2
      rw [if_neg hnotsp]
      have hrec := fun cur2 res2 l2 =>
        ih r.length (by omega) (is.get c0).1 r x cur2 res2 l2 f (le_refl _) hg1 (by omega)
      rw [hs1] at hrec
      have hnoteof : (is.get c0).1.eof = false := hg1.2.1
      by_cases hsep : seps.contains x = true ∧ l = 0
      · rw [splitLoop]
        simp only [hnoteof, Bool.false_eq_true, if_false]
        rw [if_pos hsep, if_pos hsep, hrec]
      · by_cases hq : x = '"'
        · rw [splitLoop]
          simp only [hnoteof, Bool.false_eq_true, if_false]
          rw [if_neg hsep, if_neg hsep, if_pos hq, if_pos hq]
          by_cases hcur : (!cur.isEmpty) = true
          · rw [if_pos hcur, if_pos hcur]
          · rw [if_neg hcur, if_neg hcur]
            have hrs := readStringLoop_scan seps r.length r (is.get c0).1.setNoskipws
              uninitialisedChar [] ((is.get c0).1.buf.length + 2) (le_refl _) hg1.setNoskipws rfl
              (fun _ => by decide) (by rw [hg1.1])
            rcases hrs with ⟨h1, h2⟩ | ⟨str, is2, r2, h1, h2, h3, h4⟩ | ⟨str, is2, h1, h2, h3⟩
            · rw [h2]
              unfold Utils.readString
              rw [h1]
              rfl
            · rw [h4]
              unfold Utils.readString
              rw [h1]
              simp only [Res.rethrow]
              have := ih r2.length (by omega) is2.setNoskipws r2 x
                (pushCur (['"'] ++ str ++ ['"']) res).1 (pushCur (['"'] ++ str ++ ['"']) res).2 l f
                (le_refl _) h2.setNoskipws (by omega)
              exact this
            · rw [h3]
              unfold Utils.readString
              rw [h1]
              simp only [Res.rethrow]
              obtain ⟨g, rfl⟩ : ∃ g, f = g + 1 := ⟨f - 1, by omega⟩
              exact splitLoop_eof _ _ _ _ _ _ _ (IStream.get_eof is2.setNoskipws _ h2).1
        · rw [splitLoop]
          simp only [hnoteof, Bool.false_eq_true, if_false]
          rw [if_neg hsep, if_neg hsep, if_neg hq, if_neg hq, hrec]

/-- `splitLogical` is `splitScan` on the source: it returns or throws
`IncorrectFormulaSyntaxException`, whatever the source. -/
theorem splitLogical_scan (source separators : Str) :
    splitLogical source separators = splitScan separators true .code source [] [] 0 :=
  splitLoop_scan separators source.length (IStream.ofStr source) source uninitialisedChar [] [] 0
    (source.length + 2) (le_refl _) ⟨rfl, rfl, rfl⟩ (by omega)

end Parser

/-! ## String literals -/

namespace Utils

theorem unescape_escape (v : Str) : unescapeString (escapeString v) = .ok v := by
  induction v with
  | nil => rfl
  | cons c r ih =>
    by_cases hq : c = '"'
    · subst hq
      simp only [escapeString, if_true, unescapeString]
      rw [ih]
      rfl
    · by_cases hb : c = '\\'
      · subst hb
        simp only [escapeString, if_neg hq, if_true, unescapeString]
        rw [ih]
        rfl
      · simp only [escapeString, if_neg hq, if_neg hb]
        unfold unescapeString
        rw [if_neg hb, ih]
        rfl

theorem wellEscaped_escapeString (v : Str) : wellEscaped (escapeString v) = true := by
  induction v with
  | nil => rfl
  | cons c r ih =>
    by_cases hq : c = '"'
    · subst hq
      simp only [escapeString, if_true]
      unfold wellEscaped
      rw [if_pos rfl]
      exact ih
    · by_cases hb : c = '\\'
      · subst hb
        simp only [escapeString, if_neg hq, if_true]
        unfold wellEscaped
        rw [if_pos rfl]
        exact ih
      · simp only [escapeString, if_neg hq, if_neg hb]
        unfold wellEscaped
        rw [if_neg hb, if_neg hq]
        exact ih

/-- A well escaped text is a first unit, one character or a backslash with
the character it escapes, and a well escaped text. -/
theorem wellEscaped_cases {raw : Str} (h : wellEscaped raw = true) :
    raw = [] ∨
    (∃ y r, raw = '\\' :: y :: r ∧ wellEscaped r = true) ∨
    (∃ z r, raw = z :: r ∧ z ≠ '\\' ∧ z ≠ '"' ∧ wellEscaped r = true) := by
  cases raw with
  | nil => exact Or.inl rfl
  | cons z r =>
    right
    unfold wellEscaped at h
    by_cases hb : z = '\\'
    · rw [if_pos hb] at h
      cases r with
      | nil => simp at h
      | cons y r2 => exact Or.inl ⟨y, r2, by rw [hb], h⟩
    · rw [if_neg hb] at h
      by_cases hq : z = '"'
      · rw [if_pos hq] at h
        cases h
      · rw [if_neg hq] at h
        exact Or.inr ⟨z, r, rfl, hb, hq, h⟩

theorem wellEscaped_append : ∀ (n : Nat) (a b : Str), a.length ≤ n → wellEscaped a = true →
    wellEscaped b = true → wellEscaped (a ++ b) = true := by
  intro n
  induction n using Nat.strong_induction_on with
  | _ n ih =>
    intro a b hn ha hb
    rcases wellEscaped_cases ha with rfl | ⟨y, r, rfl, hr⟩ | ⟨z, r, rfl, hz1, hz2, hr⟩
    · exact hb
    · simp only [List.length_cons] at hn
      have := ih (n - 2) (by omega) r b (by omega) hr hb
      simp only [List.cons_append]
      unfold wellEscaped
      rw [if_pos rfl]
      exact this
    · simp only [List.length_cons] at hn
      have := ih (n - 1) (by omega) r b (by omega) hr hb
      simp only [List.cons_append]
      unfold wellEscaped
      rw [if_neg hz1, if_neg hz2]
      exact this

end Utils

namespace Parser

/-- Inside a string literal the reading goes through a well escaped text to
the quote that follows it, which closes the literal. -/
theorem splitScan_raw (seps : Str) :
    ∀ (n : Nat) (raw : Str), raw.length ≤ n → Utils.wellEscaped raw = true →
      ∀ (sk : Bool) (oss : Str) (rest : List Char) (cur : Str) (res : List Str) (l : Int),
        splitScan seps sk (.literal oss) (raw ++ '"' :: rest) cur res l
          = splitScan seps false .code rest (pushCur (['"'] ++ (oss ++ raw) ++ ['"']) res).1
              (pushCur (['"'] ++ (oss ++ raw) ++ ['"']) res).2 l := by
  intro n
  induction n using Nat.strong_induction_on with
  | _ n ih =>
    intro raw hn hw sk oss rest cur res l
    rcases Utils.wellEscaped_cases hw with rfl | ⟨y, r, rfl, hr⟩ | ⟨z, r, rfl, hz1, hz2, hr⟩
    · rw [List.nil_append, splitScan_literal_cons, if_neg (by decide), if_pos rfl,
        List.append_nil]
    · simp only [List.length_cons] at hn
      rw [List.cons_append, List.cons_append, splitScan_literal_cons, if_pos rfl,
        splitScan_escape_cons, if_neg (by simp)]
      rw [ih (n - 2) (by omega) r (by omega) hr]
      simp only [List.append_assoc, List.singleton_append, List.cons_append, List.nil_append]
    · simp only [List.length_cons] at hn
      rw [List.cons_append, splitScan_literal_cons, if_neg hz1, if_neg hz2]
      rw [ih (n - 1) (by omega) r (by omega) hr]
      simp only [List.append_assoc, List.singleton_append, List.cons_append, List.nil_append]

theorem pushCur_quoted (raw : Str) (res : List Str) :
    pushCur (['"'] ++ raw ++ ['"']) res = ([], res ++ [['"'] ++ raw ++ ['"']]) :=
  pushCur_plain res (by simp) (by simp)

/-- A quoted token: a quote, a well escaped text and a quote. Read outside a
literal at level 0, it is appended to the sections and clears `skipws`. -/
theorem splitScan_quoted (seps : Str) (hq : '"' ∉ seps) (raw : Str)
    (hw : Utils.wellEscaped raw = true) (sk : Bool) (rest : List Char) (res : List Str) (l : Int) :
    splitScan seps sk .code (['"'] ++ raw ++ ['"'] ++ rest) [] res l
      = splitScan seps false .code rest [] (res ++ [['"'] ++ raw ++ ['"']]) l := by
  have hsep : ¬ (seps.contains '"' = true ∧ l = 0) := fun h => hq (by simpa using h.1)
  rw [show ['"'] ++ raw ++ ['"'] ++ rest = '"' :: (raw ++ '"' :: rest) by simp,
    splitScan_code_cons, if_neg (by rintro ⟨-, h⟩; cases h), if_neg hsep, if_pos rfl,
    if_neg (by simp), splitScan_raw seps raw.length raw (le_refl _) hw, List.nil_append,
    pushCur_quoted]

/-- A quoted token is one section. -/
theorem splitLogical_quoted (seps : Str) (hq : '"' ∉ seps) (raw : Str)
    (hw : Utils.wellEscaped raw = true) :
    splitLogical (['"'] ++ raw ++ ['"']) seps = .ok [['"'] ++ raw ++ ['"']] := by
  rw [splitLogical_scan]
  have := splitScan_quoted seps hq raw hw true [] [] 0
  rw [List.append_nil] at this
  rw [this, splitScan_code_nil, pushCur_nil]
  rfl

theorem isLiteralStringBody_cons (c : Char) (rest : Str) (hne : rest ≠ []) :
    isLiteralStringBody (c :: rest)
      = if c = '\\' then
          match rest with
          | [] => false
          | c' :: rest' => c' != '\n' && c' != '\r' && isLiteralStringBody rest'
        else if c = '"' then false
        else isLiteralStringBody rest := by
  cases rest with
  | nil => exact absurd rfl hne
  | cons x xs =>
    rw [isLiteralStringBody]
    intro _ h
    cases h

theorem isLiteralStringBody_escape (v : Str) :
    isLiteralStringBody (Utils.escapeString v ++ ['"']) = true := by
  induction v with
  | nil => rfl
  | cons c r ih =>
    by_cases hq : c = '"'
    · subst hq
      simp only [Utils.escapeString, if_true, List.cons_append]
      rw [isLiteralStringBody_cons _ _ (by simp), if_pos rfl]
      simp only [ih, Bool.and_true]
      decide
    · by_cases hb : c = '\\'
      · subst hb
        simp only [Utils.escapeString, if_neg hq, if_true, List.cons_append]
        rw [isLiteralStringBody_cons _ _ (by simp), if_pos rfl]
        simp only [ih, Bool.and_true]
        decide
      · simp only [Utils.escapeString, if_neg hq, if_neg hb, List.cons_append]
        rw [isLiteralStringBody_cons _ _ (by simp), if_neg hb, if_neg hq]
        exact ih

theorem stringFromString_literal (v : Str) :
    stringFromString (stringToString v true) true = .ok v := by
  have hlen : ¬ (stringToString v true).length < 2 := by simp [stringToString]
  have hhead : (stringToString v true).head? = some '"' := by simp [stringToString]
  have hlast : (stringToString v true).getLast? = some '"' := by
    rw [show stringToString v true = ('"' :: Utils.escapeString v) ++ ['"'] from rfl,
      List.getLast?_append]
    rfl
  have hmid : ((stringToString v true).drop 1).take ((stringToString v true).length - 2)
      = Utils.escapeString v := by
    simp [stringToString]
  unfold stringFromString
  rw [if_pos rfl, if_neg (by simp [hlen, hhead, hlast]), hmid]
  exact Utils.unescape_escape v

/-- The text of a string literal parses to the literal and appends no
dependency. -/
theorem parseSource_string_literal (D : Type) (v : Str) (d : List Address) :
    parseSource (stringOps D) (stringToString v true) d = .ok (.Literal v, d) := by
  unfold parseSource
  have hs : stringToString v true = ['"'] ++ Utils.escapeString v ++ ['"'] := rfl
  rw [hs, splitLogical_quoted defaultSeparators (by decide) _ (Utils.wellEscaped_escapeString v)]
  simp only [Res.bind_ok]
  rw [show 2 * (['"'] ++ Utils.escapeString v ++ ['"']).length + 4
    = (2 * (['"'] ++ Utils.escapeString v ++ ['"']).length + 3) + 1 by omega, parse_single]
  have hlit : (stringOps D).isLiteral (['"'] ++ Utils.escapeString v ++ ['"']) = true := by
    show isLiteralString (['"'] ++ Utils.escapeString v ++ ['"']) = true
    simp only [List.singleton_append, List.cons_append, isLiteralString]
    exact isLiteralStringBody_escape v
  rw [if_pos hlit]
  show (stringFromString (stringToString v true) true).bind _ = _
  rw [stringFromString_literal]
  rfl

end Parser

/-! ## A function applied to a source that parses -/

namespace Parser

variable {D T : Type}

theorem mem_toLower {name : Str} {x : Char} (hx : tolower x = x) (h : x ∈ name) :
    x ∈ Utils.toLower name := by
  unfold Utils.toLower
  exact List.mem_map.mpr ⟨x, h, hx⟩

/-- The characters of the identifier of a function are no separators, no
parentheses, no quotes and no white space. -/
theorem fnName_plain {name : Str} {fn : FnName} (h : Utils.toLower name = fn.ident) :
    name ≠ [] ∧ name.length = 3 ∧ '"' ∉ name ∧ ',' ∉ name ∧
      ∀ c ∈ name, c ∉ defaultSeparators ∧ c ≠ '(' ∧ c ≠ ')' ∧ isspace c = false := by
  have hlen : name.length = 3 := by
    have := congrArg List.length h
    unfold Utils.toLower at this
    rw [List.length_map] at this
    rw [this]
    cases fn <;> rfl
  have hno : ∀ x : Char, tolower x = x → x ∉ fn.ident → x ∉ name := by
    intro x hx hn hin
    exact hn (h ▸ mem_toLower hx hin)
  refine ⟨(fun e => by rw [e] at hlen; cases hlen), hlen,
    hno '"' (by decide) (by cases fn <;> decide), hno ',' (by decide) (by cases fn <;> decide),
    fun c hc => ⟨?_, ?_, ?_, ?_⟩⟩
  · intro hin
    simp only [defaultSeparators, String.toList, List.mem_cons, List.mem_singleton] at hin
    rcases hin with rfl | rfl | rfl | rfl | rfl | hin
    · exact hno ',' (by decide) (by cases fn <;> decide) hc
    · exact hno '+' (by decide) (by cases fn <;> decide) hc
    · exact hno '-' (by decide) (by cases fn <;> decide) hc
    · exact hno '*' (by decide) (by cases fn <;> decide) hc
    · exact hno '/' (by decide) (by cases fn <;> decide) hc
    · cases hin
  · rintro rfl
    exact hno '(' (by decide) (by cases fn <;> decide) hc
  · rintro rfl
    exact hno ')' (by decide) (by cases fn <;> decide) hc
  · cases hsp : isspace c with
    | false => rfl
    | true =>
      exfalso
      simp only [isspace, Bool.or_eq_true, decide_eq_true_eq] at hsp
      rcases hsp with ((((rfl | rfl) | rfl) | rfl) | rfl) | rfl
      · exact hno ' ' (by decide) (by cases fn <;> decide) hc
      · exact hno '\t' (by decide) (by cases fn <;> decide) hc
      · exact hno '\n' (by decide) (by cases fn <;> decide) hc
      · exact hno (Char.ofNat 11) (by decide) (by cases fn <;> decide) hc
      · exact hno (Char.ofNat 12) (by decide) (by cases fn <;> decide) hc
      · exact hno '\r' (by decide) (by cases fn <;> decide) hc

theorem mkFunction_ident (fn : FnName) : mkFunction (T := T) fn.ident = some fn.node := by
  cases fn <;> rfl

/-- Characters that are no separators are all appended to `cur`. -/
theorem splitPure_nosep (seps : Str) (w : List Char) (hw : ∀ c ∈ w, c ∉ seps) (res : List Str) :
    ∀ (cur : Str) (l : Int), ∃ l2, ∀ rest,
      splitPure seps (w ++ rest) cur res l = splitPure seps rest (cur ++ w) res l2 := by
  induction w with
  | nil => intro cur l; exact ⟨l, fun rest => by simp⟩
  | cons c r ih =>
    intro cur l
    have hc : ¬ (seps.contains c = true ∧ l = 0) :=
      fun hh => hw c (List.mem_cons_self _ _) (by simpa using hh.1)
    obtain ⟨l2, h2⟩ := ih (fun x hx => hw x (List.mem_cons_of_mem _ hx)) (cur ++ [c])
      (if c = '(' then l + 1 else if c = ')' then l - 1 else l)
    refine ⟨l2, fun rest => ?_⟩
    rw [List.cons_append, splitPure, if_neg hc, h2]
    simp

/-- A text that is not empty and not wrapped in parentheses is pushed as it
is. -/
theorem pushCur_unwrapped {cur : Str} (res : List Str) (hne : cur ≠ [])
    (hw : ¬ (cur.head? = some '(' ∧ cur.getLast? = some ')')) :
    pushCur cur res = ([], res ++ [cur]) := by
  have hlen : cur.length > 0 := List.length_pos.mpr hne
  have hw2 : ¬ (cur.length ≥ 2 ∧ cur.head? = some '(' ∧ cur.getLast? = some ')') :=
    fun h => hw h.2
  simp only [pushCur, if_neg hw2, hlen, if_true]

/-- The sections of `name(e)`: the text without its white space. -/
theorem sectionsOf_call {name : Str} {fn : FnName} (hname : Utils.toLower name = fn.ident)
    (e : Str) (hw : WellNested (stripSpace e)) :
    stripSpace (name ++ "(".toList ++ e ++ ")".toList) = name ++ '(' :: stripSpace e ++ [')'] ∧
      sectionsOf (name ++ "(".toList ++ e ++ ")".toList)
        = [name ++ '(' :: stripSpace e ++ [')']] := by
  obtain ⟨hne, hlen, hq, hcm, hp⟩ := fnName_plain hname
  have hs : stripSpace (name ++ "(".toList ++ e ++ ")".toList)
      = name ++ '(' :: stripSpace e ++ [')'] := by
    simp only [stripSpace_append]
    rw [stripSpace_of_nospace (fun c hc => (hp c hc).2.2.2)]
    have e1' : stripSpace "(".toList = ['('] := rfl
    have e2' : stripSpace ")".toList = [')'] := rfl
    rw [e1', e2']
    simp
  refine ⟨hs, ?_⟩
  unfold sectionsOf
  rw [hs, show name ++ '(' :: stripSpace e ++ [')'] = name ++ ('(' :: stripSpace e ++ ')' :: [])
    by simp]
  rw [splitPure_plain defaultSeparators name (fun c hc => ⟨(hp c hc).1, (hp c hc).2.1,
    (hp c hc).2.2.1⟩), splitPure_paren _ (by decide) _ _ _ _ hw]
  simp only [splitPure, List.nil_append]
  rw [pushCur_plain]
  · simp
  · simp
  · cases name with
    | nil => exact absurd rfl hne
    | cons c r =>
      simp only [List.cons_append, List.head?_cons, ne_eq, Option.some.injEq]
      exact (hp c (List.mem_cons_self _ _)).2.1

/-- The position of the first `(` of `name(...)`. -/
theorem call_shape {name : Str} (hp : '(' ∉ name) (mid : Str) :
    ((name ++ '(' :: mid ++ [')']).takeWhile (fun c => c != '(')).length = name.length ∧
      (name ++ '(' :: mid ++ [')']).getLast? = some ')' ∧
      (name ++ '(' :: mid ++ [')']).take name.length = name ∧
      ((name ++ '(' :: mid ++ [')']).drop (name.length + 1)).take
        ((name ++ '(' :: mid ++ [')']).length - (name.length + 1) - 1) = mid := by
  have ht : (name ++ '(' :: mid ++ [')']).takeWhile (fun c => c != '(') = name := by
    rw [List.append_assoc, List.takeWhile_append_of_pos (fun c hc => by
      simp only [bne_iff_ne, ne_eq]
      rintro rfl
      exact hp hc)]
    simp
  refine ⟨by rw [ht], ?_, ?_, ?_⟩
  · rw [List.getLast?_append]
    rfl
  · rw [List.append_assoc, List.take_left']
    rfl
  · have hd : (name ++ '(' :: mid ++ [')']).drop (name.length + 1) = mid ++ [')'] := by
      rw [List.append_assoc, ← List.drop_drop, List.drop_left']
      · rfl
      · rfl
    rw [hd]
    have hl : (name ++ '(' :: mid ++ [')']).length - (name.length + 1) - 1 = mid.length := by
      simp
      omega
    rw [hl, List.take_left']
    rfl

/-- `name(e)` parses to the node of the function over what `e` parses to. -/
theorem functionUnit_of_shape (ops : TypeOps D T) (hshape : LiteralShape ops) :
    FunctionUnit ops := by
  intro name fn e d d1 g hname hq hcomma hwrap h1
  obtain ⟨p1, w1, n1⟩ := parseSource_ok_facts ops hshape hq h1
  obtain ⟨hne, hlen3, hqn, hcn, hp⟩ := fnName_plain hname
  obtain ⟨hs, hsec⟩ := sectionsOf_call hname e w1
  have hpn : '(' ∉ name := fun hin => (hp _ hin).2.1 rfl
  have hqsrc : '"' ∉ name ++ "(".toList ++ e ++ ")".toList := by
    simp only [List.mem_append, not_or]
    refine ⟨⟨⟨hqn, ?_⟩, hq⟩, ?_⟩ <;> decide
  have hqF : '"' ∉ name ++ '(' :: stripSpace e ++ [')'] := by
    rw [← hs]
    exact not_mem_stripSpace hqsrc
  have hopen : '(' ∈ name ++ '(' :: stripSpace e ++ [')'] := by simp
  obtain ⟨c1, c2, c3, c4⟩ := call_shape hpn (stripSpace e)
  unfold parseSource
  rw [splitLogical_sectionsOf _ hqsrc, hsec]
  simp only [Res.bind_ok]
  have hlen : (name ++ "(".toList ++ e ++ ")".toList).length = e.length + 5 := by
    simp [hlen3]
    omega
  rw [hlen, show 2 * (e.length + 5) + 4 = (2 * (e.length + 5) + 3) + 1 from rfl, parse_single]
  have hnl : ¬ ops.isLiteral (name ++ '(' :: stripSpace e ++ [')']) = true := by
    intro hl
    exact (literal_plain hshape hl hqF).2 _ hopen |>.2.1 rfl
  have hnk : ¬ isLink (name ++ '(' :: stripSpace e ++ [')']) = true := by
    intro hl
    exact (link_plain hl).2 _ hopen |>.2.1 rfl
  rw [if_neg hnl, if_neg hnk, splitLogical_sectionsOf _ hqF]
  have hsec2 : sectionsOf (name ++ '(' :: stripSpace e ++ [')'])
      = [name ++ '(' :: stripSpace e ++ [')']] := by
    rw [← hs, sectionsOf_stripSpace, hsec, hs]
  rw [hsec2]
  simp only [Res.bind_ok]
  rw [if_neg (by simp), c1, c3, c4, if_pos ⟨by omega, by simp, c2⟩, hname, mkFunction_ident]
  have hcs : ',' ∉ stripSpace e := not_mem_stripSpace hcomma
  have hsplit : splitLogical (stripSpace e) ",".toList = .ok [stripSpace e] := by
    rw [splitLogical_pure _ _ (not_mem_stripSpace hq), stripSpace_idem]
    obtain ⟨l2, h2⟩ := splitPure_nosep ",".toList (stripSpace e)
      (fun c hc hin => by
        simp only [String.toList, List.mem_singleton] at hin
        subst hin
        exact hcs hc) [] [] 0
    have := h2 []
    rw [List.append_nil, List.nil_append] at this
    rw [this]
    simp only [splitPure]
    rw [pushCur_unwrapped [] n1 hwrap]
    rfl
  rw [hsplit]
  simp only [Res.bind_ok]
  rw [splitLogical_sectionsOf _ (not_mem_stripSpace hq), sectionsOf_stripSpace]
  simp only [Res.bind_ok]
  rw [parse_mono_ok ops (by omega) p1]
  rfl

end Parser

/-! ## The case of the letters -/

theorem upper_mem {c : Char} (h : ('A' ≤ c && c ≤ 'Z') = true) : c ∈ uppers := by
  simp only [Bool.and_eq_true, decide_eq_true_eq] at h
  obtain ⟨h1, h2⟩ := h
  have h1' : 65 ≤ c.toNat := h1
  have h2' : c.toNat ≤ 90 := h2
  have hc : c = Char.ofNat c.toNat := (Char.ofNat_toNat c).symm
  generalize c.toNat = n at hc h1' h2'
  subst hc
  interval_cases n <;> decide

/-- `tolower` changes the capital letters only. -/
theorem tolower_cases (c : Char) : tolower c = c ∨ c ∈ uppers := by
  unfold tolower
  by_cases h : ('A' ≤ c && c ≤ 'Z') = true
  · exact Or.inr (upper_mem h)
  · rw [if_neg h]
    exact Or.inl rfl

theorem tolower_idem (c : Char) : tolower (tolower c) = tolower c := by
  rcases tolower_cases c with h | h
  · rw [h, h]
  · revert c
    decide

/-- A character that is no letter is the lower case of itself only. -/
theorem tolower_eq_iff {x : Char} (hx : ∀ u ∈ uppers, tolower u ≠ x) (hu : x ∉ uppers)
    (c : Char) : tolower c = x ↔ c = x := by
  constructor
  · intro h
    rcases tolower_cases c with h1 | h1
    · rw [← h1, h]
    · exact absurd h (hx c h1)
  · rintro rfl
    rcases tolower_cases c with h1 | h1
    · exact h1
    · exact absurd h1 hu

theorem tolower_quote (c : Char) : tolower c = '"' ↔ c = '"' :=
  tolower_eq_iff (by decide) (by decide) c

theorem tolower_open (c : Char) : tolower c = '(' ↔ c = '(' :=
  tolower_eq_iff (by decide) (by decide) c

theorem tolower_close (c : Char) : tolower c = ')' ↔ c = ')' :=
  tolower_eq_iff (by decide) (by decide) c

theorem isspace_tolower (c : Char) : isspace (tolower c) = isspace c := by
  rcases tolower_cases c with h | h
  · rw [h]
  · revert c
    decide

theorem isDigit_tolower (c : Char) : isDigit (tolower c) = isDigit c := by
  rcases tolower_cases c with h | h
  · rw [h]
  · revert c
    decide

theorem isLetter_tolower (c : Char) : isLetter (tolower c) = isLetter c := by
  rcases tolower_cases c with h | h
  · rw [h]
  · revert c
    decide

/-- A digit or dot is its own lower case, and only its own. -/
theorem tolower_digit {c : Char} (h : isDigit (tolower c) = true ∨ tolower c = '.') :
    tolower c = c := by
  rcases tolower_cases c with h1 | h1
  · exact h1
  · have hall : ∀ u ∈ uppers, ¬ (isDigit (tolower u) = true ∨ tolower u = '.') := by decide
    exact absurd h (hall c h1)

namespace Parser

theorem plainSeparators_default : PlainSeparators defaultSeparators := by
  refine ⟨by decide, fun c => ?_⟩
  rcases tolower_cases c with h | h
  · rw [h]
  · revert c
    decide

theorem plainSeparators_comma : PlainSeparators ",".toList := by
  refine ⟨by decide, fun c => ?_⟩
  rcases tolower_cases c with h | h
  · rw [h]
  · revert c
    decide

theorem foldCase_length (s : Str) : ∀ st, (foldCase st s).length = s.length := by
  induction s with
  | nil => intro st; cases st <;> rfl
  | cons c r ih =>
    intro st
    cases st with
    | outside =>
      simp only [foldCase]
      split <;> simp [ih]
    | inside =>
      simp only [foldCase]
      split
      · simp [ih]
      · split <;> simp [ih]
    | escaped => simp [foldCase, ih]

theorem foldCase_eq_nil {s : Str} {st : LitState} : foldCase st s = [] ↔ s = [] := by
  constructor
  · intro h
    have := foldCase_length s st
    rw [h] at this
    exact List.length_eq_zero.mp this.symm
  · rintro rfl
    cases st <;> rfl

/-- Outside the string literals every letter is folded. -/
theorem foldCase_noquote {s : Str} (hq : '"' ∉ s) : foldCase .outside s = s.map tolower := by
  induction s with
  | nil => rfl
  | cons c r ih =>
    have hc : c ≠ '"' := fun e => hq (e ▸ List.mem_cons_self _ _)
    simp only [foldCase, if_neg hc, List.map_cons]
    rw [ih (fun h => hq (List.mem_cons_of_mem _ h))]

theorem foldToken_noquote {t : Str} (hq : '"' ∉ t) : foldToken t = t.map tolower := by
  unfold foldToken
  rw [if_neg hq]

theorem foldToken_quote {t : Str} (hq : '"' ∈ t) : foldToken t = t := by
  unfold foldToken
  rw [if_pos hq]

theorem foldToken_length (t : Str) : (foldToken t).length = t.length := by
  unfold foldToken
  split <;> simp

theorem quote_mem_map {t : Str} : '"' ∈ t.map tolower ↔ '"' ∈ t := by
  simp only [List.mem_map]
  constructor
  · rintro ⟨c, hc, h⟩
    rw [(tolower_quote c).mp h] at hc
    exact hc
  · intro h
    exact ⟨'"', h, by decide⟩

theorem quote_mem_foldToken {t : Str} : '"' ∈ foldToken t ↔ '"' ∈ t := by
  unfold foldToken
  split
  · rfl
  · exact quote_mem_map

theorem foldToken_idem (t : Str) : foldToken (foldToken t) = foldToken t := by
  by_cases hq : '"' ∈ t
  · rw [foldToken_quote hq, foldToken_quote hq]
  · rw [foldToken_noquote hq, foldToken_noquote (fun h => hq (quote_mem_map.mp h))]
    simp [tolower_idem]

theorem head_map_open (cur : Str) :
    (cur.map tolower).head? = some '(' ↔ cur.head? = some '(' := by
  cases cur with
  | nil => simp
  | cons c r => simp [tolower_open]

theorem getLast_map_close (cur : Str) :
    (cur.map tolower).getLast? = some ')' ↔ cur.getLast? = some ')' := by
  rw [List.getLast?_map]
  cases cur.getLast? with
  | none => simp
  | some c => simp [tolower_close]

/-- `pushCur` on a text in lower case. -/
theorem pushCur_fold {cur : Str} (res : List Str) (hq : '"' ∉ cur) :
    pushCur (cur.map tolower) (res.map foldToken)
      = ((pushCur cur res).1.map tolower, (pushCur cur res).2.map foldToken) := by
  have hstrip : '"' ∉ (cur.drop 1).take (cur.length - 2) :=
    fun h => hq (List.mem_of_mem_drop (List.mem_of_mem_take h))
  have hmap : ((cur.map tolower).drop 1).take (cur.length - 2)
      = ((cur.drop 1).take (cur.length - 2)).map tolower := by
    rw [List.map_take, List.map_drop]
  unfold pushCur
  simp only [List.length_map, head_map_open, getLast_map_close]
  by_cases hc : cur.length ≥ 2 ∧ cur.head? = some '(' ∧ cur.getLast? = some ')'
  · simp only [if_pos hc]
    rw [hmap, List.length_map]
    by_cases hl : ((cur.drop 1).take (cur.length - 2)).length > 0
    · simp only [if_pos hl, List.map_nil, List.map_append, List.map_cons,
        foldToken_noquote hstrip]
    · simp only [if_neg hl]
  · simp only [if_neg hc, List.length_map]
    by_cases hl : cur.length > 0
    · simp only [if_pos hl, List.map_nil, List.map_append, List.map_cons, foldToken_noquote hq]
    · simp only [if_neg hl]

theorem pushCur_noquote {cur : Str} (res : List Str) : '"' ∉ (pushCur cur res).1 := by
  rw [pushCur_fst]
  simp

/-- The splitter on a source with folded case: the sections of the source,
folded. -/
theorem splitScan_fold (seps : Str) (hseps : PlainSeparators seps) :
    ∀ (inp : List Char) (sk : Bool) (m : ScanMode) (cur : Str) (res : List Str) (l : Int),
      '"' ∉ cur →
      splitScan seps sk m (foldCase m.state inp) (cur.map tolower) (res.map foldToken) l
        = (splitScan seps sk m inp cur res l).bind fun X => .ok (X.map foldToken) := by
  intro inp
  induction inp with
  | nil =>
    intro sk m cur res l hq
    cases m with
    | code =>
      simp only [ScanMode.state, foldCase, splitScan_code_nil, Res.bind_ok]
      rw [pushCur_fold res hq]
    | literal o => simp only [ScanMode.state, foldCase, splitScan_literal_nil, Res.bind_error]
    | escape o => simp only [ScanMode.state, foldCase, splitScan_escape_nil, Res.bind_error]
  | cons c r ih =>
    intro sk m cur res l hq
    cases m with
    | code =>
      simp only [ScanMode.state, foldCase]
      by_cases hc : c = '"'
      · subst hc
        have hsep : ¬ (seps.contains '"' = true ∧ l = 0) :=
          fun h => hseps.1 (List.elem_iff.mp h.1)
        have hnsp : ¬ (sk = true ∧ isspace '"' = true) := by
          rintro ⟨-, h⟩
          exact absurd h (by decide)
        have hempty : (cur.map tolower).isEmpty = cur.isEmpty := by cases cur <;> rfl
        rw [if_pos rfl, splitScan_code_cons, splitScan_code_cons, if_neg hnsp, if_neg hnsp,
          if_neg hsep, if_neg hsep, if_pos rfl, if_pos rfl, hempty]
        by_cases hcur : (!cur.isEmpty) = true
        · rw [if_pos hcur, if_pos hcur]
          rfl
        · rw [if_neg hcur, if_neg hcur]
          exact ih sk (.literal []) cur res l hq
      · rw [if_neg hc, splitScan_code_cons, splitScan_code_cons, isspace_tolower, hseps.2]
        by_cases hsp : sk = true ∧ isspace c = true
        · rw [if_pos hsp, if_pos hsp]
          exact ih sk .code cur res l hq
        · rw [if_neg hsp, if_neg hsp]
          by_cases hsep : seps.contains c = true ∧ l = 0
          · rw [if_pos hsep, if_pos hsep, pushCur_fold res hq]
            have hft : [[tolower c]] = [[c]].map foldToken := by
              simp [foldToken_noquote (t := [c]) (by simpa using Ne.symm hc)]
            simp only
            rw [hft, ← List.map_append]
            exact ih sk .code _ _ l (pushCur_noquote res)
          · rw [if_neg hsep, if_neg hsep, if_neg (fun h => hc ((tolower_quote c).mp h)),
              if_neg hc]
            have hl : (if tolower c = '(' then l + 1 else if tolower c = ')' then l - 1 else l)
                = (if c = '(' then l + 1 else if c = ')' then l - 1 else l) := by
              simp only [tolower_open, tolower_close]
            rw [hl, show cur.map tolower ++ [tolower c] = (cur ++ [c]).map tolower by simp]
            exact ih sk .code _ res _ (by
              simp only [List.mem_append, List.mem_singleton, not_or]
              exact ⟨hq, Ne.symm hc⟩)
    | literal o =>
      simp only [ScanMode.state, foldCase]
      by_cases hb : c = '\\'
      · rw [if_pos hb, splitScan_literal_cons, splitScan_literal_cons, if_pos hb, if_pos hb]
        exact ih sk (.escape o) cur res l hq
      · by_cases hc : c = '"'
        · rw [if_neg hb, if_pos hc, splitScan_literal_cons, splitScan_literal_cons, if_neg hb,
            if_neg hb, if_pos hc, if_pos hc, pushCur_quoted, pushCur_quoted]
          have hft : res.map foldToken ++ [['"'] ++ o ++ ['"']]
              = (res ++ [['"'] ++ o ++ ['"']]).map foldToken := by
            simp [foldToken_quote (t := '"' :: (o ++ ['"'])) (by simp)]
          simp only
          rw [hft]
          exact ih false .code [] _ l (by simp)
        · rw [if_neg hb, if_neg hc, splitScan_literal_cons, splitScan_literal_cons, if_neg hb,
            if_neg hb, if_neg hc, if_neg hc]
          exact ih sk (.literal (o ++ [c])) cur res l hq
    | escape o =>
      simp only [ScanMode.state, foldCase]
      rw [splitScan_escape_cons, splitScan_escape_cons]
      by_cases hg : c = '"' ∧ r = []
      · rw [if_pos hg, if_pos ⟨hg.1, foldCase_eq_nil.mpr hg.2⟩, pushCur_quoted, pushCur_quoted]
        simp only [pushCur_nil, Res.bind_ok, List.map_append, List.map_cons, List.map_nil]
        rw [foldToken_quote (t := ['"'] ++ (o ++ ['\\'] ++ [c]) ++ ['"']) (by simp)]
      · rw [if_neg hg, if_neg (fun h => hg ⟨h.1, foldCase_eq_nil.mp h.2⟩)]
        exact ih sk (.literal (o ++ ['\\'] ++ [c])) cur res l hq

/-- The sections of a source with folded case are the sections of the
source, folded. -/
theorem splitLogical_fold (seps : Str) (hseps : PlainSeparators seps) (s : Str) :
    splitLogical (foldCase .outside s) seps
      = (splitLogical s seps).bind fun X => .ok (X.map foldToken) := by
  rw [splitLogical_scan, splitLogical_scan]
  exact splitScan_fold seps hseps s true .code [] [] 0 (by simp)

end Parser

/-! ## Parsing a source with folded case -/

namespace Parser

variable {D T : Type}

theorem mkOperation_tolower (c : Char) (a b : Function T) :
    mkOperation (tolower c) a b = mkOperation c a b := by
  have h1 : tolower c = '+' ↔ c = '+' := tolower_eq_iff (by decide) (by decide) c
  have h2 : tolower c = '-' ↔ c = '-' := tolower_eq_iff (by decide) (by decide) c
  have h3 : tolower c = '*' ↔ c = '*' := tolower_eq_iff (by decide) (by decide) c
  have h4 : tolower c = '/' ↔ c = '/' := tolower_eq_iff (by decide) (by decide) c
  unfold mkOperation
  simp only [h1, h2, h3, h4]

theorem mkOperation_foldToken (t : Str) (a b : Function T) :
    mkOperation ((foldToken t).headD uninitialisedChar) a b
      = mkOperation (t.headD uninitialisedChar) a b := by
  by_cases hq : '"' ∈ t
  · rw [foldToken_quote hq]
  · rw [foldToken_noquote hq]
    cases t with
    | nil => rfl
    | cons c r => exact mkOperation_tolower c a b

theorem takeWhile_map_tolower (p : Char → Bool) (hp : ∀ c, p (tolower c) = p c) (t : Str) :
    (t.map tolower).takeWhile p = (t.takeWhile p).map tolower := by
  induction t with
  | nil => rfl
  | cons c r ih =>
    simp only [List.map_cons, List.takeWhile_cons, hp]
    split
    · simp [ih]
    · rfl

theorem dropWhile_map_tolower (p : Char → Bool) (hp : ∀ c, p (tolower c) = p c) (t : Str) :
    (t.map tolower).dropWhile p = (t.dropWhile p).map tolower := by
  induction t with
  | nil => rfl
  | cons c r ih =>
    simp only [List.map_cons, List.dropWhile_cons, hp]
    split
    · exact ih
    · rfl

theorem map_tolower_digits {ds : Str} (h : ∀ c ∈ ds, isDigit c = true) : ds.map tolower = ds := by
  induction ds with
  | nil => rfl
  | cons c r ih =>
    have hc := h c (List.mem_cons_self _ _)
    rw [List.map_cons, ih (fun x hx => h x (List.mem_cons_of_mem _ hx)),
      tolower_digit (Or.inl (by rw [isDigit_tolower]; exact hc))]

theorem bne_tolower {x : Char} (h : ∀ c, tolower c = x ↔ c = x) (c : Char) :
    (tolower c != x) = (c != x) := by
  have : (tolower c == x) = (c == x) := by
    rw [Bool.eq_iff_iff]
    simp [h c]
  simp only [bne, this]

theorem isEmpty_map_tolower (l : Str) : (l.map tolower).isEmpty = l.isEmpty := by
  cases l <;> rfl

theorem isLink_fold (t : Str) : isLink (t.map tolower) = isLink t := by
  unfold isLink
  simp only [takeWhile_map_tolower isLetter isLetter_tolower,
    dropWhile_map_tolower isLetter isLetter_tolower]
  cases t.dropWhile isLetter with
  | nil => simp
  | cons d ds =>
    have h0 : (tolower d != '0') = (d != '0') :=
      bne_tolower (tolower_eq_iff (by decide) (by decide)) d
    have hall : (ds.map tolower).all isDigit = ds.all isDigit := by
      rw [List.all_map]
      congr 1
      funext c
      exact isDigit_tolower c
    simp only [List.map_cons, isDigit_tolower, h0, hall, isEmpty_map_tolower]

theorem colLoop_fold : ∀ (l : List Char) (k : Nat) (col : Int),
    Address.colLoop (l.map tolower) k col = Address.colLoop l k col := by
  intro l
  induction l with
  | nil => intro k col; rfl
  | cons c r ih =>
    intro k col
    simp only [List.map_cons, Address.colLoop, tolower_idem, ih]

theorem stoul_fold (t : Str) : stoul (t.map tolower) = stoul t := by
  unfold stoul
  rw [dropWhile_map_tolower isspace isspace_tolower,
    takeWhile_map_tolower isDigit isDigit_tolower,
    map_tolower_digits (fun c hc => List.mem_takeWhile_imp hc)]

theorem ofString_fold (t : Str) : Address.ofString (t.map tolower) = Address.ofString t := by
  have hp : ∀ c, (!isDigit (tolower c)) = !isDigit c := fun c => by rw [isDigit_tolower]
  unfold Address.ofString
  simp only [takeWhile_map_tolower (fun c => !isDigit c) hp,
    dropWhile_map_tolower (fun c => !isDigit c) hp, ← List.map_reverse, colLoop_fold, stoul_fold,
    isEmpty_map_tolower]

/-- What follows the splitting of a section, when it does not depend on the
case of the sections, does not depend on the case of the section split. -/
theorem split_bind_fold {α : Type} (seps : Str) (hseps : PlainSeparators seps) (t : Str)
    (F : List Str → Res α) (hF : ∀ X, F (X.map foldToken) = F X) :
    (splitLogical (foldToken t) seps).bind F = (splitLogical t seps).bind F := by
  by_cases hq : '"' ∈ t
  · rw [foldToken_quote hq]
  · rw [foldToken_noquote hq, ← foldCase_noquote hq, splitLogical_fold seps hseps]
    cases splitLogical t seps with
    | ok X => simp only [Res.bind_ok, hF]
    | error e => rfl
    | diverge => rfl

theorem getD_map_foldToken (secs : List Str) (i : Nat) :
    (secs.map foldToken).getD i [] = foldToken (secs.getD i []) := by
  rw [List.getD_eq_getElem?_getD, List.getD_eq_getElem?_getD, List.getElem?_map]
  cases secs[i]? <;> rfl

theorem headD_map_foldToken (secs : List Str) :
    (secs.map foldToken).headD [] = foldToken (secs.headD []) := by
  cases secs <;> rfl

/-- A section without double quote is its only section in lower case exactly
when it is its only section. -/
theorem single_fold {s : Str} (hq : '"' ∉ s) {new : List Str}
    (hnew : splitLogical s = .ok new) :
    [s.map tolower] ≠ new.map foldToken ↔ [s] ≠ new := by
  rw [splitLogical_sectionsOf s hq] at hnew
  injection hnew with hnew
  constructor
  · intro h e
    apply h
    rw [← e]
    simp [foldToken_noquote hq]
  · intro h e
    apply h
    cases hn : new with
    | nil => rw [hn] at e; simp at e
    | cons u rest =>
      rw [hn] at e
      simp only [List.map_cons, List.cons.injEq] at e
      obtain ⟨e1, e2⟩ := e
      have hrest : rest = [] := by
        cases rest with
        | nil => rfl
        | cons _ _ => simp at e2
      subst hrest
      have hlen : u.length = s.length := by
        have := congrArg List.length e1
        rw [List.length_map, foldToken_length] at this
        exact this.symm
      rw [(sectionsOf_length s).2 u (by rw [hnew, hn]) hlen]

theorem getLast_fold (s : Str) :
    (s.map tolower).getLast? = some ')' ↔ s.getLast? = some ')' :=
  getLast_map_close s

/-- `parse` gives the same for sections that differ in the case of letters
outside the string literals. -/
theorem parse_fold (ops : TypeOps D T) (hblind : CaseBlind ops) :
    ∀ (n : Nat) (secs : List Str) (d : List Address),
      parse ops n (secs.map foldToken) d = parse ops n secs d := by
  intro n
  induction n with
  | zero => intro secs d; rfl
  | succ n ih =>
    intro secs d
    have hinv : ∀ {α : Type} (d2 : List Address) (G : Function T × List Address → Res α)
        (X : List Str),
        (parse ops n (X.map foldToken) d2).bind G = (parse ops n X d2).bind G :=
      fun d2 G X => by rw [ih]
    by_cases hlen : secs.length = 1
    · obtain ⟨s, rfl⟩ := List.length_eq_one.mp hlen
      by_cases hq : '"' ∈ s
      · rw [List.map_cons, foldToken_quote hq]
        rfl
      · rw [List.map_cons, List.map_nil, foldToken_noquote hq, parse_single, parse_single,
          (hblind s hq).1, isLink_fold, ofString_fold]
        by_cases hlit : ops.isLiteral s = true
        · rw [if_pos hlit, if_pos hlit, (hblind s hq).2 hlit]
        · rw [if_neg hlit, if_neg hlit]
          by_cases hlink : isLink s = true
          · rw [if_pos hlink, if_pos hlink]
          · rw [if_neg hlink, if_neg hlink, ← foldCase_noquote hq,
              splitLogical_fold _ plainSeparators_default, foldCase_noquote hq]
            cases hnew : splitLogical s with
            | error e => rfl
            | diverge => rfl
            | ok new =>
              simp only [Res.bind_ok]
              by_cases hne : [s] ≠ new
              · rw [if_pos hne, if_pos ((single_fold hq hnew).mpr hne)]
                exact ih new d
              · rw [if_neg hne, if_neg (fun h => hne ((single_fold hq hnew).mp h))]
                have hp : ∀ c, (tolower c != '(') = (c != '(') := bne_tolower tolower_open
                have e5 : ((s.map tolower).takeWhile (fun c => c != '(')).length
                    = (s.takeWhile (fun c => c != '(')).length := by
                  rw [takeWhile_map_tolower (fun c => c != '(') hp, List.length_map]
                have e8 : Utils.toLower ((s.map tolower).take
                      (s.takeWhile (fun c => c != '(')).length)
                    = Utils.toLower (s.take (s.takeWhile (fun c => c != '(')).length) := by
                  unfold Utils.toLower
                  rw [← List.map_take, List.map_map]
                  congr 1
                  funext c
                  exact tolower_idem c
                have hmidq : '"' ∉ (s.drop ((s.takeWhile (fun c => c != '(')).length + 1)).take
                    (s.length - ((s.takeWhile (fun c => c != '(')).length + 1) - 1) :=
                  fun h => hq (List.mem_of_mem_drop (List.mem_of_mem_take h))
                have e9 : ((s.map tolower).drop
                      ((s.takeWhile (fun c => c != '(')).length + 1)).take
                      (s.length - ((s.takeWhile (fun c => c != '(')).length + 1) - 1)
                    = foldToken ((s.drop ((s.takeWhile (fun c => c != '(')).length + 1)).take
                      (s.length - ((s.takeWhile (fun c => c != '(')).length + 1) - 1)) := by
                  rw [foldToken_noquote hmidq, List.map_take, List.map_drop]
                rw [e5, List.length_map, e8, e9]
                by_cases hfn : (s.takeWhile (fun c => c != '(')).length > 0 ∧
                    (s.takeWhile (fun c => c != '(')).length ≠ s.length ∧
                    s.getLast? = some ')'
                · rw [if_pos hfn, if_pos ⟨hfn.1, hfn.2.1, (getLast_fold s).mpr hfn.2.2⟩]
                  apply split_bind_fold _ plainSeparators_comma
                  intro X
                  cases mkFunction (T := T)
                      (Utils.toLower (s.take (s.takeWhile (fun c => c != '(')).length)) with
                  | none => rfl
                  | some f =>
                    cases X with
                    | nil => rfl
                    | cons a0 rest =>
                      cases rest with
                      | cons a1 rest2 => rfl
                      | nil =>
                        simp only [List.map_cons, List.map_nil]
                        exact split_bind_fold _ plainSeparators_default a0 _
                          (fun Y => hinv d _ Y)
                · rw [if_neg hfn, if_neg (fun h => hfn ⟨h.1, h.2.1, (getLast_fold s).mp h.2.2⟩)]
    · have hlen2 : (secs.map foldToken).length ≠ 1 := by rw [List.length_map]; exact hlen
      rw [parse_many _ _ _ _ hlen, parse_many _ _ _ _ hlen2]
      simp only [List.length_map, getD_map_foldToken, foldToken_length, ← List.map_take,
        headD_map_foldToken, mkOperation_foldToken]
      by_cases hc : secs.length ≥ 3 ∧ (secs.getD (secs.length - 2) []).length = 1
      · rw [if_pos hc, if_pos hc]
        have hright : ∀ arg1 : Function T × List Address,
            ((splitLogical (foldToken (secs.getD (secs.length - 1) []))).bind fun right =>
              (parse ops n right arg1.2).bind fun arg2 =>
              (mkOperation ((secs.getD (secs.length - 2) []).headD uninitialisedChar)
                arg1.1 arg2.1).bind fun f => .ok (f, arg2.2))
            = ((splitLogical (secs.getD (secs.length - 1) [])).bind fun right =>
              (parse ops n right arg1.2).bind fun arg2 =>
              (mkOperation ((secs.getD (secs.length - 2) []).headD uninitialisedChar)
                arg1.1 arg2.1).bind fun f => .ok (f, arg2.2)) :=
          fun arg1 => split_bind_fold _ plainSeparators_default _ _ (fun Y => hinv arg1.2 _ Y)
        simp only [hright]
        by_cases hl : (secs.take (secs.length - 2)).length > 1
        · rw [if_pos hl, if_pos hl]
          simp only [Res.bind_ok]
          exact hinv d _ _
        · rw [if_neg hl, if_neg hl]
          exact split_bind_fold _ plainSeparators_default _ _ (fun Y => hinv d _ Y)
      · rw [if_neg hc, if_neg hc]

/-- `parseSource` gives the same for a source and for the source with the
letters outside its string literals in lower case. -/
theorem parseSource_fold (ops : TypeOps D T) (hblind : CaseBlind ops) (s : Str)
    (d : List Address) :
    parseSource ops (foldCase .outside s) d = parseSource ops s d := by
  unfold parseSource
  rw [splitLogical_fold _ plainSeparators_default, foldCase_length]
  cases splitLogical s with
  | ok X =>
    simp only [Res.bind_ok]
    exact parse_fold ops hblind _ X d
  | error e => rfl
  | diverge => rfl

theorem tolower_of_digit {c : Char} (h : isDigit c = true ∨ c = '.') : tolower c = c := by
  rcases tolower_cases c with e | e
  · exact e
  · have hall : ∀ u ∈ uppers, ¬ (isDigit u = true ∨ u = '.') := by decide
    exact absurd h (hall c e)

/-- The literals without double quote have no letter, so the case of the
letters does not matter for them. -/
theorem caseBlind_of_shape (ops : TypeOps D T) (hshape : LiteralShape ops) : CaseBlind ops := by
  intro t hq
  have hfwd : ops.isLiteral t = true → t.map tolower = t := by
    intro hl
    obtain ⟨-, hc⟩ := hshape t hl hq
    conv_rhs => rw [← List.map_id t]
    apply List.map_congr_left
    intro c hcm
    exact tolower_of_digit (hc c hcm)
  have hback : ops.isLiteral (t.map tolower) = true → t.map tolower = t := by
    intro hl
    obtain ⟨-, hc⟩ := hshape _ hl (fun h => hq (quote_mem_map.mp h))
    conv_rhs => rw [← List.map_id t]
    apply List.map_congr_left
    intro c hcm
    exact tolower_digit (hc _ (List.mem_map.mpr ⟨c, hcm, rfl⟩))
  refine ⟨?_, hfwd⟩
  cases h1 : ops.isLiteral t with
  | true => rw [hfwd h1, h1]
  | false =>
    cases h2 : ops.isLiteral (t.map tolower) with
    | false => rfl
    | true => rw [hback h2] at h2; rw [h2] at h1; cases h1

end Parser

/-! ## Numbers and addresses printed and read back -/

set_option maxRecDepth 100000

theorem digitChar_facts : ∀ k < 10, isDigit (Char.ofNat ('0'.toNat + k)) = true ∧
    (Char.ofNat ('0'.toNat + k)).toNat - '0'.toNat = k ∧
    ((Char.ofNat ('0'.toNat + k)) = '0' → k = 0) := by
  decide

theorem letterChar_facts : ∀ k < 26, Char.ofNat ('A'.toNat + k) ∈ uppers ∧
    (tolower (Char.ofNat ('A'.toNat + k))).toNat - 'a'.toNat + 1 = k + 1 := by
  decide

theorem upper_facts : ∀ u ∈ uppers, isDigit u = false ∧ isLetter u = true ∧
    ¬ (tolower u < 'a' ∨ tolower u > 'z') ∧ u ≠ '"' := by
  decide

theorem digit_facts (c : Char) (h : isDigit c = true) :
    isLetter c = false ∧ isspace c = false ∧ c ≠ '-' ∧ c ≠ '+' ∧ c ≠ '"' ∧ c ≠ ',' ∧ c ≠ '(' := by
  have h' := h
  simp only [isDigit, Bool.and_eq_true, decide_eq_true_eq] at h'
  obtain ⟨h1, h2⟩ := h'
  have h1' : 48 ≤ c.toNat := h1
  have h2' : c.toNat ≤ 57 := h2
  have hc : c = Char.ofNat c.toNat := (Char.ofNat_toNat c).symm
  generalize c.toNat = n at hc h1' h2'
  subst hc
  interval_cases n <;> decide

theorem digitsValue_append (a : List Char) (c : Char) :
    digitsValue (a ++ [c]) = 10 * digitsValue a + (c.toNat - '0'.toNat) := by
  simp [digitsValue, List.foldl_append]

/-- The digits of `n`: decimal digits of value `n`, without a leading zero. -/
theorem natDigits_spec : ∀ (fuel n : Nat), n < fuel →
    natDigits fuel n ≠ [] ∧ (∀ c ∈ natDigits fuel n, isDigit c = true) ∧
      digitsValue (natDigits fuel n) = n ∧ (1 ≤ n → (natDigits fuel n).head? ≠ some '0') := by
  intro fuel
  induction fuel with
  | zero => intro n hn; omega
  | succ f ih =>
    intro n hn
    obtain ⟨d1, d2, d3⟩ := digitChar_facts (n % 10) (Nat.mod_lt _ (by omega))
    by_cases h10 : n < 10
    · have e : natDigits (f + 1) n = [Char.ofNat ('0'.toNat + n % 10)] := by
        rw [natDigits, if_pos h10]
        rfl
      rw [e]
      have hm : n % 10 = n := Nat.mod_eq_of_lt h10
      refine ⟨by simp, ?_, ?_, ?_⟩
      · intro c hc
        rw [List.mem_singleton] at hc
        rw [hc]
        exact d1
      · have := digitsValue_append [] (Char.ofNat ('0'.toNat + n % 10))
        rw [List.nil_append] at this
        rw [this, d2, hm]
        simp [digitsValue]
      · intro h1 hh
        simp only [List.head?_cons, Option.some.injEq] at hh
        have := d3 hh
        omega
    · have e : natDigits (f + 1) n
          = natDigits f (n / 10) ++ [Char.ofNat ('0'.toNat + n % 10)] := by
        rw [natDigits, if_neg h10]
      obtain ⟨i1, i2, i3, i4⟩ := ih (n / 10) (by omega)
      rw [e]
      refine ⟨by simp, ?_, ?_, ?_⟩
      · intro c hc
        rcases List.mem_append.mp hc with hc | hc
        · exact i2 c hc
        · rw [List.mem_singleton] at hc
          rw [hc]
          exact d1
      · rw [digitsValue_append, i3, d2]
        omega
      · intro _
        rw [List.head?_append_of_ne_nil _ i1]
        exact i4 (by omega)

theorem natToString_spec (n : Nat) :
    natToString n ≠ [] ∧ (∀ c ∈ natToString n, isDigit c = true) ∧
      digitsValue (natToString n) = n ∧ (1 ≤ n → (natToString n).head? ≠ some '0') :=
  natDigits_spec (n + 1) n (by omega)

theorem intToString_nonneg {v : Int} (h : 0 ≤ v) : intToString v = natToString v.toNat := by
  unfold intToString
  rw [if_neg (by omega)]
  congr 1
  omega

/-- What `std::stoi` returns on a text of digits. -/
theorem stoi_digits {s : Str} (hne : s ≠ []) (hd : ∀ c ∈ s, isDigit c = true) :
    stoi s = if (digitsValue s : Int) ≤ INT_MAX then some (digitsValue s : Int) else none := by
  cases s with
  | nil => exact absurd rfl hne
  | cons c r =>
    obtain ⟨-, f2, f3, f4, -⟩ := digit_facts c (hd c (List.mem_cons_self _ _))
    have hdrop : (c :: r).dropWhile isspace = c :: r :=
      List.dropWhile_cons_of_neg (by simp [f2])
    have htake : (c :: r).takeWhile isDigit = c :: r :=
      List.takeWhile_eq_self_iff.mpr hd
    have hmin : INT_MIN ≤ (digitsValue (c :: r) : Int) := by
      unfold INT_MIN
      omega
    have hm : stoi.match_1 (fun _ => Bool × List Char) (c :: r) (fun r => (true, r))
        (fun r => (false, r)) (fun r => (false, r)) = (false, c :: r) := by
      split
      · rename_i heq
        exact absurd (List.cons.inj heq).1 f3
      · rename_i heq
        exact absurd (List.cons.inj heq).1 f4
      · rfl
    unfold stoi
    simp only [hdrop, hm, htake]
    simp [hmin]

theorem isBlank_digits {s : Str} (hne : s ≠ []) (hd : ∀ c ∈ s, isDigit c = true) :
    isBlank s = false := by
  cases s with
  | nil => exact absurd rfl hne
  | cons c r =>
    have := (digit_facts c (hd c (List.mem_cons_self _ _))).2.1
    simp [isBlank, this]

theorem isLiteralInt_iff {s : Str} :
    Parser.isLiteralInt s = true ↔ s ≠ [] ∧ ∀ c ∈ s, isDigit c = true := by
  unfold Parser.isLiteralInt
  cases s <;> simp

/-- `Type<int>::fromString` on a literal. -/
theorem intFromString_digits {s : Str} (h : Parser.isLiteralInt s = true) :
    intFromString s = if (digitsValue s : Int) ≤ INT_MAX then .ok (digitsValue s : Int)
      else .error .InvalidTypeException := by
  obtain ⟨hne, hd⟩ := isLiteralInt_iff.mp h
  unfold intFromString
  rw [isBlank_digits hne hd, stoi_digits hne hd]
  by_cases hv : (digitsValue s : Int) ≤ INT_MAX
  · simp [hv]
  · simp [hv]

/-- The text of a value from 0 to `INT_MAX` is a literal that reads as the
value. -/
theorem intToString_literal {v : Int} (h0 : 0 ≤ v) (h1 : v ≤ INT_MAX) :
    Parser.isLiteralInt (intToString v) = true ∧ intFromString (intToString v) = .ok v := by
  obtain ⟨n1, n2, n3, -⟩ := natToString_spec v.toNat
  rw [intToString_nonneg h0]
  have hl : Parser.isLiteralInt (natToString v.toNat) = true := isLiteralInt_iff.mpr ⟨n1, n2⟩
  refine ⟨hl, ?_⟩
  rw [intFromString_digits hl, n3]
  have e : ((v.toNat : Nat) : Int) = v := Int.toNat_of_nonneg h0
  rw [e, if_pos h1]

namespace Address

theorem colValue_append (a : List Char) (c : Char) :
    colValue (a ++ [c]) = 26 * colValue a + ((tolower c).toNat - 'a'.toNat + 1) := by
  simp [colValue, List.foldl_append]

/-- The loop over the letters, from the last to the first, adds their value. -/
theorem colLoop_value : ∀ (L : List Char) (k : Nat) (col : Int),
    (∀ c ∈ L, ¬ (tolower c < 'a' ∨ tolower c > 'z')) →
    col + (26 : Int) ^ k * (colValue L : Int) ≤ MAX_COL →
    colLoop L.reverse k col = .ok (col + (26 : Int) ^ k * (colValue L : Int)) := by
  intro L
  induction L using List.reverseRecOn with
  | nil =>
    intro k col _ _
    simp [colLoop, colValue]
  | append_singleton init c ih =>
    intro k col hv hmax
    have hc := hv c (by simp)
    rw [List.reverse_append, List.reverse_singleton, List.singleton_append, colLoop]
    simp only []
    rw [if_neg hc]
    rw [colValue_append] at hmax ⊢
    have hX : (0 : Int) < (26 : Int) ^ k := by positivity
    have hV : (0 : Int) ≤ (colValue init : Int) := Int.natCast_nonneg _
    have hXV : (0 : Int) ≤ (26 : Int) ^ k * (colValue init : Int) := Int.mul_nonneg hX.le hV
    have e : col + (26 : Int) ^ k *
          ((26 * colValue init + ((tolower c).toNat - 'a'.toNat + 1) : Nat) : Int)
        = (col + (((tolower c).toNat - 'a'.toNat + 1 : Nat) : Int) * (26 : Int) ^ k)
          + (26 : Int) ^ (k + 1) * (colValue init : Int) := by
      push_cast
      ring
    rw [e] at hmax ⊢
    have hle : ¬ (col + (((tolower c).toNat - 'a'.toNat + 1 : Nat) : Int) * (26 : Int) ^ k
        > MAX_COL) := by
      have : (0 : Int) ≤ (26 : Int) ^ (k + 1) * (colValue init : Int) := by positivity
      omega
    rw [if_neg hle]
    exact ih (k + 1) _ (fun x hx => hv x (by simp [hx])) hmax

/-- What the loop over the letters returns is above the value it starts
from, strictly when there is a letter, and at most `MAX_COL`. -/
theorem colLoop_bounds : ∀ (L : List Char) (k : Nat) (col r : Int),
    colLoop L k col = .ok r → col ≤ r ∧ (L ≠ [] → col < r ∧ r ≤ MAX_COL) := by
  intro L
  induction L with
  | nil =>
    intro k col r h
    simp only [colLoop, Res.ok.injEq] at h
    exact ⟨by omega, fun hh => absurd rfl hh⟩
  | cons c rest ih =>
    intro k col r h
    rw [colLoop] at h
    simp only [] at h
    by_cases hc : tolower c < 'a' ∨ tolower c > 'z'
    · rw [if_pos hc] at h
      cases h
    · rw [if_neg hc] at h
      by_cases hm : col + (((tolower c).toNat - 'a'.toNat + 1 : Nat) : Int) * (26 : Int) ^ k
          > MAX_COL
      · rw [if_pos hm] at h
        cases h
      · rw [if_neg hm] at h
        obtain ⟨i1, i2⟩ := ih _ _ _ h
        have hX : (0 : Int) < (26 : Int) ^ k := by positivity
        have hd : (1 : Int) ≤ (((tolower c).toNat - 'a'.toNat + 1 : Nat) : Int) := by
          push_cast
          omega
        have hpos : (0 : Int) < (((tolower c).toNat - 'a'.toNat + 1 : Nat) : Int)
            * (26 : Int) ^ k := Int.mul_pos (by omega) hX
        refine ⟨by omega, fun _ => ⟨by omega, ?_⟩⟩
        cases rest with
        | nil =>
          simp only [colLoop, Res.ok.injEq] at h
          omega
        | cons x xs => exact (i2 (by simp)).2

/-- The name of a column: capital letters of value the index plus one. -/
theorem colNameAux_spec : ∀ (fuel n : Nat), n < fuel →
    colNameAux fuel n ≠ [] ∧ (∀ c ∈ colNameAux fuel n, c ∈ uppers) ∧
      colValue (colNameAux fuel n) = n + 1 := by
  intro fuel
  induction fuel with
  | zero => intro n hn; omega
  | succ f ih =>
    intro n hn
    obtain ⟨l1, l2⟩ := letterChar_facts (n % 26) (Nat.mod_lt _ (by omega))
    by_cases h26 : n < 26
    · have e : colNameAux (f + 1) n = [Char.ofNat ('A'.toNat + n % 26)] := by
        rw [colNameAux, if_pos h26, Nat.mod_eq_of_lt h26]
      rw [e]
      refine ⟨by simp, ?_, ?_⟩
      · intro c hc
        rw [List.mem_singleton] at hc
        rw [hc]
        exact l1
      · have := colValue_append [] (Char.ofNat ('A'.toNat + n % 26))
        rw [List.nil_append] at this
        rw [this, l2, Nat.mod_eq_of_lt h26]
        simp [colValue]
    · have e : colNameAux (f + 1) n
          = colNameAux f (n / 26 - 1) ++ [Char.ofNat ('A'.toNat + n % 26)] := by
        rw [colNameAux, if_neg h26]
      obtain ⟨i1, i2, i3⟩ := ih (n / 26 - 1) (by omega)
      rw [e]
      refine ⟨by simp, ?_, ?_⟩
      · intro c hc
        rcases List.mem_append.mp hc with hc | hc
        · exact i2 c hc
        · rw [List.mem_singleton] at hc
          rw [hc]
          exact l1
      · rw [colValue_append, i3, l2]
        omega

/-- The text of an address that `Address(const string &)` returns: capital
letters of the value of the column, then the digits of the row. -/
theorem toString_spec {a : Address} (ha : a.Valid) :
    a.toString = a.colName ++ natToString a.m_Row.toNat ∧ a.colName ≠ [] ∧
      (∀ c ∈ a.colName, c ∈ uppers) ∧ (colValue a.colName : Int) = a.m_Col := by
  obtain ⟨h1, h2, h3, h4⟩ := ha
  obtain ⟨c1, c2, c3⟩ := colNameAux_spec ((a.col - 1).toNat + 1) (a.col - 1).toNat (by omega)
  refine ⟨?_, c1, c2, ?_⟩
  · unfold toString
    rw [show a.row = a.m_Row from rfl, intToString_nonneg (by omega)]
  · show (colValue (colNameAux ((a.col - 1).toNat + 1) (a.col - 1).toNat) : Int) = a.m_Col
    rw [c3]
    have : a.col = a.m_Col := rfl
    omega

theorem takeWhile_append_stop {p : Char → Bool} {a b : List Char} (ha : ∀ c ∈ a, p c = true)
    (hb : b.head?.all (fun c => !p c) = true) :
    (a ++ b).takeWhile p = a ∧ (a ++ b).dropWhile p = b := by
  induction a with
  | nil =>
    cases b with
    | nil => simp
    | cons x xs =>
      simp only [List.head?_cons, Option.all_some, Bool.not_eq_true'] at hb
      simp [hb]
  | cons x xs ih =>
    obtain ⟨i1, i2⟩ := ih (fun c hc => ha c (List.mem_cons_of_mem _ hc))
    have hx := ha x (List.mem_cons_self _ _)
    simp only [List.cons_append]
    rw [List.takeWhile_cons_of_pos hx, List.dropWhile_cons_of_pos hx, i1, i2]
    exact ⟨rfl, rfl⟩

/-- The text of an address reads back as the address. -/
theorem ofString_toString {a : Address} (ha : a.Valid) : ofString a.toString = .ok a := by
  obtain ⟨e, c1, c2, c3⟩ := toString_spec ha
  obtain ⟨h1, h2, h3, h4⟩ := ha
  obtain ⟨n1, n2, n3, n4⟩ := natToString_spec a.m_Row.toNat
  have hhead : (natToString a.m_Row.toNat).head?.all (fun c => !(fun c => !isDigit c) c)
      = true := by
    cases hn : natToString a.m_Row.toNat with
    | nil => rfl
    | cons x xs =>
      have := n2 x (by rw [hn]; exact List.mem_cons_self _ _)
      simp [this]
  obtain ⟨t1, t2⟩ := takeWhile_append_stop (p := fun c => !isDigit c)
    (a := a.colName) (b := natToString a.m_Row.toNat)
    (fun c hc => by simp [(upper_facts c (c2 c hc)).1]) hhead
  unfold ofString
  simp only [e, t1, t2]
  have hne : ¬ (a.colName.isEmpty = true ∨ (natToString a.m_Row.toNat).isEmpty = true) := by
    simp [c1, n1]
  rw [if_neg hne]
  have hcol := colLoop_value a.colName 0 0 (fun c hc => (upper_facts c (c2 c hc)).2.2.1)
    (by rw [c3]; simpa using h2)
  rw [c3] at hcol
  simp only [pow_zero, one_mul, zero_add] at hcol
  have hst : stoul (natToString a.m_Row.toNat) = .ok a.m_Row.toNat := by
    unfold stoul
    have hd : (natToString a.m_Row.toNat).dropWhile isspace = natToString a.m_Row.toNat := by
      cases hn : natToString a.m_Row.toNat with
      | nil => rfl
      | cons x xs =>
        have := (digit_facts x (n2 x (by rw [hn]; exact List.mem_cons_self _ _))).2.1
        exact List.dropWhile_cons_of_neg (by simp [this])
    simp only [hd, List.takeWhile_eq_self_iff.mpr n2, n3]
    have : a.m_Row.toNat ≤ ULONG_MAX := by
      unfold MAX_ROW INT_MAX at h4
      unfold ULONG_MAX
      omega
    rw [if_pos this]
  show (colLoop a.colName.reverse 0 0).bind _ = _
  rw [hcol]
  simp only [Res.bind_ok]
  show (stoul (natToString a.m_Row.toNat)).bind _ = _
  rw [hst]
  simp only [Res.bind_ok]
  have hrow : ((a.m_Row.toNat : Nat) : Int) = a.m_Row := Int.toNat_of_nonneg (by omega)
  rw [hrow, if_neg (by omega)]

/-- What `Address(const string &)` returns has a column and a row from 1 to
the maximum. -/
theorem ofString_valid {s : Str} {a : Address} (h : ofString s = .ok a) : a.Valid := by
  unfold ofString at h
  simp only [] at h
  split_ifs at h with h1
  obtain ⟨col, hcol, h⟩ := Res.bind_eq_ok h
  obtain ⟨row, hrow, h⟩ := Res.bind_eq_ok h
  split_ifs at h with h2
  simp only [Res.ok.injEq] at h
  subst h
  have hne : (s.takeWhile (fun c => !isDigit c)).reverse ≠ [] := by
    intro hh
    apply h1
    left
    rw [List.reverse_eq_nil_iff] at hh
    rw [hh]
    rfl
  obtain ⟨b1, b2⟩ := colLoop_bounds _ _ _ _ hcol
  obtain ⟨b3, b4⟩ := b2 hne
  exact ⟨by show 1 ≤ col; omega, b4, by show 1 ≤ (row : Int); omega,
    by show (row : Int) ≤ MAX_ROW; omega⟩

/-- The text of an address is a link, made of letters and digits. -/
theorem isLink_toString {a : Address} (ha : a.Valid) : Parser.isLink a.toString = true := by
  obtain ⟨e, c1, c2, c3⟩ := toString_spec ha
  obtain ⟨h1, h2, h3, h4⟩ := ha
  obtain ⟨n1, n2, n3, n4⟩ := natToString_spec a.m_Row.toNat
  have hhead : (natToString a.m_Row.toNat).head?.all (fun c => !isLetter c) = true := by
    cases hn : natToString a.m_Row.toNat with
    | nil => rfl
    | cons x xs =>
      have := (digit_facts x (n2 x (by rw [hn]; exact List.mem_cons_self _ _))).1
      simp [this]
  obtain ⟨t1, t2⟩ := takeWhile_append_stop (p := isLetter)
    (a := a.colName) (b := natToString a.m_Row.toNat)
    (fun c hc => (upper_facts c (c2 c hc)).2.1) hhead
  unfold Parser.isLink
  simp only [e, t1, t2]
  cases hn : natToString a.m_Row.toNat with
  | nil => exact absurd hn n1
  | cons x xs =>
    rw [hn] at n2 n4
    have hx := n2 x (List.mem_cons_self _ _)
    have hx0 : x ≠ '0' := fun hh => n4 (by omega) (by rw [hh]; rfl)
    have hxs : xs.all isDigit = true :=
      List.all_eq_true.mpr (fun c hc => n2 c (List.mem_cons_of_mem _ hc))
    have hce : a.colName.isEmpty = false := by
      cases hcn : a.colName with
      | nil => exact absurd hcn c1
      | cons y ys => rfl
    simp [hce, hx, hx0, hxs]

theorem toString_head {a : Address} (ha : a.Valid) :
    ∃ u r, a.toString = u :: r ∧ u ∈ uppers := by
  obtain ⟨e, c1, c2, c3⟩ := toString_spec ha
  cases hcn : a.colName with
  | nil => exact absurd hcn c1
  | cons y ys =>
    refine ⟨y, ys ++ natToString a.m_Row.toNat, ?_, c2 y (by rw [hcn]; exact List.mem_cons_self _ _)⟩
    rw [e, hcn]
    rfl

end Address

/-! ## Operands as the splitter reads them -/

namespace Parser

variable {D T : Type}

/-- Characters that are no separator, no quote, no parenthesis and no white
space are appended to `cur`. -/
theorem splitScan_plain (seps : Str) (sk : Bool) (rest : List Char) (res : List Str) (l : Int) :
    ∀ (a : List Char) (cur : Str),
      (∀ c ∈ a, c ∉ seps ∧ c ≠ '"' ∧ c ≠ '(' ∧ c ≠ ')' ∧ isspace c = false) →
      splitScan seps sk .code (a ++ rest) cur res l
        = splitScan seps sk .code rest (cur ++ a) res l := by
  intro a
  induction a with
  | nil => intro cur _; simp
  | cons c r ih =>
    intro cur ha
    obtain ⟨c1, c2, c3, c4, c5⟩ := ha c (List.mem_cons_self _ _)
    have hsp : ¬ (sk = true ∧ isspace c = true) := by
      rw [c5]
      rintro ⟨-, h⟩
      cases h
    have hsep : ¬ (seps.contains c = true ∧ l = 0) := fun hh => c1 (by simpa using hh.1)
    rw [List.cons_append, splitScan_code_cons, if_neg hsp, if_neg hsep, if_neg c2, if_neg c3,
      if_neg c4, ih _ (fun x hx => ha x (List.mem_cons_of_mem _ hx))]
    simp

/-- Inside parentheses nothing is a separator: the characters of a text
without quote and white space that does not close more than it opens are
appended to `cur`. -/
theorem splitScan_nested (seps : Str) (sk : Bool) (rest : List Char) (res : List Str) (m : Int)
    (hm : 1 ≤ m) :
    ∀ (w : List Char) (k k' : Nat) (cur : Str), '"' ∉ w → (∀ c ∈ w, isspace c = false) →
      scanLevel k w = some k' →
      splitScan seps sk .code (w ++ rest) cur res (m + k)
        = splitScan seps sk .code rest (cur ++ w) res (m + k') := by
  intro w
  induction w with
  | nil =>
    intro k k' cur _ _ h
    simp only [scanLevel, Option.some.injEq] at h
    subst h
    simp
  | cons c r ih =>
    intro k k' cur hq hs h
    have hsep : ¬ (seps.contains c = true ∧ m + (k : Int) = 0) := fun hh => by omega
    have hsp : ¬ (sk = true ∧ isspace c = true) := by
      rw [hs c (List.mem_cons_self _ _)]
      rintro ⟨-, h⟩
      cases h
    have hcq : ¬ c = '"' := fun e => hq (e ▸ List.mem_cons_self _ _)
    have hq' : '"' ∉ r := fun hin => hq (List.mem_cons_of_mem _ hin)
    have hs' : ∀ x ∈ r, isspace x = false := fun x hx => hs x (List.mem_cons_of_mem _ hx)
    rw [List.cons_append, splitScan_code_cons, if_neg hsp, if_neg hsep, if_neg hcq]
    by_cases h1 : c = '('
    · simp only [scanLevel, h1, if_true] at h
      have := ih (k + 1) k' (cur ++ [c]) hq' hs' h
      rw [if_pos h1, show m + (k : Int) + 1 = m + ((k + 1 : Nat) : Int) by push_cast; ring, this]
      simp
    · by_cases h2 : c = ')'
      · cases k with
        | zero => simp [scanLevel, h2] at h
        | succ j =>
          have hne : ¬ (')' = '(') := by decide
          simp only [scanLevel, h2, hne, if_false, if_true] at h
          have := ih j k' (cur ++ [c]) hq' hs' h
          rw [if_neg h1, if_pos h2,
            show m + ((j + 1 : Nat) : Int) - 1 = m + (j : Int) by push_cast; ring, this]
          simp
      · simp only [scanLevel, h1, h2, if_false] at h
        have := ih k k' (cur ++ [c]) hq' hs' h
        rw [if_neg h1, if_neg h2, this]
        simp

/-- A well nested text in parentheses, without quote and white space, read at
level 0, is appended to `cur` with its parentheses. -/
theorem splitScan_paren (seps : Str) (h1 : '(' ∉ seps) (sk : Bool) (w rest : List Char)
    (cur : Str) (res : List Str) (hq : '"' ∉ w) (hs : ∀ c ∈ w, isspace c = false)
    (hw : WellNested w) :
    splitScan seps sk .code ('(' :: w ++ ')' :: rest) cur res 0
      = splitScan seps sk .code rest (cur ++ ('(' :: w ++ [')'])) res 0 := by
  have hsep : ¬ (seps.contains '(' = true ∧ (0 : Int) = 0) := fun hh => h1 (by simpa using hh.1)
  have hsp : ∀ x : Char, isspace x = false → ¬ (sk = true ∧ isspace x = true) := by
    intro x hx
    rw [hx]
    rintro ⟨-, h⟩
    cases h
  rw [List.cons_append, splitScan_code_cons, if_neg (hsp _ (by decide)), if_neg hsep,
    if_neg (by decide), if_pos rfl]
  have h := splitScan_nested seps sk (')' :: rest) res 1 (le_refl _) w 0 0 (cur ++ ['(']) hq hs hw
  simp only [Nat.cast_zero, add_zero] at h
  rw [zero_add, h, splitScan_code_cons, if_neg (hsp _ (by decide)),
    if_neg (by rintro ⟨-, h⟩; omega), if_neg (by decide), if_neg (by decide), if_pos rfl]
  simp

/-- An operator read at level 0 pushes `cur` and is a section of its own. -/
theorem splitScan_operator (o : BinOp) (sk : Bool) (rest : List Char) (cur : Str)
    (res : List Str) :
    splitScan defaultSeparators sk .code (o.char :: rest) cur res 0
      = splitScan defaultSeparators sk .code rest (pushCur cur res).1
          ((pushCur cur res).2 ++ [[o.char]]) 0 := by
  have hsp : ¬ (sk = true ∧ isspace o.char = true) := by
    rintro ⟨-, h⟩
    cases o <;> cases h
  rw [splitScan_code_cons, if_neg hsp, if_pos ⟨char_mem_separators o, rfl⟩]

/-- A text of plain characters is read as one section. -/
theorem scanUnit_plain {a : Str} (hne : a ≠ []) (hq : '"' ∉ a)
    (hp : ∀ c ∈ a, c ∉ defaultSeparators ∧ c ≠ '(' ∧ c ≠ ')' ∧ isspace c = false) :
    ScanUnit a := by
  intro sk res
  refine ⟨sk, a, res, ?_, fun rest => ?_⟩
  · refine pushCur_plain res hne ?_
    cases a with
    | nil => exact absurd rfl hne
    | cons c r =>
      simp only [List.head?_cons, ne_eq, Option.some.injEq]
      exact (hp c (List.mem_cons_self _ _)).2.1
  · rw [splitScan_plain defaultSeparators sk rest res 0 a [] (fun c hc =>
      ⟨(hp c hc).1, fun e => hq (e ▸ hc), (hp c hc).2.1, (hp c hc).2.2.1, (hp c hc).2.2.2⟩)]
    rfl

/-- A string literal as `toString` writes it is read as one section. -/
theorem scanUnit_quoted (raw : Str) (hw : Utils.wellEscaped raw = true) :
    ScanUnit (['"'] ++ raw ++ ['"']) := by
  intro sk res
  refine ⟨false, [], res ++ [['"'] ++ raw ++ ['"']], pushCur_nil _, fun rest => ?_⟩
  exact splitScan_quoted defaultSeparators (by decide) raw hw sk rest res 0

/-- The text `name(t)`, for a plain `name` and a well nested `t` without
quote and white space, is read as one section. -/
theorem scanUnit_call {name t : Str} (hne : name ≠ [])
    (hp : ∀ c ∈ name, c ∉ defaultSeparators ∧ c ≠ '"' ∧ c ≠ '(' ∧ c ≠ ')' ∧ isspace c = false)
    (hq : '"' ∉ t) (hs : ∀ c ∈ t, isspace c = false) (hw : WellNested t) :
    ScanUnit (name ++ '(' :: t ++ [')']) := by
  intro sk res
  refine ⟨sk, name ++ '(' :: t ++ [')'], res, ?_, fun rest => ?_⟩
  · refine pushCur_plain res (by simp) ?_
    cases name with
    | nil => exact absurd rfl hne
    | cons c r =>
      simp only [List.cons_append, List.head?_cons, ne_eq, Option.some.injEq]
      exact (hp c (List.mem_cons_self _ _)).2.2.1
  · rw [show name ++ '(' :: t ++ [')'] ++ rest = name ++ ('(' :: t ++ ')' :: rest) by simp,
      splitScan_plain defaultSeparators sk _ res 0 name [] hp,
      splitScan_paren defaultSeparators (by decide) sk t rest _ res hq hs hw]
    simp

theorem chainOf_cons (x0 : Str) (p : BinOp × Str) (rest : List (BinOp × Str)) :
    chainOf x0 (p :: rest) = x0 ++ p.1.char :: chainOf p.2 rest := by
  simp [chainOf]

theorem chainSections_cons (x0 : Str) (p : BinOp × Str) (rest : List (BinOp × Str)) :
    chainSections x0 (p :: rest) = x0 :: [p.1.char] :: chainSections p.2 rest := by
  simp [chainSections]

theorem chainOf_append (x0 : Str) (init : List (BinOp × Str)) (p : BinOp × Str) :
    chainOf x0 (init ++ [p]) = chainOf x0 init ++ p.1.char :: p.2 := by
  simp [chainOf]

theorem chainSections_append (x0 : Str) (init : List (BinOp × Str)) (p : BinOp × Str) :
    chainSections x0 (init ++ [p]) = chainSections x0 init ++ [[p.1.char], p.2] := by
  simp [chainSections]

/-- The operands of a chain are its sections, with the operators between
them. -/
theorem chain_scan : ∀ (rest : List (BinOp × Str)) (x0 : Str) (sk : Bool) (res : List Str),
    ScanUnit x0 → (∀ p ∈ rest, ScanUnit p.2) →
    splitScan defaultSeparators sk .code (chainOf x0 rest) [] res 0
      = .ok (res ++ chainSections x0 rest) := by
  intro rest
  induction rest with
  | nil =>
    intro x0 sk res h0 _
    obtain ⟨sk2, cur2, res2, hpush, hscan⟩ := h0 sk res
    have := hscan []
    rw [show chainOf x0 [] = x0 ++ [] by simp [chainOf], this, splitScan_code_nil, hpush]
    rfl
  | cons p rest ih =>
    intro x0 sk res h0 hrest
    obtain ⟨sk2, cur2, res2, hpush, hscan⟩ := h0 sk res
    rw [chainOf_cons, hscan, splitScan_operator, hpush,
      ih p.2 sk2 _ (hrest p (List.mem_cons_self _ _))
        (fun q hq => hrest q (List.mem_cons_of_mem _ hq)), chainSections_cons]
    simp

theorem splitLogical_chain (x0 : Str) (rest : List (BinOp × Str)) (h0 : ScanUnit x0)
    (hrest : ∀ p ∈ rest, ScanUnit p.2) :
    splitLogical (chainOf x0 rest) = .ok (chainSections x0 rest) := by
  rw [splitLogical_scan, chain_scan rest x0 true [] h0 hrest]
  rfl

theorem splitLogical_unit {a : Str} (h : ScanUnit a) : splitLogical a = .ok [a] := by
  have := splitLogical_chain a [] h (fun p hp => by cases hp)
  simpa [chainOf, chainSections] using this

/-! ### What the sections are -/

theorem token_of_noquote {t : Str} (h : '"' ∉ t) : Token t := Or.inl h

theorem pushCur_token {cur : Str} {res : List Str} (hc : '"' ∉ cur) (hr : ∀ t ∈ res, Token t) :
    ∀ t ∈ (pushCur cur res).2, Token t := by
  intro t ht
  rcases pushCur_part ht with h | h
  · exact hr t h
  · left
    intro hin
    exact hc (h.1.subset hin)

/-- Every section that the reading returns is a text without double quote or
a quoted, well escaped text. -/
theorem splitScan_token (seps : Str) (hq : '"' ∉ seps) :
    ∀ (src : List Char) (sk : Bool) (m : ScanMode) (cur : Str) (res out : List Str) (l : Int),
      splitScan seps sk m src cur res l = .ok out → '"' ∉ cur → (∀ t ∈ res, Token t) →
      (∀ oss, m = .literal oss ∨ m = .escape oss → Utils.wellEscaped oss = true) →
      ∀ t ∈ out, Token t := by
  intro src
  induction src with
  | nil =>
    intro sk m cur res out l h hc hr _
    cases m with
    | code =>
      rw [splitScan_code_nil] at h
      cases h
      exact pushCur_token hc hr
    | literal oss => rw [splitScan_literal_nil] at h; cases h
    | escape oss => rw [splitScan_escape_nil] at h; cases h
  | cons c rest ih =>
    intro sk m cur res out l h hc hr hm
    cases m with
    | code =>
      rw [splitScan_code_cons] at h
      split_ifs at h with h1 h2 h3 h4
      · exact ih _ _ _ _ _ _ h hc hr (fun oss ho => by rcases ho with ho | ho <;> cases ho)
      · refine ih _ _ _ _ _ _ h ?_ ?_ (fun oss ho => by rcases ho with ho | ho <;> cases ho)
        · rw [pushCur_fst]
          exact List.not_mem_nil _
        · intro t ht
          rcases List.mem_append.mp ht with ht | ht
          · exact pushCur_token hc hr t ht
          · rw [List.mem_singleton] at ht
            subst ht
            left
            intro hin
            rw [List.mem_singleton] at hin
            subst hin
            exact hq (by simpa using h2.1)
      · refine ih _ _ _ _ _ _ h hc hr (fun oss ho => ?_)
        rcases ho with ho | ho
        · cases ho
          rfl
        · cases ho
      all_goals
        refine ih _ _ _ _ _ _ h ?_ hr (fun oss ho => by rcases ho with ho | ho <;> cases ho)
        intro hin
        rcases List.mem_append.mp hin with hin | hin
        · exact hc hin
        · rw [List.mem_singleton] at hin
          exact h3 hin.symm
    | literal oss =>
      have hw := hm oss (Or.inl rfl)
      rw [splitScan_literal_cons] at h
      split_ifs at h with h1 h2
      · refine ih _ _ _ _ _ _ h hc hr (fun o ho => ?_)
        rcases ho with ho | ho
        · cases ho
        · cases ho
          exact hw
      · rw [pushCur_quoted] at h
        refine ih _ _ _ _ _ _ h (List.not_mem_nil _) ?_
          (fun oss ho => by rcases ho with ho | ho <;> cases ho)
        intro t ht
        rcases List.mem_append.mp ht with ht | ht
        · exact hr t ht
        · rw [List.mem_singleton] at ht
          exact Or.inr ⟨oss, hw, ht⟩
      · refine ih _ _ _ _ _ _ h hc hr (fun o ho => ?_)
        rcases ho with ho | ho
        · cases ho
          refine Utils.wellEscaped_append oss.length oss [c] (le_refl _) hw ?_
          simp [Utils.wellEscaped, h1, h2]
        · cases ho
    | escape oss =>
      have hw := hm oss (Or.inr rfl)
      have hw2 : Utils.wellEscaped (oss ++ ['\\'] ++ [c]) = true := by
        rw [List.append_assoc]
        refine Utils.wellEscaped_append oss.length oss _ (le_refl _) hw ?_
        simp [Utils.wellEscaped]
      rw [splitScan_escape_cons] at h
      split_ifs at h with h1
      · rw [pushCur_quoted, pushCur_nil] at h
        cases h
        intro t ht
        rcases List.mem_append.mp ht with ht | ht
        · exact hr t ht
        · rw [List.mem_singleton] at ht
          exact Or.inr ⟨_, hw2, ht⟩
      · refine ih _ _ _ _ _ _ h hc hr (fun o ho => ?_)
        rcases ho with ho | ho
        · cases ho
          exact hw2
        · cases ho

/-- Every section of `splitLogical` is a text without double quote or a
quoted, well escaped text. -/
theorem splitLogical_token {s seps : Str} {secs : List Str} (hq : '"' ∉ seps)
    (h : splitLogical s seps = .ok secs) : ∀ t ∈ secs, Token t := by
  rw [splitLogical_scan] at h
  exact splitScan_token seps hq s true .code [] [] secs 0 h (List.not_mem_nil _)
    (fun t ht => by cases ht) (fun oss ho => by rcases ho with ho | ho <;> cases ho)

/-- The sections of a source without double quote have none. -/
theorem splitLogical_noquote {s seps : Str} {secs : List Str} (hq : '"' ∉ s)
    (h : splitLogical s seps = .ok secs) : ∀ t ∈ secs, '"' ∉ t := by
  rw [splitLogical_pure s seps hq] at h
  cases h
  intro t ht hin
  rcases splitPure_part seps (stripSpace s) [] [] 0 t ht with h1 | h1
  · cases h1
  · exact not_mem_stripSpace hq (h1.1.subset hin)

end Parser

/-! ## A chain of operands parsed -/

namespace Parser

variable {D T : Type}

theorem toSource_node (ops : TypeOps D T) (o : BinOp) (a b : Function T) :
    (o.node a b).toSource ops = a.toSource ops ++ o.char :: b.toSource ops := by
  cases o <;> simp [BinOp.node, BinOp.char, Function.toSource]

theorem toSource_function (ops : TypeOps D T) (fn : FnName) (a : Function T) :
    (fn.node a).toSource ops = fn.upper ++ '(' :: a.toSource ops ++ [')'] := by
  cases fn <;> simp [FnName.node, FnName.upper, Function.toSource]

theorem links_fnName (fn : FnName) (a : Function T) : (fn.node a).links = a.links := by
  cases fn <;> rfl

theorem chainSections_length (x0 : Str) (rest : List (BinOp × Str)) :
    (chainSections x0 rest).length = 2 * rest.length + 1 := by
  induction rest generalizing x0 with
  | nil => simp [chainSections]
  | cons p r ih =>
    rw [chainSections_cons, List.length_cons, List.length_cons, ih]
    simp only [List.length_cons]
    omega

/-- Every operand of a chain, with the operators, fits in the chain. -/
theorem chainOf_length (rest : List (BinOp × Str)) :
    ∀ x0 : Str, x0.length + rest.length ≤ (chainOf x0 rest).length ∧
      ∀ p ∈ rest, p.2.length + rest.length ≤ (chainOf x0 rest).length := by
  induction rest with
  | nil =>
    intro x0
    refine ⟨by simp [chainOf], fun p hp => by cases hp⟩
  | cons q r ih =>
    intro x0
    obtain ⟨i1, i2⟩ := ih q.2
    rw [chainOf_cons]
    simp only [List.length_append, List.length_cons]
    refine ⟨by omega, fun p hp => ?_⟩
    rcases List.mem_cons.mp hp with rfl | hp
    · omega
    · have := i2 p hp
      omega

/-- An operand is parsed as a section of its own, with fuel for its
length. -/
theorem atom_parse (ops : TypeOps D T) {inner : Bool} {a : Str} (h : Atom ops inner a) :
    ∃ g : Function T, g.toSource ops = a ∧
      ∀ (d : List Address) (n : Nat), 2 * a.length + 4 ≤ n →
        parse ops n [a] d = .ok (g, d ++ g.links) := by
  obtain ⟨hscan, -, ⟨g, hsrc, hparse⟩, -⟩ := h
  refine ⟨g, hsrc, fun d n hn => ?_⟩
  have := hparse d
  unfold parseSource at this
  rw [splitLogical_unit hscan] at this
  exact parse_mono_ok ops hn this

/-- The sections of a chain of operands parse to the left-nested tree of the
formulas of the operands, which prints as the chain. -/
theorem parse_chain_atoms (ops : TypeOps D T) (inner : Bool) (x0 : Str)
    (h0 : Atom ops inner x0) :
    ∀ rest : List (BinOp × Str), (∀ p ∈ rest, Atom ops inner p.2) →
      ∃ g : Function T, g.toSource ops = chainOf x0 rest ∧
        ∀ (d : List Address) (n : Nat), 2 * x0.length + 4 + rest.length ≤ n →
          (∀ p ∈ rest, 2 * p.2.length + 4 + rest.length ≤ n) →
          parse ops n (chainSections x0 rest) d = .ok (g, d ++ g.links) := by
  intro rest
  induction rest using List.reverseRecOn with
  | nil =>
    intro _
    obtain ⟨g, hsrc, hparse⟩ := atom_parse ops h0
    refine ⟨g, by simpa [chainOf] using hsrc, fun d n hn _ => ?_⟩
    rw [show chainSections x0 [] = [x0] by simp [chainSections]]
    exact hparse d n (by simpa using hn)
  | append_singleton init p ih =>
    intro hrest
    obtain ⟨g1, hsrc1, hparse1⟩ := ih (fun q hq => hrest q (by simp [hq]))
    obtain ⟨g2, hsrc2, hparse2⟩ := atom_parse ops (hrest p (by simp))
    refine ⟨p.1.node g1 g2, ?_, fun d n hn hn2 => ?_⟩
    · rw [toSource_node, hsrc1, hsrc2, chainOf_append]
    · obtain ⟨m, rfl⟩ : ∃ m, n = m + 1 := ⟨n - 1, by omega⟩
      have hlen : (init ++ [p]).length = init.length + 1 := by simp
      rw [hlen] at hn
      have hp2 := hn2 p (by simp)
      rw [hlen] at hp2
      obtain ⟨e1, e2, e3, e4, e5⟩ := last_two_append (chainSections x0 init) [p.1.char] p.2
      rw [chainSections_append, parse_many _ _ _ _ (by
        rw [List.length_append, chainSections_length]
        simp)]
      rw [e1, e2, e3, e4, e5]
      rw [if_pos ⟨by rw [List.length_append, chainSections_length]; simp, rfl⟩]
      have hleft : (if (chainSections x0 init).length > 1 then
            Res.ok (chainSections x0 init)
          else splitLogical ((chainSections x0 init).headD []))
          = Res.ok (chainSections x0 init) := by
        split_ifs with hl
        · rfl
        · have hnil : init = [] := by
            rw [chainSections_length] at hl
            cases init with
            | nil => rfl
            | cons q r => simp at hl
          subst hnil
          rw [show chainSections x0 [] = [x0] by simp [chainSections]]
          exact splitLogical_unit h0.1
      rw [hleft]
      simp only [Res.bind_ok]
      rw [hparse1 d m (by omega) (fun q hq => by
        have := hn2 q (by simp [hq])
        rw [hlen] at this
        omega)]
      simp only [Res.bind_ok]
      rw [splitLogical_unit (hrest p (by simp)).1]
      simp only [Res.bind_ok]
      rw [hparse2 _ m (by omega)]
      simp only [Res.bind_ok, List.headD_cons]
      rw [mkOperation_char]
      simp only [Res.bind_ok, links_node, List.append_assoc]

/-- A chain of operands is a fixed point of parsing and printing. -/
theorem fixedPoint_chain (ops : TypeOps D T) (inner : Bool) (x0 : Str) (rest : List (BinOp × Str))
    (h0 : Atom ops inner x0) (hrest : ∀ p ∈ rest, Atom ops inner p.2) :
    FixedPoint ops (chainOf x0 rest) := by
  obtain ⟨g, hsrc, hparse⟩ := parse_chain_atoms ops inner x0 h0 rest hrest
  refine ⟨g, fun d => ?_, hsrc⟩
  unfold parseSource
  rw [splitLogical_chain x0 rest h0.1 (fun p hp => (hrest p hp).1)]
  simp only [Res.bind_ok]
  obtain ⟨l1, l2⟩ := chainOf_length rest x0
  exact hparse d _ (by omega) (fun p hp => by
    have := l2 p hp
    omega)

/-- A chain of operands that can stand in the argument of a function can
stand there itself, and does not start with `(`. -/
theorem inner_chain (ops : TypeOps D T) (x0 : Str) (rest : List (BinOp × Str))
    (h0 : Atom ops true x0) (hrest : ∀ p ∈ rest, Atom ops true p.2) :
    Inner (chainOf x0 rest) := by
  induction rest generalizing x0 with
  | nil =>
    rw [show chainOf x0 [] = x0 by simp [chainOf]]
    exact h0.2.2.2 rfl
  | cons p r ih =>
    obtain ⟨a1, a2, a3, a4⟩ := h0.2.2.2 rfl
    obtain ⟨b1, b2, b3, b4⟩ := ih p.2 (hrest p (List.mem_cons_self _ _))
      (fun q hq => hrest q (List.mem_cons_of_mem _ hq))
    rw [chainOf_cons]
    refine ⟨?_, ?_, ?_, ?_⟩
    · intro hin
      rcases List.mem_append.mp hin with hin | hin
      · exact a1 hin
      · rcases List.mem_cons.mp hin with hin | hin
        · exact not_mem_quote_char p.1 hin
        · exact b1 hin
    · intro hin
      rcases List.mem_append.mp hin with hin | hin
      · exact a2 hin
      · rcases List.mem_cons.mp hin with hin | hin
        · revert hin
          cases p.1 <;> decide
        · exact b2 hin
    · exact WellNested.append a3
        (WellNested.append (a := [p.1.char]) (wellNested_char p.1) b3)
    · intro c hc
      rcases List.mem_append.mp hc with hc | hc
      · exact a4 c hc
      · rcases List.mem_cons.mp hc with hc | hc
        · rw [hc]
          cases p.1 <;> rfl
        · exact b4 c hc

theorem head_chain (ops : TypeOps D T) (inner : Bool) (x0 : Str) (rest : List (BinOp × Str))
    (h0 : Atom ops inner x0) : (chainOf x0 rest).head? ≠ some '(' := by
  cases x0 with
  | nil =>
    cases rest with
    | nil => simp [chainOf]
    | cons p r =>
      rw [chainOf_cons]
      simp only [List.nil_append, List.head?_cons, ne_eq, Option.some.injEq]
      cases p.1 <;> decide
  | cons c r =>
    have := h0.2.1
    simpa [chainOf] using this

theorem upper_plain (fn : FnName) :
    fn.upper ≠ [] ∧ Utils.toLower fn.upper = fn.ident ∧ '"' ∉ fn.upper ∧ ',' ∉ fn.upper ∧
      fn.upper.head? ≠ some '(' ∧
      ∀ c ∈ fn.upper, c ∉ defaultSeparators ∧ c ≠ '"' ∧ c ≠ '(' ∧ c ≠ ')' ∧ isspace c = false := by
  cases fn <;> decide

/-- A function applied to a fixed point that can stand in its argument is an
operand. -/
theorem atom_call (ops : TypeOps D T) (hshape : LiteralShape ops) (inner : Bool) (fn : FnName)
    {t : Str} (hfix : FixedPoint ops t) (hin : Inner t) (hhead : t.head? ≠ some '(') :
    Atom ops inner (fn.upper ++ '(' :: t ++ [')']) := by
  obtain ⟨g, hparse, hsrc⟩ := hfix
  obtain ⟨i1, i2, i3, i4⟩ := hin
  obtain ⟨u1, u2, u3, u4, u5, u6⟩ := upper_plain fn
  have hplain : ∀ c ∈ fn.upper, c ≠ '(' ∧ c ≠ ')' := fun c hc => ⟨(u6 c hc).2.2.1, (u6 c hc).2.2.2.1⟩
  refine ⟨scanUnit_call u1 u6 i1 i4 i3, ?_, ⟨fn.node g, ?_, fun d => ?_⟩, fun _ => ⟨?_, ?_, ?_, ?_⟩⟩
  · cases hu : fn.upper with
    | nil => exact absurd hu u1
    | cons c r =>
      rw [hu] at u5
      simpa using u5
  · rw [toSource_function, hsrc]
  · have := functionUnit_of_shape ops hshape fn.upper fn t d (d ++ g.links) g u2 i1 i2
      (by
        rw [stripSpace_of_nospace i4]
        exact fun hh => hhead hh.1) (hparse d)
    rw [links_fnName]
    rw [show fn.upper ++ '(' :: t ++ [')'] = fn.upper ++ "(".toList ++ t ++ ")".toList by simp]
    exact this
  · intro hq
    rcases List.mem_append.mp hq with hq | hq
    · rcases List.mem_append.mp hq with hq | hq
      · exact u3 hq
      · rcases List.mem_cons.mp hq with hq | hq
        · cases hq
        · exact i1 hq
    · simp at hq
  · intro hq
    rcases List.mem_append.mp hq with hq | hq
    · rcases List.mem_append.mp hq with hq | hq
      · exact u4 hq
      · rcases List.mem_cons.mp hq with hq | hq
        · cases hq
        · exact i2 hq
    · simp at hq
  · rw [List.append_assoc]
    exact WellNested.append (WellNested.plain hplain) (WellNested.paren i3)
  · intro c hc
    rcases List.mem_append.mp hc with hc | hc
    · rcases List.mem_append.mp hc with hc | hc
      · exact (u6 c hc).2.2.2.2
      · rcases List.mem_cons.mp hc with hc | hc
        · rw [hc]
          rfl
        · exact i4 c hc
    · rw [List.mem_singleton] at hc
      rw [hc]
      rfl

end Parser

/-! ## What the parser returns prints as a chain of operands -/

namespace Parser

variable {D T : Type}

theorem printable_node {ops : TypeOps D T} {good : T → Prop} {inner : Bool} (o : BinOp)
    (a b : Function T) :
    (o.node a b).Printable ops good inner
      ↔ a.Printable ops good inner ∧ b.Printable ops good inner := by
  cases o <;> simp [BinOp.node, Function.Printable]

theorem printable_function {ops : TypeOps D T} {good : T → Prop} {inner : Bool}
    {g : Function T → Function T} (hg : g = .Abs ∨ g = .Sin ∨ g = .Cos ∨ g = .Tan)
    (a : Function T) :
    (g a).Printable ops good inner ↔ a.Printable ops good true := by
  rcases hg with rfl | rfl | rfl | rfl <;> simp [Function.Printable]

theorem chainOf_join (x0 y0 : Str) (ra rb : List (BinOp × Str)) (o : BinOp) :
    chainOf x0 ra ++ o.char :: chainOf y0 rb = chainOf x0 (ra ++ (o, y0) :: rb) := by
  simp [chainOf]

/-- The text of an address is an operand. -/
theorem atom_link (ops : TypeOps D T) {good : T → Prop} (hre : ops.Reprints good) (inner : Bool)
    {a : Address} (ha : a.Valid) : Atom ops inner a.toString := by
  have hlink := Address.isLink_toString ha
  obtain ⟨p1, p2⟩ := link_plain hlink
  have hq : '"' ∉ a.toString := by
    intro hin
    rcases (isLink_chars hlink).2 _ hin with h | h
    · revert h
      decide
    · revert h
      decide
  have hscan := scanUnit_plain p1 hq p2
  have hhead : a.toString.head? ≠ some '(' := by
    cases hs : a.toString with
    | nil => simp
    | cons c r =>
      simp only [List.head?_cons, ne_eq, Option.some.injEq]
      exact (p2 c (by rw [hs]; exact List.mem_cons_self _ _)).2.1
  refine ⟨hscan, hhead, ⟨.Link a, rfl, fun d => ?_⟩, fun _ => ⟨hq, ?_, wellNested_of_plain p2,
    fun c hc => (p2 c hc).2.2.2⟩⟩
  · unfold parseSource
    rw [splitLogical_unit hscan]
    simp only [Res.bind_ok]
    rw [show 2 * a.toString.length + 4 = (2 * a.toString.length + 3) + 1 from rfl, parse_single,
      if_neg (by rw [hre.address a ha]; simp), if_pos hlink, Address.ofString_toString ha]
    rfl
  · intro hin
    exact (p2 _ hin).1 (by decide)

/-- The text of a literal that the parser returns is an operand. -/
theorem atom_literal (ops : TypeOps D T) {good : T → Prop} (hre : ops.Reprints good)
    (inner : Bool) {v : T} (hv : good v) (hq : inner = true → '"' ∉ ops.toString v true) :
    Atom ops inner (ops.toString v true) := by
  obtain ⟨l1, l2, l3, l4⟩ := hre.literal v hv
  refine ⟨l1, l2, ⟨.Literal v, rfl, fun d => ?_⟩, fun hi => l4 (hq hi)⟩
  rw [l3 d]
  simp [Function.links]

/-- A formula that the parser returns prints as a chain of operands. -/
theorem printable_chain (ops : TypeOps D T) {good : T → Prop} (hre : ops.Reprints good) :
    ∀ (f : Function T) (inner : Bool), f.Printable ops good inner →
      ∃ (x0 : Str) (rest : List (BinOp × Str)), f.toSource ops = chainOf x0 rest ∧
        Atom ops inner x0 ∧ ∀ p ∈ rest, Atom ops inner p.2 := by
  have hbin : ∀ (o : BinOp) (a b : Function T) (inner : Bool),
      (∃ (x0 : Str) (rest : List (BinOp × Str)), a.toSource ops = chainOf x0 rest ∧
        Atom ops inner x0 ∧ ∀ p ∈ rest, Atom ops inner p.2) →
      (∃ (x0 : Str) (rest : List (BinOp × Str)), b.toSource ops = chainOf x0 rest ∧
        Atom ops inner x0 ∧ ∀ p ∈ rest, Atom ops inner p.2) →
      ∃ (x0 : Str) (rest : List (BinOp × Str)), (o.node a b).toSource ops = chainOf x0 rest ∧
        Atom ops inner x0 ∧ ∀ p ∈ rest, Atom ops inner p.2 := by
    rintro o a b inner ⟨x0, ra, ea, ha0, ha⟩ ⟨y0, rb, eb, hb0, hb⟩
    refine ⟨x0, ra ++ (o, y0) :: rb, ?_, ha0, fun p hp => ?_⟩
    · rw [toSource_node, ea, eb, chainOf_join]
    · rcases List.mem_append.mp hp with hp | hp
      · exact ha p hp
      · rcases List.mem_cons.mp hp with rfl | hp
        · exact hb0
        · exact hb p hp
  have hfun : ∀ (fn : FnName) (a : Function T) (inner : Bool),
      (∃ (x0 : Str) (rest : List (BinOp × Str)), a.toSource ops = chainOf x0 rest ∧
        Atom ops true x0 ∧ ∀ p ∈ rest, Atom ops true p.2) →
      ∃ (x0 : Str) (rest : List (BinOp × Str)), (fn.node a).toSource ops = chainOf x0 rest ∧
        Atom ops inner x0 ∧ ∀ p ∈ rest, Atom ops inner p.2 := by
    rintro fn a inner ⟨x0, ra, ea, ha0, ha⟩
    refine ⟨fn.upper ++ '(' :: a.toSource ops ++ [')'], [], ?_, ?_, fun p hp => by cases hp⟩
    · rw [toSource_function]
      simp [chainOf]
    · rw [ea]
      exact atom_call ops hre.shape inner fn (fixedPoint_chain ops true x0 ra ha0 ha)
        (inner_chain ops x0 ra ha0 ha) (head_chain ops true x0 ra ha0)
  intro f
  induction f with
  | Literal v =>
    intro inner hp
    exact ⟨ops.toString v true, [], by simp [chainOf, Function.toSource],
      atom_literal ops hre inner hp.1 hp.2, fun p hp => by cases hp⟩
  | Link a =>
    intro inner hp
    exact ⟨a.toString, [], by simp [chainOf, Function.toSource],
      atom_link ops hre inner hp, fun p hp => by cases hp⟩
  | Add a b iha ihb =>
    intro inner hp
    exact hbin .add a b inner (iha inner hp.1) (ihb inner hp.2)
  | Sub a b iha ihb =>
    intro inner hp
    exact hbin .sub a b inner (iha inner hp.1) (ihb inner hp.2)
  | Mul a b iha ihb =>
    intro inner hp
    exact hbin .mul a b inner (iha inner hp.1) (ihb inner hp.2)
  | Div a b iha ihb =>
    intro inner hp
    exact hbin .div a b inner (iha inner hp.1) (ihb inner hp.2)
  | Abs a iha =>
    intro inner hp
    exact hfun .abs a inner (iha true hp)
  | Sin a iha =>
    intro inner hp
    exact hfun .sin a inner (iha true hp)
  | Cos a iha =>
    intro inner hp
    exact hfun .cos a inner (iha true hp)
  | Tan a iha =>
    intro inner hp
    exact hfun .tan a inner (iha true hp)

/-- What a formula that the parser returns prints is a fixed point of parsing
and printing. -/
theorem printable_fixedPoint (ops : TypeOps D T) {good : T → Prop} (hre : ops.Reprints good)
    {f : Function T} {inner : Bool} (hp : f.Printable ops good inner) :
    FixedPoint ops (f.toSource ops) := by
  obtain ⟨x0, rest, e, h0, hrest⟩ := printable_chain ops hre f inner hp
  rw [e]
  exact fixedPoint_chain ops inner x0 rest h0 hrest

theorem quoted_last (raw : Str) : (['"'] ++ raw ++ ['"']).getLast? = some '"' := by
  rw [List.getLast?_append]
  rfl

/-- What `parse` returns is printable; below a function, where the sections
have no double quote, so are the literals. -/
theorem parse_printable (ops : TypeOps D T) {good : T → Prop} (hre : ops.Reprints good) :
    ∀ (n : Nat) (sections : List Str) (d : List Address) (r : Function T × List Address)
      (inner : Bool), parse ops n sections d = .ok r →
      (inner = true → ∀ s ∈ sections, '"' ∉ s) → r.1.Printable ops good inner := by
  intro n
  induction n with
  | zero =>
    intro sections d r inner h
    simp [parse] at h
  | succ n ih =>
    intro sections d r inner h hq
    rcases parse_ok_cases ops h with
      ⟨s, v, rfl, hlit, hv, rfl⟩ | ⟨s, a, rfl, hlink, ha, rfl⟩ |
      ⟨s, ns, rfl, -, -, hsplit, -, hp⟩ |
      ⟨s, ident, mid, g, a0, inn, arg, rfl, -, -, hsplit, -, hs, -, hg, hmid, ha0, hp, rfl⟩ |
      ⟨left, op, last, l, a1, rt, a2, f, rfl, -, hl, hp1, hrt, hp2, hop, rfl⟩
    · exact ⟨hre.parsed s v hlit hv,
        fun hi => hre.printed s v hlit hv (hq hi s (List.mem_singleton_self _))⟩
    · exact Address.ofString_valid ha
    · exact ih ns d r inner hp
        (fun hi => splitLogical_noquote (hq hi s (List.mem_singleton_self _)) hsplit)
    · have hsq : '"' ∉ s := by
        rcases splitLogical_token (by decide) hsplit s (List.mem_singleton_self _) with h1 | h1
        · exact h1
        · obtain ⟨raw, -, e⟩ := h1
          exfalso
          have l1 : s.getLast? = some ')' := by
            rw [hs, List.getLast?_append]
            rfl
          rw [e, quoted_last] at l1
          cases l1
      have hmq : '"' ∉ mid := by
        intro hin
        apply hsq
        rw [hs]
        simp [hin]
      have haq : '"' ∉ a0 :=
        splitLogical_noquote hmq hmid a0 (List.mem_singleton_self _)
      have := ih inn d arg true hp (fun _ => splitLogical_noquote haq ha0)
      exact (printable_function (mkFunction_some hg).2 arg.1).mpr this
    · obtain ⟨o, -, rfl⟩ := mkOperation_ok hop
      refine (printable_node o a1.1 a2.1).mpr ⟨ih l d a1 inner hp1 (fun hi => ?_),
        ih rt a1.2 a2 inner hp2 (fun hi => ?_)⟩
      · have hleft : ∀ s ∈ left, '"' ∉ s := fun s hs => hq hi s (by simp [hs])
        rcases hl with ⟨-, rfl⟩ | ⟨l0, rfl, hl0⟩
        · exact hleft
        · exact splitLogical_noquote (hleft l0 (List.mem_singleton_self _)) hl0
      · exact splitLogical_noquote (hq hi last (by simp)) hrt

/-- What `parseSource` returns is printable. -/
theorem parseSource_printable (ops : TypeOps D T) {good : T → Prop} (hre : ops.Reprints good)
    {s : Str} {d : List Address} {r : Function T × List Address}
    (h : parseSource ops s d = .ok r) : r.1.Printable ops good false := by
  unfold parseSource at h
  obtain ⟨secs, -, hp⟩ := Res.bind_eq_ok h
  exact parse_printable ops hre _ secs d r false hp (fun hi => by cases hi)

/-- What `parseSource` returns prints as a source that parses to a formula
that prints the same. -/
theorem parseSource_fixedPoint (ops : TypeOps D T) {good : T → Prop} (hre : ops.Reprints good)
    {s : Str} {d : List Address} {r : Function T × List Address}
    (h : parseSource ops s d = .ok r) : FixedPoint ops (r.1.toSource ops) :=
  printable_fixedPoint ops hre (parseSource_printable ops hre h)

/-! ### The operations of `int` and `string` -/

theorem reprints_int (h : Host D) :
    (intOps h).Reprints (fun v => 0 ≤ v ∧ v ≤ INT_MAX) := by
  have hparsed : ∀ s v, isLiteralInt s = true → intFromString s = .ok v →
      0 ≤ v ∧ v ≤ INT_MAX := by
    intro s v hl hv
    rw [intFromString_digits hl] at hv
    split_ifs at hv with hm
    cases hv
    exact ⟨Int.natCast_nonneg _, hm⟩
  have hlit : ∀ v : Int, 0 ≤ v ∧ v ≤ INT_MAX → intToString v ≠ [] ∧ '"' ∉ intToString v ∧
      ∀ c ∈ intToString v, c ∉ defaultSeparators ∧ c ≠ '(' ∧ c ≠ ')' ∧ isspace c = false :=
    fun v hv => int_literal_plain h (intToString_literal hv.1 hv.2).1
  refine ⟨literalShape_int h, hparsed, fun s v hl hv _ => (hlit v (hparsed s v hl hv)).2.1,
    fun v hv => ?_, fun a ha => ?_⟩
  · obtain ⟨p1, p2, p3⟩ := hlit v hv
    obtain ⟨q1, q2⟩ := intToString_literal hv.1 hv.2
    have hscan := scanUnit_plain p1 p2 p3
    refine ⟨hscan, ?_, fun d => ?_, fun _ => ⟨p2, fun hin => (p3 _ hin).1 (by decide),
      wellNested_of_plain p3, fun c hc => (p3 c hc).2.2.2⟩⟩
    · show (intToString v).head? ≠ some '('
      cases hs : intToString v with
      | nil => simp
      | cons c r =>
        simp only [List.head?_cons, ne_eq, Option.some.injEq]
        exact (p3 c (by rw [hs]; exact List.mem_cons_self _ _)).2.1
    · show parseSource (intOps h) (intToString v) d = _
      unfold parseSource
      rw [splitLogical_unit hscan]
      simp only [Res.bind_ok]
      rw [show 2 * (intToString v).length + 4 = (2 * (intToString v).length + 3) + 1 from rfl,
        parse_single, if_pos (by exact q1)]
      show (intFromString (intToString v)).bind _ = _
      rw [q2]
      rfl
  · obtain ⟨u, r, e, hu⟩ := Address.toString_head ha
    show isLiteralInt a.toString = false
    rw [e]
    simp [isLiteralInt, (upper_facts u hu).1]

theorem reprints_string (D : Type) : (stringOps D).Reprints (fun _ => True) := by
  refine ⟨literalShape_string D, fun _ _ _ _ => trivial, fun s v hl _ hq => ?_,
    fun v _ => ⟨?_, ?_, fun d => parseSource_string_literal D v d, fun hq => ?_⟩,
    fun a ha => ?_⟩
  · exfalso
    have hl' : isLiteralString s = true := hl
    cases s with
    | nil => simp [isLiteralString] at hl'
    | cons c r =>
      unfold isLiteralString at hl'
      split at hl'
      · rename_i heq
        exact hq (by rw [heq]; exact List.mem_cons_self _ _)
      · cases hl'
  · exact scanUnit_quoted _ (Utils.wellEscaped_escapeString v)
  · show (stringToString v true).head? ≠ some '('
    simp [stringToString]
  · exfalso
    apply hq
    show '"' ∈ stringToString v true
    simp [stringToString]
  · obtain ⟨u, r, e, hu⟩ := Address.toString_head ha
    show isLiteralString a.toString = false
    rw [e]
    unfold isLiteralString
    split
    · rename_i heq
      exact absurd (List.cons.inj heq).1 (upper_facts u hu).2.2.2
    · rfl

end Parser

/-! ## The text of an address read and written -/

set_option maxRecDepth 100000

theorem lower_mem {c : Char} (h : ('a' ≤ c && c ≤ 'z') = true) : c ∈ lowers := by
  simp only [Bool.and_eq_true, decide_eq_true_eq] at h
  obtain ⟨h1, h2⟩ := h
  have h1' : 97 ≤ c.toNat := h1
  have h2' : c.toNat ≤ 122 := h2
  have hc : c = Char.ofNat c.toNat := (Char.ofNat_toNat c).symm
  generalize c.toNat = n at hc h1' h2'
  subst hc
  interval_cases n <;> decide

theorem isLetter_mem {c : Char} (h : isLetter c = true) : c ∈ uppers ∨ c ∈ lowers := by
  unfold isLetter at h
  rcases Bool.or_eq_true _ _ ▸ h with h | h
  · exact Or.inr (lower_mem h)
  · exact Or.inl (upper_mem h)

theorem lower_facts : ∀ c ∈ lowers, isDigit c = false ∧ isLetter c = true ∧
    ¬ (tolower c < 'a' ∨ tolower c > 'z') ∧ toupper c ∈ uppers ∧
    tolower (toupper c) = tolower c := by
  decide

theorem upper_value : ∀ u ∈ uppers, toupper u = u ∧ tolower (toupper u) = tolower u ∧
    1 ≤ (tolower u).toNat - 'a'.toNat + 1 ∧ (tolower u).toNat - 'a'.toNat + 1 ≤ 26 ∧
    Char.ofNat ('A'.toNat + ((tolower u).toNat - 'a'.toNat)) = u := by
  decide

/-- What the letters are for the constructor and for `toupper`. -/
theorem letter_facts {c : Char} (h : isLetter c = true) :
    isDigit c = false ∧ ¬ (tolower c < 'a' ∨ tolower c > 'z') ∧ toupper c ∈ uppers ∧
      tolower (toupper c) = tolower c := by
  rcases isLetter_mem h with hu | hl
  · obtain ⟨u1, u2, u3, -⟩ := upper_facts c hu
    obtain ⟨v1, v2, -⟩ := upper_value c hu
    exact ⟨u1, u3, by rw [v1]; exact hu, v2⟩
  · obtain ⟨l1, -, l3, l4, l5⟩ := lower_facts c hl
    exact ⟨l1, l3, l4, l5⟩

theorem digit_value {c : Char} (h : isDigit c = true) :
    Char.ofNat ('0'.toNat + (c.toNat - '0'.toNat)) = c ∧ c.toNat - '0'.toNat ≤ 9 ∧
      (c ≠ '0' → 1 ≤ c.toNat - '0'.toNat) := by
  have h' := h
  simp only [isDigit, Bool.and_eq_true, decide_eq_true_eq] at h'
  obtain ⟨h1, h2⟩ := h'
  have h1' : 48 ≤ c.toNat := h1
  have h2' : c.toNat ≤ 57 := h2
  have hc : c = Char.ofNat c.toNat := (Char.ofNat_toNat c).symm
  generalize c.toNat = n at hc h1' h2'
  subst hc
  interval_cases n <;> decide

theorem digitsValue_cons_ge (r : List Char) :
    ∀ n : Nat, n ≤ r.foldl (fun n d => 10 * n + (d.toNat - '0'.toNat)) n := by
  induction r with
  | nil => intro n; exact le_refl _
  | cons c r ih =>
    intro n
    simp only [List.foldl_cons]
    exact le_trans (by omega) (ih _)

/-- Digits that do not start with `0` have a value of 1 at least. -/
theorem digitsValue_pos {ds : List Char} (hd : ∀ c ∈ ds, isDigit c = true)
    (hh : ∃ c r, ds = c :: r ∧ c ≠ '0') : 1 ≤ digitsValue ds := by
  obtain ⟨c, r, rfl, hc⟩ := hh
  have h1 := (digit_value (hd c (List.mem_cons_self _ _))).2.2 hc
  have h2 := digitsValue_cons_ge r (10 * 0 + (c.toNat - '0'.toNat))
  unfold digitsValue
  simp only [List.foldl_cons]
  omega

/-- The digits of the value of digits that do not start with `0` are these
digits. -/
theorem natDigits_value : ∀ (ds : List Char), (∀ c ∈ ds, isDigit c = true) →
    (∃ c r, ds = c :: r ∧ c ≠ '0') → ∀ fuel, digitsValue ds < fuel →
    natDigits fuel (digitsValue ds) = ds := by
  intro ds
  induction ds using List.reverseRecOn with
  | nil =>
    rintro _ ⟨c, r, h, -⟩
    cases h
  | append_singleton init c ih =>
    intro hd hh fuel hfuel
    obtain ⟨f, rfl⟩ : ∃ f, fuel = f + 1 := ⟨fuel - 1, by omega⟩
    obtain ⟨d1, d2, d3⟩ := digit_value (hd c (by simp))
    rw [digitsValue_append] at hfuel ⊢
    rw [natDigits]
    cases init with
    | nil =>
      have hv : digitsValue [] = 0 := rfl
      rw [hv]
      rw [if_pos (by omega), show (10 * 0 + (c.toNat - '0'.toNat)) % 10 = c.toNat - '0'.toNat by
        omega, d1]
    | cons x xs =>
      have hinit : ∃ c r, x :: xs = c :: r ∧ c ≠ '0' := by
        obtain ⟨c', r', e, hc'⟩ := hh
        simp only [List.cons_append, List.cons.injEq] at e
        exact ⟨x, xs, rfl, e.1 ▸ hc'⟩
      have hdi : ∀ y ∈ x :: xs, isDigit y = true := fun y hy => hd y (List.mem_append_left _ hy)
      have hpos := digitsValue_pos hdi hinit
      rw [if_neg (by omega),
        show (10 * digitsValue (x :: xs) + (c.toNat - '0'.toNat)) / 10 = digitsValue (x :: xs) by
          omega,
        show (10 * digitsValue (x :: xs) + (c.toNat - '0'.toNat)) % 10 = c.toNat - '0'.toNat by
          omega, d1, ih hdi hinit f (by omega)]

namespace Address

theorem colValue_nil : colValue [] = 0 := rfl

theorem colValue_pos {L : List Char} (hne : L ≠ []) (hu : ∀ c ∈ L, c ∈ uppers) :
    1 ≤ colValue L := by
  induction L using List.reverseRecOn with
  | nil => exact absurd rfl hne
  | append_singleton init c _ =>
    rw [colValue_append]
    omega

/-- The name of the column of the value of capital letters is these
letters. -/
theorem colNameAux_value : ∀ (L : List Char), L ≠ [] → (∀ c ∈ L, c ∈ uppers) →
    ∀ fuel, colValue L - 1 < fuel → colNameAux fuel (colValue L - 1) = L := by
  intro L
  induction L using List.reverseRecOn with
  | nil => intro h; exact absurd rfl h
  | append_singleton init c ih =>
    intro _ hu fuel hfuel
    obtain ⟨f, rfl⟩ : ∃ f, fuel = f + 1 := ⟨fuel - 1, by omega⟩
    obtain ⟨-, -, v1, v2, v3⟩ := upper_value c (hu c (by simp))
    rw [colValue_append] at hfuel ⊢
    rw [colNameAux]
    cases init with
    | nil =>
      rw [colValue_nil]
      rw [if_pos (by omega),
        show 26 * 0 + ((tolower c).toNat - 'a'.toNat + 1) - 1 = (tolower c).toNat - 'a'.toNat by
          omega, v3]
      rfl
    | cons x xs =>
      have hui : ∀ y ∈ x :: xs, y ∈ uppers := fun y hy => hu y (List.mem_append_left _ hy)
      have hpos := colValue_pos (List.cons_ne_nil x xs) hui
      rw [if_neg (by omega),
        show (26 * colValue (x :: xs) + ((tolower c).toNat - 'a'.toNat + 1) - 1) / 26 - 1
          = colValue (x :: xs) - 1 by omega,
        show (26 * colValue (x :: xs) + ((tolower c).toNat - 'a'.toNat + 1) - 1) % 26
          = (tolower c).toNat - 'a'.toNat by omega,
        v3, ih (List.cons_ne_nil x xs) hui f (by omega)]

/-- Capital letters of the same value are the same letters. -/
theorem colValue_injective {L M : List Char} (hL : ∀ c ∈ L, c ∈ uppers)
    (hM : ∀ c ∈ M, c ∈ uppers) (h : colValue L = colValue M) : L = M := by
  by_cases hl : L = []
  · subst hl
    by_cases hm : M = []
    · exact hm.symm
    · have := colValue_pos hm hM
      rw [← h, colValue_nil] at this
      omega
  · have hm : M ≠ [] := by
      rintro rfl
      have := colValue_pos hl hL
      rw [h, colValue_nil] at this
      omega
    have e1 := colNameAux_value L hl hL (colValue L) (by have := colValue_pos hl hL; omega)
    have e2 := colNameAux_value M hm hM (colValue M) (by have := colValue_pos hm hM; omega)
    rw [← e1, ← e2, h]

theorem colValue_toUpper (L : List Char) (hL : ∀ c ∈ L, isLetter c = true) :
    colValue (Utils.toUpper L) = colValue L ∧ ∀ c ∈ Utils.toUpper L, c ∈ uppers := by
  induction L using List.reverseRecOn with
  | nil => exact ⟨rfl, fun c hc => by cases hc⟩
  | append_singleton init c ih =>
    obtain ⟨i1, i2⟩ := ih (fun y hy => hL y (List.mem_append_left _ hy))
    obtain ⟨-, -, f3, f4⟩ := letter_facts (hL c (by simp))
    have e : Utils.toUpper (init ++ [c]) = Utils.toUpper init ++ [toupper c] := by
      simp [Utils.toUpper]
    rw [e, colValue_append, colValue_append, i1, f4]
    refine ⟨rfl, fun y hy => ?_⟩
    rcases List.mem_append.mp hy with hy | hy
    · exact i2 y hy
    · rw [List.mem_singleton] at hy
      rw [hy]
      exact f3

/-- The constructor on letters followed by digits, whatever follows the
digits: the column is the value of the letters, the row the value of the
digits. -/
theorem ofString_parts (L ds rest : List Char) (hne : L ≠ [])
    (hL : ∀ c ∈ L, isLetter c = true) (hdne : ds ≠ []) (hd : ∀ c ∈ ds, isDigit c = true)
    (hrest : rest.head?.all (fun c => !isDigit c) = true)
    (hcol : (colValue L : Int) ≤ MAX_COL) (h1 : 1 ≤ digitsValue ds)
    (hrow : (digitsValue ds : Int) ≤ MAX_ROW) :
    ofString (L ++ ds ++ rest) = .ok ⟨(colValue L : Int), (digitsValue ds : Int)⟩ := by
  have hhead : (ds ++ rest).head?.all (fun c => !(fun c => !isDigit c) c) = true := by
    cases ds with
    | nil => exact absurd rfl hdne
    | cons x xs =>
      have := hd x (List.mem_cons_self _ _)
      simp [this]
  obtain ⟨t1, t2⟩ := takeWhile_append_stop (p := fun c => !isDigit c) (a := L) (b := ds ++ rest)
    (fun c hc => by simp [(letter_facts (hL c hc)).1]) hhead
  obtain ⟨s1, s2⟩ := takeWhile_append_stop (p := isDigit) (a := ds) (b := rest) hd hrest
  unfold ofString
  rw [List.append_assoc]
  simp only [t1, t2]
  have hemp : ¬ (L.isEmpty = true ∨ (ds ++ rest).isEmpty = true) := by
    cases L with
    | nil => exact absurd rfl hne
    | cons y ys =>
      cases ds with
      | nil => exact absurd rfl hdne
      | cons x xs => simp
  rw [if_neg hemp]
  have hc := colLoop_value L 0 0 (fun c hc => (letter_facts (hL c hc)).2.1)
    (by simpa using hcol)
  simp only [pow_zero, one_mul, zero_add] at hc
  have hst : stoul (ds ++ rest) = .ok (digitsValue ds) := by
    unfold stoul
    have hdrop : (ds ++ rest).dropWhile isspace = ds ++ rest := by
      cases ds with
      | nil => exact absurd rfl hdne
      | cons x xs =>
        have := (digit_facts x (hd x (List.mem_cons_self _ _))).2.1
        exact List.dropWhile_cons_of_neg (by simp [this])
    simp only [hdrop, s1]
    have : digitsValue ds ≤ ULONG_MAX := by
      unfold MAX_ROW INT_MAX at hrow
      unfold ULONG_MAX
      omega
    rw [if_pos this]
  show (colLoop L.reverse 0 0).bind _ = _
  rw [hc]
  simp only [Res.bind_ok]
  show (stoul (ds ++ rest)).bind _ = _
  rw [hst]
  simp only [Res.bind_ok]
  rw [if_neg (by omega)]

/-- The parts of a text of the form `[a-zA-Z]+[1-9][0-9]*`. -/
theorem isLink_parts {s : Str} (h : Parser.isLink s = true) :
    s = s.takeWhile isLetter ++ s.dropWhile isLetter ∧ s.takeWhile isLetter ≠ [] ∧
      (∀ c ∈ s.takeWhile isLetter, isLetter c = true) ∧
      (∀ c ∈ s.dropWhile isLetter, isDigit c = true) ∧
      ∃ c r, s.dropWhile isLetter = c :: r ∧ c ≠ '0' := by
  unfold Parser.isLink at h
  simp only [Bool.and_eq_true, Bool.not_eq_true', List.isEmpty_eq_false] at h
  obtain ⟨h1, h2⟩ := h
  refine ⟨(List.takeWhile_append_dropWhile _ _).symm, h1,
    fun c hc => (List.mem_takeWhile_imp hc), ?_, ?_⟩
  · cases hds : s.dropWhile isLetter with
    | nil => intro c hc; cases hc
    | cons d ds =>
      rw [hds] at h2
      simp only [Bool.and_eq_true, bne_iff_ne, ne_eq, List.all_eq_true] at h2
      intro c hc
      rcases List.mem_cons.mp hc with rfl | hc
      · exact h2.1.1
      · exact h2.2 c hc
  · cases hds : s.dropWhile isLetter with
    | nil =>
      rw [hds] at h2
      cases h2
    | cons d ds =>
      rw [hds] at h2
      simp only [Bool.and_eq_true, bne_iff_ne, ne_eq, List.all_eq_true] at h2
      exact ⟨d, ds, rfl, h2.1.2⟩

/-- The text of the address of letters and digits without a leading zero:
the letters in upper case, then the digits. -/
theorem toString_parts {L ds : List Char} (hne : L ≠ [])
    (hL : ∀ c ∈ L, isLetter c = true) (hd : ∀ c ∈ ds, isDigit c = true)
    (hh : ∃ c r, ds = c :: r ∧ c ≠ '0') :
    colName ⟨(colValue L : Int), (digitsValue ds : Int)⟩ = Utils.toUpper L ∧
      toString ⟨(colValue L : Int), (digitsValue ds : Int)⟩ = Utils.toUpper L ++ ds := by
  obtain ⟨u1, u2⟩ := colValue_toUpper L hL
  have hune : Utils.toUpper L ≠ [] := by
    cases L with
    | nil => exact absurd rfl hne
    | cons y ys => simp [Utils.toUpper]
  have hpos := colValue_pos hune u2
  rw [u1] at hpos
  have hcn : colName ⟨(colValue L : Int), (digitsValue ds : Int)⟩ = Utils.toUpper L := by
    show colNameAux (((colValue L : Int) - 1).toNat + 1) ((colValue L : Int) - 1).toNat = _
    have e : ((colValue L : Int) - 1).toNat = colValue (Utils.toUpper L) - 1 := by
      rw [u1]
      omega
    rw [e]
    exact colNameAux_value _ hune u2 _ (by omega)
  refine ⟨hcn, ?_⟩
  unfold toString
  rw [hcn]
  show Utils.toUpper L ++ intToString (digitsValue ds : Int) = _
  rw [intToString_nonneg (Int.natCast_nonneg _)]
  simp only [Int.toNat_ofNat]
  unfold natToString
  rw [natDigits_value ds hd hh _ (by omega)]

theorem toUpper_digits {ds : List Char} (hd : ∀ c ∈ ds, isDigit c = true) :
    Utils.toUpper ds = ds := by
  unfold Utils.toUpper
  conv_rhs => rw [← List.map_id ds]
  refine List.map_congr_left (fun c hc => ?_)
  have h := hd c hc
  unfold toupper
  rw [if_neg]
  · rfl
  · intro hl
    have := (lower_facts c (lower_mem hl)).1
    rw [h] at this
    cases this

/-- A text of the form `[a-zA-Z]+[1-9][0-9]*` in upper case: its letters in
upper case, then its digits. -/
theorem toUpper_link {s : Str} (h : Parser.isLink s = true) :
    Utils.toUpper s = Utils.toUpper (s.takeWhile isLetter) ++ s.dropWhile isLetter := by
  obtain ⟨e, -, -, hd, -⟩ := isLink_parts h
  conv_lhs => rw [e]
  unfold Utils.toUpper
  rw [List.map_append]
  congr 1
  exact toUpper_digits hd

/-- Two texts of the form `[a-zA-Z]+[1-9][0-9]*` that are the same in upper
case have the same digits, and letters of the same value. -/
theorem link_same_upper {s t : Str} (hs : Parser.isLink s = true) (ht : Parser.isLink t = true)
    (h : Utils.toUpper t = Utils.toUpper s) :
    colValue (t.takeWhile isLetter) = colValue (s.takeWhile isLetter) ∧
      t.dropWhile isLetter = s.dropWhile isLetter := by
  obtain ⟨-, -, sL, sd, c, r, sh, -⟩ := isLink_parts hs
  obtain ⟨-, -, tL, td, c', r', th, -⟩ := isLink_parts ht
  rw [toUpper_link hs, toUpper_link ht] at h
  have hstop : ∀ w : Str, (∀ x ∈ w, isDigit x = true) → (∃ y ys, w = y :: ys) →
      w.head?.all (fun x => !(fun x => !isDigit x) x) = true := by
    rintro w hw ⟨y, ys, rfl⟩
    simp [hw y (List.mem_cons_self _ _)]
  have hup : ∀ L : Str, (∀ x ∈ L, isLetter x = true) →
      ∀ x ∈ Utils.toUpper L, (fun x => !isDigit x) x = true := by
    intro L hL x hx
    have := (upper_facts x ((colValue_toUpper L hL).2 x hx)).1
    simp [this]
  obtain ⟨a1, a2⟩ := takeWhile_append_stop (p := fun x => !isDigit x)
    (hup _ sL) (hstop _ sd ⟨c, r, sh⟩)
  obtain ⟨b1, b2⟩ := takeWhile_append_stop (p := fun x => !isDigit x)
    (hup _ tL) (hstop _ td ⟨c', r', th⟩)
  rw [h] at b1 b2
  have e1 : Utils.toUpper (t.takeWhile isLetter) = Utils.toUpper (s.takeWhile isLetter) := by
    rw [← b1, a1]
  have e2 : t.dropWhile isLetter = s.dropWhile isLetter := by
    rw [← b2, a2]
  refine ⟨?_, e2⟩
  rw [← (colValue_toUpper _ tL).1, ← (colValue_toUpper _ sL).1, e1]

end Address

/-! ## The text of an `int` read -/

set_option maxRecDepth 100000

/-- The sign that `std::stoi` reads and the text after it. -/
theorem stoi_sign (s1 : Str) :
    stoi.match_1 (fun _ => Bool × List Char) s1 (fun r => (true, r)) (fun r => (false, r))
        (fun r => (false, r))
      = if s1.head? = some '-' then (true, s1.tail)
        else if s1.head? = some '+' then (false, s1.tail) else (false, s1) := by
  split
  · rfl
  · rfl
  · rename_i h1 h2
    cases s1 with
    | nil => rfl
    | cons c r =>
      have c1 : ¬ c = '-' := fun e => h1 r (by rw [e])
      have c2 : ¬ c = '+' := fun e => h2 r (by rw [e])
      simp [c1, c2]

/-- `std::stoi` in terms of the sign `neg` it reads after the white space and
of the text `s2` after the sign. -/
theorem stoi_eq (s : Str) (neg : Bool) (s2 : Str)
    (h : (if (s.dropWhile isspace).head? = some '-' then (true, (s.dropWhile isspace).tail)
          else if (s.dropWhile isspace).head? = some '+' then
            (false, (s.dropWhile isspace).tail)
          else (false, s.dropWhile isspace)) = (neg, s2)) :
    stoi s =
      if (s2.takeWhile isDigit).isEmpty = true then none
      else if INT_MIN ≤ (if neg = true then -(digitsValue (s2.takeWhile isDigit) : Int)
            else (digitsValue (s2.takeWhile isDigit) : Int)) ∧
          (if neg = true then -(digitsValue (s2.takeWhile isDigit) : Int)
            else (digitsValue (s2.takeWhile isDigit) : Int)) ≤ INT_MAX then
        some (if neg = true then -(digitsValue (s2.takeWhile isDigit) : Int)
          else (digitsValue (s2.takeWhile isDigit) : Int))
      else none := by
  unfold stoi
  simp only [stoi_sign, h]

theorem isBlank_iff (s : Str) : isBlank s = true ↔ ∀ c ∈ s, isspace c = true := by
  unfold isBlank
  exact List.all_eq_true

theorem dropWhile_space_parts {ws t : Str} (hws : ∀ c ∈ ws, isspace c = true)
    (ht : t.head?.all (fun c => !isspace c) = true) :
    (ws ++ t).takeWhile isspace = ws ∧ (ws ++ t).dropWhile isspace = t :=
  Address.takeWhile_append_stop hws ht

/-- What `std::stoi` returns on white space, a sign, digits and a text that
does not start with a digit. -/
theorem stoi_parts {ws sg ds rest : Str} (hws : ∀ c ∈ ws, isspace c = true)
    (hsg : sg = [] ∨ sg = ['-'] ∨ sg = ['+']) (hne : ds ≠ []) (hd : ∀ c ∈ ds, isDigit c = true)
    (hrest : rest.head?.all (fun c => !isDigit c) = true) :
    stoi (ws ++ sg ++ ds ++ rest) =
      if INT_MIN ≤ (if sg = ['-'] then -(digitsValue ds : Int) else (digitsValue ds : Int)) ∧
          (if sg = ['-'] then -(digitsValue ds : Int) else (digitsValue ds : Int)) ≤ INT_MAX then
        some (if sg = ['-'] then -(digitsValue ds : Int) else (digitsValue ds : Int))
      else none := by
  obtain ⟨x, xs, rfl⟩ : ∃ x xs, ds = x :: xs := by
    cases ds with
    | nil => exact absurd rfl hne
    | cons x xs => exact ⟨x, xs, rfl⟩
  obtain ⟨-, fx2, fx3, fx4, -⟩ := digit_facts x (hd x (List.mem_cons_self _ _))
  obtain ⟨t1, -⟩ := Address.takeWhile_append_stop (p := isDigit) (a := x :: xs) (b := rest) hd hrest
  have hhead : (sg ++ x :: xs ++ rest).head?.all (fun c => !isspace c) = true := by
    rcases hsg with rfl | rfl | rfl
    · simp [fx2]
    · rfl
    · rfl
  have hdrop : (ws ++ sg ++ x :: xs ++ rest).dropWhile isspace = sg ++ x :: xs ++ rest := by
    have := (dropWhile_space_parts (t := sg ++ x :: xs ++ rest) hws hhead).2
    rw [← this]
    simp
  have hsign : (if ((ws ++ sg ++ x :: xs ++ rest).dropWhile isspace).head? = some '-' then
        (true, ((ws ++ sg ++ x :: xs ++ rest).dropWhile isspace).tail)
      else if ((ws ++ sg ++ x :: xs ++ rest).dropWhile isspace).head? = some '+' then
        (false, ((ws ++ sg ++ x :: xs ++ rest).dropWhile isspace).tail)
      else (false, (ws ++ sg ++ x :: xs ++ rest).dropWhile isspace))
      = (decide (sg = ['-']), x :: xs ++ rest) := by
    rw [hdrop]
    rcases hsg with rfl | rfl | rfl
    · simp [fx3, fx4]
    · simp
    · simp
  rw [stoi_eq _ _ _ hsign, t1]
  simp

/-- The parts of a text on which `std::stoi` returns. -/
theorem stoi_some {s : Str} {n : Int} (h : stoi s = some n) :
    ∃ ws sg ds rest, s = ws ++ sg ++ ds ++ rest ∧ (∀ c ∈ ws, isspace c = true) ∧
      (sg = [] ∨ sg = ['-'] ∨ sg = ['+']) ∧ ds ≠ [] ∧ (∀ c ∈ ds, isDigit c = true) ∧
      rest.head?.all (fun c => !isDigit c) = true ∧
      n = (if sg = ['-'] then -(digitsValue ds : Int) else (digitsValue ds : Int)) ∧
      INT_MIN ≤ n ∧ n ≤ INT_MAX := by
  have hs : s = s.takeWhile isspace ++ s.dropWhile isspace :=
    (List.takeWhile_append_dropWhile _ _).symm
  have hws : ∀ c ∈ s.takeWhile isspace, isspace c = true := fun c hc => List.mem_takeWhile_imp hc
  have key : ∀ (sg s2 : Str), s.dropWhile isspace = sg ++ s2 →
      (sg = [] ∨ sg = ['-'] ∨ sg = ['+']) →
      (if (s.dropWhile isspace).head? = some '-' then (true, (s.dropWhile isspace).tail)
        else if (s.dropWhile isspace).head? = some '+' then
          (false, (s.dropWhile isspace).tail)
        else (false, s.dropWhile isspace)) = (decide (sg = ['-']), s2) →
      ∃ ws sg ds rest, s = ws ++ sg ++ ds ++ rest ∧ (∀ c ∈ ws, isspace c = true) ∧
        (sg = [] ∨ sg = ['-'] ∨ sg = ['+']) ∧ ds ≠ [] ∧ (∀ c ∈ ds, isDigit c = true) ∧
        rest.head?.all (fun c => !isDigit c) = true ∧
        n = (if sg = ['-'] then -(digitsValue ds : Int) else (digitsValue ds : Int)) ∧
        INT_MIN ≤ n ∧ n ≤ INT_MAX := by
    intro sg s2 hsplit hsg hsign
    rw [stoi_eq _ _ _ hsign] at h
    simp only [decide_eq_true_eq] at h
    by_cases h1 : (s2.takeWhile isDigit).isEmpty = true
    · rw [if_pos h1] at h
      cases h
    · rw [if_neg h1] at h
      by_cases h2 : INT_MIN ≤ (if sg = ['-'] then -(digitsValue (s2.takeWhile isDigit) : Int)
            else (digitsValue (s2.takeWhile isDigit) : Int)) ∧
          (if sg = ['-'] then -(digitsValue (s2.takeWhile isDigit) : Int)
            else (digitsValue (s2.takeWhile isDigit) : Int)) ≤ INT_MAX
      · rw [if_pos h2] at h
        simp only [Option.some.injEq] at h
        refine ⟨s.takeWhile isspace, sg, s2.takeWhile isDigit, s2.dropWhile isDigit, ?_, hws,
          hsg, ?_, fun c hc => List.mem_takeWhile_imp hc, ?_, h.symm, ?_, ?_⟩
        · rw [List.append_assoc, List.append_assoc, List.takeWhile_append_dropWhile, ← hsplit]
          exact hs
        · intro he
          rw [he] at h1
          exact h1 rfl
        · cases hr : s2.dropWhile isDigit with
          | nil => rfl
          | cons y ys =>
            have := List.head_dropWhile_not isDigit s2 (by rw [hr]; exact List.cons_ne_nil _ _)
            simp only [hr, List.head_cons] at this
            simp [this]
        · rw [← h]
          exact h2.1
        · rw [← h]
          exact h2.2
      · rw [if_neg h2] at h
        cases h
  cases hd : s.dropWhile isspace with
  | nil => exact key [] [] (by rw [hd]; rfl) (Or.inl rfl) (by rw [hd]; rfl)
  | cons c r =>
    by_cases c1 : c = '-'
    · subst c1
      exact key ['-'] r (by rw [hd]; rfl) (Or.inr (Or.inl rfl)) (by rw [hd]; rfl)
    · by_cases c2 : c = '+'
      · subst c2
        exact key ['+'] r (by rw [hd]; rfl) (Or.inr (Or.inr rfl)) (by rw [hd]; rfl)
      · exact key [] (c :: r) (by rw [hd]; rfl) (Or.inl rfl) (by
          rw [hd]
          simp [c1, c2])

/-- `Type<int>::fromString` returns or throws `InvalidTypeException`. -/
theorem intFromString_cases (s : Str) :
    (isBlank s = true ∧ intFromString s = .ok 0) ∨
    (isBlank s = false ∧ ∃ n, stoi s = some n ∧ intFromString s = .ok n) ∨
    (isBlank s = false ∧ stoi s = none ∧ intFromString s = .error .InvalidTypeException) := by
  unfold intFromString
  cases hb : isBlank s with
  | true => exact Or.inl ⟨rfl, by simp⟩
  | false =>
    right
    cases hs : stoi s with
    | none => exact Or.inr ⟨rfl, rfl, by simp⟩
    | some n => exact Or.inl ⟨rfl, n, rfl, by simp⟩

/-- The text of an `int`, after white space and before a text that does not
start with a digit, reads as that `int`. -/
theorem intFromString_text {n : Int} (h0 : INT_MIN ≤ n) (h1 : n ≤ INT_MAX) {ws rest : Str}
    (hws : ∀ c ∈ ws, isspace c = true) (hrest : rest.head?.all (fun c => !isDigit c) = true) :
    intFromString (ws ++ intToString n ++ rest) = .ok n := by
  obtain ⟨n1, n2, n3, -⟩ := natToString_spec n.natAbs
  have hsplit : ∃ sg, (sg = [] ∨ sg = ['-'] ∨ sg = ['+']) ∧
      intToString n = sg ++ natToString n.natAbs ∧
      n = (if sg = ['-'] then -((n.natAbs : Nat) : Int) else ((n.natAbs : Nat) : Int)) := by
    unfold intToString
    by_cases hn : n < 0
    · refine ⟨['-'], Or.inr (Or.inl rfl), by rw [if_pos hn]; rfl, ?_⟩
      rw [if_pos rfl]
      omega
    · refine ⟨[], Or.inl rfl, by rw [if_neg hn]; rfl, ?_⟩
      rw [if_neg (by simp)]
      omega
  obtain ⟨sg, hsg, e, hv⟩ := hsplit
  have hst := stoi_parts hws hsg n1 n2 hrest
  rw [n3, ← hv, if_pos ⟨h0, h1⟩] at hst
  have etext : ws ++ intToString n ++ rest = ws ++ sg ++ natToString n.natAbs ++ rest := by
    rw [e]
    simp
  rw [etext]
  rcases intFromString_cases (ws ++ sg ++ natToString n.natAbs ++ rest) with
    ⟨hb, -⟩ | ⟨-, m, hm, hr⟩ | ⟨-, hm, -⟩
  · exfalso
    have hall := (isBlank_iff _).mp hb
    cases hnt : natToString n.natAbs with
    | nil => exact n1 hnt
    | cons x xs =>
      have hx := hall x (by rw [hnt]; simp)
      have := (digit_facts x (n2 x (by rw [hnt]; exact List.mem_cons_self _ _))).2.1
      rw [this] at hx
      cases hx
  · rw [hst] at hm
    cases hm
    exact hr
  · rw [hst] at hm
    cases hm

/-! ## The parser returns or throws on every source -/

namespace Parser

variable {D T : Type}

theorem bind_ne_diverge_of {α β : Type} {r : Res α} {f : α → Res β} (hr : r ≠ .diverge)
    (hf : ∀ a, r = .ok a → f a ≠ .diverge) : r.bind f ≠ .diverge := by
  cases r with
  | ok a => exact hf a rfl
  | error e => intro h; cases h
  | diverge => exact absurd rfl hr

theorem ok_or_error {α : Type} {r : Res α} (h : r ≠ .diverge) :
    (∃ a, r = .ok a) ∨ ∃ e, r = .error e := by
  cases r with
  | ok a => exact Or.inl ⟨a, rfl⟩
  | error e => exact Or.inr ⟨e, rfl⟩
  | diverge => exact absurd rfl h

/-- The reading of a source returns or throws. -/
theorem splitScan_ne_diverge (seps : Str) :
    ∀ (src : List Char) (sk : Bool) (m : ScanMode) (cur : Str) (res : List Str) (l : Int),
      splitScan seps sk m src cur res l ≠ .diverge := by
  intro src
  induction src with
  | nil =>
    intro sk m cur res l
    cases m with
    | code => rw [splitScan_code_nil]; intro h; cases h
    | literal oss => rw [splitScan_literal_nil]; intro h; cases h
    | escape oss => rw [splitScan_escape_nil]; intro h; cases h
  | cons c rest ih =>
    intro sk m cur res l
    cases m with
    | code =>
      rw [splitScan_code_cons]
      split_ifs
      all_goals first
        | exact ih _ _ _ _ _
        | (intro h; cases h)
    | literal oss =>
      rw [splitScan_literal_cons]
      split_ifs
      all_goals exact ih _ _ _ _ _
    | escape oss =>
      rw [splitScan_escape_cons]
      split_ifs
      · intro h; cases h
      · exact ih _ _ _ _ _

/-- `splitLogical` returns or throws, whatever the source and the
separators. -/
theorem splitLogical_ne_diverge (s seps : Str) : splitLogical s seps ≠ .diverge := by
  rw [splitLogical_scan]
  exact splitScan_ne_diverge seps s true .code [] [] 0

/-- The sections have at most one character more than the reading took from
the source: the quote that closes a literal cut by the end of the source
right after an escaped quote. -/
theorem splitScan_length (seps : Str) :
    ∀ (src : List Char) (sk : Bool) (m : ScanMode) (cur : Str) (res out : List Str) (l : Int),
      splitScan seps sk m src cur res l = .ok out →
      (m ≠ .code → cur = []) →
      out.flatten.length ≤ res.flatten.length + cur.length + src.length +
        (match m with
          | .code => 0
          | .literal oss => oss.length + 1
          | .escape oss => oss.length + 2) + 1 := by
  intro src
  induction src with
  | nil =>
    intro sk m cur res out l h _
    cases m with
    | code =>
      rw [splitScan_code_nil] at h
      cases h
      have := (pushCur_flatten cur res).1
      simp only [List.length_nil]
      omega
    | literal oss => rw [splitScan_literal_nil] at h; cases h
    | escape oss => rw [splitScan_escape_nil] at h; cases h
  | cons c rest ih =>
    intro sk m cur res out l h hcur
    cases m with
    | code =>
      rw [splitScan_code_cons] at h
      have hp := (pushCur_flatten cur res).1
      split_ifs at h with h1 h2 h3 h4
      · have := ih _ _ _ _ _ _ h (fun hh => absurd rfl hh)
        simp only [List.length_cons] at this ⊢
        omega
      · have := ih _ _ _ _ _ _ h (fun hh => absurd rfl hh)
        rw [pushCur_fst] at this
        simp only [List.flatten_append, List.length_append, List.flatten_cons, List.flatten_nil,
          List.length_cons, List.length_nil, List.append_nil] at this ⊢
        omega
      · have hce : cur = [] := by
          cases cur with
          | nil => rfl
          | cons x xs => simp at h4
        have := ih _ _ _ _ _ _ h (fun _ => hce)
        simp only [List.length_cons, List.length_nil] at this ⊢
        omega
      all_goals
        have := ih _ _ _ _ _ _ h (fun hh => absurd rfl hh)
        simp only [List.length_append, List.length_cons, List.length_nil] at this ⊢
        omega
    | literal oss =>
      have hce := hcur (fun hh => by cases hh)
      subst hce
      rw [splitScan_literal_cons] at h
      split_ifs at h with h1 h2
      · have := ih _ _ _ _ _ _ h (fun _ => rfl)
        simp only [List.length_cons, List.length_nil] at this ⊢
        omega
      · rw [pushCur_quoted] at h
        have := ih _ _ _ _ _ _ h (fun hh => absurd rfl hh)
        simp only [List.flatten_append, List.length_append, List.flatten_cons, List.flatten_nil,
          List.length_cons, List.length_nil, List.append_nil] at this ⊢
        omega
      · have := ih _ _ _ _ _ _ h (fun _ => rfl)
        simp only [List.length_append, List.length_cons, List.length_nil] at this ⊢
        omega
    | escape oss =>
      have hce := hcur (fun hh => by cases hh)
      subst hce
      rw [splitScan_escape_cons] at h
      split_ifs at h with h1
      · rw [pushCur_quoted, pushCur_nil] at h
        cases h
        simp only [List.flatten_append, List.length_append, List.flatten_cons, List.flatten_nil,
          List.length_cons, List.length_nil, List.append_nil]
        omega
      · have := ih _ _ _ _ _ _ h (fun _ => rfl)
        simp only [List.length_append, List.length_cons, List.length_nil] at this ⊢
        omega

/-- The sections of a source have at most one character more than the
source. -/
theorem splitLogical_length {s seps : Str} {secs : List Str}
    (h : splitLogical s seps = .ok secs) : (secs.map List.length).sum ≤ s.length + 1 := by
  rw [splitLogical_scan] at h
  have := splitScan_length seps s true .code [] [] secs 0 h (fun hh => absurd rfl hh)
  rw [List.length_flatten] at this
  simpa using this

/-- The sections of a section of `splitLogical` weigh at most twice its
length and one. -/
theorem weight_splitLogical_token {t : Str} {secs : List Str} (ht : Token t)
    (h : splitLogical t = .ok secs) : weight secs ≤ 2 * t.length + 1 := by
  rcases ht with hq | ⟨raw, hw, rfl⟩
  · rw [splitLogical_sectionsOf t hq] at h
    cases h
    exact weight_sectionsOf_le t
  · rw [splitLogical_quoted defaultSeparators (by decide) raw hw] at h
    cases h
    rw [weight_singleton]

/-- A call of `parse` on sections that `splitLogical` returned, with fuel
above their weight, returns or throws. -/
theorem parse_token_ne_diverge (ops : TypeOps D T) (hshape : LiteralShape ops)
    (hfs : ∀ t, ops.fromString t true ≠ .diverge) :
    ∀ (n : Nat) (sections : List Str) (d : List Address),
      weight sections < n → (∀ s ∈ sections, Token s) →
      parse ops n sections d ≠ .diverge := by
  intro n
  induction n with
  | zero => intro sections d hw; omega
  | succ n ih =>
    intro sections d hw htok
    by_cases hlen : sections.length = 1
    · obtain ⟨s, rfl⟩ := List.length_eq_one.mp hlen
      rcases htok s (List.mem_singleton_self _) with hq | ⟨raw, hraw, rfl⟩
      · exact (parse_outcome ops hshape hfs (n + 1) [s] d hw (fun u hu => by
          rw [List.mem_singleton] at hu
          rw [hu]
          exact hq)).1
      · rw [parse_single]
        by_cases h1 : ops.isLiteral (['"'] ++ raw ++ ['"']) = true
        · rw [if_pos h1]
          exact bind_ne_diverge (hfs _) (fun v h => by cases h)
        · rw [if_neg h1]
          by_cases h2 : isLink (['"'] ++ raw ++ ['"']) = true
          · rw [if_pos h2]
            exact bind_ne_diverge (ofString_ne_diverge _) (fun v h => by cases h)
          · rw [if_neg h2, splitLogical_quoted defaultSeparators (by decide) raw hraw]
            simp only [Res.bind_ok]
            rw [if_neg (fun hh => hh rfl), if_neg (by
              rintro ⟨-, -, h3⟩
              rw [quoted_last] at h3
              cases h3)]
            intro h
            cases h
    · rw [parse_many ops n sections d hlen]
      by_cases hcond : sections.length ≥ 3 ∧ (sections.getD (sections.length - 2) []).length = 1
      · rw [if_pos hcond]
        have hsplit := split_last_two sections hcond.1
        have hsum : (sections.map List.length).sum
            = ((sections.take (sections.length - 2)).map List.length).sum
              + (sections.getD (sections.length - 2) []).length
              + (sections.getD (sections.length - 1) []).length := by
          conv_lhs => rw [hsplit]
          simp only [List.map_append, List.sum_append, List.map_cons, List.map_nil,
            List.sum_cons, List.sum_nil]
          omega
        have hwt : weight sections = 2 * (sections.map List.length).sum := by
          unfold weight
          rw [if_neg hlen]
          rfl
        have hlast_mem : sections.getD (sections.length - 1) [] ∈ sections := by
          rw [List.getD_eq_getElem _ _ (by omega)]
          exact List.getElem_mem _
        have htl : (sections.take (sections.length - 2)).length = sections.length - 2 := by
          rw [List.length_take]
          omega
        refine bind_ne_diverge_of ?_ (fun left hleft => ?_)
        · split_ifs
          · intro h; cases h
          · exact splitLogical_ne_diverge _ _
        have hl : weight left < n ∧ ∀ s ∈ left, Token s := by
          by_cases hl1 : (sections.take (sections.length - 2)).length > 1
          · rw [if_pos hl1] at hleft
            cases hleft
            refine ⟨?_, fun s hs => htok s (List.mem_of_mem_take hs)⟩
            unfold weight
            rw [if_neg (by omega)]
            omega
          · rw [if_neg hl1] at hleft
            have h1 : (sections.take (sections.length - 2)).length = 1 := by omega
            obtain ⟨l0, hl0⟩ := List.length_eq_one.mp h1
            have hl0mem : l0 ∈ sections := List.mem_of_mem_take (by rw [hl0]; simp)
            rw [hl0] at hsum hleft
            simp only [List.headD_cons] at hleft
            refine ⟨?_, splitLogical_token (by decide) hleft⟩
            have := weight_splitLogical_token (htok l0 hl0mem) hleft
            simp only [List.map_cons, List.map_nil, List.sum_cons, List.sum_nil,
              add_zero] at hsum
            omega
        refine bind_ne_diverge_of (ih left d hl.1 hl.2) (fun arg1 _ => ?_)
        refine bind_ne_diverge_of (splitLogical_ne_diverge _ _) (fun right hright => ?_)
        have hr : weight right < n := by
          have := weight_splitLogical_token (htok _ hlast_mem) hright
          omega
        refine bind_ne_diverge_of (ih right arg1.2 hr (splitLogical_token (by decide) hright))
          (fun arg2 _ => ?_)
        exact bind_ne_diverge mkOperation_error.1 (fun f h => by cases h)
      · rw [if_neg hcond]
        intro h
        cases h

/-- `parseSource` returns or throws on every source: the fuel of `parse` is
above the weight of the sections of the source. -/
theorem parseSource_ne_diverge (ops : TypeOps D T) (hshape : LiteralShape ops)
    (hfs : ∀ t, ops.fromString t true ≠ .diverge) (s : Str) (d : List Address) :
    parseSource ops s d ≠ .diverge := by
  unfold parseSource
  refine bind_ne_diverge_of (splitLogical_ne_diverge _ _) (fun secs hsecs => ?_)
  refine parse_token_ne_diverge ops hshape hfs _ secs d ?_ (splitLogical_token (by decide) hsecs)
  have h1 := splitLogical_length hsecs
  have h2 := weight_le secs
  omega

/-- More fuel than `parseSource` gives to `parse` changes nothing. -/
theorem parseSource_fuel (ops : TypeOps D T) (hshape : LiteralShape ops)
    (hfs : ∀ t, ops.fromString t true ≠ .diverge) (s : Str) (d : List Address) (m : Nat)
    (hm : 2 * s.length + 4 ≤ m) :
    (splitLogical s).bind (fun secs => parse ops m secs d) = parseSource ops s d := by
  have hnd := parseSource_ne_diverge ops hshape hfs s d
  unfold parseSource at hnd ⊢
  cases hs : splitLogical s with
  | ok secs =>
    rw [hs] at hnd
    exact parse_mono ops hm hnd
  | error e => rfl
  | diverge => rfl

end Parser

/-! ## The exceptions an evaluation can leave with -/

namespace Function

variable {D T : Type}

/-- What a binary function class throws is thrown by an argument or by the
operation, or it is the `InvalidTypeException` of the generic body. -/
theorem binary_error {P : Exception → Prop} {op : Option (T → T → Res T)}
    {arg1 arg2 : Unit → Res T} {e : Exception} (hP : P .InvalidTypeException)
    (hop : ∀ g, op = some g → ∀ x y e, g x y = .error e → P e)
    (h1 : ∀ e, arg1 () = .error e → P e) (h2 : ∀ e, arg2 () = .error e → P e)
    (h : binary op arg1 arg2 = .error e) : P e := by
  unfold binary at h
  cases op with
  | none =>
    cases h
    exact hP
  | some g =>
    simp only at h
    cases hx : arg1 () with
    | ok x =>
      rw [hx, Res.bind_ok] at h
      cases hy : arg2 () with
      | ok y =>
        rw [hy, Res.bind_ok] at h
        exact hop g rfl x y e h
      | error e2 =>
        rw [hy, Res.bind_error] at h
        cases h
        exact h2 _ hy
      | diverge =>
        rw [hy, Res.bind_diverge] at h
        cases h
    | error e1 =>
      rw [hx, Res.bind_error] at h
      cases h
      exact h1 _ hx
    | diverge =>
      rw [hx, Res.bind_diverge] at h
      cases h

/-- What a unary function class throws. -/
theorem unary_error {P : Exception → Prop} {op : Option (T → Res T)}
    {arg : Unit → Res T} {e : Exception} (hP : P .InvalidTypeException)
    (hop : ∀ g, op = some g → ∀ x e, g x = .error e → P e)
    (h1 : ∀ e, arg () = .error e → P e)
    (h : unary op arg = .error e) : P e := by
  unfold unary at h
  cases op with
  | none =>
    cases h
    exact hP
  | some g =>
    simp only at h
    cases hx : arg () with
    | ok x =>
      rw [hx, Res.bind_ok] at h
      exact hop g rfl x e h
    | error e1 =>
      rw [hx, Res.bind_error] at h
      cases h
      exact h1 _ hx
    | diverge =>
      rw [hx, Res.bind_diverge] at h
      cases h

/-- What the evaluation of a tree throws is thrown by a link or by an
operation, or it is the `InvalidTypeException` of a generic body. -/
theorem evaluate_error {P : Exception → Prop} (ops : TypeOps D T)
    (link : List Nat → Address → Res T) (hP : P .InvalidTypeException)
    (hbin : ∀ g, (ops.add = some g ∨ ops.sub = some g ∨ ops.mul = some g ∨ ops.div = some g) →
      ∀ x y e, g x y = .error e → P e)
    (hun : ∀ g, (ops.abs = some g ∨ ops.sin = some g ∨ ops.cos = some g ∨ ops.tan = some g) →
      ∀ x e, g x = .error e → P e)
    (hlink : ∀ path a e, link path a = .error e → P e) (f : Function T) :
    ∀ path e, evaluate ops link path f = .error e → P e := by
  induction f with
  | Literal v =>
    intro path e h
    simp [evaluate] at h
  | Link a =>
    intro path e h
    exact hlink path a e (by simpa [evaluate] using h)
  | Add a b iha ihb =>
    intro path e h
    rw [evaluate] at h
    exact binary_error hP (fun g hg => hbin g (Or.inl hg)) (iha _) (ihb _) h
  | Sub a b iha ihb =>
    intro path e h
    rw [evaluate] at h
    exact binary_error hP (fun g hg => hbin g (Or.inr (Or.inl hg))) (iha _) (ihb _) h
  | Mul a b iha ihb =>
    intro path e h
    rw [evaluate] at h
    exact binary_error hP (fun g hg => hbin g (Or.inr (Or.inr (Or.inl hg)))) (iha _) (ihb _) h
  | Div a b iha ihb =>
    intro path e h
    rw [evaluate] at h
    exact binary_error hP (fun g hg => hbin g (Or.inr (Or.inr (Or.inr hg)))) (iha _) (ihb _) h
  | Abs a iha =>
    intro path e h
    rw [evaluate] at h
    exact unary_error hP (fun g hg => hun g (Or.inl hg)) (iha _) h
  | Sin a iha =>
    intro path e h
    rw [evaluate] at h
    exact unary_error hP (fun g hg => hun g (Or.inr (Or.inl hg))) (iha _) h
  | Cos a iha =>
    intro path e h
    rw [evaluate] at h
    exact unary_error hP (fun g hg => hun g (Or.inr (Or.inr (Or.inl hg)))) (iha _) h
  | Tan a iha =>
    intro path e h
    rw [evaluate] at h
    exact unary_error hP (fun g hg => hun g (Or.inr (Or.inr (Or.inr hg)))) (iha _) h

end Function

namespace Sheet

variable {D T : Type}

/-- What `getContent` throws is thrown by an operation, or it is one of the
two exceptions of `Link::evaluate` and of the generic bodies. -/
theorem getContent_error {P : Exception → Prop} (ops : TypeOps D T) (s : Sheet D)
    (hloop : P .DependencyLoopException) (htype : P .InvalidTypeException)
    (hbin : ∀ g, (ops.add = some g ∨ ops.sub = some g ∨ ops.mul = some g ∨ ops.div = some g) →
      ∀ x y e, g x y = .error e → P e)
    (hun : ∀ g, (ops.abs = some g ∨ ops.sin = some g ∨ ops.cos = some g ∨ ops.tan = some g) →
      ∀ x e, g x = .error e → P e) :
    ∀ (fuel : Nat) (ev : List (Nat × List Nat)) (ptr : Nat) (cell : Cell T) (e : Exception),
      getContent ops s fuel ev ptr cell = .error e → P e := by
  intro fuel
  induction fuel with
  | zero =>
    intro ev ptr cell e h
    simp [getContent] at h
  | succ fuel ih =>
    intro ev ptr cell e h
    rw [getContent] at h
    refine Function.evaluate_error ops _ htype hbin hun ?_ cell.m_Formula [] e h
    intro path a e2 h2
    by_cases hmem : (ptr, path) ∈ ev
    · rw [if_pos hmem] at h2
      cases h2
      exact hloop
    · rw [if_neg hmem] at h2
      simp only at h2
      cases hcast : ops.cast (s.getCell a).obj with
      | none =>
        rw [hcast] at h2
        cases h2
        exact htype
      | some linkedCell =>
        rw [hcast] at h2
        exact ih _ _ _ _ h2

/-- The operations of `int` throw nothing; the division faults. -/
theorem intOps_binary_error (h : Host D) (g : Int → Int → Res Int)
    (hg : (intOps h).add = some g ∨ (intOps h).sub = some g ∨ (intOps h).mul = some g ∨
      (intOps h).div = some g) (x y : Int) (e : Exception) (he : g x y = .error e) :
    e = .ArithmeticFault := by
  simp only [intOps, Option.some.injEq] at hg
  rcases hg with hg | hg | hg | hg <;> subst hg
  · cases he
  · cases he
  · cases he
  · unfold intDiv at he
    split at he
    · cases he
      rfl
    · cases he

theorem intOps_unary_error (h : Host D) (g : Int → Res Int)
    (hg : (intOps h).abs = some g ∨ (intOps h).sin = some g ∨ (intOps h).cos = some g ∨
      (intOps h).tan = some g) (x : Int) (e : Exception) (he : g x = .error e) :
    e = .ArithmeticFault := by
  simp only [intOps, Option.some.injEq] at hg
  rcases hg with hg | hg | hg | hg <;> subst hg <;> cases he

/-- The operations of `double` throw nothing. -/
theorem doubleOps_binary_error (h : Host D) (g : D → D → Res D)
    (hg : (doubleOps h).add = some g ∨ (doubleOps h).sub = some g ∨ (doubleOps h).mul = some g ∨
      (doubleOps h).div = some g) (x y : D) (e : Exception) (he : g x y = .error e) : False := by
  simp only [doubleOps, Option.some.injEq] at hg
  rcases hg with hg | hg | hg | hg <;> subst hg <;> cases he

theorem doubleOps_unary_error (h : Host D) (g : D → Res D)
    (hg : (doubleOps h).abs = some g ∨ (doubleOps h).sin = some g ∨ (doubleOps h).cos = some g ∨
      (doubleOps h).tan = some g) (x : D) (e : Exception) (he : g x = .error e) : False := by
  simp only [doubleOps, Option.some.injEq] at hg
  rcases hg with hg | hg | hg | hg <;> subst hg <;> cases he

/-- The concatenation of `string` throws nothing. -/
theorem stringOps_binary_error (g : Str → Str → Res Str)
    (hg : (stringOps D).add = some g ∨ (stringOps D).sub = some g ∨ (stringOps D).mul = some g ∨
      (stringOps D).div = some g) (x y : Str) (e : Exception) (he : g x y = .error e) : False := by
  simp only [stringOps, Option.some.injEq] at hg
  rcases hg with hg | hg | hg | hg
  · subst hg
    cases he
  all_goals cases hg

theorem stringOps_unary_error (g : Str → Res Str)
    (hg : (stringOps D).abs = some g ∨ (stringOps D).sin = some g ∨ (stringOps D).cos = some g ∨
      (stringOps D).tan = some g) (x : Str) (e : Exception) (_he : g x = .error e) : False := by
  simp [stringOps] at hg

/-- A cell of type `double` or `string` whose evaluation does not return
throws `DependencyLoopException` or `InvalidTypeException`; for a cell of
type `int` the fault of the division is the third outcome. -/
theorem getContentText_error (h : Host D) (s : Sheet D) (cell : CellPtr D) (e : Exception)
    (he : s.getContentText h cell = .error e) :
    e = .DependencyLoopException ∨ e = .InvalidTypeException ∨
      (e = .ArithmeticFault ∧ cell.obj.ty = .int) := by
  unfold getContentText at he
  simp only at he
  cases hobj : cell.obj with
  | int c =>
    rw [hobj] at he
    simp only at he
    cases hr : getContent (intOps h) s (s.linkCount + (CellBase.int c).linkCount + 1) [] cell.ptr c with
    | ok v =>
      rw [hr] at he
      cases he
    | diverge =>
      rw [hr] at he
      cases he
    | error e2 =>
      rw [hr] at he
      cases he
      have := getContent_error (intOps h) s
        (P := fun e => e = .DependencyLoopException ∨ e = .InvalidTypeException ∨
          e = .ArithmeticFault)
        (Or.inl rfl) (Or.inr (Or.inl rfl))
        (fun g hg x y e he => Or.inr (Or.inr (intOps_binary_error h g hg x y e he)))
        (fun g hg x e he => Or.inr (Or.inr (intOps_unary_error h g hg x e he)))
        _ _ _ _ _ hr
      rcases this with h1 | h1 | h1
      · exact Or.inl h1
      · exact Or.inr (Or.inl h1)
      · exact Or.inr (Or.inr ⟨h1, rfl⟩)
  | double c =>
    rw [hobj] at he
    simp only at he
    cases hr : getContent (doubleOps h) s (s.linkCount + (CellBase.double c).linkCount + 1) []
        cell.ptr c with
    | ok v =>
      rw [hr] at he
      cases he
    | diverge =>
      rw [hr] at he
      cases he
    | error e2 =>
      rw [hr] at he
      cases he
      have := getContent_error (doubleOps h) s
        (P := fun e => e = .DependencyLoopException ∨ e = .InvalidTypeException)
        (Or.inl rfl) (Or.inr rfl)
        (fun g hg x y e he => (doubleOps_binary_error h g hg x y e he).elim)
        (fun g hg x e he => (doubleOps_unary_error h g hg x e he).elim)
        _ _ _ _ _ hr
      rcases this with h1 | h1
      · exact Or.inl h1
      · exact Or.inr (Or.inl h1)
  | string c =>
    rw [hobj] at he
    simp only at he
    cases hr : getContent (stringOps D) s (s.linkCount + (CellBase.string c).linkCount + 1) []
        cell.ptr c with
    | ok v =>
      rw [hr] at he
      cases he
    | diverge =>
      rw [hr] at he
      cases he
    | error e2 =>
      rw [hr] at he
      cases he
      have := getContent_error (stringOps D) s
        (P := fun e => e = .DependencyLoopException ∨ e = .InvalidTypeException)
        (Or.inl rfl) (Or.inr rfl)
        (fun g hg x y e he => (stringOps_binary_error g hg x y e he).elim)
        (fun g hg x e he => (stringOps_unary_error g hg x e he).elim)
        _ _ _ _ _ hr
      rcases this with h1 | h1
      · exact Or.inl h1
      · exact Or.inr (Or.inl h1)

end Sheet

/-! ## Operands joined by an operator, and the sum of strings -/

namespace Parser

variable {D T : Type}

/-- Two operands that are read as one section each, joined by an operator,
parse to the node of the operator over what the operands parse to. -/
theorem parseSource_unit_pair (ops : TypeOps D T) (o : BinOp) {x y : Str} (hx : ScanUnit x)
    (hy : ScanUnit y) {d d1 d2 : List Address} {g1 g2 : Function T}
    (h1 : parseSource ops x d = .ok (g1, d1)) (h2 : parseSource ops y d1 = .ok (g2, d2)) :
    parseSource ops (x ++ o.char :: y) d = .ok (o.node g1 g2, d2) := by
  have hchain : x ++ o.char :: y = chainOf x [(o, y)] := by simp [chainOf]
  have hsec : chainSections x [(o, y)] = [x] ++ [[o.char], y] := by simp [chainSections]
  unfold parseSource at h1 h2 ⊢
  rw [splitLogical_unit hx] at h1
  rw [splitLogical_unit hy] at h2
  simp only [Res.bind_ok] at h1 h2
  rw [hchain, splitLogical_chain x [(o, y)] hx (fun p hp => by
    simp only [List.mem_singleton] at hp
    subst hp
    exact hy)]
  simp only [Res.bind_ok]
  rw [← hchain]
  have hlen : (x ++ o.char :: y).length = x.length + y.length + 1 := by
    simp
    omega
  rw [hlen, show 2 * (x.length + y.length + 1) + 4 = (2 * (x.length + y.length + 1) + 3) + 1
    from rfl, hsec, parse_many _ _ _ _ (by simp)]
  obtain ⟨e1, e2, e3, e4, e5⟩ := last_two_append [x] [o.char] y
  rw [e1, e2, e3, e4, e5]
  rw [if_pos ⟨by simp, rfl⟩]
  simp only [List.length_singleton, gt_iff_lt, lt_self_iff_false, if_false, List.headD_cons]
  rw [splitLogical_unit hx]
  simp only [Res.bind_ok]
  rw [parse_mono_ok ops (by omega) h1]
  simp only [Res.bind_ok]
  rw [splitLogical_unit hy]
  simp only [Res.bind_ok]
  rw [parse_mono_ok ops (by omega) h2]
  simp only [Res.bind_ok]
  rw [mkOperation_char]
  rfl

/-- Two string literals joined by an operator parse to the node of the
operator over the two literals. -/
theorem parseSource_string_pair (D : Type) (o : BinOp) (u v : Str) (d : List Address) :
    parseSource (stringOps D) (stringToString u true ++ o.char :: stringToString v true) d
      = .ok (o.node (.Literal u) (.Literal v), d) :=
  parseSource_unit_pair (stringOps D) o
    (scanUnit_quoted _ (Utils.wellEscaped_escapeString u))
    (scanUnit_quoted _ (Utils.wellEscaped_escapeString v))
    (parseSource_string_literal D u d) (parseSource_string_literal D v d)

end Parser

namespace Function

variable {D : Type}

/-- The value of the `string` sum is the value of the left argument followed
by the value of the right argument; the sum returns only when both arguments
do, and what it throws one of its arguments throws. -/
theorem evaluate_add_string (link : List Nat → Address → Res Str) (path : List Nat)
    (a b : Function Str) :
    (∀ x y, a.evaluate (stringOps D) link (0 :: path) = .ok x →
        b.evaluate (stringOps D) link (1 :: path) = .ok y →
        (Function.Add a b).evaluate (stringOps D) link path = .ok (x ++ y)) ∧
      (∀ v, (Function.Add a b).evaluate (stringOps D) link path = .ok v →
        ∃ x y, a.evaluate (stringOps D) link (0 :: path) = .ok x ∧
          b.evaluate (stringOps D) link (1 :: path) = .ok y ∧ v = x ++ y) ∧
      ∀ e, (Function.Add a b).evaluate (stringOps D) link path = .error e →
        a.evaluate (stringOps D) link (0 :: path) = .error e ∨
          b.evaluate (stringOps D) link (1 :: path) = .error e := by
  have hadd : (Function.Add a b).evaluate (stringOps D) link path
      = (a.evaluate (stringOps D) link (0 :: path)).bind fun x =>
          (b.evaluate (stringOps D) link (1 :: path)).bind fun y => .ok (x ++ y) := rfl
  rw [hadd]
  refine ⟨fun x y hx hy => by rw [hx, hy]; rfl, fun v hv => ?_, fun e he => ?_⟩
  · cases hx : a.evaluate (stringOps D) link (0 :: path) with
    | ok x =>
      rw [hx, Res.bind_ok] at hv
      cases hy : b.evaluate (stringOps D) link (1 :: path) with
      | ok y =>
        rw [hy, Res.bind_ok] at hv
        cases hv
        exact ⟨x, y, rfl, rfl, rfl⟩
      | error e =>
        rw [hy] at hv
        cases hv
      | diverge =>
        rw [hy] at hv
        cases hv
    | error e =>
      rw [hx] at hv
      cases hv
    | diverge =>
      rw [hx] at hv
      cases hv
  · cases hx : a.evaluate (stringOps D) link (0 :: path) with
    | ok x =>
      rw [hx, Res.bind_ok] at he
      cases hy : b.evaluate (stringOps D) link (1 :: path) with
      | ok y =>
        rw [hy, Res.bind_ok] at he
        cases he
      | error e2 =>
        rw [hy] at he
        cases he
        exact Or.inr rfl
      | diverge =>
        rw [hy] at he
        cases he
    | error e1 =>
      rw [hx] at he
      cases he
      exact Or.inl rfl
    | diverge =>
      rw [hx] at he
      cases he

end Function

/-! ## A double quote inside a section -/

namespace Parser

variable {D T : Type}

/-- A double quote read while `cur` is not empty is rejected: so is a quote
that follows characters that are no separator, no quote and no white
space. -/
theorem splitScan_quote_inside (seps : Str) (hq : '"' ∉ seps) (sk : Bool) (rest : List Char)
    (res : List Str) :
    ∀ (w : List Char) (cur : Str) (l : Int), cur ++ w ≠ [] →
      (∀ c ∈ w, c ∉ seps ∧ c ≠ '"' ∧ isspace c = false) →
      splitScan seps sk .code (w ++ '"' :: rest) cur res l
        = .error .IncorrectFormulaSyntaxException := by
  intro w
  induction w with
  | nil =>
    intro cur l hne _
    have hsp : ¬ (sk = true ∧ isspace '"' = true) := by
      rintro ⟨-, h⟩
      revert h
      decide
    have hsep : ¬ (seps.contains '"' = true ∧ l = 0) := fun hh => hq (by simpa using hh.1)
    have hcur : (!cur.isEmpty) = true := by
      cases cur with
      | nil => simp at hne
      | cons c r => rfl
    rw [List.nil_append, splitScan_code_cons, if_neg hsp, if_neg hsep, if_pos rfl, if_pos hcur]
  | cons c r ih =>
    intro cur l _ hw
    obtain ⟨c1, c2, c3⟩ := hw c (List.mem_cons_self _ _)
    have hsp : ¬ (sk = true ∧ isspace c = true) := by
      rw [c3]
      rintro ⟨-, h⟩
      cases h
    have hsep : ¬ (seps.contains c = true ∧ l = 0) := fun hh => c1 (by simpa using hh.1)
    rw [List.cons_append, splitScan_code_cons, if_neg hsp, if_neg hsep, if_neg c2]
    exact ih _ _ (by simp) (fun x hx => hw x (List.mem_cons_of_mem _ hx))

/-- A source in which a double quote follows a first run of characters that
are no separator, no quote and no white space is rejected, whatever the
type. -/
theorem parseSource_quote_inside (ops : TypeOps D T) (w rest : Str) (d : List Address)
    (hne : w ≠ []) (hw : ∀ c ∈ w, c ∉ defaultSeparators ∧ c ≠ '"' ∧ isspace c = false) :
    parseSource ops (w ++ '"' :: rest) d = .error .IncorrectFormulaSyntaxException := by
  unfold parseSource
  rw [splitLogical_scan,
    splitScan_quote_inside defaultSeparators (by decide) true rest [] w [] 0 (by simpa using hne)
      hw]
  rfl

end Parser

/-! ## Evaluation: division, links, cycles and termination -/

variable {D : Type}

set_option maxRecDepth 100000

/-- The quotient that truncates toward zero: its magnitude is the quotient of
the magnitudes rounded down, its sign the product of the signs. -/
theorem tdiv_sign_natAbs (a b : Int) :
    Int.tdiv a b = a.sign * b.sign * ((a.natAbs / b.natAbs : Nat) : Int) := by
  obtain ⟨n, rfl | rfl⟩ := Int.eq_nat_or_neg a <;>
    obtain ⟨m, rfl | rfl⟩ := Int.eq_nat_or_neg b <;>
    rcases Nat.eq_zero_or_pos n with rfl | hn <;>
    rcases Nat.eq_zero_or_pos m with rfl | hm <;>
    simp [Int.neg_tdiv, Int.tdiv_neg, Int.sign_neg, Int.natAbs_neg, ← Int.ofNat_tdiv,
      Int.sign_natCast_of_ne_zero, *, Nat.pos_iff_ne_zero.mp]

/-- C23 (the code departs from the claim): `1-(2-3)` parses as `int` to a
formula that evaluates to 2 in the empty sheet; its `toSource()` is `1-2-3`,
the parentheses being lost, and the formula parsed from `1-2-3` evaluates to
-4 in the empty sheet. -/
theorem toSource_changes_value :
    (Parser.parseSource (intOps exampleHost) (str "1-(2-3)") []).bind
        (fun r => (Sheet.empty ExampleDouble).evaluate (intOps exampleHost) r.1) = .ok 2 ∧
      (Parser.parseSource (intOps exampleHost) (str "1-(2-3)") []).bind
        (fun r => .ok (r.1.toSource (intOps exampleHost))) = .ok (str "1-2-3") ∧
      (Parser.parseSource (intOps exampleHost) (str "1-2-3") []).bind
        (fun r => (Sheet.empty ExampleDouble).evaluate (intOps exampleHost) r.1)
        = .ok (-4) := by
  decide

/-- C25: when the operands of the `int` formula `l/r` evaluate to `a` and `b`
with `b` not zero and the quotient representable (not `INT_MIN / -1`), the
formula evaluates to the quotient of `a` by `b` truncated toward zero: its
magnitude is the quotient of the magnitudes rounded down and its sign the
product of the signs of `a` and `b`. The `int` formula `0-7/2` evaluates to
-3 in the empty sheet. -/
theorem int_division_truncates (h : Host D) (link : List Nat → Address → Res Int)
    (path : List Nat) (l r : Function Int) (a b : Int)
    (hl : l.evaluate (intOps h) link (0 :: path) = .ok a)
    (hr : r.evaluate (intOps h) link (1 :: path) = .ok b)
    (hb : b ≠ 0) (hq : ¬ (a = INT_MIN ∧ b = -1)) :
    (Function.Div l r).evaluate (intOps h) link path = .ok (Int.tdiv a b) ∧
      Int.tdiv a b = a.sign * b.sign * ((a.natAbs / b.natAbs : Nat) : Int) ∧
      (Parser.parseSource (intOps exampleHost) (str "0-7/2") []).bind
        (fun p => (Sheet.empty ExampleDouble).evaluate (intOps exampleHost) p.1)
        = .ok (-3) := by
  refine ⟨?_, tdiv_sign_natAbs a b, by decide⟩
  rw [show (Function.Div l r).evaluate (intOps h) link path
    = Function.binary (some intDiv) (fun _ => l.evaluate (intOps h) link (0 :: path))
        (fun _ => r.evaluate (intOps h) link (1 :: path)) from rfl]
  simp only [Function.binary, hl, hr, Res.bind_ok, intDiv]
  rw [if_neg]
  rintro (h0 | h1)
  · exact hb h0
  · exact hq h1

/-- Witness of C25: with the operands `0-7` and `2`, of values -7 and 2, the
formula `(0-7)/2` evaluates to -3. -/
theorem int_division_truncates_witness :
    (Function.Div (.Sub (.Literal 0) (.Literal 7)) (.Literal 2)).evaluate (intOps exampleHost)
        (fun _ _ => .error .InvalidTypeException) [] = .ok (Int.tdiv (-7) 2) ∧
      Int.tdiv (-7) 2 = -3 :=
  ⟨(int_division_truncates exampleHost (fun _ _ => .error .InvalidTypeException) []
      (.Sub (.Literal 0) (.Literal 7)) (.Literal 2) (-7) 2 (by decide) (by decide) (by decide)
      (by decide)).1, by decide⟩

/-- C26: for each of the three types, a link to `A` in a cell (its flag not
set) and a formula that is a link to `A` on its own throw
`InvalidTypeException` when the cell at `A` has another declared type, and
evaluate the cell at `A` when it has the type: with the flag of the link set
for the link in a cell, which for the formula on its own is the content of the
cell at `A`. At an absent address a `string` link evaluates to the empty
string, an `int` or `double` link throws `InvalidTypeException`. After
`setCellContent(D1, "=D2")` with `D2` absent, `D1` evaluates to the empty
text. -/
theorem link_type_checked (h : Host D) :
    Sheet.LinkTypeChecked (intOps h) ∧ Sheet.LinkTypeChecked (doubleOps h) ∧
      Sheet.LinkTypeChecked (stringOps D) ∧
      (∀ (s : Sheet D) (A : Address), s.stored A = none →
        s.evaluate (stringOps D) (.Link A) = .ok [] ∧
        s.evaluate (intOps h) (.Link A) = .error .InvalidTypeException ∧
        s.evaluate (doubleOps h) (.Link A) = .error .InvalidTypeException) ∧
      ((Sheet.empty ExampleDouble).run exampleHost
        [.setCellContent (addr "D1") (str "=D2")]).textAt exampleHost (addr "D1") = .ok [] :=
  ⟨Sheet.linkTypeChecked_of_sound (intOps_sound h),
    Sheet.linkTypeChecked_of_sound (doubleOps_sound h),
    Sheet.linkTypeChecked_of_sound (stringOps_sound D),
    fun s A hA => Sheet.evaluate_link_absent h s A hA, by decide⟩

/-- Witness of C26: in the sheet with the string cell `A1` of source `abc`,
the `string` formula `A1` evaluates to the content of `A1`, which is `abc`,
and the `int` formula `A1` throws `InvalidTypeException`. -/
theorem link_type_checked_witness :
    textSheet.Inv ∧
      textSheet.evaluate (stringOps ExampleDouble) (.Link (addr "A1"))
        = Sheet.getContent (stringOps ExampleDouble) textSheet
            (textSheet.linkCount + (textSheet.getCell (addr "A1")).obj.linkCount + 1) []
            (textSheet.getCell (addr "A1")).ptr
            ⟨addr "A1", [], false, .Literal (str "abc")⟩ ∧
      textSheet.evaluate (stringOps ExampleDouble) (.Link (addr "A1")) = .ok (str "abc") ∧
      textSheet.evaluate (intOps exampleHost) (.Link (addr "A1"))
        = .error .InvalidTypeException :=
  ⟨Sheet.run_inv exampleHost _ (Sheet.Inv.empty _),
    (((link_type_checked exampleHost).2.2.1.2 textSheet (addr "A1")
      (Sheet.run_inv exampleHost _ (Sheet.Inv.empty _))).2
        ⟨addr "A1", [], false, .Literal (str "abc")⟩ (by decide)),
    by decide, by decide⟩

/-- Counterexample to C27: the string cell `A1` of source `=A1-A1` links to
itself, and its evaluation throws `InvalidTypeException`, the `string`
subtraction throwing before any link is evaluated; from the string cell
`A1` of source `=B1` the cycle of the `int` cell `B1` of source `=B1` is
reachable, but the evaluation of `A1` throws `InvalidTypeException` at the
type check of its link; and the `int` cell `A1` of source `=B1+A1+B1`, where
`B1` is the `int` cell of source `=1/0`, links to itself, but its evaluation
ends in the fault of the division by zero of `B1`, which is evaluated before
the link to `A1` whichever operand `Add<int>::evaluate` evaluates first, and
no exception is thrown. -/
theorem cycle_raises_invalid_type :
    (((Sheet.empty ExampleDouble).run exampleHost
        [.setCellContent (addr "A1") (str "=A1-A1")]).CycleReachable (addr "A1") ∧
      ((Sheet.empty ExampleDouble).run exampleHost
        [.setCellContent (addr "A1") (str "=A1-A1")]).textAt exampleHost (addr "A1")
        = .error .InvalidTypeException) ∧
      (((Sheet.empty ExampleDouble).run exampleHost
        [.setCellType .int (addr "B1"), .setCellContent (addr "B1") (str "=B1"),
         .setCellContent (addr "A1") (str "=B1")]).CycleReachable (addr "A1") ∧
      ((Sheet.empty ExampleDouble).run exampleHost
        [.setCellType .int (addr "B1"), .setCellContent (addr "B1") (str "=B1"),
         .setCellContent (addr "A1") (str "=B1")]).textAt exampleHost (addr "A1")
        = .error .InvalidTypeException) ∧
      ((Sheet.empty ExampleDouble).run exampleHost
        [.setCellType .int (addr "B1"), .setCellContent (addr "B1") (str "=1/0"),
         .setCellType .int (addr "A1"),
         .setCellContent (addr "A1") (str "=B1+A1+B1")]).CycleReachable (addr "A1") ∧
      ((Sheet.empty ExampleDouble).run exampleHost
        [.setCellType .int (addr "B1"), .setCellContent (addr "B1") (str "=1/0"),
         .setCellType .int (addr "A1"),
         .setCellContent (addr "A1") (str "=B1+A1+B1")]).textAt exampleHost (addr "A1")
        = .error .ArithmeticFault :=
  ⟨⟨⟨addr "A1", Relation.ReflTransGen.refl,
      Relation.TransGen.single (by unfold Sheet.LinksTo; decide)⟩, by decide⟩,
    ⟨⟨addr "B1", Relation.ReflTransGen.single (by unfold Sheet.LinksTo; decide),
      Relation.TransGen.single (by unfold Sheet.LinksTo; decide)⟩,
    by decide⟩,
    ⟨addr "A1", Relation.ReflTransGen.refl,
      Relation.TransGen.single (by unfold Sheet.LinksTo; decide)⟩, by decide⟩

/-- C27 (amended): in any sheet the evaluation of a cell from which a link
cycle is reachable returns no value and ends: it throws
`DependencyLoopException`, or it throws `InvalidTypeException`, or, for a cell
of type `int` only, it ends in the fault of an `int` division (by zero, or of
`INT_MIN` by `-1`), which ends the process without an exception. For stored
cells of one declared type whose formulas are the pure links to the next cell
of a ring (a single cell that links to itself included), the evaluated text of
each of them is `DependencyLoopException`. -/
theorem cycle_raises_error (h : Host D) (s : Sheet D) :
    (∀ a, s.CycleReachable a →
        s.textAt h a = .error .DependencyLoopException ∨
          s.textAt h a = .error .InvalidTypeException ∨
          (s.textAt h a = .error .ArithmeticFault ∧ (s.getCell a).obj.ty = .int)) ∧
      ∀ ring : List Address,
        (s.PureLinkRing (intOps h) ring ∨ s.PureLinkRing (doubleOps h) ring ∨
          s.PureLinkRing (stringOps D) ring) →
        ∀ a ∈ ring, s.textAt h a = .error .DependencyLoopException := by
  refine ⟨fun a ha => ?_, fun ring hring a ha => Sheet.textAt_ring h s ring hring a ha⟩
  obtain ⟨e, he⟩ := Sheet.textAt_cycle h s a ha
  rcases Sheet.getContentText_error h s (s.getCell a) e he with h1 | h1 | ⟨h1, h2⟩
  · exact Or.inl (by rw [he, h1])
  · exact Or.inr (Or.inl (by rw [he, h1]))
  · exact Or.inr (Or.inr ⟨by rw [he, h1], h2⟩)

/-- Witness of C27 (amended): the string cells `A1` of source `=B1` and `B1`
of source `=A1` form a ring, so that a cycle is reachable from `A1`, and the
evaluated text of `A1` is `DependencyLoopException`. -/
theorem cycle_raises_error_witness :
    Sheet.PureLinkRing (stringOps ExampleDouble)
        ((Sheet.empty ExampleDouble).run exampleHost
          [.setCellContent (addr "A1") (str "=B1"), .setCellContent (addr "B1") (str "=A1")])
        [addr "A1", addr "B1"] ∧
      ((Sheet.empty ExampleDouble).run exampleHost
        [.setCellContent (addr "A1") (str "=B1"),
         .setCellContent (addr "B1") (str "=A1")]).textAt exampleHost (addr "A1")
        = .error .DependencyLoopException ∧
      Sheet.CycleReachable
        ((Sheet.empty ExampleDouble).run exampleHost
          [.setCellContent (addr "A1") (str "=B1"), .setCellContent (addr "B1") (str "=A1")])
        (addr "A1") ∧
      (((Sheet.empty ExampleDouble).run exampleHost
          [.setCellContent (addr "A1") (str "=B1"),
           .setCellContent (addr "B1") (str "=A1")]).textAt exampleHost (addr "A1")
          = .error .DependencyLoopException ∨
        ((Sheet.empty ExampleDouble).run exampleHost
          [.setCellContent (addr "A1") (str "=B1"),
           .setCellContent (addr "B1") (str "=A1")]).textAt exampleHost (addr "A1")
          = .error .InvalidTypeException ∨
        (((Sheet.empty ExampleDouble).run exampleHost
          [.setCellContent (addr "A1") (str "=B1"),
           .setCellContent (addr "B1") (str "=A1")]).textAt exampleHost (addr "A1")
          = .error .ArithmeticFault ∧
          (((Sheet.empty ExampleDouble).run exampleHost
            [.setCellContent (addr "A1") (str "=B1"),
             .setCellContent (addr "B1") (str "=A1")]).getCell (addr "A1")).obj.ty = .int)) :=
  have hring : Sheet.PureLinkRing (stringOps ExampleDouble)
      ((Sheet.empty ExampleDouble).run exampleHost
        [.setCellContent (addr "A1") (str "=B1"), .setCellContent (addr "B1") (str "=A1")])
      [addr "A1", addr "B1"] := by
    intro i hi
    have hi2 : i < 2 := hi
    interval_cases i
    · exact ⟨⟨0, .string ⟨addr "A1", [addr "B1"], true, .Link (addr "B1")⟩⟩, _, by decide, rfl,
        rfl⟩
    · exact ⟨⟨1, .string ⟨addr "B1", [addr "A1"], true, .Link (addr "A1")⟩⟩, _, by decide, rfl,
        rfl⟩
  have hcycle : Sheet.CycleReachable
      ((Sheet.empty ExampleDouble).run exampleHost
        [.setCellContent (addr "A1") (str "=B1"), .setCellContent (addr "B1") (str "=A1")])
      (addr "A1") :=
    ⟨addr "A1", Relation.ReflTransGen.refl,
      Relation.TransGen.tail (b := addr "B1")
        (Relation.TransGen.single (by unfold Sheet.LinksTo; decide))
        (by unfold Sheet.LinksTo; decide)⟩
  ⟨hring, (cycle_raises_error exampleHost _).2 [addr "A1", addr "B1"] (Or.inr (Or.inr hring))
    (addr "A1") (by decide), hcycle, (cycle_raises_error exampleHost _).1 (addr "A1") hcycle⟩

/-- C28: in a sheet that satisfies the representation invariant and whose
link graph has no cycle, the evaluated text of the cell at any address is not
`DependencyLoopException`. Every evaluation starts with no flag set, the flag
of a link being cleared on both ways out of `Link::evaluate`. -/
theorem guard_no_false_positive (h : Host D) (s : Sheet D) (hinv : s.Inv) (hac : s.Acyclic)
    (a : Address) : s.textAt h a ≠ .error .DependencyLoopException :=
  Sheet.textAt_no_loop h s hinv hac a

/-- Witness of C28: the diamond `D1` = `=B1+C1`, `B1` = `=A1`, `C1` = `=A1`,
`A1` = `a`, extended by `E1` = `=D1+D1`, has no cycle; `E1`, which reaches
`A1` along four paths, does not throw `DependencyLoopException` and evaluates
to `aaaa`. -/
theorem guard_no_false_positive_witness :
    ((Sheet.empty ExampleDouble).run exampleHost
        (diamondOps ++ [.setCellContent (addr "E1") (str "=D1+D1")])).Inv ∧
      ((Sheet.empty ExampleDouble).run exampleHost
        (diamondOps ++ [.setCellContent (addr "E1") (str "=D1+D1")])).Acyclic ∧
      ((Sheet.empty ExampleDouble).run exampleHost
        (diamondOps ++ [.setCellContent (addr "E1") (str "=D1+D1")])).textAt exampleHost
          (addr "E1") ≠ .error .DependencyLoopException ∧
      ((Sheet.empty ExampleDouble).run exampleHost
        (diamondOps ++ [.setCellContent (addr "E1") (str "=D1+D1")])).textAt exampleHost
          (addr "E1") = .ok (str "aaaa") :=
  have hac : ((Sheet.empty ExampleDouble).run exampleHost
      (diamondOps ++ [.setCellContent (addr "E1") (str "=D1+D1")])).Acyclic :=
    Sheet.acyclic_of_rank _ (fun a => (a.m_Col - 1).toNat) (by decide)
  ⟨Sheet.run_inv exampleHost _ (Sheet.Inv.empty _), hac,
    guard_no_false_positive exampleHost _ (Sheet.run_inv exampleHost _ (Sheet.Inv.empty _)) hac
      (addr "E1"), by decide⟩

/-- C29: for every sheet and every cell, `getContentText` returns a text or
throws after finitely many steps; for the cell at any address the calls of
`getContent` are nested at most as deep as the number of `Link` nodes in the
stored cells, and one. The self link `A1` = `=A1` throws
`DependencyLoopException`. -/
theorem getContentText_terminates (h : Host D) (s : Sheet D) :
    (∀ cell, s.getContentText h cell ≠ .diverge) ∧
      (∀ a, s.getContentTextWithin h (s.linkCount + 1) (s.getCell a)
        = s.getContentText h (s.getCell a)) ∧
      ((Sheet.empty ExampleDouble).run exampleHost
        [.setCellContent (addr "A1") (str "=A1")]).textAt exampleHost (addr "A1")
        = .error .DependencyLoopException :=
  ⟨fun cell => Sheet.getContentText_ne_diverge h s cell,
    fun a => Sheet.getContentTextWithin_eq h s a, by decide⟩

/-! ## Printing and parsing back -/

variable {D : Type}

set_option maxRecDepth 100000

/-- C21: two sources that differ only in the case of letters outside their
string literals, so in particular in the case of the identifiers of
functions, have the same outcome of `parseSource`, for each of the three
types; `toSource` writes the identifier of a function in capital letters
before its parenthesised argument. `AbS(5)+sIn(cos(6))` parsed as `int`
prints as `ABS(5)+SIN(COS(6))`. -/
theorem identifiers_case_insensitive (h : Host D) (s t : Str) (d : List Address)
    (hst : Parser.CaseVariant s t) :
    Parser.parseSource (intOps h) s d = Parser.parseSource (intOps h) t d ∧
      Parser.parseSource (doubleOps h) s d = Parser.parseSource (doubleOps h) t d ∧
      Parser.parseSource (stringOps D) s d = Parser.parseSource (stringOps D) t d ∧
      (∀ (T : Type) (ops : TypeOps D T) (fn : FnName) (a : Function T),
        (fn.node a).toSource ops = fn.upper ++ "(".toList ++ a.toSource ops ++ ")".toList) ∧
      (Parser.parseSource (intOps exampleHost) (str "AbS(5)+sIn(cos(6))") []).bind
        (fun r => .ok (r.1.toSource (intOps exampleHost))) = .ok (str "ABS(5)+SIN(COS(6))") := by
  unfold Parser.CaseVariant at hst
  refine ⟨?_, ?_, ?_, fun T ops fn a => by cases fn <;> simp [FnName.node, FnName.upper,
    Function.toSource], by decide⟩
  · rw [← Parser.parseSource_fold _ (Parser.caseBlind_of_shape _ (Parser.literalShape_int h)) s,
      hst, Parser.parseSource_fold _ (Parser.caseBlind_of_shape _ (Parser.literalShape_int h))]
  · rw [← Parser.parseSource_fold _ (Parser.caseBlind_of_shape _ (Parser.literalShape_double h)) s,
      hst, Parser.parseSource_fold _ (Parser.caseBlind_of_shape _ (Parser.literalShape_double h))]
  · rw [← Parser.parseSource_fold _ (Parser.caseBlind_of_shape _ (Parser.literalShape_string D)) s,
      hst, Parser.parseSource_fold _ (Parser.caseBlind_of_shape _ (Parser.literalShape_string D))]

/-- Witness of C21: `AbS(5)+sIn(cos(6))` and `abs(5)+SIN(COS(6))` differ only
in the case of the identifiers, and parse as `int` to the same formula. -/
theorem identifiers_case_insensitive_witness :
    Parser.CaseVariant (str "AbS(5)+sIn(cos(6))") (str "abs(5)+SIN(COS(6))") ∧
      Parser.parseSource (intOps exampleHost) (str "AbS(5)+sIn(cos(6))") []
        = Parser.parseSource (intOps exampleHost) (str "abs(5)+SIN(COS(6))") [] :=
  ⟨by decide,
    (identifiers_case_insensitive exampleHost (str "AbS(5)+sIn(cos(6))")
      (str "abs(5)+SIN(COS(6))") [] (by decide)).1⟩

/-- Counterexample to C24: the `string` sources `abs("a")` and `("a")-("b")`,
whose roots are a function and `-`, are not accepted by the parser, which
throws `IncorrectFormulaSyntaxException`: `splitLogical` throws at a double
quote that does not start a section, and here the quote follows `abs(` or
`(`. The operands themselves are accepted: `"a"` parses to the literal and
`"a"-"b"` to the difference of two literals. -/
theorem string_literal_operand_rejected :
    Parser.parseSource (stringOps ExampleDouble) (str "abs(\"a\")") []
        = .error .IncorrectFormulaSyntaxException ∧
      Parser.parseSource (stringOps ExampleDouble) (str "(\"a\")-(\"b\")") []
        = .error .IncorrectFormulaSyntaxException ∧
      Parser.parseSource (stringOps ExampleDouble) (str "\"a\"") []
        = .ok (.Literal (str "a"), []) ∧
      Parser.parseSource (stringOps ExampleDouble) (str "\"a\"-\"b\"") []
        = .ok (.Sub (.Literal (str "a")) (.Literal (str "b")), []) := by
  decide

/-- C24 (amended): for the type `string`, `Add` evaluates to the value of its
left argument followed by the value of its right argument when both arguments
have a value, it returns only then, and what it throws one of its arguments
throws; `Sub`, `Mul`, `Div`, `Abs`, `Sin`, `Cos` and `Tan` throw
`InvalidTypeException` whatever their arguments. The parser accepts these
formulas in the following forms: two string literals joined by an operator
parse to the node of the operator; `(e1)op(e2)` parses to the node of `op`
and `name(e)` to the node of the function when the parts have no double quote
and parse (`e` having no comma and not being wrapped in parentheses); and the
text that `toSource` prints of a formula with valid addresses and no literal
below a function parses to a formula that prints the same. It rejects, with
`IncorrectFormulaSyntaxException`, a source in which a double quote follows a
first run of characters that are no operator, comma, double quote or white
space, as in `abs("a")` and `("a")-("b")`. `A1*B1`, `A1/B1` and `abs(A1)`
parse as `string`. `"Hello"+" "+"World!"` evaluates to `Hello World!`, and
the cell of source `="foo"+"bar"+"foo"` to `foobarfoo`. -/
theorem string_only_concatenates (D : Type) :
    (∀ (link : List Nat → Address → Res Str) (path : List Nat) (a b : Function Str),
      (∀ x y, a.evaluate (stringOps D) link (0 :: path) = .ok x →
        b.evaluate (stringOps D) link (1 :: path) = .ok y →
        (Function.Add a b).evaluate (stringOps D) link path = .ok (x ++ y)) ∧
      (∀ v, (Function.Add a b).evaluate (stringOps D) link path = .ok v →
        ∃ x y, a.evaluate (stringOps D) link (0 :: path) = .ok x ∧
          b.evaluate (stringOps D) link (1 :: path) = .ok y ∧ v = x ++ y) ∧
      ∀ e, (Function.Add a b).evaluate (stringOps D) link path = .error e →
        a.evaluate (stringOps D) link (0 :: path) = .error e ∨
          b.evaluate (stringOps D) link (1 :: path) = .error e) ∧
      (∀ (link : List Nat → Address → Res Str) (path : List Nat) (a b : Function Str),
        (Function.Sub a b).evaluate (stringOps D) link path = .error .InvalidTypeException ∧
        (Function.Mul a b).evaluate (stringOps D) link path = .error .InvalidTypeException ∧
        (Function.Div a b).evaluate (stringOps D) link path = .error .InvalidTypeException) ∧
      (∀ (link : List Nat → Address → Res Str) (path : List Nat) (fn : FnName)
          (a : Function Str),
        (fn.node a).evaluate (stringOps D) link path = .error .InvalidTypeException) ∧
      (∀ (o : BinOp) (u v : Str) (d : List Address),
        Parser.parseSource (stringOps D)
            (stringToString u true ++ o.char :: stringToString v true) d
          = .ok (o.node (.Literal u) (.Literal v), d)) ∧
      Parser.ParenthesesUnit (stringOps D) ∧ Parser.FunctionUnit (stringOps D) ∧
      (∀ f : Function Str, f.Printable (stringOps D) (fun _ => True) false →
        Parser.FixedPoint (stringOps D) (f.toSource (stringOps D))) ∧
      (∀ (w rest : Str) (d : List Address), w ≠ [] →
        (∀ c ∈ w, c ∉ Parser.defaultSeparators ∧ c ≠ '"' ∧ isspace c = false) →
        Parser.parseSource (stringOps D) (w ++ '"' :: rest) d
          = .error .IncorrectFormulaSyntaxException) ∧
      (Parser.parseSource (stringOps ExampleDouble) (str "A1*B1") []
          = .ok (.Mul (.Link (addr "A1")) (.Link (addr "B1")), [addr "A1", addr "B1"]) ∧
        Parser.parseSource (stringOps ExampleDouble) (str "A1/B1") []
          = .ok (.Div (.Link (addr "A1")) (.Link (addr "B1")), [addr "A1", addr "B1"]) ∧
        Parser.parseSource (stringOps ExampleDouble) (str "abs(A1)") []
          = .ok (.Abs (.Link (addr "A1")), [addr "A1"])) ∧
      (Parser.parseSource (stringOps ExampleDouble) (str "\"Hello\"+\" \"+\"World!\"") []).bind
        (fun r => (Sheet.empty ExampleDouble).evaluate (stringOps ExampleDouble) r.1)
        = .ok (str "Hello World!") ∧
      ((Sheet.empty ExampleDouble).run exampleHost
        [.setCellContent (addr "A1") (str "=\"foo\"+\"bar\"+\"foo\"")]).textAt exampleHost
          (addr "A1") = .ok (str "foobarfoo") :=
  ⟨fun link path a b => Function.evaluate_add_string link path a b,
    fun _ _ _ _ => ⟨rfl, rfl, rfl⟩,
    fun _ _ fn _ => by cases fn <;> rfl,
    fun o u v d => Parser.parseSource_string_pair D o u v d,
    Parser.parenthesesUnit_of_shape _ (Parser.literalShape_string D),
    Parser.functionUnit_of_shape _ (Parser.literalShape_string D),
    fun _ hf => Parser.printable_fixedPoint (stringOps D) (Parser.reprints_string D) hf,
    fun w rest d hne hw => Parser.parseSource_quote_inside (stringOps D) w rest d hne hw,
    by decide, by decide, by decide⟩

/-- Witness of C24 (amended): the sum of the literals `a` and `b` evaluates to
`ab`; from the `string` source `A1`, which parses to the link, the source
`SiN( A1 )` parses to `Sin(Link(A1))`, and from `A1` and `B1` the source
`(A1)-(B1)` to `Sub(Link(A1), Link(B1))`; and the difference of the literal
`a` and the link to `A1` prints as `"a"-A1`, which parses to a formula that
prints the same; and the source `abs("a")`, in which the quote follows
`abs(`, is rejected. -/
theorem string_only_concatenates_witness :
    (Function.Add (.Literal (str "a")) (.Literal (str "b"))).evaluate (stringOps ExampleDouble)
        (fun _ _ => .error .DependencyLoopException) [] = .ok (str "ab") ∧
      Parser.parseSource (stringOps ExampleDouble) (str "SiN( A1 )") []
        = .ok (.Sin (.Link (addr "A1")), [addr "A1"]) ∧
      Parser.parseSource (stringOps ExampleDouble) (str "(A1)-(B1)") []
        = .ok (.Sub (.Link (addr "A1")) (.Link (addr "B1")), [addr "A1", addr "B1"]) ∧
      (Function.Sub (.Literal (str "a")) (.Link (addr "A1"))).toSource (stringOps ExampleDouble)
        = str "\"a\"-A1" ∧
      Parser.FixedPoint (stringOps ExampleDouble)
        ((Function.Sub (.Literal (str "a")) (.Link (addr "A1"))).toSource
          (stringOps ExampleDouble)) ∧
      str "abs(" ++ '"' :: str "a\")" = str "abs(\"a\")" ∧
      Parser.parseSource (stringOps ExampleDouble) (str "abs(" ++ '"' :: str "a\")") []
        = .error .IncorrectFormulaSyntaxException :=
  ⟨((string_only_concatenates ExampleDouble).1 (fun _ _ => .error .DependencyLoopException) []
      (.Literal (str "a")) (.Literal (str "b"))).1 (str "a") (str "b") rfl rfl,
    (string_only_concatenates ExampleDouble).2.2.2.2.2.1 (str "SiN") .sin (str " A1 ") []
      [addr "A1"] (.Link (addr "A1")) (by decide) (by decide) (by decide) (by decide)
      (by decide),
    ((string_only_concatenates ExampleDouble).2.2.2.2.1 (str "A1") (str "B1") .sub [] [addr "A1"]
      [addr "A1", addr "B1"] (.Link (addr "A1")) (.Link (addr "B1")) (by decide) (by decide)
      (by decide) (by decide)).1,
    by decide,
    (string_only_concatenates ExampleDouble).2.2.2.2.2.2.1
      (.Sub (.Literal (str "a")) (.Link (addr "A1")))
      ⟨⟨trivial, fun hi => by cases hi⟩,
        (by unfold Address.Valid; decide : (addr "A1").Valid)⟩,
    by decide,
    (string_only_concatenates ExampleDouble).2.2.2.2.2.2.2.1 (str "abs(") (str "a\")") []
      (by decide) (by decide)⟩

/-- C30: for every string `v`, the text `Type<string>::toString(v, true)`
parses as `string` to the literal of `v` and appends no dependency; the
literal evaluates to `v`, its `toSource()` is the text again, and
`Type<string>::fromString` of the text as a literal is `v`. The source
`"some \"string\""` evaluates to `some "string"`. -/
theorem string_literal_round_trip (D : Type) (v : Str) (d : List Address) :
    Parser.parseSource (stringOps D) (stringToString v true) d = .ok (.Literal v, d) ∧
      (∀ (link : List Nat → Address → Res Str) (path : List Nat),
        (Function.Literal v).evaluate (stringOps D) link path = .ok v) ∧
      (Function.Literal v).toSource (stringOps D) = stringToString v true ∧
      stringFromString (stringToString v true) true = .ok v ∧
      (Parser.parseSource (stringOps ExampleDouble) (str "\"some \\\"string\\\"\"") []).bind
        (fun r => (Sheet.empty ExampleDouble).evaluate (stringOps ExampleDouble) r.1)
        = .ok (str "some \"string\"") :=
  ⟨Parser.parseSource_string_literal D v d, fun _ _ => rfl, rfl,
    Parser.stringFromString_literal v, by decide⟩

/-- C22: for the types `int` and `string`, the text that `toSource()` prints
of a formula that `parseSource` returns parses again, whatever the
dependencies collected so far, to a formula that prints as the same text.
The parsed formula need not be the same tree: `1-(2-3)` prints as `1-2-3`,
which parses to the left-nested tree and prints as `1-2-3`. -/
theorem parse_print_fixed_point (h : Host D) :
    (∀ (s : Str) (d d1 : List Address) (f : Function Int),
      Parser.parseSource (intOps h) s d = .ok (f, d1) →
      ∃ g : Function Int,
        (∀ d2, Parser.parseSource (intOps h) (f.toSource (intOps h)) d2
          = .ok (g, d2 ++ g.links)) ∧
        g.toSource (intOps h) = f.toSource (intOps h)) ∧
    (∀ (s : Str) (d d1 : List Address) (f : Function Str),
      Parser.parseSource (stringOps D) s d = .ok (f, d1) →
      ∃ g : Function Str,
        (∀ d2, Parser.parseSource (stringOps D) (f.toSource (stringOps D)) d2
          = .ok (g, d2 ++ g.links)) ∧
        g.toSource (stringOps D) = f.toSource (stringOps D)) :=
  ⟨fun _ _ _ _ hp => Parser.parseSource_fixedPoint (intOps h) (Parser.reprints_int h) hp,
    fun _ _ _ _ hp => Parser.parseSource_fixedPoint (stringOps D) (Parser.reprints_string D) hp⟩

theorem parse_print_fixed_point_witness :
    Parser.parseSource (intOps exampleHost) (str "1-(2-3)") []
        = .ok (.Sub (.Literal 1) (.Sub (.Literal 2) (.Literal 3)), []) ∧
      (Function.Sub (.Literal 1) (.Sub (.Literal 2) (.Literal 3))).toSource (intOps exampleHost)
        = str "1-2-3" ∧
      ∃ g : Function Int,
        (∀ d2, Parser.parseSource (intOps exampleHost) (str "1-2-3") d2
          = .ok (g, d2 ++ g.links)) ∧
        g.toSource (intOps exampleHost) = str "1-2-3" :=
  ⟨by decide, by decide,
    (parse_print_fixed_point exampleHost).1 (str "1-(2-3)") [] []
      (.Sub (.Literal 1) (.Sub (.Literal 2) (.Literal 3))) (by decide)⟩

/-! ## Addresses, texts and termination -/

variable {D : Type}

set_option maxRecDepth 100000

/-- C31: for a column and a row from 1 to `INT_MAX`, `Address(col, row)` is
constructed, and the constructor from a text, given the text of that address,
returns the address again. The text of `Address(701, 654)` is `ZY654`. -/
theorem address_format_parse (col row : Int) (hc : 1 ≤ col ∧ col ≤ INT_MAX)
    (hr : 1 ≤ row ∧ row ≤ INT_MAX) :
    Address.make col row = .ok ⟨col, row⟩ ∧
      (Address.make col row).bind (fun a => Address.ofString a.toString)
        = Address.make col row ∧
      Address.toString ⟨701, 654⟩ = str "ZY654" := by
  have hm : Address.make col row = .ok ⟨col, row⟩ := by
    unfold Address.make
    rw [if_neg (by omega)]
  refine ⟨hm, ?_, by decide⟩
  rw [hm]
  exact Address.ofString_toString ⟨hc.1, hc.2, hr.1, hr.2⟩

theorem address_format_parse_witness :
    Address.make 701 654 = .ok ⟨701, 654⟩ ∧
      (Address.make 701 654).bind (fun a => Address.ofString a.toString)
        = Address.make 701 654 ∧
      Address.toString ⟨701, 654⟩ = str "ZY654" :=
  address_format_parse 701 654 (by decide) (by decide)

/-- C32: for a text of the form `[a-zA-Z]+[1-9][0-9]*` whose letters have a
value of at most `MAX_COL` and whose digits a value of at most `MAX_ROW`, the
constructor returns an address; its text is the text given with the letters
in upper case, its `colName()` the letters in upper case; and a text of that
form that is the same in upper case gives the same address.
`Address("ABCDEF123")` and `Address("aBcDeF123")` are equal. -/
theorem address_parse_format (s : Str) (hform : Parser.isLink s = true)
    (hcol : (Address.colValue (s.takeWhile isLetter) : Int) ≤ Address.MAX_COL)
    (hrow : (digitsValue (s.dropWhile isLetter) : Int) ≤ Address.MAX_ROW) :
    ∃ a : Address, Address.ofString s = .ok a ∧ a.toString = Utils.toUpper s ∧
      a.colName = Utils.toUpper (s.takeWhile isLetter) ∧
      (∀ t : Str, Parser.isLink t = true → Utils.toUpper t = Utils.toUpper s →
        Address.ofString t = .ok a) ∧
      Address.ofString (str "ABCDEF123") = Address.ofString (str "aBcDeF123") := by
  obtain ⟨e, hne, hL, hd, hh⟩ := Address.isLink_parts hform
  have hdne : s.dropWhile isLetter ≠ [] := by
    obtain ⟨c, r, h, -⟩ := hh
    rw [h]
    exact List.cons_ne_nil _ _
  have hpos := digitsValue_pos hd hh
  have hof := Address.ofString_parts _ _ [] hne hL hdne hd rfl hcol hpos hrow
  rw [List.append_nil, ← e] at hof
  obtain ⟨p1, p2⟩ := Address.toString_parts hne hL hd hh
  refine ⟨_, hof, ?_, p1, fun t ht hts => ?_, by decide⟩
  · rw [p2, Address.toUpper_link hform]
  · obtain ⟨q1, q2⟩ := Address.link_same_upper hform ht hts
    obtain ⟨e', hne', hL', hd', hh'⟩ := Address.isLink_parts ht
    have hdne' : t.dropWhile isLetter ≠ [] := by
      rw [q2]
      exact hdne
    have hof' := Address.ofString_parts _ _ [] hne' hL' hdne' hd' rfl
      (by rw [q1]; exact hcol) (by rw [q2]; exact hpos) (by rw [q2]; exact hrow)
    rw [List.append_nil, ← e', q1, q2] at hof'
    exact hof'

theorem address_parse_format_witness :
    Parser.isLink (str "zy654") = true ∧
      ∃ a : Address, Address.ofString (str "zy654") = .ok a ∧
        a.toString = Utils.toUpper (str "zy654") ∧
        a.colName = Utils.toUpper ((str "zy654").takeWhile isLetter) ∧
        (∀ t : Str, Parser.isLink t = true → Utils.toUpper t = Utils.toUpper (str "zy654") →
          Address.ofString t = .ok a) ∧
        Address.ofString (str "ABCDEF123") = Address.ofString (str "aBcDeF123") :=
  ⟨by decide, address_parse_format (str "zy654") (by decide) (by decide) (by decide)⟩

/-- C33: the value of letters is the bijective numeration in base 26 (the
`k`-th letter alone, capital or small, has the value `k`, and a letter more at
the end multiplies by 26 and adds the value of the letter); the constructor
gives `w1`, for letters `w` of a value of at most `MAX_COL`, the column of
that value; for a column from 1 to `INT_MAX`, `colName()` is made of capital
letters, has the column as value, and is the only such text, so that two
columns of the same name are equal. The columns of `A1`, `Z1`, `AA1`, `AZ1`,
`BA1`, `ZY1`, `ZZ1`, `AAA1`, `ABB1` are 1, 26, 27, 52, 53, 701, 702, 703, 730,
and these columns have these names. -/
theorem column_letters_base26 :
    (∀ k < 26, Address.colValue [Char.ofNat ('A'.toNat + k)] = k + 1 ∧
      Address.colValue [Char.ofNat ('a'.toNat + k)] = k + 1) ∧
    (∀ (w : Str) (c : Char),
      Address.colValue (w ++ [c]) = 26 * Address.colValue w + Address.colValue [c]) ∧
    (∀ w : Str, w ≠ [] → (∀ c ∈ w, isLetter c = true) →
      (Address.colValue w : Int) ≤ Address.MAX_COL →
      (Address.ofString (w ++ str "1")).bind (fun a => .ok a.col)
        = .ok (Address.colValue w : Int)) ∧
    (∀ a : Address, 1 ≤ a.col → a.col ≤ INT_MAX →
      (∀ c ∈ a.colName, c ∈ uppers) ∧ (Address.colValue a.colName : Int) = a.col ∧
      ∀ L : Str, (∀ c ∈ L, c ∈ uppers) → (Address.colValue L : Int) = a.col →
        L = a.colName) ∧
    (∀ a b : Address, 1 ≤ a.col → a.col ≤ INT_MAX → 1 ≤ b.col → b.col ≤ INT_MAX →
      a.colName = b.colName → a.col = b.col) ∧
    ([str "A1", str "Z1", str "AA1", str "AZ1", str "BA1", str "ZY1", str "ZZ1", str "AAA1",
        str "ABB1"].map (fun t => (Address.ofString t).bind (fun a => .ok a.col))
      = [.ok 1, .ok 26, .ok 27, .ok 52, .ok 53, .ok 701, .ok 702, .ok 703, .ok 730]) ∧
    ([1, 26, 27, 52, 53, 701, 702, 703, 730].map (fun c => Address.colName ⟨c, 1⟩)
      = [str "A", str "Z", str "AA", str "AZ", str "BA", str "ZY", str "ZZ", str "AAA",
          str "ABB"]) := by
  have hname : ∀ a : Address, 1 ≤ a.col → a.col ≤ INT_MAX →
      (∀ c ∈ a.colName, c ∈ uppers) ∧ (Address.colValue a.colName : Int) = a.col := by
    intro a h1 h2
    have hv : Address.Valid ⟨a.m_Col, 1⟩ :=
      ⟨h1, h2, le_refl _, (by show (1 : Int) ≤ Address.MAX_ROW; decide)⟩
    obtain ⟨-, -, c2, c3⟩ := Address.toString_spec hv
    exact ⟨c2, c3⟩
  refine ⟨by decide, fun w c => ?_, fun w hne hL hcol => ?_, fun a h1 h2 => ?_,
    fun a b a1 a2 b1 b2 hab => ?_, by decide, by decide⟩
  · rw [Address.colValue_append]
    simp [Address.colValue]
  · have := Address.ofString_parts w (str "1") [] hne hL (by decide) (by decide) rfl
      hcol (by decide) (by decide)
    rw [List.append_nil] at this
    rw [this]
    rfl
  · obtain ⟨n1, n2⟩ := hname a h1 h2
    refine ⟨n1, n2, fun L hL hv => ?_⟩
    exact Address.colValue_injective hL n1 (by
      have : (Address.colValue L : Int) = (Address.colValue a.colName : Int) := by rw [hv, n2]
      exact_mod_cast this)
  · have := (hname a a1 a2).2
    rw [hab, (hname b b1 b2).2] at this
    exact this.symm

theorem column_letters_base26_witness :
    (Address.ofString (str "zY" ++ str "1")).bind (fun a => .ok a.col)
        = .ok (Address.colValue (str "zY") : Int) ∧
      Address.colValue (str "zY") = 701 :=
  ⟨column_letters_base26.2.2.1 (str "zY") (by decide) (by decide) (by decide), by decide⟩

/-- C34: the constructor from a text accepts texts that are not of the form
`[a-zA-Z]+[1-9][0-9]*`: `A1x`, `A01` and `A1 2` give the address of column 1
and row 1, since `stoul` stops at the first character that is no digit; and a
row above `ULONG_MAX` leaves as `std::out_of_range`, not as
`InvalidArgumentException`. The texts `D0`, `D-2`, the empty text, `1`, `11`
and `_11` are rejected with `InvalidArgumentException`. -/
theorem address_accepts_malformed :
    Parser.isLink (str "A1x") = false ∧ Address.ofString (str "A1x") = .ok ⟨1, 1⟩ ∧
      Parser.isLink (str "A01") = false ∧ Address.ofString (str "A01") = .ok ⟨1, 1⟩ ∧
      Address.ofString (str "A1 2") = .ok ⟨1, 1⟩ ∧
      Address.ofString (str "A99999999999999999999999") = .error .StdOutOfRange ∧
      [str "D0", str "D-2", str "", str "1", str "11", str "_11"].map Address.ofString
        = List.replicate 6 (.error .InvalidArgumentException) := by
  decide

/-- C35: `Address(col, row)` throws `InvalidArgumentException` exactly when
`col <= 0` or `row <= 0`, and otherwise holds the two values; for addresses
`a` and `b` with columns and rows from 1 to `INT_MAX`, `a - b` is
`Address(a.col - b.col + 1, a.row - b.row + 1)`, whose arguments are within
`int`; it returns, with that column and row, exactly when `a.col >= b.col` and
`a.row >= b.row`, and throws `InvalidArgumentException` otherwise.
`Address("D5") - Address("B3")` is `Address("C3")`. -/
theorem address_subtraction (a b : Address) (ha : a.Valid) (hb : b.Valid) :
    (∀ col row : Int,
      (Address.make col row = .error .InvalidArgumentException ↔ col ≤ 0 ∨ row ≤ 0) ∧
      (¬ (col ≤ 0 ∨ row ≤ 0) → Address.make col row = .ok ⟨col, row⟩)) ∧
    a.sub b = Address.make (a.col - b.col + 1) (a.row - b.row + 1) ∧
    (INT_MIN ≤ a.col - b.col + 1 ∧ a.col - b.col + 1 ≤ INT_MAX ∧
      INT_MIN ≤ a.row - b.row + 1 ∧ a.row - b.row + 1 ≤ INT_MAX) ∧
    (b.col ≤ a.col ∧ b.row ≤ a.row →
      a.sub b = .ok ⟨a.col - b.col + 1, a.row - b.row + 1⟩) ∧
    (¬ (b.col ≤ a.col ∧ b.row ≤ a.row) → a.sub b = .error .InvalidArgumentException) ∧
    ((Address.ofString (str "D5")).bind fun x => (Address.ofString (str "B3")).bind fun y =>
        x.sub y) = Address.ofString (str "C3") := by
  obtain ⟨a1, a2, a3, a4⟩ := ha
  obtain ⟨b1, b2, b3, b4⟩ := hb
  have hmake : ∀ col row : Int,
      (Address.make col row = .error .InvalidArgumentException ↔ col ≤ 0 ∨ row ≤ 0) ∧
      (¬ (col ≤ 0 ∨ row ≤ 0) → Address.make col row = .ok ⟨col, row⟩) := by
    intro col row
    unfold Address.make
    by_cases h : col ≤ 0 ∨ row ≤ 0
    · rw [if_pos h]
      exact ⟨⟨fun _ => h, fun _ => rfl⟩, fun hn => absurd h hn⟩
    · rw [if_neg h]
      exact ⟨⟨(fun he => by cases he), fun hh => absurd hh h⟩, fun _ => rfl⟩
  unfold Address.MAX_COL at a2 b2
  unfold Address.MAX_ROW at a4 b4
  have hI : INT_MAX = 2147483647 := rfl
  have hJ : INT_MIN = -2147483648 := rfl
  refine ⟨hmake, rfl, ?_, fun h => ?_, fun h => ?_, by decide⟩
  · show INT_MIN ≤ a.m_Col - b.m_Col + 1 ∧ a.m_Col - b.m_Col + 1 ≤ INT_MAX ∧
      INT_MIN ≤ a.m_Row - b.m_Row + 1 ∧ a.m_Row - b.m_Row + 1 ≤ INT_MAX
    omega
  · exact (hmake _ _).2 (by
      show ¬ (a.m_Col - b.m_Col + 1 ≤ 0 ∨ a.m_Row - b.m_Row + 1 ≤ 0)
      have h' : b.m_Col ≤ a.m_Col ∧ b.m_Row ≤ a.m_Row := h
      omega)
  · exact (hmake _ _).1.mpr (by
      show a.m_Col - b.m_Col + 1 ≤ 0 ∨ a.m_Row - b.m_Row + 1 ≤ 0
      have h' : ¬ (b.m_Col ≤ a.m_Col ∧ b.m_Row ≤ a.m_Row) := h
      omega)

theorem address_subtraction_witness :
    Address.Valid ⟨4, 5⟩ ∧ Address.Valid ⟨2, 3⟩ ∧
      Address.sub ⟨4, 5⟩ ⟨2, 3⟩ = .ok ⟨3, 3⟩ :=
  ⟨(by unfold Address.Valid; decide), (by unfold Address.Valid; decide),
    (address_subtraction ⟨4, 5⟩ ⟨2, 3⟩ (by unfold Address.Valid; decide)
      (by unfold Address.Valid; decide)).2.2.2.1 (by decide)⟩

/-- C36 as stated fails: `Type<int>::fromString` returns 12 on `12abc`, a text
that is not white space and not the text of an `int` (it holds letters), and
an `int` cell is created from it; white space before the number is accepted
as well. -/
theorem int_fromString_accepts_suffix :
    intFromString (str "12abc") = .ok 12 ∧ isBlank (str "12abc") = false ∧
      (str "12abc").all (fun c => isDigit c || c == '-' || c == '+') = false ∧
      (Cell.create (intOps exampleHost) (addr "A1") (str "12abc")).isOk = true ∧
      intFromString (str " -12 ") = .ok (-12) := by
  decide

/-- C36, amended: `Type<int>::fromString` returns 0 on a text of white space
only; it returns `n` on the decimal text of an `int` `n`, also after white
space and before any text that does not start with a digit; whenever it
returns on a text that is not white space only, the text is white space, an
optional sign, digits and a remainder, and the value is that of the digits
with the sign, within `int`; on every other text it throws
`InvalidTypeException`, and then the constructor of an `int` cell throws it
for a content that is no formula. -/
theorem int_fromString_reads_number (h : Host D) :
    (∀ s : Str, isBlank s = true → intFromString s = .ok 0) ∧
    (∀ (n : Int) (ws rest : Str), INT_MIN ≤ n → n ≤ INT_MAX →
      (∀ c ∈ ws, isspace c = true) → rest.head?.all (fun c => !isDigit c) = true →
      intFromString (ws ++ intToString n ++ rest) = .ok n) ∧
    (∀ (s : Str) (n : Int), intFromString s = .ok n → (isBlank s = true ∧ n = 0) ∨
      ∃ ws sg ds rest, s = ws ++ sg ++ ds ++ rest ∧ (∀ c ∈ ws, isspace c = true) ∧
        (sg = [] ∨ sg = ['-'] ∨ sg = ['+']) ∧ ds ≠ [] ∧ (∀ c ∈ ds, isDigit c = true) ∧
        rest.head?.all (fun c => !isDigit c) = true ∧
        n = (if sg = ['-'] then -(digitsValue ds : Int) else (digitsValue ds : Int)) ∧
        INT_MIN ≤ n ∧ n ≤ INT_MAX) ∧
    (∀ s : Str, (∃ n, intFromString s = .ok n) ∨
      intFromString s = .error .InvalidTypeException) ∧
    (∀ (a : Address) (s : Str), s.head? ≠ some '=' →
      intFromString s = .error .InvalidTypeException →
      Cell.create (intOps h) a s = .error .InvalidTypeException) := by
  refine ⟨fun s hb => ?_, fun n ws rest h0 h1 hws hrest => intFromString_text h0 h1 hws hrest,
    fun s n hs => ?_, fun s => ?_, fun a s hs he => ?_⟩
  · rcases intFromString_cases s with ⟨-, h'⟩ | ⟨hb', -⟩ | ⟨hb', -⟩
    · exact h'
    · rw [hb] at hb'
      cases hb'
    · rw [hb] at hb'
      cases hb'
  · rcases intFromString_cases s with ⟨hb, h'⟩ | ⟨-, m, hm, h'⟩ | ⟨-, -, h'⟩
    · rw [h'] at hs
      cases hs
      exact Or.inl ⟨hb, rfl⟩
    · rw [h'] at hs
      cases hs
      exact Or.inr (stoi_some hm)
    · rw [h'] at hs
      cases hs
  · rcases intFromString_cases s with ⟨-, h'⟩ | ⟨-, m, -, h'⟩ | ⟨-, -, h'⟩
    · exact Or.inl ⟨0, h'⟩
    · exact Or.inl ⟨m, h'⟩
    · exact Or.inr h'
  · unfold Cell.create
    rw [if_neg (fun hh => hs hh.2)]
    show (intFromString s).bind _ = _
    rw [he]
    rfl

theorem int_fromString_reads_number_witness :
    intFromString (str " " ++ intToString (-12) ++ str "abc") = .ok (-12) :=
  (int_fromString_reads_number exampleHost).2.1 (-12) (str " ") (str "abc") (by decide) (by decide)
    (by decide) (by decide)

/-- C37: for every text `s`, `unescapeString(escapeString(s))` returns `s`;
`escapeString` writes a backslash before each double quote and each
backslash and every other character as it is. `escapeString` of
`="foo"+" and \"bar\""` is `=\"foo\"+\" and \\\"bar\\\"\"`. -/
theorem escape_round_trip :
    (∀ s : Str, Utils.unescapeString (Utils.escapeString s) = .ok s) ∧
      (∀ s : Str, Utils.escapeString s = (s.map Utils.escapeChar).flatten) ∧
      Utils.escapeString (str "=\"foo\"+\" and \\\"bar\\\"\"")
        = str "=\\\"foo\\\"+\\\" and \\\\\\\"bar\\\\\\\"\\\"" ∧
      Utils.unescapeString (str "this is a \\\"large\\\" string with \\\\ backslash")
        = .ok (str "this is a \"large\" string with \\ backslash") := by
  refine ⟨Utils.unescape_escape, fun s => ?_, by decide, by decide⟩
  induction s with
  | nil => rfl
  | cons c r ih =>
    by_cases hq : c = '"'
    · subst hq
      simp only [Utils.escapeString, if_true, List.map_cons, List.flatten_cons, ih]
      rfl
    · by_cases hb : c = '\\'
      · subst hb
        simp only [Utils.escapeString, if_neg hq, if_true, List.map_cons, List.flatten_cons, ih]
        rfl
      · simp only [Utils.escapeString, if_neg hq, if_neg hb, List.map_cons, List.flatten_cons, ih,
          Utils.escapeChar, hq, hb, or_self, if_false]
        rfl

/-- C38: on the stream `foo\"`, which holds no double quote that is not
escaped, `readString` does not throw: it returns `foo\"` and leaves the stream
at its end. On the input of the test it returns the text before the first
quote that is not escaped and leaves what follows that quote, and on
`foo\"bar` it throws `InvalidInputException`. -/
theorem readString_escaped_quote_at_end :
    Utils.splitAtQuote (str "foo\\\"") = none ∧
      (Utils.readString (IStream.ofStr (str "foo\\\""))).bind
        (fun r => .ok (r.1, r.2.buf, r.2.eofbit)) = .ok (str "foo\\\"", [], true) ∧
      (Utils.readString (IStream.ofStr
          (str "this is a \\\"large\\\" string with \\\\ backslash\"and here is past its end"))).bind
        (fun r => .ok (r.1, r.2.buf))
        = .ok (str "this is a \\\"large\\\" string with \\\\ backslash",
            str "and here is past its end") ∧
      Utils.splitAtQuote
          (str "this is a \\\"large\\\" string with \\\\ backslash\"and here is past its end")
        = some (str "this is a \\\"large\\\" string with \\\\ backslash",
            str "and here is past its end") ∧
      (Utils.readString (IStream.ofStr (str "foo\\\"bar"))).bind (fun r => .ok r.1)
        = .error .InvalidInputException := by
  decide

/-- C40: for every sheet, also one whose cells link to themselves or to each
other in a cycle, and every cell, `distributeContentChangedEvent` returns
after finitely many calls of the callback (the cells it was called with are
a list); without a callback installed the callback is not called and no
dependent is visited. With a callback installed, the dispatch at `A1` calls
it once when `A1` holds `=A1`, and for `A1` and `B1` when `A1` holds `=B1` and
`B1` holds `=A1`. -/
theorem dispatch_terminates (s : Sheet D) (cell : CellPtr D) :
    (∃ evs, s.distributeContentChangedEvent cell = .ok evs ∧
      (s.m_CellContentChanged = false → evs = [])) ∧
    (s.m_CellContentChanged = false → ∀ (fuel : Nat) (processed : List Nat),
      Sheet.distribute s (fuel + 1) cell processed = .ok []) ∧
    ((Sheet.distributeContentChangedEvent
        (Sheet.run exampleHost (Sheet.empty ExampleDouble)
          [.attachCellContentChangedEvent true, .setCellContent (addr "A1") (str "=A1")])
        ((Sheet.run exampleHost (Sheet.empty ExampleDouble)
          [.attachCellContentChangedEvent true, .setCellContent (addr "A1") (str "=A1")]).getCell
            (addr "A1"))).bind (fun evs => .ok (evs.map (fun c => c.obj.getAddr)))
      = .ok [addr "A1"]) ∧
    ((Sheet.distributeContentChangedEvent
        (Sheet.run exampleHost (Sheet.empty ExampleDouble)
          [.attachCellContentChangedEvent true, .setCellContent (addr "A1") (str "=B1"),
            .setCellContent (addr "B1") (str "=A1")])
        ((Sheet.run exampleHost (Sheet.empty ExampleDouble)
          [.attachCellContentChangedEvent true, .setCellContent (addr "A1") (str "=B1"),
            .setCellContent (addr "B1") (str "=A1")]).getCell (addr "A1"))).bind
        (fun evs => .ok (evs.map (fun c => c.obj.getAddr)))
      = .ok [addr "A1", addr "B1"]) := by
  have hoff : s.m_CellContentChanged = false → ∀ (fuel : Nat) (processed : List Nat),
      Sheet.distribute s (fuel + 1) cell processed = .ok [] := by
    intro hcb fuel processed
    exact Sheet.distribute_skip s fuel cell processed (by simp [hcb])
  refine ⟨?_, hoff, by decide, by decide⟩
  obtain ⟨evs, hevs⟩ := Sheet.distributeContentChangedEvent_returns s cell
  refine ⟨evs, hevs, fun hcb => ?_⟩
  unfold Sheet.distributeContentChangedEvent at hevs
  rw [hoff hcb] at hevs
  cases hevs
  rfl

theorem dispatch_terminates_witness :
    (Sheet.empty ExampleDouble).m_CellContentChanged = false ∧
      ∃ evs, (Sheet.empty ExampleDouble).distributeContentChangedEvent
          ((Sheet.empty ExampleDouble).getCell (addr "A1")) = .ok evs ∧ evs = [] :=
  ⟨rfl, (dispatch_terminates (Sheet.empty ExampleDouble)
      ((Sheet.empty ExampleDouble).getCell (addr "A1"))).1.imp
    (fun _ hev => ⟨hev.1, hev.2 rfl⟩)⟩

/-- C39: for `int`, `double` and `string` and for every source and list of
dependencies, `parseSource` returns a formula or throws. `splitLogical`
returns or throws on every text with every separators; the calls of `parse`
on sections that `splitLogical` returned nest at most as deep as the weight
of the sections (twice their characters, and one more for a single section)
plus one, which on the sections of a source is below the fuel
`2 * length + 4` of `parseSource`; with more fuel the outcome is the same. -/
theorem parser_terminates (h : Host D) :
    (∀ s seps : Str, (∃ secs, Parser.splitLogical s seps = .ok secs) ∨
      ∃ e, Parser.splitLogical s seps = .error e) ∧
    (∀ (s : Str) (d : List Address),
      ((∃ r, Parser.parseSource (intOps h) s d = .ok r) ∨
        ∃ e, Parser.parseSource (intOps h) s d = .error e) ∧
      ((∃ r, Parser.parseSource (doubleOps h) s d = .ok r) ∨
        ∃ e, Parser.parseSource (doubleOps h) s d = .error e) ∧
      ((∃ r, Parser.parseSource (stringOps D) s d = .ok r) ∨
        ∃ e, Parser.parseSource (stringOps D) s d = .error e)) ∧
    (∀ (s : Str) (d : List Address) (m : Nat), 2 * s.length + 4 ≤ m →
      (Parser.splitLogical s).bind (fun secs => Parser.parse (intOps h) m secs d)
        = Parser.parseSource (intOps h) s d ∧
      (Parser.splitLogical s).bind (fun secs => Parser.parse (doubleOps h) m secs d)
        = Parser.parseSource (doubleOps h) s d ∧
      (Parser.splitLogical s).bind (fun secs => Parser.parse (stringOps D) m secs d)
        = Parser.parseSource (stringOps D) s d) ∧
    (∀ (sections : List Str) (d : List Address) (n : Nat),
      (∀ t ∈ sections, Parser.Token t) → Parser.weight sections < n →
      Parser.parse (intOps h) n sections d ≠ .diverge ∧
      Parser.parse (doubleOps h) n sections d ≠ .diverge ∧
      Parser.parse (stringOps D) n sections d ≠ .diverge) :=
  ⟨fun s seps => Parser.ok_or_error (Parser.splitLogical_ne_diverge s seps),
    fun s d =>
      ⟨Parser.ok_or_error (Parser.parseSource_ne_diverge (intOps h) (Parser.literalShape_int h)
          (Parser.fromString_int_ne_diverge h) s d),
        Parser.ok_or_error (Parser.parseSource_ne_diverge (doubleOps h)
          (Parser.literalShape_double h) (Parser.fromString_double_ne_diverge h) s d),
        Parser.ok_or_error (Parser.parseSource_ne_diverge (stringOps D)
          (Parser.literalShape_string D) (Parser.fromString_string_ne_diverge D) s d)⟩,
    fun s d m hm =>
      ⟨Parser.parseSource_fuel (intOps h) (Parser.literalShape_int h)
          (Parser.fromString_int_ne_diverge h) s d m hm,
        Parser.parseSource_fuel (doubleOps h) (Parser.literalShape_double h)
          (Parser.fromString_double_ne_diverge h) s d m hm,
        Parser.parseSource_fuel (stringOps D) (Parser.literalShape_string D)
          (Parser.fromString_string_ne_diverge D) s d m hm⟩,
    fun sections d n htok hw =>
      ⟨Parser.parse_token_ne_diverge (intOps h) (Parser.literalShape_int h)
          (Parser.fromString_int_ne_diverge h) n sections d hw htok,
        Parser.parse_token_ne_diverge (doubleOps h) (Parser.literalShape_double h)
          (Parser.fromString_double_ne_diverge h) n sections d hw htok,
        Parser.parse_token_ne_diverge (stringOps D) (Parser.literalShape_string D)
          (Parser.fromString_string_ne_diverge D) n sections d hw htok⟩⟩

theorem parser_terminates_witness :
    2 * (str "(1+2)*\"a\\\"").length + 4 ≤ 100 ∧
      (Parser.splitLogical (str "(1+2)*\"a\\\"")).bind
          (fun secs => Parser.parse (stringOps ExampleDouble) 100 secs [])
        = Parser.parseSource (stringOps ExampleDouble) (str "(1+2)*\"a\\\"") [] :=
  ⟨by decide, ((parser_terminates exampleHost).2.2.1 (str "(1+2)*\"a\\\"") [] 100
    (by decide)).2.2⟩

end Spreadsheet
